import Mathlib

/-!
# Surface simplification on combinatorial maps

A shallow embedding of `Combinatorial_map_tools`
(`Combinatorial_map/include/CGAL/Combinatorial_map_functionalities.h`):
the constructor, the cell indexers `initialize_vertices` / `initialize_faces`,
the lookup `get_uftree`, the face pass `surface_simplification_in_one_face`,
the vertex pass `surface_simplification_in_one_vertex` and the quadrangulation
pass `surface_quadrangulate`.

The map itself, its dart container and the union-find forest are collaborators
whose code is not part of the sources at hand; they are modelled from the
specification and each such definition says so.

Two smaller developments follow these definitions, each with its own header: the
status line of a curve pair (`Status_line_CPA_1.h`) and the extrusion of a polygon
mesh (`extrude.h`).
-/

namespace CMapTools

/-! ## The map collaborator -/

/-- Modelled from the spec: the 2-dimensional combinatorial map consumed by the
tools (its class is not in the sources at hand). Darts are the slots
`0 .. size-1` of the container, in storage order; `used` tells which slots hold
a live dart. `beta1` is the successor in the face, `beta0` its inverse and
`beta2` the opposite dart. The value `size` stands for `null_dart_handle`: a
dart is free for `beta_i` when `beta_i` sends it to `size`. The last field is
the flag set by `set_automatic_attributes_management`. -/
structure CMap where
  size : Nat
  used : Nat → Bool
  beta0 : Nat → Nat
  beta1 : Nat → Nat
  beta2 : Nat → Nat
  automatic_attributes_management : Bool

/-- Modelled from the spec: `is_dart_used`, true on the slots that hold a live
dart (false on the end position and on erased slots). -/
def CMap.is_dart_used (m : CMap) (d : Nat) : Bool :=
  decide (d < m.size) && m.used d

/-- Modelled from the spec: `is_free<2>`, the dart has no opposite dart. -/
def CMap.is_free_2 (m : CMap) (d : Nat) : Bool :=
  m.beta2 d == m.size

/-- Modelled from the spec: advancing an iterator of the dart range. Starting
at slot `i` with `k` slots left to look at, the first live slot, or the end
position `i + k`. -/
def CMap.skip_free (m : CMap) : Nat → Nat → Nat
  | 0, i => i
  | k + 1, i => if m.used i then i else m.skip_free k (i + 1)

/-- Modelled from the spec: `darts().begin()`. -/
def CMap.darts_begin (m : CMap) : Nat :=
  m.skip_free m.size 0

/-- Modelled from the spec: `++it` on the dart range; the end position is
`size`, and the iterator stays there. -/
def CMap.increment (m : CMap) (it : Nat) : Nat :=
  if it < m.size then m.skip_free (m.size - (it + 1)) (it + 1) else it

/-- Modelled from the spec: the live darts in storage order, the sequence a
`for` loop over `darts()` visits when the loop body erases nothing. -/
def CMap.darts (m : CMap) : List Nat :=
  (List.range m.size).filter m.used

/-- Modelled from the spec: the walk around a cell once the two darts `d` and
`e` of an edge are deleted. A dart `y` that stays is kept; from a deleted dart
the walk goes on with `f ∘ opp`, at most twice since only two darts are deleted. -/
def skip_deleted (f opp : Nat → Nat) (d e y : Nat) : Nat :=
  if y = d ∨ y = e then
    (if f (opp y) = d ∨ f (opp y) = e then f (opp (f (opp y))) else f (opp y))
  else y

/-- Modelled from the spec: `remove_cell<1>(d)` deletes the two darts `d` and
`beta2 d` of the edge and merges its two incident faces into one: around the
merged face, the successor of a dart is its old successor unless that one is
deleted, in which case the walk goes on from the opposite of the deleted dart
(and likewise backwards for `beta0`). -/
def remove_cell_1 (m : CMap) (d : Nat) : CMap :=
  { m with
    used := fun x => m.used x && !(x == d || x == m.beta2 d)
    beta1 := fun x =>
      if x = d ∨ x = m.beta2 d then m.beta1 x
      else skip_deleted m.beta1 m.beta2 d (m.beta2 d) (m.beta1 x)
    beta0 := fun x =>
      if x = d ∨ x = m.beta2 d then m.beta0 x
      else skip_deleted m.beta0 m.beta2 d (m.beta2 d) (m.beta0 x) }

/-- Modelled from the spec: `contract_cell<1>(d)` deletes the two darts `d` and
`beta2 d` of the edge and merges its two end vertices into one: each face that
held a deleted dart simply loses it, so the successor of a dart is its old
successor unless that one is deleted, in which case it is the successor of the
deleted dart (and likewise backwards for `beta0`). -/
def contract_cell_1 (m : CMap) (d : Nat) : CMap :=
  { m with
    used := fun x => m.used x && !(x == d || x == m.beta2 d)
    beta1 := fun x =>
      if x = d ∨ x = m.beta2 d then m.beta1 x
      else skip_deleted m.beta1 id d (m.beta2 d) (m.beta1 x)
    beta0 := fun x =>
      if x = d ∨ x = m.beta2 d then m.beta0 x
      else skip_deleted m.beta0 id d (m.beta2 d) (m.beta0 x) }

/-! ## The disjoint-set forest collaborator -/

/-- Modelled from the spec: the disjoint-set forest `CGAL::Union_find`
(not in the sources at hand). Handles are the numbers `0 .. nodes-1` in
creation order and `rep h` is the representative `find` returns for `h`; path
compression changes no representative, so it leaves this view untouched. -/
structure UFTree where
  nodes : Nat
  rep : Nat → Nat

/-- Modelled from the spec: the forest after `clear()`. -/
def UFTree.empty : UFTree := ⟨0, fun h => h⟩

/-- Modelled from the spec: `make_set` creates a new singleton class and
returns its handle. -/
def UFTree.make_set (u : UFTree) : UFTree × Nat :=
  (⟨u.nodes + 1, Function.update u.rep u.nodes u.nodes⟩, u.nodes)

/-- Modelled from the spec: `find`. -/
def UFTree.find (u : UFTree) (h : Nat) : Nat := u.rep h

/-- Modelled from the spec: `unify_sets a b` merges the class of `a` into the
class of `b` (which root survives is left open by the specification; here the
root of `b` does). -/
def UFTree.unify_sets (u : UFTree) (a b : Nat) : UFTree :=
  if u.rep a = u.rep b then u
  else ⟨u.nodes, fun h => if u.rep h = u.rep a then u.rep b else u.rep h⟩

/-! ## The tools, from `Combinatorial_map_functionalities.h` -/

/-- The index maps of the tools, `boost::unordered_map<Dart_const_handle, UFTree_handle>`. -/
abbrev Index := Nat → Option Nat

/-- Inner `do ... while (cur != it)` loop of `initialize_faces`: starting at
`cur`, index and mark the darts met by repeated `beta1` until `it` comes back.
The first argument bounds the number of rounds; `none` means the bound was hit. -/
def face_orbit_loop (m : CMap) (it newuf : Nat) :
    Nat → Nat → Index × (Nat → Bool) → Option (Index × (Nat → Bool))
  | 0, _, _ => none
  | k + 1, cur, (faces, treated) =>
    let faces1 := Function.update faces cur (some newuf)
    let treated1 := Function.update treated cur true
    let cur1 := m.beta1 cur
    if cur1 ≠ it then face_orbit_loop m it newuf k cur1 (faces1, treated1)
    else some (faces1, treated1)

/-- Body of the `for` loop of `initialize_faces` at the dart `it`. -/
def initialize_faces_step (m : CMap) (st : Option (UFTree × Index × (Nat → Bool)))
    (it : Nat) : Option (UFTree × Index × (Nat → Bool)) :=
  match st with
  | none => none
  | some (uftrees, faces, treated) =>
    if !treated it then
      let (uftrees1, newuf) := uftrees.make_set
      match face_orbit_loop m it newuf (m.size + 1) it (faces, treated) with
      | none => none
      | some (faces1, treated1) => some (uftrees1, faces1, treated1)
    else some (uftrees, faces, treated)

/-- Embedding of `initialize_faces`: one forest class per face, every dart of the face
indexed to it. `none` when a `do ... while` walk never comes back to its start. -/
def initialize_faces (m : CMap) : Option (UFTree × Index) :=
  match m.darts.foldl (initialize_faces_step m) (some (UFTree.empty, fun _ => none, fun _ => false)) with
  | none => none
  | some (uftrees, faces, _) => some (uftrees, faces)

/-- Modelled from the spec: one turn around a vertex, from a dart to the successor of its
opposite (`beta1 ∘ beta2`). The result is `null_dart_handle` when the dart is null or when
one of the two links is free. -/
def CMap.turn (m : CMap) (d : Nat) : Nat :=
  if d = m.size ∨ m.beta2 d = m.size then m.size else m.beta1 (m.beta2 d)

/-- Modelled from the spec: one turn around a vertex the other way, from a dart to the
opposite of its predecessor (`beta2 ∘ beta0`), with `null_dart_handle` when the dart is null
or when one of the two links is free. -/
def CMap.turn_back (m : CMap) (d : Nat) : Nat :=
  if d = m.size ∨ m.beta0 d = m.size then m.size else m.beta2 (m.beta0 d)

/-- Modelled from the spec: the second part of the walk around a vertex, taken when a free
dart has stopped the first part: from `cur`, index and mark the darts met by turning the
other way until a free dart stops the walk. The first argument bounds the number of
rounds. -/
def vertex_back_loop (m : CMap) (newuf : Nat) :
    Nat → Nat → Index × (Nat → Bool) → Option (Index × (Nat → Bool))
  | 0, _, _ => none
  | k + 1, cur, (vertices, treated) =>
    if cur = m.size then some (vertices, treated)
    else vertex_back_loop m newuf k (m.turn_back cur)
      (Function.update vertices cur (some newuf), Function.update treated cur true)

/-- Modelled from the spec: the range `darts_of_cell_basic<0>(it, treated)`, the
walk over the full vertex orbit of `it` (the iterator class is not in the sources at
hand): starting at `cur`, index and mark the darts met by repeated
`beta1 ∘ beta2` until `it` comes back; when a free dart stops the walk before that, the
walk goes on from `it` the other way. The first argument bounds the number of rounds. -/
def vertex_orbit_loop (m : CMap) (it newuf : Nat) :
    Nat → Nat → Index × (Nat → Bool) → Option (Index × (Nat → Bool))
  | 0, _, _ => none
  | k + 1, cur, (vertices, treated) =>
    let vertices1 := Function.update vertices cur (some newuf)
    let treated1 := Function.update treated cur true
    let cur1 := m.turn cur
    if cur1 = m.size then
      vertex_back_loop m newuf (m.size + 1) (m.turn_back it) (vertices1, treated1)
    else if cur1 ≠ it then vertex_orbit_loop m it newuf k cur1 (vertices1, treated1)
    else some (vertices1, treated1)

/-- Body of the `for` loop of `initialize_vertices` at the dart `it`. -/
def initialize_vertices_step (m : CMap) (st : Option (UFTree × Index × (Nat → Bool)))
    (it : Nat) : Option (UFTree × Index × (Nat → Bool)) :=
  match st with
  | none => none
  | some (uftrees, vertices, treated) =>
    if !treated it then
      let (uftrees1, newuf) := uftrees.make_set
      match vertex_orbit_loop m it newuf (m.size + 1) it (vertices, treated) with
      | none => none
      | some (vertices1, treated1) => some (uftrees1, vertices1, treated1)
    else some (uftrees, vertices, treated)

/-- Embedding of `initialize_vertices`: one forest class per vertex, every dart of the
vertex indexed to it. -/
def initialize_vertices (m : CMap) : Option (UFTree × Index) :=
  match m.darts.foldl (initialize_vertices_step m)
      (some (UFTree.empty, fun _ => none, fun _ => false)) with
  | none => none
  | some (uftrees, vertices, _) => some (uftrees, vertices)

/-- Embedding of `get_uftree`: the representative of the class the dart is indexed to;
`none` is the failed assertion `mapdhtouf.find(dh)!=mapdhtouf.end()`. -/
def get_uftree (uftrees : UFTree) (mapdhtouf : Index) (dh : Nat) : Option Nat :=
  match mapdhtouf dh with
  | none => none
  | some h => some (uftrees.find h)

/-- The variables of `surface_simplification_in_one_face` while its main loop
runs. `removed` is a ghost trace: the darts on which `remove_cell<1>` was
called, latest first. -/
structure FaceState where
  map : CMap
  uftrees : UFTree
  treated : Nat → Bool
  to_treat : List Nat
  it : Nat
  removed : List Nat

/-- One round of the main `while` loop of `surface_simplification_in_one_face`
(the caller has checked the loop condition). `none` is a failed assertion of
`get_uftree`. -/
def face_loop_body (faces : Index) (s : FaceState) : Option FaceState :=
  -- take the top of the stack, or the scanned dart
  let (currentdart, dangling, to_treat1, it1) :=
    match s.to_treat with
    | top :: rest => (top, true, rest, s.it)
    | [] => (s.it, false, [], s.map.increment s.it)
  if s.map.is_dart_used currentdart && (dangling || !s.treated currentdart) then
    if s.map.is_free_2 currentdart then
      some { s with treated := Function.update s.treated currentdart true,
                    to_treat := to_treat1, it := it1 }
    else
      let treated1 := Function.update (Function.update s.treated currentdart true)
        (s.map.beta2 currentdart) true
      let s1 : FaceState := { s with treated := treated1, to_treat := to_treat1, it := it1 }
      let notIsolated : Bool :=
        s.map.beta0 currentdart != s.map.beta2 currentdart ||
        s.map.beta1 currentdart != s.map.beta2 currentdart
      if !notIsolated then some s1
      else
        match (if dangling then some true else
                match get_uftree s.uftrees faces currentdart,
                      get_uftree s.uftrees faces (s.map.beta2 currentdart) with
                | some a, some b => some (a != b)
                | _, _ => none) with
        | none => none
        | some false => some s1
        | some true =>
          match (if !dangling then
                  match get_uftree s.uftrees faces currentdart,
                        get_uftree s.uftrees faces (s.map.beta2 currentdart) with
                  | some a, some b => some (s.uftrees.unify_sets a b)
                  | _, _ => none
                 else some s.uftrees) with
          | none => none
          | some uf1 =>
            let map1 := remove_cell_1 s.map currentdart
            let it2 := if !map1.is_dart_used it1 then map1.increment it1 else it1
            some { map := map1, uftrees := uf1, treated := treated1, to_treat := to_treat1,
                   it := it2, removed := currentdart :: s.removed }
  else some { s with to_treat := to_treat1, it := it1 }

/-- The main `while` loop of `surface_simplification_in_one_face`; the first
argument bounds the number of rounds and `none` also means the bound was hit. -/
def face_loop (faces : Index) : Nat → FaceState → Option FaceState
  | 0, s => if !s.to_treat.isEmpty || s.it != s.map.size then none else some s
  | k + 1, s =>
    if !s.to_treat.isEmpty || s.it != s.map.size then
      match face_loop_body faces s with
      | none => none
      | some s1 => face_loop faces k s1
    else some s

/-- What a pass returns: the edited map and the ghost trace of the darts on
which the removal / contraction primitive was called, in call order. -/
structure PassResult where
  map : CMap
  trace : List Nat

/-- Embedding of `surface_simplification_in_one_face`. -/
def surface_simplification_in_one_face (m : CMap) : Option PassResult :=
  match initialize_faces m with
  | none => none
  | some (uftrees, faces) =>
    let m1 := { m with automatic_attributes_management := false }
    match face_loop faces (m1.size + 1)
        { map := m1, uftrees := uftrees, treated := fun _ => false, to_treat := [],
          it := m1.darts_begin, removed := [] } with
    | none => none
    | some s =>
      some { map := { s.map with automatic_attributes_management := true },
             trace := s.removed.reverse }

/-- The variables of `surface_simplification_in_one_vertex` while its `for`
loop runs. `contracted` is a ghost trace: the darts on which
`contract_cell<1>` was called, latest first. -/
structure VertexState where
  map : CMap
  uftrees : UFTree
  it : Nat
  contracted : List Nat

/-- Body of the `for` loop of `surface_simplification_in_one_vertex`, followed by
its `++it`. `none` is a failed assertion of `get_uftree`. -/
def vertex_loop_body (vertices : Index) (s : VertexState) : Option VertexState :=
  match get_uftree s.uftrees vertices s.it,
        get_uftree s.uftrees vertices (s.map.beta2 s.it) with
  | some a, some b =>
    if a != b then
      let map1 := contract_cell_1 s.map s.it
      some { map := map1, uftrees := s.uftrees.unify_sets a b, it := map1.increment s.it,
             contracted := s.it :: s.contracted }
    else some { s with it := s.map.increment s.it }
  | _, _ => none

/-- The `for` loop of `surface_simplification_in_one_vertex`; the first argument
bounds the number of rounds and `none` also means the bound was hit. -/
def vertex_loop (vertices : Index) : Nat → VertexState → Option VertexState
  | 0, s => if s.it != s.map.size then none else some s
  | k + 1, s =>
    if s.it != s.map.size then
      match vertex_loop_body vertices s with
      | none => none
      | some s1 => vertex_loop vertices k s1
    else some s

/-- Embedding of `surface_simplification_in_one_vertex`. -/
def surface_simplification_in_one_vertex (m : CMap) : Option PassResult :=
  match initialize_vertices m with
  | none => none
  | some (uftrees, vertices) =>
    let m1 := { m with automatic_attributes_management := false }
    match vertex_loop vertices (m1.size + 1)
        { map := m1, uftrees := uftrees, it := m1.darts_begin, contracted := [] } with
    | none => none
    | some s =>
      some { map := { s.map with automatic_attributes_management := true },
             trace := s.contracted.reverse }

/-! ## Cells and their numbers -/

/-- Dart `b` is met from dart `a` by repeated application of `f`, in fewer than `n` steps. -/
def reaches (f : Nat → Nat) (n a b : Nat) : Bool :=
  (List.range n).any fun k => f^[k] a == b

/-- Number of classes of the relation `r` among the darts of the list: the darts
related to no earlier dart of the list. -/
def class_count (r : Nat → Nat → Bool) : List Nat → Nat
  | [] => 0
  | d :: ds => class_count r ds + (if ds.any (fun j => r j d) then 0 else 1)

/-- Darts of one face: one is met from the other by repeated `beta1`. -/
def CMap.same_face (m : CMap) (a b : Nat) : Bool := reaches m.beta1 m.size a b

/-- Darts of one vertex: one is met from the other by repeated `beta1 ∘ beta2`. -/
def CMap.same_vertex (m : CMap) (a b : Nat) : Bool :=
  reaches (fun d => m.beta1 (m.beta2 d)) m.size a b

/-- Darts of one edge: a dart and its opposite. -/
def CMap.same_edge (m : CMap) (a b : Nat) : Bool := a == b || m.beta2 a == b

/-- One round of growth of a set of darts under `beta0`, `beta1` and `beta2`. -/
def CMap.grow (m : CMap) (s : Finset Nat) : Finset Nat :=
  s ∪ s.image m.beta0 ∪ s.image m.beta1 ∪ s.image m.beta2

/-- Darts of one connected component: one is met from the other along `beta0`,
`beta1` and `beta2` links. -/
def CMap.connected (m : CMap) (a b : Nat) : Bool :=
  decide (b ∈ m.grow^[m.size] {a})

/-- Number of faces (orbits of `beta1`). -/
def CMap.num_faces (m : CMap) : Nat := class_count m.same_face m.darts

/-- Number of vertices (orbits of `beta1 ∘ beta2`). -/
def CMap.num_vertices (m : CMap) : Nat := class_count m.same_vertex m.darts

/-- Number of edges (orbits of `beta2`). -/
def CMap.num_edges (m : CMap) : Nat := class_count m.same_edge m.darts

/-- Number of connected components. -/
def CMap.num_components (m : CMap) : Nat := class_count m.connected m.darts

/-- The map has no boundary and is a valid map: on the live darts `beta1` and
`beta0` are inverse permutations and `beta2` is an involution without fixed point. -/
def CMap.Boundaryless (m : CMap) : Prop :=
  ∀ d, d < m.size → m.used d = true →
    (m.beta1 d < m.size ∧ m.used (m.beta1 d) = true ∧ m.beta0 (m.beta1 d) = d) ∧
    (m.beta0 d < m.size ∧ m.used (m.beta0 d) = true ∧ m.beta1 (m.beta0 d) = d) ∧
    (m.beta2 d < m.size ∧ m.used (m.beta2 d) = true ∧ m.beta2 (m.beta2 d) = d ∧
      m.beta2 d ≠ d)

instance (m : CMap) : Decidable m.Boundaryless := by
  unfold CMap.Boundaryless; infer_instance

/-- A map given by the tables of `beta1` and `beta2` over the slots
`0 .. length-1`, all live; `beta0` is read off `beta1`. -/
def CMap.of_tables (b1 b2 : List Nat) : CMap :=
  { size := b1.length
    used := fun d => decide (d < b1.length)
    beta0 := fun d => if b1.indexOf d < b1.length then b1.indexOf d else b1.length
    beta1 := fun d => b1.getD d b1.length
    beta2 := fun d => b2.getD d b1.length
    automatic_attributes_management := true }

/-- The pillow: two triangles `0 1 2` and `3 4 5` glued along all three edges. -/
def pillow : CMap := CMap.of_tables [1, 2, 0, 4, 5, 3] [3, 5, 4, 0, 2, 1]

/-- The same map with its darts stored in another order: dart `d` is moved to slot `p[d]`. -/
def CMap.relabel (m : CMap) (p : List Nat) : CMap :=
  let inv : Nat → Nat := fun s => p.indexOf s
  let fw : Nat → Nat := fun d => p.getD d m.size
  { size := m.size
    used := fun s => m.used (inv s)
    beta0 := fun s => fw (m.beta0 (inv s))
    beta1 := fun s => fw (m.beta1 (inv s))
    beta2 := fun s => fw (m.beta2 (inv s))
    automatic_attributes_management := m.automatic_attributes_management }

/-- The sphere made of one loop edge: one vertex, one edge, two faces of one dart each. -/
def loop_sphere : CMap := CMap.of_tables [0, 1] [1, 0]

/-- The sphere made of one open edge: two vertices, one edge, one face of two darts. -/
def edge_sphere : CMap := CMap.of_tables [1, 0] [1, 0]

/-! ## The passes as plain linear scans -/

/-- The variables of a pass seen as a plain scan over the slots: no iterator
and no worklist. `trace` lists the darts handed to the removal / contraction
primitive, latest first. -/
structure ScanState where
  map : CMap
  uftrees : UFTree
  treated : Nat → Bool
  trace : List Nat

/-- The face pass at slot `d`, as a plain scan: an unvisited live dart `d` is
marked together with `beta2 d`, and the edge is removed exactly when it is not
an isolated loop and `d`, `beta2 d` have different face classes, the two
classes being unified just before the removal. -/
def face_scan_step (faces : Index) (s : Option ScanState) (d : Nat) : Option ScanState :=
  match s with
  | none => none
  | some s =>
    if s.map.is_dart_used d && !s.treated d then
      if s.map.is_free_2 d then
        some { s with treated := Function.update s.treated d true }
      else
        let treated1 := Function.update (Function.update s.treated d true) (s.map.beta2 d) true
        if s.map.beta0 d == s.map.beta2 d && s.map.beta1 d == s.map.beta2 d then
          some { s with treated := treated1 }
        else
          match get_uftree s.uftrees faces d, get_uftree s.uftrees faces (s.map.beta2 d) with
          | some a, some b =>
            if a != b then
              some { map := remove_cell_1 s.map d, uftrees := s.uftrees.unify_sets a b,
                     treated := treated1, trace := d :: s.trace }
            else some { s with treated := treated1 }
          | _, _ => none
    else some s

/-- The scan of the face pass over the slots `0 .. size-1`, from the state at pass entry. -/
def face_scan_run (m : CMap) (uftrees : UFTree) (faces : Index) : Option ScanState :=
  (List.range m.size).foldl (face_scan_step faces)
    (some { map := { m with automatic_attributes_management := false }, uftrees := uftrees,
            treated := fun _ => false, trace := [] })

/-- The face pass as a plain linear scan over the slots. -/
def face_scan (m : CMap) : Option PassResult :=
  match initialize_faces m with
  | none => none
  | some (uftrees, faces) =>
    match face_scan_run m uftrees faces with
    | none => none
    | some s =>
      some { map := { s.map with automatic_attributes_management := true },
             trace := s.trace.reverse }

/-- The vertex pass at slot `d`, as a plain scan: a live dart whose two end
vertices have different classes has them unified and its edge contracted. -/
def vertex_scan_step (vertices : Index) (s : Option ScanState) (d : Nat) : Option ScanState :=
  match s with
  | none => none
  | some s =>
    if s.map.is_dart_used d then
      match get_uftree s.uftrees vertices d, get_uftree s.uftrees vertices (s.map.beta2 d) with
      | some a, some b =>
        if a != b then
          some { s with map := contract_cell_1 s.map d, uftrees := s.uftrees.unify_sets a b,
                        trace := d :: s.trace }
        else some s
      | _, _ => none
    else some s

/-- The scan of the vertex pass over the slots `0 .. size-1`, from the state at pass entry. -/
def vertex_scan_run (m : CMap) (uftrees : UFTree) (vertices : Index) : Option ScanState :=
  (List.range m.size).foldl (vertex_scan_step vertices)
    (some { map := { m with automatic_attributes_management := false }, uftrees := uftrees,
            treated := fun _ => false, trace := [] })

/-- The vertex pass as a plain linear scan over the slots. -/
def vertex_scan (m : CMap) : Option PassResult :=
  match initialize_vertices m with
  | none => none
  | some (uftrees, vertices) =>
    match vertex_scan_run m uftrees vertices with
    | none => none
    | some s =>
      some { map := { s.map with automatic_attributes_management := true },
             trace := s.trace.reverse }

/-- The variables the main loop of the face pass shares with the plain scan. -/
def FaceState.toScan (s : FaceState) : ScanState :=
  { map := s.map, uftrees := s.uftrees, treated := s.treated, trace := s.removed }

/-- The state of the main loop of the face pass once the scan is over: empty
worklist, iterator at the end position. -/
def ScanState.toFace (t : ScanState) : FaceState :=
  { map := t.map, uftrees := t.uftrees, treated := t.treated, to_treat := [],
    it := t.map.size, removed := t.trace }

/-- The variables the loop of the vertex pass shares with the plain scan; the
vertex pass uses no mark, `treated` is carried along untouched. -/
def VertexState.toScan (s : VertexState) (treated : Nat → Bool) : ScanState :=
  { map := s.map, uftrees := s.uftrees, treated := treated, trace := s.contracted }

/-- The state of the loop of the vertex pass once the scan is over. -/
def ScanState.toVertex (t : ScanState) : VertexState :=
  { map := t.map, uftrees := t.uftrees, it := t.map.size, contracted := t.trace }

/-! ## Notions used to state and prove the properties -/

/-- The live darts of the map. -/
def CMap.IsDart (m : CMap) (d : Nat) : Prop := d < m.size ∧ m.used d = true

instance (m : CMap) (d : Nat) : Decidable (m.IsDart d) := by
  unfold CMap.IsDart; infer_instance

/-- The functions `f` and `g` are inverse permutations of the set `S`, a set of
numbers below `n`. -/
structure PermOn (n : Nat) (S : Nat → Prop) (f g : Nat → Nat) : Prop where
  lt : ∀ x, S x → x < n
  maps : ∀ x, S x → S (f x)
  inv_maps : ∀ x, S x → S (g x)
  left_inv : ∀ x, S x → g (f x) = x
  right_inv : ∀ x, S x → f (g x) = x

/-- Dart `b` is met from dart `a` by repeated application of `f`. -/
def SameOrbit (f : Nat → Nat) (a b : Nat) : Prop := ∃ k, f^[k] a = b

/-- The walk `do ... while (cur != it)` of the two indexers, for any successor function `f`. -/
def orbit_loop (f : Nat → Nat) (it newuf : Nat) :
    Nat → Nat → Index × (Nat → Bool) → Option (Index × (Nat → Bool))
  | 0, _, _ => none
  | k + 1, cur, (index, treated) =>
    let index1 := Function.update index cur (some newuf)
    let treated1 := Function.update treated cur true
    let cur1 := f cur
    if cur1 ≠ it then orbit_loop f it newuf k cur1 (index1, treated1)
    else some (index1, treated1)

/-- The body of the `for` loop of the two indexers, for any successor function `f`. -/
def initialize_cells_step (f : Nat → Nat) (bound : Nat)
    (st : Option (UFTree × Index × (Nat → Bool))) (it : Nat) :
    Option (UFTree × Index × (Nat → Bool)) :=
  match st with
  | none => none
  | some (uftrees, index, treated) =>
    if !treated it then
      let (uftrees1, newuf) := uftrees.make_set
      match orbit_loop f it newuf bound it (index, treated) with
      | none => none
      | some (index1, treated1) => some (uftrees1, index1, treated1)
    else some (uftrees, index, treated)

/-- The two indexers, for any successor function `f`. -/
def initialize_cells (f : Nat → Nat) (m : CMap) : Option (UFTree × Index) :=
  match m.darts.foldl (initialize_cells_step f (m.size + 1))
      (some (UFTree.empty, fun _ => none, fun _ => false)) with
  | none => none
  | some (uftrees, index, _) => some (uftrees, index)

/-- Invariant of the `for` loop of an indexer with successor function `f`: the
marked darts are the indexed ones, they are live darts, they form a set closed
under `f` on which the index is constant along `f`, two darts indexed to the same
class lie in one orbit, and the forest holds singleton classes only. -/
structure InitInv (m : CMap) (f : Nat → Nat) (uf : UFTree) (index : Index)
    (treated : Nat → Bool) : Prop where
  some_iff : ∀ x, treated x = true ↔ ∃ h, index x = some h
  dart : ∀ x, treated x = true → m.IsDart x
  closed : ∀ x, treated x = true → treated (f x) = true ∧ index (f x) = index x
  orbit : ∀ x y h, index x = some h → index y = some h → SameOrbit f x y
  lt : ∀ x h, index x = some h → h < uf.nodes
  rep : ∀ h, uf.rep h = h

/-- The map is well formed, with or without boundary: on the live darts a link that is
not free leads to a live dart, `beta1` and `beta0` undo each other and `beta2` undoes
itself. -/
def CMap.IsValid (m : CMap) : Prop :=
  ∀ d, d < m.size → m.used d = true →
    (m.beta1 d = m.size ∨
      (m.beta1 d < m.size ∧ m.used (m.beta1 d) = true ∧ m.beta0 (m.beta1 d) = d)) ∧
    (m.beta0 d = m.size ∨
      (m.beta0 d < m.size ∧ m.used (m.beta0 d) = true ∧ m.beta1 (m.beta0 d) = d)) ∧
    (m.beta2 d = m.size ∨
      (m.beta2 d < m.size ∧ m.used (m.beta2 d) = true ∧ m.beta2 (m.beta2 d) = d))

instance (m : CMap) : Decidable m.IsValid := by
  unfold CMap.IsValid; infer_instance

/-- Dart `b` lies around the vertex of dart `a`: it is a dart met from `a` by turning
around the vertex one way or the other, no free link being crossed. -/
def CMap.SameVertex (m : CMap) (a b : Nat) : Prop :=
  b ≠ m.size ∧ (SameOrbit m.turn a b ∨ SameOrbit m.turn_back a b)

/-- Darts of one vertex orbit, on a map with or without boundary: one is met from the other
within `size` turns one way or the other. -/
def CMap.same_vertex_orbit (m : CMap) (a b : Nat) : Bool :=
  reaches m.turn m.size a b || reaches m.turn_back m.size a b

/-- Number of vertex orbits of a map with or without boundary. -/
def CMap.num_vertex_orbits (m : CMap) : Nat := class_count m.same_vertex_orbit m.darts

/-- Invariant of the `for` loop of `initialize_vertices`: the marked darts are the indexed
ones, they are live darts, they form a union of vertex orbits on each of which the index is
constant, two darts indexed to the same class lie around one vertex, every class of the
forest is the class of a dart, and the forest holds singleton classes only. -/
structure VertexInitInv (m : CMap) (uf : UFTree) (index : Index) (treated : Nat → Bool) :
    Prop where
  some_iff : ∀ x, treated x = true ↔ ∃ h, index x = some h
  dart : ∀ x, treated x = true → m.IsDart x
  closed : ∀ x y, treated x = true → m.SameVertex x y →
    treated y = true ∧ index y = index x
  orbit : ∀ x y h, index x = some h → index y = some h → m.SameVertex x y
  lt : ∀ x h, index x = some h → h < uf.nodes
  onto : ∀ h, h < uf.nodes → ∃ x, index x = some h
  rep : ∀ h, uf.rep h = h

/-- What an indexer with successor function `f` has built when it returns: every
live dart is indexed, to a class of the forest, only live darts are, two live
darts have the same class exactly when they lie in one orbit of `f`, and no two
classes have been unified. -/
structure InitSpec (m : CMap) (f : Nat → Nat) (uf : UFTree) (index : Index) : Prop where
  total : ∀ d, m.IsDart d → ∃ h, index d = some h ∧ h < uf.nodes
  dart : ∀ x h, index x = some h → m.IsDart x
  same : ∀ a b, m.IsDart a → m.IsDart b → (index a = index b ↔ SameOrbit f a b)
  rep : ∀ h, uf.rep h = h

/-- Dart `b` is met from dart `a` along `beta0`, `beta1` and `beta2` links: the
two darts lie in one connected component. -/
def CMap.Conn (m : CMap) : Nat → Nat → Prop :=
  Relation.ReflTransGen fun x y => y = m.beta0 x ∨ y = m.beta1 x ∨ y = m.beta2 x

/-- Dart `b` is met from dart `a` by walking around cells (one step of the cell
permutation `f` or of its inverse `g`) and by crossing edges of the list `T`
(from a dart to its opposite, when one of the two is in `T`): the cells of `a`
and `b` are joined by a chain of edges of `T` in the adjacency graph of the cells. -/
def Joined (f g opp : Nat → Nat) (T : List Nat) : Nat → Nat → Prop :=
  Relation.ReflTransGen fun x y =>
    y = f x ∨ y = g x ∨ ((x ∈ T ∨ opp x ∈ T) ∧ y = opp x)

/-- The faces of darts `a` and `b` are joined by a chain of edges of `T` in the
face-adjacency (dual) graph of the map: nodes are the faces, and each edge of
the map links the faces of its two darts. -/
def CMap.FacesJoined (m : CMap) (T : List Nat) : Nat → Nat → Prop :=
  Joined m.beta1 m.beta0 m.beta2 T

/-- The vertices of darts `a` and `b` are joined by a chain of edges of `T` in
the vertex-adjacency graph of the map: nodes are the vertices, and each edge
of the map links the vertices of its two darts. -/
def CMap.VerticesJoined (m : CMap) (T : List Nat) : Nat → Nat → Prop :=
  Joined (fun d => m.beta1 (m.beta2 d)) (fun d => m.beta2 (m.beta0 d)) m.beta2 T

/-- Bookkeeping invariant shared by the two passes, for the cells whose
permutation of the input map `m` is `f` (inverse `g`), the index built at pass
entry, the current forest and the list `T` of the darts handed to the
primitive so far, latest first: representatives are stable under `find`,
every dart of `m` is indexed, the class is constant along `f`, two darts of
`m` have the same class exactly when their cells are joined by edges of `T`,
each edge of `T` joined two cells that the earlier ones had not joined, and
each edge of `T` has cost exactly one class. -/
structure KInv (m : CMap) (f g : Nat → Nat) (index : Index) (uf : UFTree) (T : List Nat) :
    Prop where
  idem : ∀ h, uf.rep (uf.rep h) = uf.rep h
  total : ∀ x, m.IsDart x → ∃ h, index x = some h
  along : ∀ x, m.IsDart x → get_uftree uf index (f x) = get_uftree uf index x
  joined : ∀ a b, m.IsDart a → m.IsDart b →
    (get_uftree uf index a = get_uftree uf index b ↔ Joined f g m.beta2 T a b)
  forest : ∀ post d pre, T = post ++ d :: pre →
    m.IsDart d ∧ ¬ Joined f g m.beta2 pre d (m.beta2 d)
  count : (m.darts.map (get_uftree uf index)).toFinset.card + T.length =
    class_count (reaches f m.size) m.darts

/-- Invariant of the scan of the face pass over the input map `m`, before slot
`i` is looked at: the edited map has the size and the `beta2` of `m`, is
without boundary, its darts are darts of `m`; the bookkeeping invariant holds;
the class is constant along the `beta1` of the edited map; and every edge of
`m` that is scanned, marked or removed has its two darts in one class. -/
structure FaceInv (m : CMap) (faces : Index) (i : Nat) (s : ScanState) : Prop where
  size : s.map.size = m.size
  beta2 : s.map.beta2 = m.beta2
  boundaryless : s.map.Boundaryless
  sub : ∀ x, s.map.IsDart x → m.IsDart x
  kinv : KInv m m.beta1 m.beta0 faces s.uftrees s.trace
  current : ∀ x, s.map.IsDart x →
    get_uftree s.uftrees faces (s.map.beta1 x) = get_uftree s.uftrees faces x
  resolved : ∀ x, m.IsDart x → (x < i ∨ s.treated x = true ∨ ¬ s.map.IsDart x) →
    get_uftree s.uftrees faces (m.beta2 x) = get_uftree s.uftrees faces x

/-- Invariant of the scan of the vertex pass over the input map `m`, before
slot `i` is looked at: the edited map has the size and the `beta2` of `m`, is
without boundary, its darts are darts of `m`; the bookkeeping invariant holds;
and every edge of `m` that is scanned or contracted has its two darts in one class. -/
structure VertexInv (m : CMap) (vertices : Index) (i : Nat) (s : ScanState) : Prop where
  size : s.map.size = m.size
  beta2 : s.map.beta2 = m.beta2
  boundaryless : s.map.Boundaryless
  sub : ∀ x, s.map.IsDart x → m.IsDart x
  kinv : KInv m (fun d => m.beta1 (m.beta2 d)) (fun d => m.beta2 (m.beta0 d)) vertices
    s.uftrees s.trace
  resolved : ∀ x, m.IsDart x → (x < i ∨ ¬ s.map.IsDart x) →
    get_uftree s.uftrees vertices (m.beta2 x) = get_uftree s.uftrees vertices x

/-- The map that acts as `opp` on the two darts `d`, `e` and fixes every other dart. -/
def on_pair (opp : Nat → Nat) (d e x : Nat) : Nat := if x = d ∨ x = e then opp x else x

/-- One class, one face: two live darts of the edited map that have the same
class lie in one face of the edited map. -/
def FaceMerged (faces : Index) (s : ScanState) : Prop :=
  ∀ x y, s.map.IsDart x → s.map.IsDart y →
    get_uftree s.uftrees faces x = get_uftree s.uftrees faces y → SameOrbit s.map.beta1 x y

/-- One class, one vertex: the class is constant around each vertex of the
edited map, and two live darts of the edited map that have the same class lie
around one vertex of the edited map. -/
def VertexMerged (vertices : Index) (s : ScanState) : Prop :=
  (∀ x, s.map.IsDart x →
    get_uftree s.uftrees vertices (s.map.beta1 (s.map.beta2 x)) =
      get_uftree s.uftrees vertices x) ∧
  ∀ x y, s.map.IsDart x → s.map.IsDart y →
    get_uftree s.uftrees vertices x = get_uftree s.uftrees vertices y →
    SameOrbit (fun d => s.map.beta1 (s.map.beta2 d)) x y

/-- The map is connected: any two live darts lie in one connected component. -/
def CMap.IsConnected (m : CMap) : Prop :=
  ∀ a, a < m.size → ∀ b, b < m.size → m.used a = true → m.used b = true →
    m.connected a b = true

instance (m : CMap) : Decidable m.IsConnected := by
  unfold CMap.IsConnected; infer_instance

/-- The numbers of vertices, edges and faces of a map. -/
def CMap.cell_numbers (m : CMap) : Nat × Nat × Nat :=
  (m.num_vertices, m.num_edges, m.num_faces)

/-- What a pass did, in numbers: how many times it called its primitive, and the
numbers of vertices, edges and faces of the map it returned. -/
def pass_summary (r : Option PassResult) : Option (Nat × Nat × Nat × Nat) :=
  r.map fun r => (r.trace.length, r.map.cell_numbers)

/-- The Euler characteristic `V - E + F` of a map. -/
def CMap.euler (m : CMap) : Int :=
  (m.num_vertices : Int) - (m.num_edges : Int) + (m.num_faces : Int)

/-- The edge of `d` is a loop between two faces of one dart each: `beta1` fixes `d` and
`beta2 d`. -/
def CMap.is_lone_loop (m : CMap) (d : Nat) : Bool :=
  m.beta1 d == d && m.beta1 (m.beta2 d) == m.beta2 d

/-- The two darts of the edge of `d` make up a face: `beta1` swaps `d` and `beta2 d`. -/
def CMap.is_lone_edge (m : CMap) (d : Nat) : Bool :=
  m.beta1 d == m.beta2 d && m.beta1 (m.beta2 d) == d

/-- Number of steps, in the replay of the trace from `m` by the primitive `op`, at which `p`
holds of the map reached so far and of the dart handed to `op`. -/
def count_steps (op : CMap → Nat → CMap) (p : CMap → Nat → Bool) : CMap → List Nat → Nat
  | _, [] => 0
  | m, d :: ds => (if p m d then 1 else 0) + count_steps op p (op m d) ds

/-- What the removal of the edge of `d` does to the map `m`: `d` is a live dart, its two
sides are different faces, and `(V, E, F)` changes by `(0, -1, -1)`, or by `(-1, -1, -2)`
when the edge is a loop between two faces of one dart each. -/
def CMap.RemovalEffect (m : CMap) (d : Nat) : Prop :=
  m.IsDart d ∧ m.same_face d (m.beta2 d) = false ∧
  (remove_cell_1 m d).num_vertices + (if m.is_lone_loop d then 1 else 0) = m.num_vertices ∧
  (remove_cell_1 m d).num_edges + 1 = m.num_edges ∧
  (remove_cell_1 m d).num_faces + 1 + (if m.is_lone_loop d then 1 else 0) = m.num_faces

/-- What the contraction of the edge of `d` does to the map `m`: `d` is a live dart, its two
ends are different vertices, and `(V, E, F)` changes by `(-1, -1, 0)`, or by `(-2, -1, -1)`
when the two darts of the edge make up a face. -/
def CMap.ContractionEffect (m : CMap) (d : Nat) : Prop :=
  m.IsDart d ∧ m.same_vertex d (m.beta2 d) = false ∧
  (contract_cell_1 m d).num_vertices + 1 + (if m.is_lone_edge d then 1 else 0) =
    m.num_vertices ∧
  (contract_cell_1 m d).num_edges + 1 = m.num_edges ∧
  (contract_cell_1 m d).num_faces + (if m.is_lone_edge d then 1 else 0) = m.num_faces

/-- The edited map of the scan is the replay of the trace from the input map `m` by the
primitive `op`, and `Q` holds at every step of that replay. -/
structure Replayed (op : CMap → Nat → CMap) (Q : CMap → Nat → Prop) (m : CMap)
    (s : ScanState) : Prop where
  map_eq : s.map =
    { s.trace.reverse.foldl op m with automatic_attributes_management := false }
  steps : ∀ pre d post, s.trace.reverse = pre ++ d :: post → Q (pre.foldl op m) d

/-- The function `f` is a permutation of the live darts of the map, with inverse `g`. -/
def CMap.IsPermutation (m : CMap) (f g : Nat → Nat) : Prop :=
  ∀ d, d < m.size → m.used d = true →
    (f d < m.size ∧ m.used (f d) = true ∧ g (f d) = d) ∧
    (g d < m.size ∧ m.used (g d) = true ∧ f (g d) = d)

instance (m : CMap) (f g : Nat → Nat) : Decidable (m.IsPermutation f g) := by
  unfold CMap.IsPermutation; infer_instance

/-- Two triangles `0 1 2` and `3 4 5` glued along the edge of the darts `0` and `3`; the
four other darts are free for `beta2` (they point to `null_dart_handle`, the value 6). -/
def open_pair : CMap := CMap.of_tables [1, 2, 0, 4, 5, 3] [3, 6, 6, 0, 6, 6]

/-! ## The pass with its forest, the constructor, the lookup on a handle -/

/-- Embedding of `surface_simplification_in_one_face` that also hands out two of its local
variables as they are when it returns: the face forest `uftrees` and the index `faces`. -/
def face_pass_with_forest (m : CMap) : Option (PassResult × UFTree × Index) :=
  match initialize_faces m with
  | none => none
  | some (uftrees, faces) =>
    let m1 := { m with automatic_attributes_management := false }
    match face_loop faces (m1.size + 1)
        { map := m1, uftrees := uftrees, treated := fun _ => false, to_treat := [],
          it := m1.darts_begin, removed := [] } with
    | none => none
    | some s =>
      some ({ map := { s.map with automatic_attributes_management := true },
              trace := s.removed.reverse }, s.uftrees, faces)

/-- The edge of `d` is an isolated loop, the edge the face pass keeps whatever the classes:
`beta0 d = beta2 d` and `beta1 d = beta2 d`. -/
def CMap.is_isolated_edge (m : CMap) (d : Nat) : Bool :=
  m.beta0 d == m.beta2 d && m.beta1 d == m.beta2 d

/-- Embedding of `get_uftree` on a dart handle that may be `NULL`, written `none`: the
assertion `dh!=NULL`, then the assertion on the index and the lookup. The result `none` is a
failed assertion. -/
def get_uftree_of_handle (uftrees : UFTree) (mapdhtouf : Index) (dh : Option Nat) :
    Option Nat :=
  match dh with
  | none => none
  | some d => get_uftree uftrees mapdhtouf d

/-! ## The quadrangulation pass -/

/-- Dart `x` is a live dart of the face of `adart`. -/
def CMap.in_face (m : CMap) (adart x : Nat) : Bool :=
  m.is_dart_used x && m.same_face adart x

/-- Modelled from the spec: `insert_point_in_cell_2(adart, p)` (a method of the map, not in
the sources at hand) inserts one new vertex in the face of `adart`, linked to every corner
the walk around the face visits, which cuts the face into a fan of triangles. For each dart
`x` of the face two darts are created: `n1 x` from the new vertex to the origin of `x`, and
`n2 x` from the end of `x` to the new vertex; the triangle of `x` is `n1 x, x, n2 x`, and
`n1 x` is the opposite of `n2 (beta0 x)`. The point itself plays no part. The created darts
take fresh slots after the old ones, `n1 x` at `size + 2 x` and `n2 x` at `size + 2 x + 1`,
so the container grows to `3 * size` slots and `null_dart_handle` moves there. -/
def insert_point_in_cell_2 (m : CMap) (adart : Nat) : CMap :=
  let n := m.size
  let null : Nat → Nat := fun y => if y = n then 3 * n else y
  { size := 3 * n
    used := fun y =>
      if y < n then m.used y
      else decide (y < 3 * n) && m.in_face adart ((y - n) / 2)
    beta0 := fun y =>
      if y < n then (if m.in_face adart y then n + 2 * y else null (m.beta0 y))
      else if 3 * n ≤ y then 3 * n
      else if (y - n) % 2 = 0 then y + 1
      else (y - n) / 2
    beta1 := fun y =>
      if y < n then (if m.in_face adart y then n + 2 * y + 1 else null (m.beta1 y))
      else if 3 * n ≤ y then 3 * n
      else if (y - n) % 2 = 0 then (y - n) / 2
      else y - 1
    beta2 := fun y =>
      if y < n then null (m.beta2 y)
      else if 3 * n ≤ y then 3 * n
      else if (y - n) % 2 = 0 then n + 2 * m.beta0 ((y - n) / 2) + 1
      else n + 2 * m.beta1 ((y - n) / 2)
    automatic_attributes_management := m.automatic_attributes_management }

/-- The variables of `surface_quadrangulate` while its `for` loop runs. `removed` is a ghost
trace: the darts on which `remove_cell<1>` was called, latest first. -/
structure QuadState where
  map : CMap
  it : Nat
  removed : List Nat

/-- Body of the `for` loop of `surface_quadrangulate`, followed by its `++it`. -/
def quad_loop_body (oldedges : Nat → Bool) (s : QuadState) : QuadState :=
  if oldedges s.it then
    let map1 := remove_cell_1 s.map s.it
    { map := map1, it := map1.increment s.it, removed := s.it :: s.removed }
  else { s with it := s.map.increment s.it }

/-- The `for` loop of `surface_quadrangulate`; the first argument bounds the number of
rounds and `none` means the bound was hit. -/
def quad_loop (oldedges : Nat → Bool) : Nat → QuadState → Option QuadState
  | 0, s => if s.it != s.map.size then none else some s
  | k + 1, s =>
    if s.it != s.map.size then quad_loop oldedges k (quad_loop_body oldedges s)
    else some s

/-- Embedding of `surface_quadrangulate`. After `negate_mark` the mark `oldedges` is set on
every dart the map holds at that point, and the darts created later do not have it: the
marked darts are the ones in the old slots. The insertion is called on `darts().begin()`
without any test. The result `none` is the bound of the loop being hit. On a map that holds
no dart `darts().begin()` is the end of the range and the sources do not say what the
insertion does with it: the value of the embedding on such a map carries no information. -/
def surface_quadrangulate (m : CMap) : Option PassResult :=
  let oldedges : Nat → Bool := fun d => decide (d < m.size)
  let m1 := insert_point_in_cell_2 m m.darts_begin
  match quad_loop oldedges (m1.size + 1)
      { map := m1, it := m1.darts_begin, removed := [] } with
  | none => none
  | some s => some { map := s.map, trace := s.removed.reverse }

/-- The `for` loop of `surface_quadrangulate` at slot `d`, as a plain scan: the edge of a
live marked dart is removed. -/
def quad_scan_step (oldedges : Nat → Bool) (s : CMap × List Nat) (d : Nat) :
    CMap × List Nat :=
  if s.1.is_dart_used d && oldedges d then (remove_cell_1 s.1 d, d :: s.2) else s

/-- The quadrangulation pass as a plain linear scan over the slots. -/
def quad_scan (m : CMap) : Option PassResult :=
  let m1 := insert_point_in_cell_2 m m.darts_begin
  let s := (List.range m1.size).foldl (quad_scan_step fun d => decide (d < m.size)) (m1, [])
  some { map := s.1, trace := s.2.reverse }

/-- The torus as one square `0 1 2 3` with opposite sides glued: one vertex, two edges, one
face. -/
def torus : CMap := CMap.of_tables [1, 2, 3, 0] [2, 3, 0, 1]

/-- Before slot `i` is looked at by the scan of the quadrangulation pass, the edge of the
old dart `z` is gone: `z` or its opposite lies before `i`. -/
def CMap.EdgeScanned (m : CMap) (i z : Nat) : Prop := z < i ∨ m.beta2 z < i

instance (m : CMap) (i z : Nat) : Decidable (m.EdgeScanned i z) := by
  unfold CMap.EdgeScanned; infer_instance

/-- Invariant of the scan of the quadrangulation pass over the input map `m`, the new
vertex being inserted in the face of `adart`, before slot `i` is looked at: the edited map
has the size and the `beta2` of the map with the fan, its live darts are those of the map
with the fan but for the old darts whose edge is gone, and the trace holds a dart of each
of these edges. -/
structure QuadInv (m : CMap) (adart i : Nat) (s : CMap × List Nat) : Prop where
  size : s.1.size = 3 * m.size
  beta2 : s.1.beta2 = (insert_point_in_cell_2 m adart).beta2
  used : ∀ y, s.1.used y = true ↔
    ((insert_point_in_cell_2 m adart).used y = true ∧ ¬ (y < m.size ∧ m.EdgeScanned i y))
  trace : ∀ y, m.IsDart y → m.EdgeScanned i y → (y ∈ s.2 ∨ m.beta2 y ∈ s.2)
  traced : ∀ y, y ∈ s.2 → m.IsDart y

/-- Invariant of the same scan when the map has a single face, on the links `beta1` of the
edited map: the spoke `n2 z` is followed by the spoke `n1 z`; the spoke `n1 z` is followed
by the old dart `z` while the edge of `z` is there, and by the spoke `n2 (beta2 z)` of the
triangle across that edge once it is gone; an old dart still there is followed by its
spoke `n2`. -/
structure QuadFan (m : CMap) (i : Nat) (s : CMap × List Nat) : Prop where
  spoke_in : ∀ z, m.IsDart z → s.1.beta1 (m.size + 2 * z + 1) = m.size + 2 * z
  spoke_out : ∀ z, m.IsDart z →
    s.1.beta1 (m.size + 2 * z) =
      if m.EdgeScanned i z then m.size + 2 * m.beta2 z + 1 else z
  old : ∀ z, m.IsDart z → ¬ m.EdgeScanned i z → s.1.beta1 z = m.size + 2 * z + 1

/-- The slot of the dart `n1 x` created by `insert_point_in_cell_2` for the old dart `x`:
the spoke from the new vertex to the origin of `x`. -/
def CMap.n1 (m : CMap) (x : Nat) : Nat := m.size + 2 * x

/-- The slot of the dart `n2 x` created by `insert_point_in_cell_2` for the old dart `x`:
the spoke from the end of `x` to the new vertex. -/
def CMap.n2 (m : CMap) (x : Nat) : Nat := m.size + 2 * x + 1

/-! ## The loops, round by round -/

/-- The variables of `surface_simplification_in_one_face` when its main loop is entered:
the flag is off, no dart is marked, the worklist is empty and the iterator stands on the
first dart. -/
def face_pass_entry (m : CMap) (uftrees : UFTree) : FaceState :=
  { map := { m with automatic_attributes_management := false }, uftrees := uftrees,
    treated := fun _ => false, to_treat := [],
    it := CMap.darts_begin { m with automatic_attributes_management := false },
    removed := [] }

/-- The variables of the main loop of the face pass when its condition is tested for the
`k`-th time, counting from 0, after `k` rounds: `none` when the loop has ended before, or
when an assertion of `get_uftree` has failed. -/
def face_loop_at (faces : Index) : Nat → FaceState → Option FaceState
  | 0, s => some s
  | k + 1, s =>
    if !s.to_treat.isEmpty || s.it != s.map.size then
      match face_loop_body faces s with
      | none => none
      | some s1 => face_loop_at faces k s1
    else none

/-- The variables of `surface_simplification_in_one_vertex` when its loop is entered. -/
def vertex_pass_entry (m : CMap) (uftrees : UFTree) : VertexState :=
  { map := { m with automatic_attributes_management := false }, uftrees := uftrees,
    it := CMap.darts_begin { m with automatic_attributes_management := false },
    contracted := [] }

/-- The variables of the loop of the vertex pass when its condition is tested for the
`k`-th time, counting from 0, after `k` rounds: `none` when the loop has ended before, or
when an assertion of `get_uftree` has failed. -/
def vertex_loop_at (vertices : Index) : Nat → VertexState → Option VertexState
  | 0, s => some s
  | k + 1, s =>
    if s.it != s.map.size then
      match vertex_loop_body vertices s with
      | none => none
      | some s1 => vertex_loop_at vertices k s1
    else none

end CMapTools


/-!
# Status line of a curve pair

A shallow embedding of `Status_line_CPA_1` and of its representation
(`Algebraic_kernel_d/include/CGAL/Algebraic_curve_kernel_2/Status_line_CPA_1.h`):
the two constructors from an arc list, the setters `_set_event_arcs` and
`_set_interval_arcs` they call, and the access functions. The members and setters are
named as in the source without the leading underscore. `size_type` is `int`; it is taken
as `Int`, lists being far shorter than the range of `int`. A failed precondition and
`CGAL_error_msg` are the result `none`.
-/

namespace CGALi

/-- The template parameter `CurvePairAnalysis_2`: of the curve pair analysis the functions
embedded here use `is_swapped()` only. -/
structure Curve_pair_analysis_2 where
  is_swapped : Bool

/-- The class `Status_line_CPA_1_rep`, without the cached x-coordinate `_m_x`. The array
`_m_arcno_to_pos[2]` is the two lists `m_arcno_to_pos_0` and `m_arcno_to_pos_1`. -/
structure Status_line_CPA_1_rep where
  m_index : Int
  m_arcs : List (Int × Int)
  m_arcno_to_pos_0 : List Int
  m_arcno_to_pos_1 : List Int
  m_mults : List Int
  m_cpa : Curve_pair_analysis_2
  m_event : Bool
  m_intersection : Bool

/-- The constructor `Status_line_CPA_1_rep(size_type i, Curve_pair_analysis_2 cpa)`. -/
def Status_line_CPA_1_rep.create (i : Int) (cpa : Curve_pair_analysis_2) :
    Status_line_CPA_1_rep :=
  { m_index := i, m_arcs := [], m_arcno_to_pos_0 := [], m_arcno_to_pos_1 := [],
    m_mults := [], m_cpa := cpa, m_event := false, m_intersection := false }

/-- The entry `_m_arcno_to_pos[c]` for a `bool` index `c`. -/
def Status_line_CPA_1_rep.m_arcno_to_pos (r : Status_line_CPA_1_rep) (c : Bool) : List Int :=
  if c then r.m_arcno_to_pos_1 else r.m_arcno_to_pos_0

/-- The call `v.resize(n)` of a `std::vector`: the first `n` elements, filled up with
value-initialised ones. -/
def resize {α : Type} (v : List α) (n : Nat) (zero : α) : List α :=
  v.take n ++ List.replicate (n - v.length) zero

/-- The handle class `Status_line_CPA_1`; `ptr` is its representation. -/
structure Status_line_CPA_1 where
  ptr : Status_line_CPA_1_rep

/-- Body of the `for` loop of `_set_event_arcs`, followed by its `k++`. The state is the
representation with the counters `k`, `arcf` and `arcg`; `ait` is the element of `arcs`,
a pair of a type and a multiplicity. -/
def set_event_arcs_step (st : Option (Status_line_CPA_1_rep × Int × Int × Int))
    (ait : Int × Int) : Option (Status_line_CPA_1_rep × Int × Int × Int) :=
  match st with
  | none => none
  | some (r, k, arcf, arcg) =>
    let branch : Option (Status_line_CPA_1_rep × Int × Int) :=
      if ait.1 = 0 then
        some ({ r with m_arcs := r.m_arcs.set k.toNat (arcf, -1),
                       m_arcno_to_pos_0 := r.m_arcno_to_pos_0 ++ [k] }, arcf + 1, arcg)
      else if ait.1 = 1 then
        some ({ r with m_arcs := r.m_arcs.set k.toNat (-1, arcg),
                       m_arcno_to_pos_1 := r.m_arcno_to_pos_1 ++ [k] }, arcf, arcg + 1)
      else if ait.1 = 2 then
        some ({ r with m_arcs := r.m_arcs.set k.toNat (arcf, arcg),
                       m_arcno_to_pos_0 := r.m_arcno_to_pos_0 ++ [k],
                       m_arcno_to_pos_1 := r.m_arcno_to_pos_1 ++ [k],
                       m_intersection := true }, arcf + 1, arcg + 1)
      else none
    match branch with
    | none => none
    | some (r1, f, g) => some ({ r1 with m_mults := r1.m_mults.set k.toNat ait.2 }, k + 1, f, g)

/-- The setter `_set_event_arcs(arcs)`. -/
def Status_line_CPA_1.set_event_arcs (s : Status_line_CPA_1) (arcs : List (Int × Int)) :
    Option Status_line_CPA_1 :=
  let r0 := { s.ptr with m_arcs := resize s.ptr.m_arcs arcs.length (0, 0),
                         m_mults := resize s.ptr.m_mults arcs.length 0,
                         m_event := true }
  (arcs.foldl set_event_arcs_step (some (r0, 0, 0, 0))).map fun st => { ptr := st.1 }

/-- Body of the `for` loop of `_set_interval_arcs`, followed by its `k++`. -/
def set_interval_arcs_step (st : Option (Status_line_CPA_1_rep × Int × Int × Int))
    (ait : Int) : Option (Status_line_CPA_1_rep × Int × Int × Int) :=
  match st with
  | none => none
  | some (r, k, arcf, arcg) =>
    if ait = 0 then
      some ({ r with m_arcs := r.m_arcs.set k.toNat (arcf, -1),
                     m_arcno_to_pos_0 := r.m_arcno_to_pos_0 ++ [k] }, k + 1, arcf + 1, arcg)
    else if ait = 1 then
      some ({ r with m_arcs := r.m_arcs.set k.toNat (-1, arcg),
                     m_arcno_to_pos_1 := r.m_arcno_to_pos_1 ++ [k] }, k + 1, arcf, arcg + 1)
    else none

/-- The setter `_set_interval_arcs(arcs)`. -/
def Status_line_CPA_1.set_interval_arcs (s : Status_line_CPA_1) (arcs : List Int) :
    Option Status_line_CPA_1 :=
  let r0 := { s.ptr with m_arcs := resize s.ptr.m_arcs arcs.length (0, 0),
                         m_event := false, m_intersection := false }
  (arcs.foldl set_interval_arcs_step (some (r0, 0, 0, 0))).map fun st => { ptr := st.1 }

/-- The constructor of a status line at the `i`-th event of a curve pair, from a list of
pairs of an event type and a multiplicity. -/
def Status_line_CPA_1.at_event (i : Int) (arcs : List (Int × Int))
    (cpa : Curve_pair_analysis_2) : Option Status_line_CPA_1 :=
  Status_line_CPA_1.set_event_arcs { ptr := Status_line_CPA_1_rep.create i cpa } arcs

/-- The constructor of a status line over the `i`-th interval of a curve pair, from the
list of the curves of the arcs. -/
def Status_line_CPA_1.over_interval (i : Int) (arcs : List Int)
    (cpa : Curve_pair_analysis_2) : Option Status_line_CPA_1 :=
  Status_line_CPA_1.set_interval_arcs { ptr := Status_line_CPA_1_rep.create i cpa } arcs

/-- The access function `number_of_events()`. -/
def Status_line_CPA_1.number_of_events (s : Status_line_CPA_1) : Int := s.ptr.m_arcs.length

/-- The access function `is_event()`. -/
def Status_line_CPA_1.is_event (s : Status_line_CPA_1) : Bool := s.ptr.m_event

/-- The access function `is_intersection()`. -/
def Status_line_CPA_1.is_intersection (s : Status_line_CPA_1) : Bool := s.ptr.m_intersection

/-- The access function `event_of_curve(k, c)`. -/
def Status_line_CPA_1.event_of_curve (s : Status_line_CPA_1) (k : Int) (c : Bool) :
    Option Int :=
  let c1 := if s.ptr.m_cpa.is_swapped then xor c true else c
  if 0 ≤ k ∧ k < (s.ptr.m_arcno_to_pos c1).length then (s.ptr.m_arcno_to_pos c1)[k.toNat]?
  else none

/-- The access function `multiplicity_of_intersection(j)`. -/
def Status_line_CPA_1.multiplicity_of_intersection (s : Status_line_CPA_1) (j : Int) :
    Option Int :=
  if 0 ≤ j ∧ j < s.number_of_events then
    if s.is_intersection then
      match s.ptr.m_arcs[j.toNat]? with
      | some arc => if arc.1 ≠ -1 ∧ arc.2 ≠ -1 then s.ptr.m_mults[j.toNat]? else none
      | none => none
    else none
  else none

/-- The access function `curves_at_event(j)`. -/
def Status_line_CPA_1.curves_at_event (s : Status_line_CPA_1) (j : Int) : Option (Int × Int) :=
  if 0 ≤ j ∧ j < s.number_of_events then
    match s.ptr.m_arcs[j.toNat]? with
    | some arc => if s.ptr.m_cpa.is_swapped then some (arc.2, arc.1) else some arc
    | none => none
  else none

/-- Component `c` of a pair of arc numbers: `first` for curve 0, `second` for curve 1. -/
def component (p : Int × Int) (c : Bool) : Int := if c then p.2 else p.1

/-- Invariant of the loops of the two setters after `k` rounds, on the state `st` of the
loop: `_m_arcs` has its final length `n`, the counter `k` is the number of rounds, `arcf`
and `arcg` are the lengths of the two inverse tables, and at every position `j` below `k`
an arc number other than `-1` of either curve is sent back to `j` by the inverse table of
that curve. The curve pair analysis is `cpa`. -/
structure ArcsInv (cpa : Curve_pair_analysis_2) (n k : Nat)
    (st : Status_line_CPA_1_rep × Int × Int × Int) : Prop where
  len : st.1.m_arcs.length = n
  pos : st.2.1 = k
  cf : st.2.2.1 = st.1.m_arcno_to_pos_0.length
  cg : st.2.2.2 = st.1.m_arcno_to_pos_1.length
  inv0 : ∀ j a, j < k → (st.1.m_arcs.map Prod.fst)[j]? = some a → a ≠ -1 →
    0 ≤ a ∧ st.1.m_arcno_to_pos_0[a.toNat]? = some (j : Int)
  inv1 : ∀ j a, j < k → (st.1.m_arcs.map Prod.snd)[j]? = some a → a ≠ -1 →
    0 ≤ a ∧ st.1.m_arcno_to_pos_1[a.toNat]? = some (j : Int)
  cpa_eq : st.1.m_cpa = cpa

/-- What the loop of `_set_event_arcs` has stored after `k` rounds on the list `arcs`:
the flag `_m_event` is set, `_m_mults` holds the second items of the elements seen, both
arc numbers of a position seen differ from `-1` exactly when the element has type 2, and
`_m_intersection` is set exactly when an element seen has type 2. -/
structure EventInv (arcs : List (Int × Int)) (k : Nat) (r : Status_line_CPA_1_rep) : Prop where
  mlen : r.m_mults.length = arcs.length
  event : r.m_event = true
  mults : ∀ j, j < k → r.m_mults[j]? = (arcs[j]?).map Prod.snd
  both : ∀ j arc t, j < k → r.m_arcs[j]? = some arc → arcs[j]? = some t →
    (t.1 = 2 ↔ arc.1 ≠ -1 ∧ arc.2 ≠ -1)
  inter : r.m_intersection = true ↔ ∃ j t, j < k ∧ arcs[j]? = some t ∧ t.1 = 2

end CGALi


/-!
# Extrusion of a polygon mesh

A shallow embedding of `generic_extrude_mesh`
(`Polygon_mesh_processing/include/CGAL/Polygon_mesh_processing/extrude.h`). The function is
generic in the mesh types; the mesh and the graph primitives it calls (`copy_face_graph`,
`reverse_face_orientations`, `add_edge`, `add_face`, `set_next` and the like) are not part
of the sources at hand and are modelled, each such definition saying so. The points of the
vertices and the two functors that move them play no part in the connectivity and are left
out. A failed assertion is the result `none`.
-/

namespace Polygon_mesh_processing

/-- Modelled from the spec: the mesh consumed by `generic_extrude_mesh`, a model of the
concept `FaceListGraph` (its class is a template parameter, not in the sources at hand).
Vertices, edges and faces are numbered from 0; the two halfedges of edge `e` are `2 e` and
`2 e + 1`. `next` and `prev` are the successor and the predecessor of a halfedge around its
face or its hole, `target` is its end vertex, `face` is its face, with `none` for
`null_face()` on a border halfedge, and `halfedge` gives a face one of its halfedges. -/
structure FaceGraph where
  num_vertices : Nat
  num_edges : Nat
  num_faces : Nat
  next : Nat → Nat
  prev : Nat → Nat
  target : Nat → Nat
  face : Nat → Option Nat
  halfedge : Nat → Nat

/-- Modelled from the spec: the number of halfedges of the mesh. -/
def FaceGraph.num_halfedges (g : FaceGraph) : Nat := 2 * g.num_edges

/-- Modelled from the spec: the mesh with no vertex, no edge and no face. -/
def FaceGraph.empty : FaceGraph :=
  { num_vertices := 0, num_edges := 0, num_faces := 0, next := fun _ => 0, prev := fun _ => 0,
    target := fun _ => 0, face := fun _ => none, halfedge := fun _ => 0 }

/-- Modelled from the spec: `opposite(h, g)`, the other halfedge of the edge of `h`. -/
def opposite (h : Nat) : Nat := if h % 2 = 0 then h + 1 else h - 1

/-- Modelled from the spec: `halfedge(e, g)`, the first halfedge of the edge `e`. -/
def halfedge_of_edge (e : Nat) : Nat := 2 * e

/-- Modelled from the spec: `is_border(h, g)`, the halfedge `h` has no face. -/
def is_border (h : Nat) (g : FaceGraph) : Bool := (g.face h).isNone

/-- Modelled from the spec: `is_closed(g)`, no halfedge of the mesh is a border halfedge. -/
def is_closed (g : FaceGraph) : Bool :=
  (List.range g.num_halfedges).all fun h => !is_border h g

/-- Modelled from the spec: `add_edge(g)` adds an edge and returns it; its two halfedges
have no face yet. -/
def add_edge (g : FaceGraph) : FaceGraph × Nat :=
  ({ g with num_edges := g.num_edges + 1,
            face := fun h => if h = 2 * g.num_edges ∨ h = 2 * g.num_edges + 1 then none
                             else g.face h }, g.num_edges)

/-- Modelled from the spec: `add_face(g)` adds a face and returns it. -/
def add_face (g : FaceGraph) : FaceGraph × Nat :=
  ({ g with num_faces := g.num_faces + 1 }, g.num_faces)

/-- Modelled from the spec: `set_target(h, v, g)`. -/
def set_target (h v : Nat) (g : FaceGraph) : FaceGraph :=
  { g with target := Function.update g.target h v }

/-- Modelled from the spec: `set_next(h1, h2, g)` makes `h2` the successor of `h1` and `h1`
the predecessor of `h2`. -/
def set_next (h1 h2 : Nat) (g : FaceGraph) : FaceGraph :=
  { g with next := Function.update g.next h1 h2, prev := Function.update g.prev h2 h1 }

/-- Modelled from the spec: `set_face(h, f, g)`. -/
def set_face (h f : Nat) (g : FaceGraph) : FaceGraph :=
  { g with face := Function.update g.face h (some f) }

/-- Modelled from the spec: `set_halfedge(f, h, g)`. -/
def set_halfedge (f h : Nat) (g : FaceGraph) : FaceGraph :=
  { g with halfedge := Function.update g.halfedge f h }

/-- Modelled from the spec: `copy_face_graph(input, output, v2v, h2h)` appends a copy of
`input` to `output` and returns, with the new mesh, the pairs of a vertex of `input` and its
copy and the pairs of a halfedge of `input` and its copy, in the order of `input`. -/
def copy_face_graph (input output : FaceGraph) :
    FaceGraph × List (Nat × Nat) × List (Nat × Nat) :=
  let ov := output.num_vertices
  let oh := output.num_halfedges
  let of := output.num_faces
  let inside : Nat → Bool := fun h => decide (oh ≤ h ∧ h < oh + input.num_halfedges)
  ({ num_vertices := ov + input.num_vertices
     num_edges := output.num_edges + input.num_edges
     num_faces := of + input.num_faces
     next := fun h => if inside h then oh + input.next (h - oh) else output.next h
     prev := fun h => if inside h then oh + input.prev (h - oh) else output.prev h
     target := fun h => if inside h then ov + input.target (h - oh) else output.target h
     face := fun h => if inside h then (input.face (h - oh)).map (fun f => of + f)
                      else output.face h
     halfedge := fun f => if of ≤ f ∧ f < of + input.num_faces then oh + input.halfedge (f - of)
                          else output.halfedge f },
   (List.range input.num_vertices).map (fun v => (v, ov + v)),
   (List.range input.num_halfedges).map (fun h => (h, oh + h)))

/-- Modelled from the spec: `reverse_face_orientations(g)` reverses every face and every
hole of the mesh: successor and predecessor are exchanged and each halfedge ends where it
started. -/
def reverse_face_orientations (g : FaceGraph) : FaceGraph :=
  { g with next := g.prev, prev := g.next, target := fun h => g.target (opposite h) }

/-- Body of the loop of `generic_extrude_mesh` that collects the border halfedges of the
two copies; the state is the pair `border_hedges`, `offset_border_hedges`. The halfedge
asserted to be a border halfedge, `back()`, is the one just pushed. -/
def collect_step (input output : FaceGraph) (top_h2h bottom_h2h : List (Nat × Nat))
    (st : Option (List Nat × List Nat)) (i : Nat) : Option (List Nat × List Nat) :=
  match st with
  | none => none
  | some (border_hedges, offset_border_hedges) =>
    let h := (top_h2h.getD i (0, 0)).1
    if is_border h input then
      let top_h := (top_h2h.getD i (0, 0)).2
      let bottom_h := (bottom_h2h.getD i (0, 0)).2
      if is_border top_h output && is_border bottom_h output then
        some (border_hedges ++ [top_h], offset_border_hedges ++ [bottom_h])
      else none
    else some (border_hedges, offset_border_hedges)

/-- Body of the loop of `generic_extrude_mesh` that creates the quad strip. -/
def strip_step (border_hedges offset_border_hedges : List Nat) (output : FaceGraph) (i : Nat) :
    FaceGraph :=
  let h1 := border_hedges.getD i 0
  let h2 := offset_border_hedges.getD i 0
  let nh1 := output.next h1
  let ph2 := output.prev h2
  let (output, e) := add_edge output
  let newh := halfedge_of_edge e
  let newh_opp := opposite newh
  let output := set_target newh (output.target h1) output
  let output := set_target newh_opp (output.target ph2) output
  let output := set_next h1 newh_opp output
  let output := set_next newh_opp h2 output
  let output := set_next ph2 newh output
  set_next newh nh1 output

/-- Body of the loop of `generic_extrude_mesh` that creates the new faces. -/
def face_step (border_hedges : List Nat) (output : FaceGraph) (i : Nat) : FaceGraph :=
  let h := border_hedges.getD i 0
  let (output, nf1) := add_face output
  let (output, nf2) := add_face output
  let hedges0 := h
  let hedges1 := output.next hedges0
  let hedges2 := output.next hedges1
  let hedges3 := output.next hedges2
  let (output, new_e) := add_edge output
  let new_h := halfedge_of_edge new_e
  let new_h_opp := opposite new_h
  let output := set_target new_h_opp (output.target hedges0) output
  let output := set_target new_h (output.target hedges2) output
  let output := set_next hedges0 new_h output
  let output := set_next new_h hedges3 output
  let output := set_next hedges2 new_h_opp output
  let output := set_next new_h_opp hedges1 output
  let output := set_face hedges0 nf1 output
  let output := set_face hedges3 nf1 output
  let output := set_face new_h nf1 output
  let output := set_face hedges1 nf2 output
  let output := set_face hedges2 nf2 output
  let output := set_face new_h_opp nf2 output
  let output := set_halfedge nf1 hedges0 output
  set_halfedge nf2 hedges2 output

/-- Embedding of `generic_extrude_mesh(input, output, bot, top, np1, np2)`; the result is
the mesh `output` when the function returns. -/
def generic_extrude_mesh (input output : FaceGraph) : Option FaceGraph :=
  if is_closed input then none
  else
    let (output, _bottom_v2v, bottom_h2h) := copy_face_graph input output
    let output := reverse_face_orientations output
    let (output, _top_v2v, top_h2h) := copy_face_graph input output
    match (List.range top_h2h.length).foldl
        (collect_step input output top_h2h bottom_h2h) (some ([], [])) with
    | none => none
    | some (border_hedges, offset_border_hedges) =>
      let output := (List.range border_hedges.length).foldl
        (strip_step border_hedges offset_border_hedges) output
      some ((List.range border_hedges.length).foldl (face_step border_hedges) output)

/-- The border halfedges of a mesh, in the order of the mesh. -/
def FaceGraph.border_halfedges (g : FaceGraph) : List Nat :=
  (List.range g.num_halfedges).filter fun h => is_border h g

/-- The mesh is a halfedge structure: `next` and `prev` are inverse permutations of the
halfedges, a halfedge and its successor have the same face, or both none, and the face of
a halfedge is a face of the mesh. -/
def FaceGraph.IsValid (g : FaceGraph) : Prop :=
  ∀ h, h < g.num_halfedges →
    g.next h < g.num_halfedges ∧ g.prev h < g.num_halfedges ∧
    g.prev (g.next h) = h ∧ g.next (g.prev h) = h ∧ g.face (g.next h) = g.face h ∧
    ∀ f, g.face h = some f → f < g.num_faces

instance (g : FaceGraph) : Decidable g.IsValid := by
  unfold FaceGraph.IsValid; infer_instance

/-- Every face of the mesh is a triangle: three steps of `next` from a halfedge with a face
lead back to it. -/
def FaceGraph.IsTriangulated (g : FaceGraph) : Prop :=
  ∀ h, h < g.num_halfedges → g.face h ≠ none → g.next (g.next (g.next h)) = h

instance (g : FaceGraph) : Decidable g.IsTriangulated := by
  unfold FaceGraph.IsTriangulated; infer_instance

/-- The mesh made of one triangle: three vertices, three edges, one face and three border
halfedges. -/
def one_triangle : FaceGraph :=
  { num_vertices := 3, num_edges := 3, num_faces := 1
    next := fun h => [2, 5, 4, 1, 0, 3].getD h 0
    prev := fun h => [4, 3, 0, 5, 2, 1].getD h 0
    target := fun h => [1, 0, 2, 1, 0, 2].getD h 0
    face := fun h => if h % 2 = 0 ∧ h < 6 then some 0 else none
    halfedge := fun _ => 0 }

/-- The face `f` of the mesh is bounded by exactly three halfedges: the walk along `next`
from the halfedge of `f` comes back after three steps and not before, its three halfedges
have the face `f`, and no other halfedge of the mesh has. -/
def FaceGraph.is_triangle (g : FaceGraph) (f : Nat) : Prop :=
  let h0 := g.halfedge f
  let h1 := g.next h0
  let h2 := g.next h1
  g.next h2 = h0 ∧ h1 ≠ h0 ∧ h2 ≠ h0 ∧ h2 ≠ h1 ∧
  ∀ x, x < g.num_halfedges → (g.face x = some f ↔ x = h0 ∨ x = h1 ∨ x = h2)

instance (g : FaceGraph) (f : Nat) : Decidable (g.is_triangle f) := by
  unfold FaceGraph.is_triangle; infer_instance

/-- The `j`-th border halfedge of the mesh. -/
def FaceGraph.border_at (g : FaceGraph) (j : Nat) : Nat := g.border_halfedges.getD j 0

/-- The rank, among the border halfedges, of the predecessor of the `j`-th one. -/
def FaceGraph.border_pred (g : FaceGraph) (j : Nat) : Nat :=
  g.border_halfedges.indexOf (g.prev (g.border_at j))

/-- Invariant of the loop that creates the quad strip, before round `k`, for the input `I`
with `H` halfedges and `B` border halfedges `b j`. The output holds the reversed copy of
`I` on the halfedges below `H` and the second copy from `H` on. For a border halfedge
treated, `j < k`, the edge `2 H + 2 j`, `2 H + 2 j + 1` links the ends of its two copies;
for one still to treat the two copies are as the copies left them. No face has been
added. -/
structure StripInv (I : FaceGraph) (k : Nat) (m : FaceGraph) : Prop where
  le : k ≤ I.border_halfedges.length
  nv : m.num_vertices = 2 * I.num_vertices
  nf : m.num_faces = 2 * I.num_faces
  ne : m.num_edges = I.num_halfedges + k
  done : ∀ j, j < k →
    m.next (I.num_halfedges + I.border_at j) = 2 * I.num_halfedges + 2 * j + 1 ∧
    m.next (2 * I.num_halfedges + 2 * j + 1) = I.border_at j ∧
    m.next (I.next (I.border_at j)) = 2 * I.num_halfedges + 2 * j ∧
    m.next (2 * I.num_halfedges + 2 * j) = I.num_halfedges + I.next (I.border_at j)
  todo : ∀ j, k ≤ j → j < I.border_halfedges.length →
    m.next (I.num_halfedges + I.border_at j) = I.num_halfedges + I.next (I.border_at j) ∧
    m.prev (I.border_at j) = I.next (I.border_at j)
  faces : ∀ x f, m.face x = some f → f < 2 * I.num_faces

/-- Invariant of the loop that creates the new faces, before round `k`, for the input `I`
with `H` halfedges, `F` faces and `B` border halfedges `b j`. Around a border halfedge
still to treat lies the quad `H + b j`, `2 H + 2 j + 1`, `b j`, `2 H + 2 p` with `p` the
rank of the predecessor of `b j`; for one treated, `j < k`, the diagonal
`2 H + 2 B + 2 j`, `2 H + 2 B + 2 j + 1` cuts the quad into the faces `2 F + 2 j` and
`2 F + 2 j + 1`, of three halfedges each. -/
structure FaceLoopInv (I : FaceGraph) (k : Nat) (m : FaceGraph) : Prop where
  le : k ≤ I.border_halfedges.length
  nv : m.num_vertices = 2 * I.num_vertices
  nf : m.num_faces = 2 * I.num_faces + 2 * k
  ne : m.num_edges = I.num_halfedges + I.border_halfedges.length + k
  spoke : ∀ j, j < I.border_halfedges.length →
    m.next (2 * I.num_halfedges + 2 * j) = I.num_halfedges + I.next (I.border_at j) ∧
    m.next (2 * I.num_halfedges + 2 * j + 1) = I.border_at j
  todo : ∀ j, k ≤ j → j < I.border_halfedges.length →
    m.next (I.num_halfedges + I.border_at j) = 2 * I.num_halfedges + 2 * j + 1 ∧
    m.next (I.border_at j) = 2 * I.num_halfedges + 2 * I.border_pred j
  done : ∀ j, j < k →
    m.next (I.num_halfedges + I.border_at j) =
      2 * I.num_halfedges + 2 * I.border_halfedges.length + 2 * j ∧
    m.next (2 * I.num_halfedges + 2 * I.border_halfedges.length + 2 * j) =
      2 * I.num_halfedges + 2 * I.border_pred j ∧
    m.next (I.border_at j) =
      2 * I.num_halfedges + 2 * I.border_halfedges.length + 2 * j + 1 ∧
    m.next (2 * I.num_halfedges + 2 * I.border_halfedges.length + 2 * j + 1) =
      2 * I.num_halfedges + 2 * j + 1 ∧
    m.halfedge (2 * I.num_faces + 2 * j) = I.num_halfedges + I.border_at j ∧
    m.halfedge (2 * I.num_faces + 2 * j + 1) = I.border_at j ∧
    (∀ x, m.face x = some (2 * I.num_faces + 2 * j) ↔
      x = I.num_halfedges + I.border_at j ∨
      x = 2 * I.num_halfedges + 2 * I.border_halfedges.length + 2 * j ∨
      x = 2 * I.num_halfedges + 2 * I.border_pred j) ∧
    (∀ x, m.face x = some (2 * I.num_faces + 2 * j + 1) ↔
      x = I.border_at j ∨
      x = 2 * I.num_halfedges + 2 * I.border_halfedges.length + 2 * j + 1 ∨
      x = 2 * I.num_halfedges + 2 * j + 1)
  faces : ∀ x f, m.face x = some f → f < 2 * I.num_faces + 2 * k

end Polygon_mesh_processing


namespace CMapTools

/-! ## Turning around a vertex on a map with boundary -/

/-- The functions `f` and `g` undo each other on the set `S` of numbers below `n`, where
they are not free: `n` stands for the null dart, `f x = n` says that `x` is free for `f`,
and `n` itself is sent to `n`. -/
structure PartialPerm (n : Nat) (S : Nat → Prop) (f g : Nat → Nat) : Prop where
  lt : ∀ x, S x → x < n
  null : f n = n
  inv_null : g n = n
  maps : ∀ x, S x → f x = n ∨ (S (f x) ∧ g (f x) = x)
  inv_maps : ∀ x, S x → g x = n ∨ (S (g x) ∧ f (g x) = x)

/-- The number `b` is not null and is met from `a` by steps of `f` or by steps of `g`. -/
def Linked (n : Nat) (f g : Nat → Nat) (a b : Nat) : Prop :=
  b ≠ n ∧ (SameOrbit f a b ∨ SameOrbit g a b)

end CMapTools

namespace CMapTools

/-! ## The dart range -/

theorem skip_free_bounds (m : CMap) : ∀ k i, i ≤ m.skip_free k i ∧ m.skip_free k i ≤ i + k := by
  intro k
  induction k with
  | zero => intro i; simp [CMap.skip_free]
  | succ k ih =>
    intro i
    unfold CMap.skip_free
    split
    · omega
    · have := ih (i + 1); omega

theorem skip_free_unused (m : CMap) :
    ∀ k i j, i ≤ j → j < m.skip_free k i → m.used j = false := by
  intro k
  induction k with
  | zero => intro i j h1 h2; simp [CMap.skip_free] at h2; omega
  | succ k ih =>
    intro i j h1 h2
    unfold CMap.skip_free at h2
    split at h2
    · omega
    · rename_i hu
      by_cases hij : i = j
      · subst hij; simpa using hu
      · exact ih (i + 1) j (by omega) h2

theorem skip_free_used (m : CMap) :
    ∀ k i, m.skip_free k i < i + k → m.used (m.skip_free k i) = true := by
  intro k
  induction k with
  | zero => intro i h; simp [CMap.skip_free] at h
  | succ k ih =>
    intro i h
    unfold CMap.skip_free at h ⊢
    split
    · assumption
    · rename_i hu
      simp only [hu] at h
      exact ih (i + 1) (by simpa [Nat.add_assoc, Nat.add_comm 1 k] using h)

theorem increment_spec (m : CMap) (i : Nat) (hi : i < m.size) :
    i < m.increment i ∧ m.increment i ≤ m.size ∧
    (∀ j, i < j → j < m.increment i → m.used j = false) ∧
    (m.increment i < m.size → m.used (m.increment i) = true) := by
  unfold CMap.increment
  simp only [hi, if_true]
  have hb := skip_free_bounds m (m.size - (i + 1)) (i + 1)
  refine ⟨by omega, by omega, ?_, ?_⟩
  · intro j h1 h2
    exact skip_free_unused m _ _ j (by omega) h2
  · intro h
    exact skip_free_used m _ _ (by omega)

theorem darts_begin_spec (m : CMap) :
    m.darts_begin ≤ m.size ∧
    (∀ j, j < m.darts_begin → m.used j = false) ∧
    (m.darts_begin < m.size → m.used m.darts_begin = true) := by
  unfold CMap.darts_begin
  have hb := skip_free_bounds m m.size 0
  refine ⟨by omega, ?_, ?_⟩
  · intro j h; exact skip_free_unused m _ _ j (by omega) h
  · intro h; exact skip_free_used m _ _ (by omega)

end CMapTools

namespace CMapTools

/-! ## The main loop of the face pass is the plain scan -/

theorem remove_cell_1_size (m : CMap) (d : Nat) : (remove_cell_1 m d).size = m.size := rfl

theorem remove_cell_1_used_false (m : CMap) (d j : Nat) (h : m.used j = false) :
    (remove_cell_1 m d).used j = false := by
  simp [remove_cell_1, h]

theorem contract_cell_1_size (m : CMap) (d : Nat) : (contract_cell_1 m d).size = m.size := rfl

theorem contract_cell_1_used_false (m : CMap) (d j : Nat) (h : m.used j = false) :
    (contract_cell_1 m d).used j = false := by
  simp [contract_cell_1, h]

theorem face_scan_step_unused (faces : Index) (s : ScanState) (j : Nat)
    (h : s.map.used j = false) : face_scan_step faces (some s) j = some s := by
  simp [face_scan_step, CMap.is_dart_used, h]

theorem face_scan_skip (faces : Index) (s : ScanState) :
    ∀ n i, (∀ j, i ≤ j → j < i + n → s.map.used j = false) →
      (List.range' i n).foldl (face_scan_step faces) (some s) = some s := by
  intro n
  induction n with
  | zero => intro i _; rfl
  | succ n ih =>
    intro i h
    rw [List.range'_succ, List.foldl_cons, face_scan_step_unused faces s i (h i (le_refl _) (by omega))]
    exact ih (i + 1) (fun j h1 h2 => h j (by omega) (by omega))

/-- What one round of the main loop does when the worklist is empty and the
iterator stands on a live dart: the plain scan step at that dart, after which
the iterator stands on the next live dart of the edited map. -/
theorem face_loop_body_scan (faces : Index) (s : FaceState)
    (hst : s.to_treat = []) (hit : s.it < s.map.size) (hu : s.map.used s.it = true) :
    match face_loop_body faces s with
    | none => face_scan_step faces (some s.toScan) s.it = none
    | some s1 =>
      face_scan_step faces (some s.toScan) s.it = some s1.toScan ∧ s1.to_treat = [] ∧
      s1.map.size = s.map.size ∧ s.it < s1.it ∧ s1.it ≤ s.map.size ∧
      (∀ j, s.it < j → j < s1.it → s1.map.used j = false) ∧
      (s1.it < s.map.size → s1.map.used s1.it = true) := by
  obtain ⟨h1, h2, h3, h4⟩ := increment_spec s.map s.it hit
  have hd : s.map.is_dart_used s.it = true := by simp [CMap.is_dart_used, hit, hu]
  unfold face_loop_body face_scan_step
  simp only [hst, FaceState.toScan, hd, Bool.true_and, Bool.false_or]
  by_cases ht : s.treated s.it = true
  · simp [ht]
    exact ⟨h1, h2, h3, h4⟩
  · simp only [ht, Bool.not_false, if_true]
    by_cases hf : s.map.is_free_2 s.it = true
    · simp [hf]
      exact ⟨h1, h2, h3, h4⟩
    · simp only [hf]
      by_cases hiso : (s.map.beta0 s.it == s.map.beta2 s.it && s.map.beta1 s.it == s.map.beta2 s.it) = true
      · have : (s.map.beta0 s.it != s.map.beta2 s.it || s.map.beta1 s.it != s.map.beta2 s.it) = false := by
          simp only [Bool.and_eq_true, beq_iff_eq] at hiso
          simp [hiso.1, hiso.2]
        simp [this, hiso]
        exact ⟨h1, h2, h3, h4⟩
      · have : (s.map.beta0 s.it != s.map.beta2 s.it || s.map.beta1 s.it != s.map.beta2 s.it) = true := by
          simp only [Bool.and_eq_true, beq_iff_eq, not_and] at hiso
          by_cases hb : s.map.beta0 s.it = s.map.beta2 s.it
          · simp [hiso hb]
          · simp [hb]
        simp only [this, hiso]
        cases ha : get_uftree s.uftrees faces s.it with
        | none => simp
        | some a =>
          cases hb : get_uftree s.uftrees faces (s.map.beta2 s.it) with
          | none => simp
          | some b =>
            by_cases hab : a = b
            · have hne : (a != b) = false := by simp [hab]
              simp only [hne]
              simp
              exact ⟨h1, h2, h3, h4⟩
            · have hne : (a != b) = true := by simp [hab]
              simp only [hne]
              have hi := increment_spec (remove_cell_1 s.map s.it) (s.map.increment s.it)
              by_cases hend : s.map.increment s.it < s.map.size
              · by_cases hu1 : (remove_cell_1 s.map s.it).used (s.map.increment s.it) = true
                · simp [CMap.is_dart_used, remove_cell_1_size, hend, hu1]
                  refine ⟨h1, h2, ?_⟩
                  intro j hj1 hj2
                  exact remove_cell_1_used_false _ _ _ (h3 j hj1 hj2)
                · obtain ⟨i1, i2, i3, i4⟩ := hi (by simpa [remove_cell_1_size] using hend)
                  simp only [remove_cell_1_size] at i2 i4
                  simp [CMap.is_dart_used, remove_cell_1_size, hend, hu1]
                  refine ⟨by omega, i2, ?_, i4⟩
                  intro j hj1 hj2
                  by_cases hj : j < s.map.increment s.it
                  · exact remove_cell_1_used_false _ _ _ (h3 j hj1 hj)
                  · by_cases hj' : j = s.map.increment s.it
                    · subst hj'; simpa using hu1
                    · exact i3 j (by omega) hj2
              · have heq : s.map.increment s.it = s.map.size := by omega
                have hinc : (remove_cell_1 s.map s.it).increment s.map.size = s.map.size := by
                  simp [CMap.increment, remove_cell_1_size]
                simp [CMap.is_dart_used, remove_cell_1_size, heq, hinc]
                refine ⟨hit, ?_⟩
                intro j hj1 hj2
                exact remove_cell_1_used_false _ _ _ (h3 j hj1 (by omega))

end CMapTools

namespace CMapTools

theorem face_scan_fold_none (faces : Index) (l : List Nat) :
    l.foldl (face_scan_step faces) none = none := by
  induction l with
  | nil => rfl
  | cons a l ih => simpa [List.foldl_cons, face_scan_step] using ih

theorem range'_split (a b c : Nat) (h1 : a ≤ b) (h2 : b ≤ c) :
    List.range' a (c - a) = List.range' a (b - a) ++ List.range' b (c - b) := by
  have := List.range'_append a (b - a) (c - b) 1
  simp only [Nat.one_mul] at this
  rw [show a + (b - a) = b by omega] at this
  rw [this]
  congr 1
  omega

theorem face_loop_succ (faces : Index) (k : Nat) (s : FaceState) :
    face_loop faces (k + 1) s =
      if !s.to_treat.isEmpty || s.it != s.map.size then
        match face_loop_body faces s with
        | none => none
        | some s1 => face_loop faces k s1
      else some s := rfl

theorem face_loop_eq_scan (faces : Index) :
    ∀ n (s : FaceState) k, s.to_treat = [] → s.it ≤ s.map.size → s.map.size - s.it ≤ n → n < k →
      (s.it < s.map.size → s.map.used s.it = true) →
      face_loop faces k s =
        ((List.range' s.it (s.map.size - s.it)).foldl (face_scan_step faces)
          (some s.toScan)).map ScanState.toFace := by
  intro n
  induction n with
  | zero =>
    intro s k hst hle hn hk _
    have hit : s.it = s.map.size := by omega
    obtain ⟨k, rfl⟩ : ∃ k1, k = k1 + 1 := ⟨k - 1, by omega⟩
    cases s
    simp_all [face_loop, FaceState.toScan, ScanState.toFace]
  | succ n ih =>
    intro s k hst hle hn hk hu
    obtain ⟨k, rfl⟩ : ∃ k1, k = k1 + 1 := ⟨k - 1, by omega⟩
    by_cases hit : s.it = s.map.size
    · cases s
      simp_all [face_loop, FaceState.toScan, ScanState.toFace]
    · have hlt : s.it < s.map.size := by omega
      have hb := face_loop_body_scan faces s hst hlt (hu hlt)
      have hr : List.range' s.it (s.map.size - s.it) =
          s.it :: List.range' (s.it + 1) (s.map.size - (s.it + 1)) := by
        obtain ⟨c, hc⟩ : ∃ c, s.map.size - s.it = c + 1 := ⟨s.map.size - s.it - 1, by omega⟩
        rw [hc, List.range'_succ, show s.map.size - (s.it + 1) = c by omega]
      rw [hr, List.foldl_cons, face_loop_succ]
      have hcond : (!s.to_treat.isEmpty || s.it != s.map.size) = true := by
        simp [hst, hit]
      simp only [hcond, if_true]
      cases hbody : face_loop_body faces s with
      | none =>
        rw [hbody] at hb
        simp only at hb
        rw [hb, face_scan_fold_none]; rfl
      | some s1 =>
        rw [hbody] at hb
        simp only at hb
        obtain ⟨e1, e2, e3, e4, e5, e6, e7⟩ := hb
        rw [e1, range'_split (s.it + 1) s1.it s.map.size (by omega) e5, List.foldl_append,
          face_scan_skip faces s1.toScan]
        · have := ih s1 k e2 (by omega) (by omega) (by omega) (by intro h; exact e7 (by omega))
          simp only [this, e3]
        · intro j hj1 hj2
          exact e6 j (by omega) (by omega)

end CMapTools

namespace CMapTools

/-- The face pass is the plain linear scan, on every map. -/
theorem face_pass_eq_scan (m : CMap) :
    surface_simplification_in_one_face m = face_scan m := by
  unfold surface_simplification_in_one_face face_scan
  cases hinit : initialize_faces m with
  | none => rfl
  | some p =>
    obtain ⟨uftrees, faces⟩ := p
    simp only
    obtain ⟨b1, b2, b3⟩ := darts_begin_spec { m with automatic_attributes_management := false }
    have h := face_loop_eq_scan faces m.size
      { map := { m with automatic_attributes_management := false }, uftrees := uftrees,
        treated := fun _ => false, to_treat := [],
        it := CMap.darts_begin { m with automatic_attributes_management := false },
        removed := [] } (m.size + 1) rfl b1 (by simp) (by omega) b3
    rw [h]
    have hr : List.range m.size =
        List.range' 0 (CMap.darts_begin { m with automatic_attributes_management := false } - 0) ++
        List.range' (CMap.darts_begin { m with automatic_attributes_management := false })
          (m.size - CMap.darts_begin { m with automatic_attributes_management := false }) := by
      rw [← range'_split 0 _ m.size (by omega) b1, List.range_eq_range']
      simp
    unfold face_scan_run
    rw [hr, List.foldl_append, face_scan_skip faces _ _ 0 (fun j _ hj => b2 j (by simpa using hj))]
    simp only [FaceState.toScan]
    generalize List.foldl (face_scan_step faces) (some _) (List.range' _ _) = r
    cases r <;> rfl

/-! ## The loop of the vertex pass is the plain scan -/

theorem vertex_scan_step_unused (vertices : Index) (s : ScanState) (j : Nat)
    (h : s.map.used j = false) : vertex_scan_step vertices (some s) j = some s := by
  simp [vertex_scan_step, CMap.is_dart_used, h]

theorem vertex_scan_skip (vertices : Index) (s : ScanState) :
    ∀ n i, (∀ j, i ≤ j → j < i + n → s.map.used j = false) →
      (List.range' i n).foldl (vertex_scan_step vertices) (some s) = some s := by
  intro n
  induction n with
  | zero => intro i _; rfl
  | succ n ih =>
    intro i h
    rw [List.range'_succ, List.foldl_cons,
      vertex_scan_step_unused vertices s i (h i (le_refl _) (by omega))]
    exact ih (i + 1) (fun j h1 h2 => h j (by omega) (by omega))

theorem vertex_scan_fold_none (vertices : Index) (l : List Nat) :
    l.foldl (vertex_scan_step vertices) none = none := by
  induction l with
  | nil => rfl
  | cons a l ih => simpa [List.foldl_cons, vertex_scan_step] using ih

/-- What the body of the loop of the vertex pass does when the iterator stands
on a live dart: the plain scan step at that dart, after which the iterator
stands on the next live dart of the edited map. -/
theorem vertex_loop_body_scan (vertices : Index) (s : VertexState) (tr : Nat → Bool)
    (hit : s.it < s.map.size) (hu : s.map.used s.it = true) :
    match vertex_loop_body vertices s with
    | none => vertex_scan_step vertices (some (s.toScan tr)) s.it = none
    | some s1 =>
      vertex_scan_step vertices (some (s.toScan tr)) s.it = some (s1.toScan tr) ∧
      s1.map.size = s.map.size ∧ s.it < s1.it ∧ s1.it ≤ s.map.size ∧
      (∀ j, s.it < j → j < s1.it → s1.map.used j = false) ∧
      (s1.it < s.map.size → s1.map.used s1.it = true) := by
  obtain ⟨h1, h2, h3, h4⟩ := increment_spec s.map s.it hit
  have hd : s.map.is_dart_used s.it = true := by simp [CMap.is_dart_used, hit, hu]
  unfold vertex_loop_body vertex_scan_step
  simp only [VertexState.toScan, hd, if_true]
  cases ha : get_uftree s.uftrees vertices s.it with
  | none => simp
  | some a =>
    cases hb : get_uftree s.uftrees vertices (s.map.beta2 s.it) with
    | none => simp
    | some b =>
      by_cases hab : a = b
      · have hne : (a != b) = false := by simp [hab]
        simp only [hne]
        simp
        exact ⟨h1, h2, h3, h4⟩
      · have hne : (a != b) = true := by simp [hab]
        simp only [hne]
        obtain ⟨i1, i2, i3, i4⟩ := increment_spec (contract_cell_1 s.map s.it) s.it
          (by simpa [contract_cell_1_size] using hit)
        simp only [contract_cell_1_size] at i2 i4
        simp
        exact ⟨contract_cell_1_size _ _, i1, i2, i3, i4⟩

theorem vertex_loop_succ (vertices : Index) (k : Nat) (s : VertexState) :
    vertex_loop vertices (k + 1) s =
      if s.it != s.map.size then
        match vertex_loop_body vertices s with
        | none => none
        | some s1 => vertex_loop vertices k s1
      else some s := rfl

theorem vertex_loop_eq_scan (vertices : Index) (tr : Nat → Bool) :
    ∀ n (s : VertexState) k, s.it ≤ s.map.size → s.map.size - s.it ≤ n → n < k →
      (s.it < s.map.size → s.map.used s.it = true) →
      vertex_loop vertices k s =
        ((List.range' s.it (s.map.size - s.it)).foldl (vertex_scan_step vertices)
          (some (s.toScan tr))).map ScanState.toVertex := by
  intro n
  induction n with
  | zero =>
    intro s k hle hn hk _
    have hit : s.it = s.map.size := by omega
    obtain ⟨k, rfl⟩ : ∃ k1, k = k1 + 1 := ⟨k - 1, by omega⟩
    cases s
    simp_all [vertex_loop, VertexState.toScan, ScanState.toVertex]
  | succ n ih =>
    intro s k hle hn hk hu
    obtain ⟨k, rfl⟩ : ∃ k1, k = k1 + 1 := ⟨k - 1, by omega⟩
    by_cases hit : s.it = s.map.size
    · cases s
      simp_all [vertex_loop, VertexState.toScan, ScanState.toVertex]
    · have hlt : s.it < s.map.size := by omega
      have hb := vertex_loop_body_scan vertices s tr hlt (hu hlt)
      have hr : List.range' s.it (s.map.size - s.it) =
          s.it :: List.range' (s.it + 1) (s.map.size - (s.it + 1)) := by
        obtain ⟨c, hc⟩ : ∃ c, s.map.size - s.it = c + 1 := ⟨s.map.size - s.it - 1, by omega⟩
        rw [hc, List.range'_succ, show s.map.size - (s.it + 1) = c by omega]
      rw [hr, List.foldl_cons, vertex_loop_succ]
      have hcond : (s.it != s.map.size) = true := by simp [hit]
      simp only [hcond, if_true]
      cases hbody : vertex_loop_body vertices s with
      | none =>
        rw [hbody] at hb
        simp only at hb
        rw [hb, vertex_scan_fold_none]; rfl
      | some s1 =>
        rw [hbody] at hb
        simp only at hb
        obtain ⟨e1, e3, e4, e5, e6, e7⟩ := hb
        rw [e1, range'_split (s.it + 1) s1.it s.map.size (by omega) e5, List.foldl_append,
          vertex_scan_skip vertices (s1.toScan tr)]
        · have := ih s1 k (by omega) (by omega) (by omega) (by intro h; exact e7 (by omega))
          simp only [this, e3]
        · intro j hj1 hj2
          exact e6 j (by omega) (by omega)

/-- The vertex pass is the plain linear scan, on every map. -/
theorem vertex_pass_eq_scan (m : CMap) :
    surface_simplification_in_one_vertex m = vertex_scan m := by
  unfold surface_simplification_in_one_vertex vertex_scan
  cases hinit : initialize_vertices m with
  | none => rfl
  | some p =>
    obtain ⟨uftrees, vertices⟩ := p
    simp only
    obtain ⟨b1, b2, b3⟩ := darts_begin_spec { m with automatic_attributes_management := false }
    have h := vertex_loop_eq_scan vertices (fun _ => false) m.size
      { map := { m with automatic_attributes_management := false }, uftrees := uftrees,
        it := CMap.darts_begin { m with automatic_attributes_management := false },
        contracted := [] } (m.size + 1) b1 (by simp) (by omega) b3
    rw [h]
    have hr : List.range m.size =
        List.range' 0 (CMap.darts_begin { m with automatic_attributes_management := false } - 0) ++
        List.range' (CMap.darts_begin { m with automatic_attributes_management := false })
          (m.size - CMap.darts_begin { m with automatic_attributes_management := false }) := by
      rw [← range'_split 0 _ m.size (by omega) b1, List.range_eq_range']
      simp
    unfold vertex_scan_run
    rw [hr, List.foldl_append,
      vertex_scan_skip vertices _ _ 0 (fun j _ hj => b2 j (by simpa using hj))]
    simp only [VertexState.toScan]
    generalize List.foldl (vertex_scan_step vertices) (some _) (List.range' _ _) = r
    cases r <;> rfl

end CMapTools

namespace CMapTools

/-! ## The indexers are instances of one generic indexer -/

theorem face_orbit_loop_eq (m : CMap) (it newuf : Nat) :
    ∀ k cur st, face_orbit_loop m it newuf k cur st = orbit_loop m.beta1 it newuf k cur st := by
  intro k
  induction k with
  | zero => intro cur st; rfl
  | succ k ih =>
    intro cur st
    obtain ⟨index, treated⟩ := st
    simp only [face_orbit_loop, orbit_loop, ih]

theorem turn_eq {m : CMap} (hm : m.Boundaryless) {d : Nat} (hd : m.IsDart d) :
    m.turn d = m.beta1 (m.beta2 d) ∧ m.turn d ≠ m.size ∧ m.IsDart (m.turn d) := by
  obtain ⟨_, _, h2, h2u, _, _⟩ := hm d hd.1 hd.2
  obtain ⟨⟨h1, h1u, _⟩, _, _⟩ := hm _ h2 h2u
  have e : m.turn d = m.beta1 (m.beta2 d) := by
    unfold CMap.turn
    rw [if_neg]
    rintro (h | h)
    · exact absurd hd.1 (by omega)
    · omega
  rw [e]
  exact ⟨rfl, by omega, h1, h1u⟩

/-- On a map without boundary no free dart stops the walk around a vertex, which is then
the plain walk along `beta1 ∘ beta2`. -/
theorem vertex_orbit_loop_eq {m : CMap} (hm : m.Boundaryless) (it newuf : Nat) :
    ∀ k cur, m.IsDart cur → ∀ st, vertex_orbit_loop m it newuf k cur st =
      orbit_loop (fun d => m.beta1 (m.beta2 d)) it newuf k cur st := by
  intro k
  induction k with
  | zero => intro cur _ st; rfl
  | succ k ih =>
    intro cur hcur st
    obtain ⟨index, treated⟩ := st
    obtain ⟨e, hne, hd⟩ := turn_eq hm hcur
    simp only [vertex_orbit_loop, orbit_loop, if_neg hne]
    rw [e] at hd ⊢
    split
    · exact ih _ hd _
    · rfl

theorem initialize_faces_eq (m : CMap) : initialize_faces m = initialize_cells m.beta1 m := by
  have h : initialize_faces_step m = initialize_cells_step m.beta1 (m.size + 1) := by
    funext st it
    cases st with
    | none => rfl
    | some p =>
      obtain ⟨u, i, t⟩ := p
      simp only [initialize_faces_step, initialize_cells_step, face_orbit_loop_eq]
  simp only [initialize_faces, initialize_cells, h]

theorem initialize_vertices_eq {m : CMap} (hm : m.Boundaryless) :
    initialize_vertices m = initialize_cells (fun d => m.beta1 (m.beta2 d)) m := by
  have h : m.darts.foldl (initialize_vertices_step m)
        (some (UFTree.empty, fun _ => none, fun _ => false)) =
      m.darts.foldl (initialize_cells_step (fun d => m.beta1 (m.beta2 d)) (m.size + 1))
        (some (UFTree.empty, fun _ => none, fun _ => false)) := by
    apply List.foldl_ext
    intro st it hit
    have hd : m.IsDart it := by
      simpa [CMap.darts, CMap.IsDart, List.mem_filter] using hit
    cases st with
    | none => rfl
    | some p =>
      obtain ⟨u, i, t⟩ := p
      simp only [initialize_vertices_step, initialize_cells_step,
        vertex_orbit_loop_eq hm _ _ _ _ hd]
  simp only [initialize_vertices, initialize_cells, h]

/-! ## Permutations of a finite set of darts -/

theorem PermOn.iterate_mem {n : Nat} {S : Nat → Prop} {f g : Nat → Nat} (h : PermOn n S f g)
    {x : Nat} (hx : S x) : ∀ k, S (f^[k] x) := by
  intro k
  induction k with
  | zero => exact hx
  | succ k ih => rw [Function.iterate_succ_apply']; exact h.maps _ ih

theorem PermOn.perm_symm {n : Nat} {S : Nat → Prop} {f g : Nat → Nat} (h : PermOn n S f g) :
    PermOn n S g f :=
  ⟨h.lt, h.inv_maps, h.maps, h.right_inv, h.left_inv⟩

theorem PermOn.inv_iterate {n : Nat} {S : Nat → Prop} {f g : Nat → Nat} (h : PermOn n S f g)
    {x : Nat} (hx : S x) : ∀ k, g^[k] (f^[k] x) = x := by
  intro k
  induction k with
  | zero => rfl
  | succ k ih =>
    rw [Function.iterate_succ_apply' f, Function.iterate_succ_apply g,
      h.left_inv _ (h.iterate_mem hx k), ih]

theorem PermOn.injective {n : Nat} {S : Nat → Prop} {f g : Nat → Nat} (h : PermOn n S f g)
    {x y : Nat} (hx : S x) (hy : S y) (hxy : f x = f y) : x = y := by
  rw [← h.left_inv x hx, ← h.left_inv y hy, hxy]

/-- Every dart comes back to itself: some positive number of steps, at most `n`, is a period. -/
theorem PermOn.exists_period {n : Nat} {S : Nat → Prop} {f g : Nat → Nat} (h : PermOn n S f g)
    {x : Nat} (hx : S x) : ∃ k, 0 < k ∧ k ≤ n ∧ f^[k] x = x := by
  have hmaps : ∀ i ∈ Finset.range (n + 1), f^[i] x ∈ Finset.range n := by
    intro i _
    exact Finset.mem_range.mpr (h.lt _ (h.iterate_mem hx i))
  obtain ⟨i, hi, j, hj, hij, heq⟩ :=
    Finset.exists_ne_map_eq_of_card_lt_of_maps_to (by simp) hmaps
  have key : ∀ a b, a < b → b ≤ n → f^[a] x = f^[b] x → ∃ k, 0 < k ∧ k ≤ n ∧ f^[k] x = x := by
    intro a b hab hb e
    refine ⟨b - a, by omega, by omega, ?_⟩
    have e2 : f^[b] x = f^[a] (f^[b - a] x) := by
      rw [← Function.iterate_add_apply]; congr 1; omega
    have := h.inv_iterate (h.iterate_mem hx (b - a)) a
    rw [← e2, ← e, h.inv_iterate hx a] at this
    exact this.symm
  simp only [Finset.mem_range] at hi hj
  rcases Nat.lt_or_gt_of_ne hij with hlt | hgt
  · exact key i j hlt (by omega) heq
  · exact key j i hgt (by omega) heq.symm

theorem PermOn.mem_periodicPts {n : Nat} {S : Nat → Prop} {f g : Nat → Nat} (h : PermOn n S f g)
    {x : Nat} (hx : S x) : x ∈ Function.periodicPts f := by
  obtain ⟨k, hk, _, e⟩ := h.exists_period hx
  exact Function.mk_mem_periodicPts hk e

theorem PermOn.minimalPeriod_pos {n : Nat} {S : Nat → Prop} {f g : Nat → Nat}
    (h : PermOn n S f g) {x : Nat} (hx : S x) : 0 < Function.minimalPeriod f x :=
  Function.minimalPeriod_pos_of_mem_periodicPts (h.mem_periodicPts hx)

theorem PermOn.minimalPeriod_le {n : Nat} {S : Nat → Prop} {f g : Nat → Nat}
    (h : PermOn n S f g) {x : Nat} (hx : S x) : Function.minimalPeriod f x ≤ n := by
  obtain ⟨k, hk, hkn, e⟩ := h.exists_period hx
  exact le_trans (Function.IsPeriodicPt.minimalPeriod_le hk e) hkn

theorem SameOrbit.orbit_refl (f : Nat → Nat) (a : Nat) : SameOrbit f a a := ⟨0, rfl⟩

theorem SameOrbit.orbit_trans {f : Nat → Nat} {a b c : Nat} (h1 : SameOrbit f a b)
    (h2 : SameOrbit f b c) : SameOrbit f a c := by
  obtain ⟨i, rfl⟩ := h1
  obtain ⟨j, rfl⟩ := h2
  exact ⟨j + i, Function.iterate_add_apply f j i a⟩

theorem SameOrbit.one_step (f : Nat → Nat) (a : Nat) : SameOrbit f a (f a) := ⟨1, rfl⟩

theorem PermOn.sameOrbit_symm {n : Nat} {S : Nat → Prop} {f g : Nat → Nat} (h : PermOn n S f g)
    {a b : Nat} (ha : S a) (hab : SameOrbit f a b) : SameOrbit f b a := by
  obtain ⟨k, rfl⟩ := hab
  have hp := h.minimalPeriod_pos ha
  refine ⟨Function.minimalPeriod f a - k % Function.minimalPeriod f a, ?_⟩
  rw [← Function.iterate_mod_minimalPeriod_eq (n := k), ← Function.iterate_add_apply]
  have hlt := Nat.mod_lt k hp
  rw [Nat.sub_add_cancel hlt.le]
  exact Function.iterate_minimalPeriod

theorem PermOn.sameOrbit_mem {n : Nat} {S : Nat → Prop} {f g : Nat → Nat} (h : PermOn n S f g)
    {a b : Nat} (ha : S a) (hab : SameOrbit f a b) : S b := by
  obtain ⟨k, rfl⟩ := hab
  exact h.iterate_mem ha k

/-- In a permutation of darts below `n`, a dart of the orbit is met in fewer than `n` steps
(or it is the start itself). -/
theorem PermOn.sameOrbit_bounded {n : Nat} {S : Nat → Prop} {f g : Nat → Nat}
    (h : PermOn n S f g) {a b : Nat} (ha : S a) (hab : SameOrbit f a b) :
    ∃ k, k < Function.minimalPeriod f a ∧ f^[k] a = b := by
  obtain ⟨k, rfl⟩ := hab
  exact ⟨k % Function.minimalPeriod f a, Nat.mod_lt k (h.minimalPeriod_pos ha),
    Function.iterate_mod_minimalPeriod_eq⟩

theorem PermOn.sameOrbit_inv {n : Nat} {S : Nat → Prop} {f g : Nat → Nat} (h : PermOn n S f g)
    {a : Nat} (ha : S a) : SameOrbit f a (g a) := by
  have : SameOrbit f (g a) a := ⟨1, h.right_inv a ha⟩
  exact h.sameOrbit_symm (h.inv_maps a ha) this

theorem reaches_iff (f : Nat → Nat) (n a b : Nat) :
    reaches f n a b = true ↔ ∃ k, k < n ∧ f^[k] a = b := by
  simp [reaches]

theorem PermOn.reaches_iff_sameOrbit {n : Nat} {S : Nat → Prop} {f g : Nat → Nat}
    (h : PermOn n S f g) {a b : Nat} (ha : S a) :
    reaches f n a b = true ↔ SameOrbit f a b := by
  rw [reaches_iff]
  constructor
  · rintro ⟨k, _, e⟩; exact ⟨k, e⟩
  · intro hab
    obtain ⟨k, hk, e⟩ := h.sameOrbit_bounded ha hab
    exact ⟨k, lt_of_lt_of_le hk (h.minimalPeriod_le ha), e⟩

end CMapTools

namespace CMapTools

/-! ## The indexers -/

theorem orbit_loop_spec (f : Nat → Nat) (it h p : Nat)
    (hmin : ∀ i, 0 < i → i < p → f^[i] it ≠ it) (hper : f^[p] it = it) :
    ∀ r j k index treated, j + r + 1 = p → r < k →
      ∃ index1 treated1, orbit_loop f it h k (f^[j] it) (index, treated) = some (index1, treated1) ∧
        (∀ x, (∃ i, j ≤ i ∧ i < p ∧ f^[i] it = x) → index1 x = some h ∧ treated1 x = true) ∧
        (∀ x, (¬ ∃ i, j ≤ i ∧ i < p ∧ f^[i] it = x) → index1 x = index x ∧ treated1 x = treated x) := by
  intro r
  induction r with
  | zero =>
    intro j k index treated hj hk
    obtain ⟨k, rfl⟩ : ∃ k1, k = k1 + 1 := ⟨k - 1, by omega⟩
    have hnext : f (f^[j] it) = it := by
      have hjp : j.succ = p := by omega
      rw [← Function.iterate_succ_apply' f, hjp]; exact hper
    refine ⟨Function.update index (f^[j] it) (some h), Function.update treated (f^[j] it) true,
      by simp only [orbit_loop, hnext, ne_eq, not_true_eq_false, if_false], ?_, ?_⟩
    · rintro x ⟨i, h1, h2, rfl⟩
      have : i = j := by omega
      subst this
      simp
    · intro x hx
      have hne : x ≠ f^[j] it := by
        rintro rfl
        exact hx ⟨j, le_refl _, by omega, rfl⟩
      simp [Function.update_noteq hne]
  | succ r ih =>
    intro j k index treated hj hk
    obtain ⟨k, rfl⟩ : ∃ k1, k = k1 + 1 := ⟨k - 1, by omega⟩
    have hnext : f (f^[j] it) ≠ it := by
      rw [← Function.iterate_succ_apply' f]; exact hmin (j + 1) (by omega) (by omega)
    obtain ⟨index1, treated1, e, h1, h2⟩ := ih (j + 1) k
      (Function.update index (f^[j] it) (some h)) (Function.update treated (f^[j] it) true)
      (by omega) (by omega)
    refine ⟨index1, treated1, ?_, ?_, ?_⟩
    · simp only [orbit_loop, hnext, ne_eq, not_false_eq_true, if_true]
      rw [← Function.iterate_succ_apply' f]; exact e
    · rintro x ⟨i, hi1, hi2, rfl⟩
      by_cases hx : ∃ i', j + 1 ≤ i' ∧ i' < p ∧ f^[i'] it = f^[i] it
      · exact h1 _ hx
      · have hij : i = j := by
          by_contra hne
          exact hx ⟨i, by omega, hi2, rfl⟩
        subst hij
        have := h2 _ hx
        simpa using this
    · intro x hx
      have hx' : ¬ ∃ i, j + 1 ≤ i ∧ i < p ∧ f^[i] it = x := by
        rintro ⟨i, a, b, c⟩; exact hx ⟨i, by omega, b, c⟩
      have hne : x ≠ f^[j] it := by
        rintro rfl
        exact hx ⟨j, le_refl _, by omega, rfl⟩
      have := h2 x hx'
      simpa [Function.update_noteq hne] using this

theorem PermOn.orbit_loop_perm {n : Nat} {S : Nat → Prop} {f g : Nat → Nat} (hP : PermOn n S f g)
    {it : Nat} (hit : S it) (h k : Nat) (hk : n ≤ k) (index : Index) (treated : Nat → Bool) :
    ∃ index1 treated1, orbit_loop f it h k it (index, treated) = some (index1, treated1) ∧
      (∀ x, SameOrbit f it x → index1 x = some h ∧ treated1 x = true) ∧
      (∀ x, ¬ SameOrbit f it x → index1 x = index x ∧ treated1 x = treated x) := by
  have hp := hP.minimalPeriod_pos hit
  have hle := hP.minimalPeriod_le hit
  obtain ⟨index1, treated1, e, h1, h2⟩ := CMapTools.orbit_loop_spec f it h (Function.minimalPeriod f it)
    (fun i hi1 hi2 => Function.not_isPeriodicPt_of_pos_of_lt_minimalPeriod (by omega) hi2)
    Function.iterate_minimalPeriod (Function.minimalPeriod f it - 1) 0 k index treated
    (by omega) (by omega)
  refine ⟨index1, treated1, e, ?_, ?_⟩
  · intro x hx
    obtain ⟨i, hi, rfl⟩ := hP.sameOrbit_bounded hit hx
    exact h1 _ ⟨i, Nat.zero_le _, hi, rfl⟩
  · intro x hx
    apply h2
    rintro ⟨i, _, _, rfl⟩
    exact hx ⟨i, rfl⟩

theorem InitInv.init_step {m : CMap} {f g : Nat → Nat} (hP : PermOn m.size m.IsDart f g)
    {uf : UFTree} {index : Index} {treated : Nat → Bool} (hI : InitInv m f uf index treated)
    {it : Nat} (hit : m.IsDart it) :
    ∃ uf1 index1 treated1,
      initialize_cells_step f (m.size + 1) (some (uf, index, treated)) it =
        some (uf1, index1, treated1) ∧
      InitInv m f uf1 index1 treated1 ∧ treated1 it = true ∧
      (∀ x, treated x = true → treated1 x = true) := by
  by_cases ht : treated it = true
  · exact ⟨uf, index, treated, by simp [initialize_cells_step, ht], hI, ht, fun _ h => h⟩
  · obtain ⟨index1, treated1, e, h1, h2⟩ :=
      hP.orbit_loop_perm hit uf.nodes (m.size + 1) (by omega) index treated
    refine ⟨(uf.make_set).1, index1, treated1, ?_, ?_, (h1 it (SameOrbit.orbit_refl f it)).2, ?_⟩
    · simp [initialize_cells_step, ht, UFTree.make_set, e]
    · constructor
      · intro x
        by_cases hx : SameOrbit f it x
        · simp [h1 x hx]
        · rw [(h2 x hx).1, (h2 x hx).2]; exact hI.some_iff x
      · intro x hx
        by_cases hox : SameOrbit f it x
        · exact hP.sameOrbit_mem hit hox
        · rw [(h2 x hox).2] at hx; exact hI.dart x hx
      · intro x hx
        by_cases hox : SameOrbit f it x
        · have hfx : SameOrbit f it (f x) := hox.orbit_trans (SameOrbit.one_step f x)
          rw [(h1 x hox).1, (h1 _ hfx).1, (h1 _ hfx).2]
          exact ⟨rfl, rfl⟩
        · rw [(h2 x hox).2] at hx
          have hfx : ¬ SameOrbit f it (f x) := by
            intro hc
            apply hox
            have := hc.orbit_trans (hP.sameOrbit_inv (hP.sameOrbit_mem hit hc))
            rwa [hP.left_inv x (hI.dart x hx)] at this
          rw [(h2 x hox).1, (h2 _ hfx).1, (h2 _ hfx).2]
          exact hI.closed x hx
      · intro x y h hx hy
        by_cases hox : SameOrbit f it x
        · have hh : h = uf.nodes := by
            rw [(h1 x hox).1] at hx; exact (Option.some.inj hx).symm
          by_cases hoy : SameOrbit f it y
          · exact (hP.sameOrbit_symm hit hox).orbit_trans hoy
          · rw [(h2 y hoy).1] at hy
            have := hI.lt y h hy
            omega
        · rw [(h2 x hox).1] at hx
          by_cases hoy : SameOrbit f it y
          · have hh : h = uf.nodes := by
              rw [(h1 y hoy).1] at hy; exact (Option.some.inj hy).symm
            have := hI.lt x h hx
            omega
          · rw [(h2 y hoy).1] at hy
            exact hI.orbit x y h hx hy
      · intro x h hx
        simp only [UFTree.make_set]
        by_cases hox : SameOrbit f it x
        · rw [(h1 x hox).1] at hx
          have := Option.some.inj hx
          omega
        · rw [(h2 x hox).1] at hx
          have := hI.lt x h hx
          omega
      · intro h
        simp only [UFTree.make_set]
        by_cases hh : h = uf.nodes
        · subst hh; simp
        · rw [Function.update_noteq hh]; exact hI.rep h
    · intro x hx
      by_cases hox : SameOrbit f it x
      · exact (h1 x hox).2
      · rw [(h2 x hox).2]; exact hx

theorem InitInv.init_fold {m : CMap} {f g : Nat → Nat} (hP : PermOn m.size m.IsDart f g) :
    ∀ (l : List Nat), (∀ d ∈ l, m.IsDart d) →
      ∀ uf index treated, InitInv m f uf index treated →
      ∃ uf1 index1 treated1,
        l.foldl (initialize_cells_step f (m.size + 1)) (some (uf, index, treated)) =
          some (uf1, index1, treated1) ∧
        InitInv m f uf1 index1 treated1 ∧ (∀ d ∈ l, treated1 d = true) ∧
        (∀ x, treated x = true → treated1 x = true) := by
  intro l
  induction l with
  | nil =>
    intro _ uf index treated hI
    exact ⟨uf, index, treated, rfl, hI, by simp, fun _ h => h⟩
  | cons a l ih =>
    intro hl uf index treated hI
    obtain ⟨uf1, index1, treated1, e1, hI1, ha, hmono1⟩ := hI.init_step hP (hl a (by simp))
    obtain ⟨uf2, index2, treated2, e2, hI2, hall, hmono2⟩ :=
      ih (fun d hd => hl d (by simp [hd])) uf1 index1 treated1 hI1
    refine ⟨uf2, index2, treated2, by rw [List.foldl_cons, e1, e2], hI2, ?_,
      fun x hx => hmono2 x (hmono1 x hx)⟩
    intro d hd
    rcases List.mem_cons.mp hd with rfl | hd
    · exact hmono2 _ ha
    · exact hall d hd

theorem mem_darts (m : CMap) (d : Nat) : d ∈ m.darts ↔ m.IsDart d := by
  simp [CMap.darts, CMap.IsDart]

/-- The generic indexer returns, and what it returns is one class per orbit. -/
theorem initialize_cells_spec {m : CMap} {f g : Nat → Nat} (hP : PermOn m.size m.IsDart f g) :
    ∃ uf index, initialize_cells f m = some (uf, index) ∧ InitSpec m f uf index := by
  have h0 : InitInv m f UFTree.empty (fun _ => none) (fun _ => false) :=
    ⟨by simp, by simp, by simp, by simp, by simp, fun _ => rfl⟩
  obtain ⟨uf, index, treated, e, hI, hall, _⟩ :=
    InitInv.init_fold hP m.darts (fun d hd => (mem_darts m d).mp hd) _ _ _ h0
  refine ⟨uf, index, by simp [initialize_cells, e], ?_⟩
  have hclosed : ∀ k a, treated a = true → index (f^[k] a) = index a ∧ treated (f^[k] a) = true := by
    intro k
    induction k with
    | zero => intro a ha; exact ⟨rfl, ha⟩
    | succ k ih =>
      intro a ha
      obtain ⟨i1, i2⟩ := ih a ha
      rw [Function.iterate_succ_apply']
      exact ⟨((hI.closed _ i2).2).trans i1, (hI.closed _ i2).1⟩
  constructor
  · intro d hd
    obtain ⟨h, hh⟩ := (hI.some_iff d).mp (hall d ((mem_darts m d).mpr hd))
    exact ⟨h, hh, hI.lt d h hh⟩
  · intro x h hx
    exact hI.dart x ((hI.some_iff x).mpr ⟨h, hx⟩)
  · intro a b ha hb
    have hta := hall a ((mem_darts m a).mpr ha)
    constructor
    · intro hab
      obtain ⟨h, hh⟩ := (hI.some_iff a).mp hta
      exact hI.orbit a b h hh (hab ▸ hh)
    · rintro ⟨k, rfl⟩
      exact ((hclosed k a hta).1).symm
  · exact hI.rep

end CMapTools

namespace CMapTools

/-! ## Maps without boundary -/

theorem CMap.Boundaryless.perm1 {m : CMap} (h : m.Boundaryless) :
    PermOn m.size m.IsDart m.beta1 m.beta0 where
  lt := fun _ hx => hx.1
  maps := fun x hx => ⟨(h x hx.1 hx.2).1.1, (h x hx.1 hx.2).1.2.1⟩
  inv_maps := fun x hx => ⟨(h x hx.1 hx.2).2.1.1, (h x hx.1 hx.2).2.1.2.1⟩
  left_inv := fun x hx => (h x hx.1 hx.2).1.2.2
  right_inv := fun x hx => (h x hx.1 hx.2).2.1.2.2

theorem CMap.Boundaryless.perm2 {m : CMap} (h : m.Boundaryless) :
    PermOn m.size m.IsDart m.beta2 m.beta2 where
  lt := fun _ hx => hx.1
  maps := fun x hx => ⟨(h x hx.1 hx.2).2.2.1, (h x hx.1 hx.2).2.2.2.1⟩
  inv_maps := fun x hx => ⟨(h x hx.1 hx.2).2.2.1, (h x hx.1 hx.2).2.2.2.1⟩
  left_inv := fun x hx => (h x hx.1 hx.2).2.2.2.2.1
  right_inv := fun x hx => (h x hx.1 hx.2).2.2.2.2.1

theorem CMap.Boundaryless.beta2_ne {m : CMap} (h : m.Boundaryless) {x : Nat} (hx : m.IsDart x) :
    m.beta2 x ≠ x := (h x hx.1 hx.2).2.2.2.2.2

theorem PermOn.comp {n : Nat} {S : Nat → Prop} {f g f2 g2 : Nat → Nat} (h : PermOn n S f g)
    (h2 : PermOn n S f2 g2) : PermOn n S (fun x => f (f2 x)) (fun x => g2 (g x)) where
  lt := h.lt
  maps := fun x hx => h.maps _ (h2.maps x hx)
  inv_maps := fun x hx => h2.inv_maps _ (h.inv_maps x hx)
  left_inv := fun x hx => by
    show g2 (g (f (f2 x))) = x
    rw [h.left_inv _ (h2.maps x hx), h2.left_inv x hx]
  right_inv := fun x hx => by
    show f (f2 (g2 (g x))) = x
    rw [h2.right_inv _ (h.inv_maps x hx), h.right_inv x hx]

/-- The vertex permutation `beta1 ∘ beta2` of a map without boundary. -/
theorem CMap.Boundaryless.permV {m : CMap} (h : m.Boundaryless) :
    PermOn m.size m.IsDart (fun d => m.beta1 (m.beta2 d)) (fun d => m.beta2 (m.beta0 d)) :=
  h.perm1.comp h.perm2

theorem CMap.Boundaryless.of_perm {m : CMap} (h1 : PermOn m.size m.IsDart m.beta1 m.beta0)
    (h2 : PermOn m.size m.IsDart m.beta2 m.beta2) (hne : ∀ x, m.IsDart x → m.beta2 x ≠ x) :
    m.Boundaryless := by
  intro d hd hu
  have hx : m.IsDart d := ⟨hd, hu⟩
  exact ⟨⟨(h1.maps d hx).1, (h1.maps d hx).2, h1.left_inv d hx⟩,
    ⟨(h1.inv_maps d hx).1, (h1.inv_maps d hx).2, h1.right_inv d hx⟩,
    ⟨(h2.maps d hx).1, (h2.maps d hx).2, h2.left_inv d hx, hne d hx⟩⟩

/-! ## Deleting the two darts of an edge from a permutation -/

/-- Walking past the two deleted darts `d`, `e` turns inverse permutations `f`, `g` of `S`
into inverse permutations of `S` without `d` and `e`; `opp` is any involution of the pair. -/
theorem PermOn.skip_left {n : Nat} {S : Nat → Prop} {f g opp : Nat → Nat} (h : PermOn n S f g)
    {d e : Nat} (hd : S d) (he : S e)
    (ho : ∀ y, y = d ∨ y = e → (opp y = d ∨ opp y = e) ∧ opp (opp y) = y)
    {x : Nat} (hx : S x) (hxd : x ≠ d) (hxe : x ≠ e) :
    (S (skip_deleted f opp d e (f x)) ∧ skip_deleted f opp d e (f x) ≠ d ∧
      skip_deleted f opp d e (f x) ≠ e) ∧
    skip_deleted g opp d e (g (skip_deleted f opp d e (f x))) = x := by
  have hS : ∀ y, y = d ∨ y = e → S y := by rintro y (rfl | rfl) <;> assumption
  have hxg : ¬ (x = d ∨ x = e) := by rintro (h | h) <;> contradiction
  by_cases hy : f x = d ∨ f x = e
  · obtain ⟨ho1, ho2⟩ := ho _ hy
    by_cases hy2 : f (opp (f x)) = d ∨ f (opp (f x)) = e
    · obtain ⟨ho3, ho4⟩ := ho _ hy2
      have hab : opp (f x) ≠ opp (f (opp (f x))) := by
        intro hc
        have h1 : f x = f (opp (f x)) := by
          calc f x = opp (opp (f x)) := ho2.symm
            _ = opp (opp (f (opp (f x)))) := congrArg opp hc
            _ = f (opp (f x)) := ho4
        exact hxg (by rw [h.injective hx (hS _ ho1) h1]; exact ho1)
      have hy3 : ¬ (f (opp (f (opp (f x)))) = d ∨ f (opp (f (opp (f x)))) = e) := by
        intro hc
        have hcase : f (opp (f (opp (f x)))) = f x ∨ f (opp (f (opp (f x)))) = f (opp (f x)) := by
          have hne : f x ≠ f (opp (f x)) := by
            intro h1
            exact hxg (by rw [h.injective hx (hS _ ho1) h1]; exact ho1)
          generalize f (opp (f (opp (f x)))) = w at hc ⊢
          generalize f (opp (f x)) = v at hy2 hne ⊢
          generalize f x = u at hy hne ⊢
          omega
        rcases hcase with h1 | h1
        · exact hxg (by rw [← h.injective (hS _ ho3) hx h1]; exact ho3)
        · exact hab (h.injective (hS _ ho3) (hS _ ho1) h1).symm
      have e1 : skip_deleted f opp d e (f x) = f (opp (f (opp (f x)))) := by
        simp only [skip_deleted, hy, hy2, if_true]
      rw [e1]
      refine ⟨⟨h.maps _ (hS _ ho3), fun c => hy3 (Or.inl c), fun c => hy3 (Or.inr c)⟩, ?_⟩
      rw [h.left_inv _ (hS _ ho3)]
      have e2 : g (opp (opp (f (opp (f x))))) = opp (f x) := by
        rw [ho4, h.left_inv _ (hS _ ho1)]
      simp only [skip_deleted, ho3, if_true, e2, ho1, ho2, h.left_inv x hx]
    · have e1 : skip_deleted f opp d e (f x) = f (opp (f x)) := by
        simp only [skip_deleted, hy, hy2, if_true, if_false]
      rw [e1]
      refine ⟨⟨h.maps _ (hS _ ho1), fun c => hy2 (Or.inl c), fun c => hy2 (Or.inr c)⟩, ?_⟩
      rw [h.left_inv _ (hS _ ho1)]
      simp only [skip_deleted, ho1, if_true, ho2, h.left_inv x hx, hxg, if_false]
  · have e1 : skip_deleted f opp d e (f x) = f x := by
      simp only [skip_deleted, hy, if_false]
    rw [e1]
    refine ⟨⟨h.maps x hx, fun c => hy (Or.inl c), fun c => hy (Or.inr c)⟩, ?_⟩
    rw [h.left_inv x hx]
    simp only [skip_deleted, hxg, if_false]

theorem PermOn.skip {n : Nat} {S : Nat → Prop} {f g opp : Nat → Nat} (h : PermOn n S f g)
    {d e : Nat} (hd : S d) (he : S e)
    (ho : ∀ y, y = d ∨ y = e → (opp y = d ∨ opp y = e) ∧ opp (opp y) = y)
    {f1 g1 : Nat → Nat}
    (hf1 : ∀ x, x ≠ d → x ≠ e → f1 x = skip_deleted f opp d e (f x))
    (hg1 : ∀ x, x ≠ d → x ≠ e → g1 x = skip_deleted g opp d e (g x)) :
    PermOn n (fun x => S x ∧ x ≠ d ∧ x ≠ e) f1 g1 where
  lt := fun x hx => h.lt x hx.1
  maps := fun x hx => by
    rw [hf1 x hx.2.1 hx.2.2]; exact (h.skip_left hd he ho hx.1 hx.2.1 hx.2.2).1
  inv_maps := fun x hx => by
    rw [hg1 x hx.2.1 hx.2.2]; exact (h.perm_symm.skip_left hd he ho hx.1 hx.2.1 hx.2.2).1
  left_inv := fun x hx => by
    have := h.skip_left hd he ho hx.1 hx.2.1 hx.2.2
    rw [hf1 x hx.2.1 hx.2.2, hg1 _ this.1.2.1 this.1.2.2]; exact this.2
  right_inv := fun x hx => by
    have := h.perm_symm.skip_left hd he ho hx.1 hx.2.1 hx.2.2
    rw [hg1 x hx.2.1 hx.2.2, hf1 _ this.1.2.1 this.1.2.2]; exact this.2

end CMapTools

namespace CMapTools

theorem PermOn.congr {n : Nat} {S T : Nat → Prop} {f g : Nat → Nat} (h : PermOn n S f g)
    (hST : ∀ x, T x ↔ S x) : PermOn n T f g where
  lt := fun x hx => h.lt x ((hST x).mp hx)
  maps := fun x hx => (hST _).mpr (h.maps x ((hST x).mp hx))
  inv_maps := fun x hx => (hST _).mpr (h.inv_maps x ((hST x).mp hx))
  left_inv := fun x hx => h.left_inv x ((hST x).mp hx)
  right_inv := fun x hx => h.right_inv x ((hST x).mp hx)

theorem remove_cell_1_isDart (m : CMap) (d x : Nat) :
    (remove_cell_1 m d).IsDart x ↔ m.IsDart x ∧ x ≠ d ∧ x ≠ m.beta2 d := by
  simp only [CMap.IsDart, remove_cell_1, Bool.and_eq_true, Bool.not_eq_true', Bool.or_eq_false_iff,
    beq_eq_false_iff_ne, ne_eq]
  tauto

theorem contract_cell_1_isDart (m : CMap) (d x : Nat) :
    (contract_cell_1 m d).IsDart x ↔ m.IsDart x ∧ x ≠ d ∧ x ≠ m.beta2 d := by
  simp only [CMap.IsDart, contract_cell_1, Bool.and_eq_true, Bool.not_eq_true', Bool.or_eq_false_iff,
    beq_eq_false_iff_ne, ne_eq]
  tauto

theorem remove_cell_1_beta2 (m : CMap) (d : Nat) : (remove_cell_1 m d).beta2 = m.beta2 := rfl

theorem contract_cell_1_beta2 (m : CMap) (d : Nat) : (contract_cell_1 m d).beta2 = m.beta2 := rfl

theorem remove_cell_1_beta1 (m : CMap) (d x : Nat) (h1 : x ≠ d) (h2 : x ≠ m.beta2 d) :
    (remove_cell_1 m d).beta1 x = skip_deleted m.beta1 m.beta2 d (m.beta2 d) (m.beta1 x) := by
  simp [remove_cell_1, h1, h2]

theorem remove_cell_1_beta0 (m : CMap) (d x : Nat) (h1 : x ≠ d) (h2 : x ≠ m.beta2 d) :
    (remove_cell_1 m d).beta0 x = skip_deleted m.beta0 m.beta2 d (m.beta2 d) (m.beta0 x) := by
  simp [remove_cell_1, h1, h2]

theorem contract_cell_1_beta1 (m : CMap) (d x : Nat) (h1 : x ≠ d) (h2 : x ≠ m.beta2 d) :
    (contract_cell_1 m d).beta1 x = skip_deleted m.beta1 id d (m.beta2 d) (m.beta1 x) := by
  simp [contract_cell_1, h1, h2]

theorem contract_cell_1_beta0 (m : CMap) (d x : Nat) (h1 : x ≠ d) (h2 : x ≠ m.beta2 d) :
    (contract_cell_1 m d).beta0 x = skip_deleted m.beta0 id d (m.beta2 d) (m.beta0 x) := by
  simp [contract_cell_1, h1, h2]

theorem CMap.Boundaryless.opp_beta2 {m : CMap} (h : m.Boundaryless) {d : Nat} (hd : m.IsDart d) :
    ∀ y, y = d ∨ y = m.beta2 d →
      (m.beta2 y = d ∨ m.beta2 y = m.beta2 d) ∧ m.beta2 (m.beta2 y) = y := by
  rintro y (rfl | rfl)
  · exact ⟨Or.inr rfl, h.perm2.left_inv _ hd⟩
  · exact ⟨Or.inl (h.perm2.left_inv _ hd), by rw [h.perm2.left_inv _ hd]⟩

theorem CMap.Boundaryless.beta2_pair {m : CMap} (h : m.Boundaryless) {d : Nat} (hd : m.IsDart d) :
    PermOn m.size (fun x => m.IsDart x ∧ x ≠ d ∧ x ≠ m.beta2 d) m.beta2 m.beta2 := by
  have key : ∀ x, m.IsDart x ∧ x ≠ d ∧ x ≠ m.beta2 d →
      m.IsDart (m.beta2 x) ∧ m.beta2 x ≠ d ∧ m.beta2 x ≠ m.beta2 d := by
    rintro x ⟨hx, h1, h2⟩
    refine ⟨h.perm2.maps x hx, ?_, ?_⟩
    · intro hc
      apply h2
      rw [← hc, h.perm2.left_inv x hx]
    · intro hc
      exact h1 (h.perm2.injective hx hd hc)
  exact ⟨fun x hx => hx.1.1, key, key, fun x hx => h.perm2.left_inv x hx.1,
    fun x hx => h.perm2.left_inv x hx.1⟩

/-- Removing an edge of a map without boundary leaves a map without boundary. -/
theorem remove_cell_1_boundaryless {m : CMap} (h : m.Boundaryless) {d : Nat} (hd : m.IsDart d) :
    (remove_cell_1 m d).Boundaryless := by
  have he := h.perm2.maps d hd
  apply CMap.Boundaryless.of_perm
  · exact (h.perm1.skip hd he (h.opp_beta2 hd) (remove_cell_1_beta1 m d)
      (remove_cell_1_beta0 m d)).congr (remove_cell_1_isDart m d)
  · exact (h.beta2_pair hd).congr (remove_cell_1_isDart m d)
  · intro x hx
    exact h.beta2_ne ((remove_cell_1_isDart m d x).mp hx).1

/-- Contracting an edge of a map without boundary leaves a map without boundary. -/
theorem contract_cell_1_boundaryless {m : CMap} (h : m.Boundaryless) {d : Nat} (hd : m.IsDart d) :
    (contract_cell_1 m d).Boundaryless := by
  have he := h.perm2.maps d hd
  have ho : ∀ y, y = d ∨ y = m.beta2 d → (id y = d ∨ id y = m.beta2 d) ∧ id (id y) = y :=
    fun y hy => ⟨hy, rfl⟩
  apply CMap.Boundaryless.of_perm
  · exact (h.perm1.skip hd he ho (contract_cell_1_beta1 m d)
      (contract_cell_1_beta0 m d)).congr (contract_cell_1_isDart m d)
  · exact (h.beta2_pair hd).congr (contract_cell_1_isDart m d)
  · intro x hx
    exact h.beta2_ne ((contract_cell_1_isDart m d x).mp hx).1

end CMapTools

namespace CMapTools

/-! ## Counting classes -/

theorem class_count_congr (r r1 : Nat → Nat → Bool) :
    ∀ l : List Nat, (∀ a ∈ l, ∀ b ∈ l, r a b = r1 a b) → class_count r l = class_count r1 l := by
  intro l
  induction l with
  | nil => intro _; rfl
  | cons d ds ih =>
    intro h
    have h1 : ∀ l2 : List Nat, (∀ j ∈ l2, j ∈ ds) →
        l2.any (fun j => r j d) = l2.any (fun j => r1 j d) := by
      intro l2
      induction l2 with
      | nil => intro _; rfl
      | cons j l2 ih2 =>
        intro hl2
        simp only [List.any_cons, ih2 (fun j hj => hl2 j (by simp [hj])),
          h j (by simp [hl2 j (by simp)]) d (by simp)]
    have h1 := h1 ds (fun _ hj => hj)
    simp only [class_count, h1, ih (fun a ha b hb => h a (by simp [ha]) b (by simp [hb]))]

/-- The number of classes of the relation "same label" is the number of labels in use. -/
theorem class_count_label {α : Type} [DecidableEq α] (lab : Nat → α) :
    ∀ l : List Nat, class_count (fun a b => decide (lab a = lab b)) l = (l.map lab).toFinset.card := by
  intro l
  induction l with
  | nil => rfl
  | cons d ds ih =>
    simp only [class_count, ih, List.map_cons, List.toFinset_cons]
    by_cases h : lab d ∈ (ds.map lab).toFinset
    · rw [Finset.card_insert_of_mem h]
      have : ds.any (fun j => decide (lab j = lab d)) = true := by
        simp only [List.mem_toFinset, List.mem_map] at h
        simpa using h
      simp [this]
    · rw [Finset.card_insert_of_not_mem h]
      have : ds.any (fun j => decide (lab j = lab d)) = false := by
        simp only [List.mem_toFinset, List.mem_map] at h
        simpa using h
      simp [this]

/-- Merging two distinct labels in use leaves one label less. -/
theorem card_labels_merge {α : Type} [DecidableEq α] (lab : Nat → α) (u v : α) (l : List Nat)
    (hv : v ∈ l.map lab) (hu : u ∈ l.map lab) (huv : u ≠ v) :
    (l.map (fun x => if lab x = u then v else lab x)).toFinset.card + 1 =
      (l.map lab).toFinset.card := by
  have : (l.map (fun x => if lab x = u then v else lab x)).toFinset = (l.map lab).toFinset.erase u := by
    ext z
    simp only [List.mem_toFinset, List.mem_map, Finset.mem_erase]
    constructor
    · rintro ⟨x, hx, rfl⟩
      by_cases hxu : lab x = u
      · simp only [hxu, if_true]
        exact ⟨fun h => huv h.symm, List.mem_map.mp hv⟩
      · simp only [hxu, if_false]
        exact ⟨hxu, x, hx, rfl⟩
    · rintro ⟨hz, x, hx, rfl⟩
      exact ⟨x, hx, by simp [hz]⟩
  rw [this, Finset.card_erase_of_mem (by simpa using hu)]
  have : 0 < (l.map lab).toFinset.card := Finset.card_pos.mpr ⟨u, by simpa using hu⟩
  omega

/-! ## Connected components -/

theorem grow_subset (m : CMap) (s : Finset Nat) : s ⊆ m.grow s := by
  intro x hx
  simp [CMap.grow, hx]

theorem mem_grow (m : CMap) (s : Finset Nat) (y : Nat) :
    y ∈ m.grow s ↔ y ∈ s ∨ ∃ x ∈ s, y = m.beta0 x ∨ y = m.beta1 x ∨ y = m.beta2 x := by
  simp only [CMap.grow, Finset.mem_union, Finset.mem_image]
  constructor
  · rintro (((h | ⟨x, hx, rfl⟩) | ⟨x, hx, rfl⟩) | ⟨x, hx, rfl⟩)
    · exact Or.inl h
    · exact Or.inr ⟨x, hx, Or.inl rfl⟩
    · exact Or.inr ⟨x, hx, Or.inr (Or.inl rfl)⟩
    · exact Or.inr ⟨x, hx, Or.inr (Or.inr rfl)⟩
  · rintro (h | ⟨x, hx, rfl | rfl | rfl⟩)
    · exact Or.inl (Or.inl (Or.inl h))
    · exact Or.inl (Or.inl (Or.inr ⟨x, hx, rfl⟩))
    · exact Or.inl (Or.inr ⟨x, hx, rfl⟩)
    · exact Or.inr ⟨x, hx, rfl⟩

theorem grow_iterate_conn (m : CMap) (a : Nat) :
    ∀ k b, b ∈ m.grow^[k] {a} → m.Conn a b := by
  intro k
  induction k with
  | zero =>
    intro b hb
    simp only [Function.iterate_zero, id_eq, Finset.mem_singleton] at hb
    subst hb; exact Relation.ReflTransGen.refl
  | succ k ih =>
    intro b hb
    rw [Function.iterate_succ_apply', mem_grow] at hb
    rcases hb with h | ⟨x, hx, h⟩
    · exact ih b h
    · exact Relation.ReflTransGen.tail (ih x hx) h

theorem grow_iterate_darts {m : CMap} (hm : m.Boundaryless) {a : Nat} (ha : m.IsDart a) :
    ∀ k b, b ∈ m.grow^[k] {a} → m.IsDart b := by
  intro k
  induction k with
  | zero =>
    intro b hb
    simp only [Function.iterate_zero, id_eq, Finset.mem_singleton] at hb
    subst hb; exact ha
  | succ k ih =>
    intro b hb
    rw [Function.iterate_succ_apply', mem_grow] at hb
    rcases hb with h | ⟨x, hx, rfl | rfl | rfl⟩
    · exact ih b h
    · exact hm.perm1.inv_maps x (ih x hx)
    · exact hm.perm1.maps x (ih x hx)
    · exact hm.perm2.maps x (ih x hx)

theorem grow_iterate_stable (m : CMap) (s : Finset Nat) (k : Nat)
    (h : m.grow^[k + 1] s = m.grow^[k] s) : ∀ j, m.grow^[k + j] s = m.grow^[k] s := by
  intro j
  induction j with
  | zero => rfl
  | succ j ih =>
    rw [← Nat.add_assoc, Function.iterate_succ_apply', ih]
    rw [Function.iterate_succ_apply'] at h
    exact h

theorem grow_iterate_card (m : CMap) (s : Finset Nat) (N : Nat)
    (h : ∀ k, k ≤ N → m.grow^[k + 1] s ≠ m.grow^[k] s) :
    ∀ k, k ≤ N + 1 → s.card + k ≤ (m.grow^[k] s).card := by
  intro k
  induction k with
  | zero => intro _; simp
  | succ k ih =>
    intro hk
    have h1 := ih (by omega)
    have hsub : m.grow^[k] s ⊂ m.grow^[k + 1] s := by
      refine Finset.ssubset_iff_subset_ne.mpr ⟨?_, fun e => h k (by omega) e.symm⟩
      rw [Function.iterate_succ_apply']
      exact grow_subset m _
    have := Finset.card_lt_card hsub
    omega

/-- After `size` rounds the set grown from a dart is closed under the three links. -/
theorem grow_iterate_closed {m : CMap} (hm : m.Boundaryless) {a : Nat} (ha : m.IsDart a) :
    m.grow^[m.size + 1] {a} = m.grow^[m.size] {a} := by
  by_contra hne
  have hall : ∀ k, k ≤ m.size → m.grow^[k + 1] {a} ≠ m.grow^[k] {a} := by
    intro k hk e
    apply hne
    have h1 := grow_iterate_stable m {a} k e (m.size - k)
    have h2 := grow_iterate_stable m {a} k e (m.size + 1 - k)
    rw [show k + (m.size - k) = m.size by omega] at h1
    rw [show k + (m.size + 1 - k) = m.size + 1 by omega] at h2
    rw [h1, h2]
  have hc := grow_iterate_card m {a} m.size hall (m.size + 1) (le_refl _)
  have hsub : m.grow^[m.size + 1] {a} ⊆ Finset.range m.size := by
    intro b hb
    exact Finset.mem_range.mpr (grow_iterate_darts hm ha _ b hb).1
  have := Finset.card_le_card hsub
  simp at hc this
  omega

/-- The executable test `connected` decides membership in the connected component. -/
theorem connected_iff {m : CMap} (hm : m.Boundaryless) {a : Nat} (ha : m.IsDart a) (b : Nat) :
    m.connected a b = true ↔ m.Conn a b := by
  simp only [CMap.connected, decide_eq_true_eq]
  constructor
  · exact grow_iterate_conn m a _ b
  · intro h
    induction h with
    | refl =>
      have : a ∈ m.grow^[0] {a} := by simp
      have hst : ∀ k, a ∈ m.grow^[k] {a} := by
        intro k
        induction k with
        | zero => simp
        | succ k ih => rw [Function.iterate_succ_apply']; exact grow_subset m _ ih
      exact hst _
    | tail _ hstep ih =>
      rw [← grow_iterate_closed hm ha, Function.iterate_succ_apply', mem_grow]
      exact Or.inr ⟨_, ih, hstep⟩

theorem CMap.Conn.conn_isDart {m : CMap} (hm : m.Boundaryless) {a b : Nat} (ha : m.IsDart a)
    (h : m.Conn a b) : m.IsDart b := by
  induction h with
  | refl => exact ha
  | tail _ hstep ih =>
    rcases hstep with rfl | rfl | rfl
    · exact hm.perm1.inv_maps _ ih
    · exact hm.perm1.maps _ ih
    · exact hm.perm2.maps _ ih

end CMapTools

namespace CMapTools

/-! ## Bookkeeping of the passes: classes, joined cells, forest of edges -/

theorem Joined.mono {f g opp : Nat → Nat} {T T1 : List Nat} (h : ∀ x, x ∈ T → x ∈ T1)
    {a b : Nat} (hab : Joined f g opp T a b) : Joined f g opp T1 a b := by
  refine Relation.ReflTransGen.mono ?_ hab
  rintro x y (h1 | h1 | ⟨h1 | h1, h2⟩)
  · exact Or.inl h1
  · exact Or.inr (Or.inl h1)
  · exact Or.inr (Or.inr ⟨Or.inl (h x h1), h2⟩)
  · exact Or.inr (Or.inr ⟨Or.inr (h _ h1), h2⟩)

theorem Joined.joined_isDart {n : Nat} {S : Nat → Prop} {f g opp : Nat → Nat} (hP : PermOn n S f g)
    (hO : PermOn n S opp opp) {T : List Nat} {a b : Nat} (ha : S a)
    (hab : Joined f g opp T a b) : S b := by
  induction hab with
  | refl => exact ha
  | tail _ hstep ih =>
    rcases hstep with rfl | rfl | ⟨_, rfl⟩
    · exact hP.maps _ ih
    · exact hP.inv_maps _ ih
    · exact hO.maps _ ih

theorem Joined.of_sameOrbit {f g opp : Nat → Nat} {T : List Nat} {a b : Nat}
    (h : SameOrbit f a b) : Joined f g opp T a b := by
  obtain ⟨k, rfl⟩ := h
  induction k with
  | zero => exact Relation.ReflTransGen.refl
  | succ k ih =>
    rw [Function.iterate_succ_apply']
    exact Relation.ReflTransGen.tail ih (Or.inl rfl)

theorem Joined.nil_sameOrbit {n : Nat} {S : Nat → Prop} {f g opp : Nat → Nat}
    (hP : PermOn n S f g) {a b : Nat} (ha : S a) (hab : Joined f g opp [] a b) :
    SameOrbit f a b := by
  induction hab with
  | refl => exact SameOrbit.orbit_refl f a
  | tail _ hstep ih =>
    rcases hstep with rfl | rfl | ⟨h, _⟩
    · exact ih.orbit_trans (SameOrbit.one_step f _)
    · exact ih.orbit_trans (hP.sameOrbit_inv (hP.sameOrbit_mem ha ih))
    · simp at h

theorem get_uftree_eq (uf : UFTree) (index : Index) (x h : Nat) (hx : index x = some h) :
    get_uftree uf index x = some (uf.rep h) := by
  simp [get_uftree, hx, UFTree.find]

theorem get_uftree_unify (uf : UFTree) (index : Index) (a b : Nat) (ha : uf.rep a = a)
    (hb : uf.rep b = b) (hab : a ≠ b) (x : Nat) :
    get_uftree (uf.unify_sets a b) index x =
      if get_uftree uf index x = some a then some b else get_uftree uf index x := by
  simp only [get_uftree, UFTree.unify_sets, ha, hb, hab, if_false, UFTree.find]
  cases index x with
  | none => simp
  | some h =>
    by_cases hh : uf.rep h = a
    · simp [hh]
    · simp [hh]

theorem get_uftree_idem {uf : UFTree} (hidem : ∀ h, uf.rep (uf.rep h) = uf.rep h)
    {index : Index} {x a : Nat} (hx : get_uftree uf index x = some a) : uf.rep a = a := by
  simp only [get_uftree, UFTree.find] at hx
  cases hi : index x with
  | none => simp [hi] at hx
  | some h =>
    simp only [hi, Option.some.injEq] at hx
    rw [← hx]; exact hidem h

theorem KInv.kinv_init {m : CMap} {f g : Nat → Nat} (hP : PermOn m.size m.IsDart f g)
    {uf : UFTree} {index : Index} (hS : InitSpec m f uf index) : KInv m f g index uf [] := by
  have hlab : ∀ x, m.IsDart x → get_uftree uf index x = index x := by
    intro x hx
    obtain ⟨h, hh, _⟩ := hS.total x hx
    rw [get_uftree_eq uf index x h hh, hS.rep, hh]
  constructor
  · intro h; rw [hS.rep, hS.rep]
  · intro x hx
    obtain ⟨h, hh, _⟩ := hS.total x hx
    exact ⟨h, hh⟩
  · intro x hx
    rw [hlab x hx, hlab _ (hP.maps x hx)]
    exact ((hS.same x _ hx (hP.maps x hx)).mpr (SameOrbit.one_step f x)).symm
  · intro a b ha hb
    rw [hlab a ha, hlab b hb, hS.same a b ha hb]
    exact ⟨Joined.of_sameOrbit, Joined.nil_sameOrbit hP ha⟩
  · intro post d pre h
    simp at h
  · simp only [List.length_nil, Nat.add_zero]
    rw [← class_count_label]
    apply class_count_congr
    intro a ha b hb
    have ha' := (mem_darts m a).mp ha
    have hb' := (mem_darts m b).mp hb
    rw [hlab a ha', hlab b hb']
    by_cases h : index a = index b
    · simp only [h, decide_True]
      exact ((hP.reaches_iff_sameOrbit ha').mpr ((hS.same a b ha' hb').mp h)).symm
    · simp only [h, decide_False]
      symm
      rw [Bool.eq_false_iff]
      intro hc
      exact h ((hS.same a b ha' hb').mpr ((hP.reaches_iff_sameOrbit ha').mp hc))

theorem KInv.unify {m : CMap} {f g : Nat → Nat} (hP : PermOn m.size m.IsDart f g)
    (hO : PermOn m.size m.IsDart m.beta2 m.beta2)
    {uf : UFTree} {index : Index} {T : List Nat} (hK : KInv m f g index uf T)
    {d a b : Nat} (hd : m.IsDart d) (ha : get_uftree uf index d = some a)
    (hb : get_uftree uf index (m.beta2 d) = some b) (hab : a ≠ b) :
    KInv m f g index (uf.unify_sets a b) (d :: T) := by
  have hra := get_uftree_idem hK.idem ha
  have hrb := get_uftree_idem hK.idem hb
  have hd2 := hO.maps d hd
  have hlab := get_uftree_unify uf index a b hra hrb hab
  have hnew : get_uftree (uf.unify_sets a b) index d =
      get_uftree (uf.unify_sets a b) index (m.beta2 d) := by
    rw [hlab, hlab, ha, hb]; simp [hab.symm]
  have hkeep : ∀ x y, get_uftree uf index x = get_uftree uf index y →
      get_uftree (uf.unify_sets a b) index x = get_uftree (uf.unify_sets a b) index y := by
    intro x y h; rw [hlab, hlab, h]
  constructor
  · intro h
    simp only [UFTree.unify_sets, hra, hrb, hab, if_false]
    by_cases h1 : uf.rep h = a
    · simp [h1, hrb, hab.symm]
    · simp [h1, hK.idem]
  · exact hK.total
  · intro x hx
    exact hkeep _ _ (hK.along x hx)
  · intro x y hx hy
    constructor
    · intro h
      rw [hlab, hlab] at h
      have hj := fun u v hu hv => (hK.joined u v hu hv).mp
      have hstep : Joined f g m.beta2 (d :: T) d (m.beta2 d) :=
        Relation.ReflTransGen.single (Or.inr (Or.inr ⟨Or.inl (by simp), rfl⟩))
      have hback : Joined f g m.beta2 (d :: T) (m.beta2 d) d :=
        Relation.ReflTransGen.single (Or.inr (Or.inr
          ⟨Or.inr (by simp [hO.left_inv d hd]), (hO.left_inv d hd).symm⟩))
      have hmono : ∀ u v, Joined f g m.beta2 T u v → Joined f g m.beta2 (d :: T) u v :=
        fun u v => Joined.mono (fun z hz => by simp [hz])
      by_cases hxa : get_uftree uf index x = some a
      · by_cases hya : get_uftree uf index y = some a
        · exact hmono _ _ (hj x y hx hy (hxa.trans hya.symm))
        · simp only [hxa, hya, if_true, if_false] at h
          exact (hmono _ _ (hj x d hx hd (hxa.trans ha.symm))).trans
            (hstep.trans (hmono _ _ (hj _ y hd2 hy (hb.trans h))))
      · by_cases hya : get_uftree uf index y = some a
        · simp only [hxa, hya, if_true, if_false] at h
          exact (hmono _ _ (hj x _ hx hd2 (h.trans hb.symm))).trans
            (hback.trans (hmono _ _ (hj d y hd hy (ha.trans hya.symm))))
        · simp only [hxa, hya, if_false] at h
          exact hmono _ _ (hj x y hx hy h)
    · intro h
      have key : m.IsDart y ∧ get_uftree (uf.unify_sets a b) index x =
          get_uftree (uf.unify_sets a b) index y := by
        clear hy
        induction h with
        | refl => exact ⟨hx, rfl⟩
        | tail _ hstep ih =>
          rename_i u v _
          obtain ⟨hu, e⟩ := ih
          rcases hstep with rfl | rfl | ⟨hT, rfl⟩
          · exact ⟨hP.maps u hu, e.trans (hkeep _ _ (hK.along u hu)).symm⟩
          · refine ⟨hP.inv_maps u hu, e.trans (hkeep _ _ ?_)⟩
            have := hK.along _ (hP.inv_maps u hu)
            rwa [hP.right_inv u hu] at this
          · refine ⟨hO.maps u hu, e.trans ?_⟩
            have hold : (u ∈ T ∨ m.beta2 u ∈ T) → get_uftree (uf.unify_sets a b) index u =
                get_uftree (uf.unify_sets a b) index (m.beta2 u) := by
              intro hT2
              apply hkeep
              exact (hK.joined u _ hu (hO.maps u hu)).mpr
                (Relation.ReflTransGen.single (Or.inr (Or.inr ⟨hT2, rfl⟩)))
            rcases hT with hT | hT
            · rcases List.mem_cons.mp hT with rfl | hT
              · exact hnew
              · exact hold (Or.inl hT)
            · rcases List.mem_cons.mp hT with hT | hT
              · have hu2 : u = m.beta2 d := by rw [← hT, hO.left_inv u hu]
                rw [hu2, hO.left_inv d hd]; exact hnew.symm
              · exact hold (Or.inr hT)
      exact key.2
  · intro post e pre h
    cases post with
    | nil =>
      simp only [List.nil_append, List.cons.injEq] at h
      obtain ⟨rfl, rfl⟩ := h
      refine ⟨hd, fun hc => hab ?_⟩
      have := (hK.joined d _ hd hd2).mpr hc
      rw [ha, hb] at this
      exact Option.some.inj this
    | cons p post =>
      simp only [List.cons_append, List.cons.injEq] at h
      exact hK.forest post e pre h.2
  · have hfun : get_uftree (uf.unify_sets a b) index =
        fun x => if get_uftree uf index x = some a then some b else get_uftree uf index x :=
      funext hlab
    rw [hfun]
    have := card_labels_merge (get_uftree uf index) (some a) (some b) m.darts
      (List.mem_map.mpr ⟨_, (mem_darts m _).mpr hd2, hb⟩)
      (List.mem_map.mpr ⟨_, (mem_darts m _).mpr hd, ha⟩) (by simpa using hab)
    have hc := hK.count
    simp only [List.length_cons]
    omega

end CMapTools

namespace CMapTools

/-- When the scan is over and every edge has its two darts in one class, the classes are the
connected components: the edges handed to the primitive span each component, and their
number is the number of cells minus the number of components. -/
theorem KInv.final {m : CMap} (hm : m.Boundaryless) {f g : Nat → Nat}
    {index : Index} {uf : UFTree} {T : List Nat} (hK : KInv m f g index uf T)
    (hfC : ∀ x, m.IsDart x → m.Conn x (f x)) (hgC : ∀ x, m.IsDart x → m.Conn x (g x))
    (h1 : ∀ x, m.IsDart x → get_uftree uf index (m.beta1 x) = get_uftree uf index x)
    (h2 : ∀ x, m.IsDart x → get_uftree uf index (m.beta2 x) = get_uftree uf index x) :
    (∀ a b, m.IsDart a → m.IsDart b → (m.Conn a b ↔ Joined f g m.beta2 T a b)) ∧
    T.length + m.num_components = class_count (reaches f m.size) m.darts := by
  have hconn : ∀ a b, m.IsDart a → m.Conn a b →
      get_uftree uf index a = get_uftree uf index b := by
    intro a b ha hab
    have key : m.IsDart b ∧ get_uftree uf index a = get_uftree uf index b := by
      induction hab with
      | refl => exact ⟨ha, rfl⟩
      | tail _ hstep ih =>
        rename_i u v _
        obtain ⟨hu, e⟩ := ih
        rcases hstep with rfl | rfl | rfl
        · refine ⟨hm.perm1.inv_maps u hu, e.trans ?_⟩
          have := h1 _ (hm.perm1.inv_maps u hu)
          rwa [hm.perm1.right_inv u hu] at this
        · exact ⟨hm.perm1.maps u hu, e.trans (h1 u hu).symm⟩
        · exact ⟨hm.perm2.maps u hu, e.trans (h2 u hu).symm⟩
    exact key.2
  have hjc : ∀ a b, m.IsDart a → Joined f g m.beta2 T a b → m.Conn a b := by
    intro a b ha hab
    have key : m.IsDart b ∧ m.Conn a b := by
      induction hab with
      | refl => exact ⟨ha, Relation.ReflTransGen.refl⟩
      | tail _ hstep ih =>
        rename_i u v _
        obtain ⟨hu, e⟩ := ih
        rcases hstep with rfl | rfl | ⟨_, rfl⟩
        · exact ⟨CMap.Conn.conn_isDart hm hu (hfC u hu), e.trans (hfC u hu)⟩
        · exact ⟨CMap.Conn.conn_isDart hm hu (hgC u hu), e.trans (hgC u hu)⟩
        · exact ⟨hm.perm2.maps u hu, e.tail (Or.inr (Or.inr rfl))⟩
    exact key.2
  have hiff : ∀ a b, m.IsDart a → m.IsDart b →
      (m.Conn a b ↔ get_uftree uf index a = get_uftree uf index b) := by
    intro a b ha hb
    exact ⟨hconn a b ha, fun h => hjc a b ha ((hK.joined a b ha hb).mp h)⟩
  refine ⟨fun a b ha hb => (hiff a b ha hb).trans (hK.joined a b ha hb), ?_⟩
  have hc : m.num_components = (m.darts.map (get_uftree uf index)).toFinset.card := by
    rw [← class_count_label]
    apply class_count_congr
    intro a ha b hb
    have ha' := (mem_darts m a).mp ha
    have hb' := (mem_darts m b).mp hb
    have := (connected_iff hm ha' b).trans (hiff a b ha' hb')
    by_cases h : get_uftree uf index a = get_uftree uf index b
    · simp only [h, decide_True]; exact this.mpr h
    · simp only [h, decide_False]
      rw [Bool.eq_false_iff]
      exact fun hc => h (this.mp hc)
  have := hK.count
  omega

/-! ## The face pass -/

theorem FaceInv.face_step {m : CMap} (hm : m.Boundaryless) {faces : Index} {i : Nat} {s : ScanState}
    (hI : FaceInv m faces i s) :
    ∃ s1, face_scan_step faces (some s) i = some s1 ∧ FaceInv m faces (i + 1) s1 := by
  by_cases hcond : (s.map.is_dart_used i && !s.treated i) = true
  · simp only [Bool.and_eq_true, Bool.not_eq_true', CMap.is_dart_used, decide_eq_true_eq] at hcond
    obtain ⟨⟨hlt, hu⟩, ht⟩ := hcond
    have hd : s.map.IsDart i := ⟨hlt, hu⟩
    have hdm := hI.sub i hd
    have hd2 := hI.boundaryless.perm2.maps i hd
    have hd2m := hI.sub _ hd2
    have hfree : s.map.is_free_2 i = false := by
      simp only [CMap.is_free_2, beq_eq_false_iff_ne, ne_eq]
      exact Nat.ne_of_lt hd2.1
    obtain ⟨ha0, ha⟩ := hI.kinv.total i hdm
    obtain ⟨hb0, hb⟩ := hI.kinv.total _ hd2m
    have hga := get_uftree_eq s.uftrees faces i ha0 ha
    have hgb := get_uftree_eq s.uftrees faces _ hb0 hb
    have hinv : m.beta2 (m.beta2 i) = i := hm.perm2.left_inv i hdm
    have hb2i : s.map.beta2 i = m.beta2 i := by rw [hI.beta2]
    -- the case where the edge is kept: its two darts are in one class
    have keep : get_uftree s.uftrees faces (m.beta2 i) = get_uftree s.uftrees faces i →
        FaceInv m faces (i + 1)
          { s with treated := Function.update (Function.update s.treated i true)
                                (s.map.beta2 i) true } := by
      intro hsame
      refine ⟨hI.size, hI.beta2, hI.boundaryless, hI.sub, hI.kinv, hI.current, ?_⟩
      intro x hx hor
      by_cases hxi : x = i
      · subst hxi; exact hsame
      · by_cases hxi2 : x = m.beta2 i
        · subst hxi2; rw [hinv]; exact hsame.symm
        · apply hI.resolved x hx
          rcases hor with h | h | h
          · exact Or.inl (by omega)
          · rw [hb2i] at h
            dsimp only at h
            rw [Function.update_noteq hxi2, Function.update_noteq hxi] at h
            exact Or.inr (Or.inl h)
          · exact Or.inr (Or.inr h)
    by_cases hiso : (s.map.beta0 i == s.map.beta2 i && s.map.beta1 i == s.map.beta2 i) = true
    · refine ⟨_, by simp [face_scan_step, CMap.is_dart_used, hlt, hu, ht, hfree, hiso], keep ?_⟩
      simp only [Bool.and_eq_true, beq_iff_eq] at hiso
      have := hI.current i hd
      rw [hiso.2, hI.beta2] at this
      exact this
    · by_cases hab : s.uftrees.rep ha0 = s.uftrees.rep hb0
      · refine ⟨_, by
          simp [face_scan_step, CMap.is_dart_used, hlt, hu, ht, hfree, hiso, hga, hgb, hab], keep ?_⟩
        rw [hI.beta2] at hgb
        rw [hga, hgb, hab]
      · refine ⟨{ map := remove_cell_1 s.map i,
                  uftrees := s.uftrees.unify_sets (s.uftrees.rep ha0) (s.uftrees.rep hb0),
                  treated := Function.update (Function.update s.treated i true)
                    (s.map.beta2 i) true,
                  trace := i :: s.trace }, by
          simp [face_scan_step, CMap.is_dart_used, hlt, hu, ht, hfree, hiso, hga, hgb, hab], ?_⟩
        rw [hI.beta2] at hgb
        have hK := hI.kinv.unify hm.perm1 hm.perm2 hdm hga hgb hab
        have hlab := get_uftree_unify s.uftrees faces _ _ (get_uftree_idem hI.kinv.idem hga)
          (get_uftree_idem hI.kinv.idem hgb) hab
        have hkeep : ∀ x y, get_uftree s.uftrees faces x = get_uftree s.uftrees faces y →
            get_uftree (s.uftrees.unify_sets (s.uftrees.rep ha0) (s.uftrees.rep hb0)) faces x =
            get_uftree (s.uftrees.unify_sets (s.uftrees.rep ha0) (s.uftrees.rep hb0)) faces y := by
          intro x y h; rw [hlab, hlab, h]
        have hnew : get_uftree (s.uftrees.unify_sets (s.uftrees.rep ha0) (s.uftrees.rep hb0))
              faces (m.beta2 i) =
            get_uftree (s.uftrees.unify_sets (s.uftrees.rep ha0) (s.uftrees.rep hb0)) faces i := by
          rw [hlab, hlab, hga, hgb]; simp [Ne.symm hab]
        refine ⟨hI.size, hI.beta2, remove_cell_1_boundaryless hI.boundaryless hd,
          fun x hx => hI.sub x ((remove_cell_1_isDart _ _ x).mp hx).1, hK, ?_, ?_⟩
        · -- the class is constant along the new `beta1`
          intro x hx
          obtain ⟨hx1, hx2, hx3⟩ := (remove_cell_1_isDart _ _ x).mp hx
          simp only [remove_cell_1_beta1 s.map i x hx2 hx3]
          have hc1 : ∀ y, s.map.IsDart y →
              get_uftree (s.uftrees.unify_sets (s.uftrees.rep ha0) (s.uftrees.rep hb0)) faces
                (s.map.beta1 y) =
              get_uftree (s.uftrees.unify_sets (s.uftrees.rep ha0) (s.uftrees.rep hb0)) faces y :=
            fun y hy => hkeep _ _ (hI.current y hy)
          have hc2 : ∀ y, y = i ∨ y = s.map.beta2 i →
              s.map.IsDart (s.map.beta2 y) ∧
              get_uftree (s.uftrees.unify_sets (s.uftrees.rep ha0) (s.uftrees.rep hb0)) faces
                (s.map.beta2 y) =
              get_uftree (s.uftrees.unify_sets (s.uftrees.rep ha0) (s.uftrees.rep hb0)) faces y := by
            rintro y (rfl | rfl)
            · exact ⟨hd2, by rw [hI.beta2]; exact hnew⟩
            · rw [hI.boundaryless.perm2.left_inv _ hd]
              exact ⟨hd, by rw [hI.beta2]; exact hnew.symm⟩
          unfold skip_deleted
          split
          · rename_i hy
            have e1 := (hc1 _ (hc2 _ hy).1).trans (((hc2 _ hy).2).trans (hc1 x hx1))
            split
            · rename_i hy2
              exact (hc1 _ (hc2 _ hy2).1).trans (((hc2 _ hy2).2).trans e1)
            · exact e1
          · exact hc1 x hx1
        · intro x hx hor
          by_cases hxi : x = i
          · subst hxi; exact hnew
          · by_cases hxi2 : x = m.beta2 i
            · subst hxi2; rw [hinv]; exact hnew.symm
            · apply hkeep
              apply hI.resolved x hx
              rcases hor with h | h | h
              · exact Or.inl (by omega)
              · rw [hb2i] at h
                dsimp only at h
                rw [Function.update_noteq hxi2, Function.update_noteq hxi] at h
                exact Or.inr (Or.inl h)
              · refine Or.inr (Or.inr (fun hc => h ?_))
                exact (remove_cell_1_isDart _ _ x).mpr ⟨hc, hxi, by rw [hI.beta2]; exact hxi2⟩
  · refine ⟨s, by simp only [face_scan_step, hcond]; rfl, hI.size, hI.beta2, hI.boundaryless, hI.sub,
      hI.kinv, hI.current, ?_⟩
    intro x hx hor
    apply hI.resolved x hx
    rcases hor with h | h | h
    · by_cases hxi : x = i
      · subst hxi
        simp only [Bool.and_eq_true, Bool.not_eq_true', CMap.is_dart_used, decide_eq_true_eq,
          not_and, Bool.not_eq_false] at hcond
        by_cases hcur : s.map.IsDart x
        · exact Or.inr (Or.inl (hcond ⟨hcur.1, hcur.2⟩))
        · exact Or.inr (Or.inr hcur)
      · exact Or.inl (by omega)
    · exact Or.inr (Or.inl h)
    · exact Or.inr (Or.inr h)

theorem FaceInv.face_fold {m : CMap} (hm : m.Boundaryless) {faces : Index} :
    ∀ n (s : ScanState), FaceInv m faces 0 s →
      ∃ s1, (List.range n).foldl (face_scan_step faces) (some s) = some s1 ∧
        FaceInv m faces n s1 := by
  intro n
  induction n with
  | zero => intro s hs; exact ⟨s, rfl, hs⟩
  | succ n ih =>
    intro s hs
    obtain ⟨s1, e1, h1⟩ := ih s hs
    obtain ⟨s2, e2, h2⟩ := h1.face_step hm
    exact ⟨s2, by rw [List.range_succ, List.foldl_append, e1]; exact e2, h2⟩

end CMapTools

namespace CMapTools

theorem Joined.reverse {f g opp : Nat → Nat} {T : List Nat} {a b : Nat} :
    Joined f g opp T.reverse a b ↔ Joined f g opp T a b :=
  ⟨Joined.mono (fun _ h => List.mem_reverse.mp h), Joined.mono (fun _ h => List.mem_reverse.mpr h)⟩

theorem FaceInv.face_init {m : CMap} (hm : m.Boundaryless) {uf : UFTree} {faces : Index}
    (hS : InitSpec m m.beta1 uf faces) :
    FaceInv m faces 0
      { map := { m with automatic_attributes_management := false }, uftrees := uf,
        treated := fun _ => false, trace := [] } := by
  have hK := KInv.kinv_init hm.perm1 hS
  refine ⟨rfl, rfl, hm, fun x hx => hx, hK, fun x hx => hK.along x hx, ?_⟩
  intro x hx hor
  rcases hor with h | h | h
  · omega
  · simp at h
  · exact absurd hx h

/-- What the scan of the face pass reaches on a map without boundary. -/
theorem face_scan_run_spec {m : CMap} (hm : m.Boundaryless) :
    ∃ uf faces s, initialize_faces m = some (uf, faces) ∧ InitSpec m m.beta1 uf faces ∧
      face_scan_run m uf faces = some s ∧ FaceInv m faces m.size s := by
  obtain ⟨uf, faces, e, hS⟩ := initialize_cells_spec hm.perm1
  obtain ⟨s, e2, hI⟩ := FaceInv.face_fold hm m.size _ (FaceInv.face_init hm hS)
  exact ⟨uf, faces, s, by rw [initialize_faces_eq, e], hS, e2, hI⟩

theorem face_pass_of_scan_run {m : CMap} {uf : UFTree} {faces : Index} {s : ScanState}
    (h1 : initialize_faces m = some (uf, faces)) (h2 : face_scan_run m uf faces = some s) :
    surface_simplification_in_one_face m =
      some { map := { s.map with automatic_attributes_management := true },
             trace := s.trace.reverse } := by
  rw [face_pass_eq_scan]
  simp only [face_scan, h1, h2]

theorem FaceInv.face_along_beta1 {m : CMap} {faces : Index} {i : Nat} {s : ScanState}
    (hI : FaceInv m faces i s) (x : Nat) (hx : m.IsDart x) :
    get_uftree s.uftrees faces (m.beta1 x) = get_uftree s.uftrees faces x :=
  hI.kinv.along x hx

/-- The edges removed by the face pass on a map without boundary form a spanning forest of
the face-adjacency graph of the input map, and there are `F - C` of them. -/
theorem face_pass_forest {m : CMap} (hm : m.Boundaryless) :
    ∃ r, surface_simplification_in_one_face m = some r ∧
      r.trace.length + m.num_components = m.num_faces ∧
      (∀ a b, m.IsDart a → m.IsDart b →
        (m.connected a b = true ↔ m.FacesJoined r.trace a b)) ∧
      (∀ pre d post, r.trace = pre ++ d :: post →
        m.IsDart d ∧ ¬ m.FacesJoined pre d (m.beta2 d)) := by
  obtain ⟨uf, faces, s, e1, hS, e2, hI⟩ := face_scan_run_spec hm
  have hfin := hI.kinv.final hm
    (fun x _ => Relation.ReflTransGen.single (Or.inr (Or.inl rfl)))
    (fun x _ => Relation.ReflTransGen.single (Or.inl rfl))
    (hI.face_along_beta1) (fun x hx => hI.resolved x hx (Or.inl hx.1))
  refine ⟨_, face_pass_of_scan_run e1 e2, ?_, ?_, ?_⟩
  · simp only [List.length_reverse]
    exact hfin.2
  · intro a b ha hb
    rw [connected_iff hm ha, hfin.1 a b ha hb]
    exact Joined.reverse.symm
  · intro pre d post h
    have h2 : s.trace = post.reverse ++ d :: pre.reverse := by
      have := congrArg List.reverse h
      simpa using this
    obtain ⟨hd, hn⟩ := hI.kinv.forest _ _ _ h2
    exact ⟨hd, fun hc => hn (Joined.reverse.mpr hc)⟩

theorem pillow_boundaryless : pillow.Boundaryless := by decide

end CMapTools

namespace CMapTools

/-! ## The vertex pass -/

theorem VertexInv.vertex_step {m : CMap} (hm : m.Boundaryless) {vertices : Index} {i : Nat}
    {s : ScanState} (hI : VertexInv m vertices i s) :
    ∃ s1, vertex_scan_step vertices (some s) i = some s1 ∧ VertexInv m vertices (i + 1) s1 := by
  by_cases hcond : s.map.is_dart_used i = true
  · have hd : s.map.IsDart i := by
      simpa [CMap.is_dart_used, CMap.IsDart] using hcond
    have hdm := hI.sub i hd
    have hd2m := hm.perm2.maps i hdm
    have hb2i : s.map.beta2 i = m.beta2 i := by rw [hI.beta2]
    obtain ⟨ha0, ha⟩ := hI.kinv.total i hdm
    obtain ⟨hb0, hb⟩ := hI.kinv.total _ hd2m
    have hga := get_uftree_eq s.uftrees vertices i ha0 ha
    have hgb := get_uftree_eq s.uftrees vertices _ hb0 hb
    have hinv : m.beta2 (m.beta2 i) = i := hm.perm2.left_inv i hdm
    by_cases hab : s.uftrees.rep ha0 = s.uftrees.rep hb0
    · refine ⟨s, by simp [vertex_scan_step, hcond, hb2i, hga, hgb, hab], hI.size, hI.beta2,
        hI.boundaryless, hI.sub, hI.kinv, ?_⟩
      intro x hx hor
      by_cases hxi : x = i
      · subst hxi; rw [hga, hgb, hab]
      · apply hI.resolved x hx
        rcases hor with h | h
        · exact Or.inl (by omega)
        · exact Or.inr h
    · refine ⟨{ s with map := contract_cell_1 s.map i,
                       uftrees := s.uftrees.unify_sets (s.uftrees.rep ha0) (s.uftrees.rep hb0),
                       trace := i :: s.trace }, by
        simp [vertex_scan_step, hcond, hb2i, hga, hgb, hab], ?_⟩
      have hK := hI.kinv.unify hm.permV hm.perm2 hdm hga hgb hab
      have hlab := get_uftree_unify s.uftrees vertices _ _ (get_uftree_idem hI.kinv.idem hga)
        (get_uftree_idem hI.kinv.idem hgb) hab
      have hkeep : ∀ x y, get_uftree s.uftrees vertices x = get_uftree s.uftrees vertices y →
          get_uftree (s.uftrees.unify_sets (s.uftrees.rep ha0) (s.uftrees.rep hb0)) vertices x =
          get_uftree (s.uftrees.unify_sets (s.uftrees.rep ha0) (s.uftrees.rep hb0)) vertices y := by
        intro x y h; rw [hlab, hlab, h]
      have hnew : get_uftree (s.uftrees.unify_sets (s.uftrees.rep ha0) (s.uftrees.rep hb0))
            vertices (m.beta2 i) =
          get_uftree (s.uftrees.unify_sets (s.uftrees.rep ha0) (s.uftrees.rep hb0)) vertices i := by
        rw [hlab, hlab, hga, hgb]; simp [Ne.symm hab]
      refine ⟨hI.size, hI.beta2, contract_cell_1_boundaryless hI.boundaryless hd,
        fun x hx => hI.sub x ((contract_cell_1_isDart _ _ x).mp hx).1, hK, ?_⟩
      intro x hx hor
      by_cases hxi : x = i
      · subst hxi; exact hnew
      · by_cases hxi2 : x = m.beta2 i
        · subst hxi2; rw [hinv]; exact hnew.symm
        · apply hkeep
          apply hI.resolved x hx
          rcases hor with h | h
          · exact Or.inl (by omega)
          · refine Or.inr (fun hc => h ?_)
            exact (contract_cell_1_isDart _ _ x).mpr ⟨hc, hxi, by rw [hI.beta2]; exact hxi2⟩
  · refine ⟨s, by simp only [vertex_scan_step, hcond]; rfl, hI.size, hI.beta2, hI.boundaryless,
      hI.sub, hI.kinv, ?_⟩
    intro x hx hor
    apply hI.resolved x hx
    rcases hor with h | h
    · by_cases hxi : x = i
      · subst hxi
        refine Or.inr (fun hc => hcond ?_)
        simpa [CMap.is_dart_used, CMap.IsDart] using hc
      · exact Or.inl (by omega)
    · exact Or.inr h

theorem VertexInv.vertex_fold {m : CMap} (hm : m.Boundaryless) {vertices : Index} :
    ∀ n (s : ScanState), VertexInv m vertices 0 s →
      ∃ s1, (List.range n).foldl (vertex_scan_step vertices) (some s) = some s1 ∧
        VertexInv m vertices n s1 := by
  intro n
  induction n with
  | zero => intro s hs; exact ⟨s, rfl, hs⟩
  | succ n ih =>
    intro s hs
    obtain ⟨s1, e1, h1⟩ := ih s hs
    obtain ⟨s2, e2, h2⟩ := h1.vertex_step hm
    exact ⟨s2, by rw [List.range_succ, List.foldl_append, e1]; exact e2, h2⟩

theorem VertexInv.vertex_init {m : CMap} (hm : m.Boundaryless) {uf : UFTree} {vertices : Index}
    (hS : InitSpec m (fun d => m.beta1 (m.beta2 d)) uf vertices) :
    VertexInv m vertices 0
      { map := { m with automatic_attributes_management := false }, uftrees := uf,
        treated := fun _ => false, trace := [] } := by
  refine ⟨rfl, rfl, hm, fun x hx => hx, KInv.kinv_init hm.permV hS, ?_⟩
  intro x hx hor
  rcases hor with h | h
  · omega
  · exact absurd hx h

/-- What the scan of the vertex pass reaches on a map without boundary. -/
theorem vertex_scan_run_spec {m : CMap} (hm : m.Boundaryless) :
    ∃ uf vertices s, initialize_vertices m = some (uf, vertices) ∧
      InitSpec m (fun d => m.beta1 (m.beta2 d)) uf vertices ∧
      vertex_scan_run m uf vertices = some s ∧ VertexInv m vertices m.size s := by
  obtain ⟨uf, vertices, e, hS⟩ := initialize_cells_spec hm.permV
  obtain ⟨s, e2, hI⟩ := VertexInv.vertex_fold hm m.size _ (VertexInv.vertex_init hm hS)
  exact ⟨uf, vertices, s, by rw [initialize_vertices_eq hm, e], hS, e2, hI⟩

theorem vertex_pass_of_scan_run {m : CMap} {uf : UFTree} {vertices : Index} {s : ScanState}
    (h1 : initialize_vertices m = some (uf, vertices))
    (h2 : vertex_scan_run m uf vertices = some s) :
    surface_simplification_in_one_vertex m =
      some { map := { s.map with automatic_attributes_management := true },
             trace := s.trace.reverse } := by
  rw [vertex_pass_eq_scan]
  simp only [vertex_scan, h1, h2]

theorem VertexInv.vertex_along_beta1 {m : CMap} (hm : m.Boundaryless) {vertices : Index}
    {s : ScanState} (hI : VertexInv m vertices m.size s) (x : Nat) (hx : m.IsDart x) :
    get_uftree s.uftrees vertices (m.beta1 x) = get_uftree s.uftrees vertices x := by
  have h1 := hI.kinv.along _ (hm.perm2.maps x hx)
  simp only [hm.perm2.left_inv x hx] at h1
  exact h1.trans (hI.resolved x hx (Or.inl hx.1))

/-- The edges contracted by the vertex pass on a map without boundary form a spanning
forest of the vertex-adjacency graph of the input map, and there are `V - C` of them. -/
theorem vertex_pass_forest {m : CMap} (hm : m.Boundaryless) :
    ∃ r, surface_simplification_in_one_vertex m = some r ∧
      r.trace.length + m.num_components = m.num_vertices ∧
      (∀ a b, m.IsDart a → m.IsDart b →
        (m.connected a b = true ↔ m.VerticesJoined r.trace a b)) ∧
      (∀ pre d post, r.trace = pre ++ d :: post →
        m.IsDart d ∧ ¬ m.VerticesJoined pre d (m.beta2 d)) := by
  obtain ⟨uf, vertices, s, e1, hS, e2, hI⟩ := vertex_scan_run_spec hm
  have hfin := hI.kinv.final hm
    (fun x _ => Relation.ReflTransGen.tail
      (Relation.ReflTransGen.single (Or.inr (Or.inr rfl))) (Or.inr (Or.inl rfl)))
    (fun x _ => Relation.ReflTransGen.tail
      (Relation.ReflTransGen.single (Or.inl rfl)) (Or.inr (Or.inr rfl)))
    (hI.vertex_along_beta1 hm) (fun x hx => hI.resolved x hx (Or.inl hx.1))
  refine ⟨_, vertex_pass_of_scan_run e1 e2, ?_, ?_, ?_⟩
  · simp only [List.length_reverse]
    exact hfin.2
  · intro a b ha hb
    rw [connected_iff hm ha, hfin.1 a b ha hb]
    exact Joined.reverse.symm
  · intro pre d post h
    have h2 : s.trace = post.reverse ++ d :: pre.reverse := by
      have := congrArg List.reverse h
      simpa using this
    obtain ⟨hd, hn⟩ := hI.kinv.forest _ _ _ h2
    exact ⟨hd, fun hc => hn (Joined.reverse.mpr hc)⟩

end CMapTools

namespace CMapTools

/-! ## Orbits after the two darts of an edge are deleted -/

theorem skip_deleted_on_pair (f opp : Nat → Nat) (d e y : Nat) :
    skip_deleted f opp d e y = skip_deleted (fun x => f (on_pair opp d e x)) id d e y := by
  unfold skip_deleted
  by_cases hy : y = d ∨ y = e
  · simp only [hy, if_true, id_eq, on_pair]
    by_cases hy2 : f (opp y) = d ∨ f (opp y) = e
    · simp only [hy2, if_true]
    · simp only [hy2, if_false]
  · simp only [hy, if_false]

theorem PermOn.on_pair_perm {n : Nat} {S : Nat → Prop} {opp : Nat → Nat} {d e : Nat}
    (hn : ∀ x, S x → x < n) (hd : S d) (he : S e)
    (ho : ∀ y, y = d ∨ y = e → (opp y = d ∨ opp y = e) ∧ opp (opp y) = y) :
    PermOn n S (on_pair opp d e) (on_pair opp d e) := by
  have hmaps : ∀ x, S x → S (on_pair opp d e x) := by
    intro x hx
    unfold on_pair
    split
    · rename_i h
      rcases (ho x h).1 with h1 | h1 <;> rw [h1] <;> assumption
    · exact hx
  have hinv : ∀ x, S x → on_pair opp d e (on_pair opp d e x) = x := by
    intro x _
    unfold on_pair
    by_cases h : x = d ∨ x = e
    · simp only [h, if_true, (ho x h).1, (ho x h).2]
    · simp only [h, if_false]
  exact ⟨hn, hmaps, hmaps, hinv, hinv⟩

/-- Walking past the deleted darts does not leave the orbit: the converse of `sameOrbit_skip`. -/
theorem sameOrbit_of_skip {S : Nat → Prop} {h f1 : Nat → Nat} {d e : Nat}
    (hf1 : ∀ x, S x → x ≠ d → x ≠ e → f1 x = skip_deleted h id d e (h x))
    (hS : ∀ x, S x → x ≠ d → x ≠ e → S (f1 x) ∧ f1 x ≠ d ∧ f1 x ≠ e) :
    ∀ k x, S x → x ≠ d → x ≠ e → SameOrbit h x (f1^[k] x) := by
  intro k
  induction k with
  | zero => intro x _ _ _; exact SameOrbit.orbit_refl h x
  | succ k ih =>
    intro x hx h1 h2
    obtain ⟨s1, s2, s3⟩ := hS x hx h1 h2
    rw [Function.iterate_succ_apply]
    refine SameOrbit.orbit_trans ?_ (ih (f1 x) s1 s2 s3)
    rw [hf1 x hx h1 h2]
    unfold skip_deleted
    simp only [id_eq]
    split
    · split
      · exact ⟨3, rfl⟩
      · exact ⟨2, rfl⟩
    · exact ⟨1, rfl⟩

/-- A walk of `h` between two darts that stay is followed by the walk that skips the deleted
darts. -/
theorem sameOrbit_skip {S : Nat → Prop} {h f1 : Nat → Nat} {d e : Nat}
    (hf1 : ∀ x, S x → x ≠ d → x ≠ e → f1 x = skip_deleted h id d e (h x))
    (hS : ∀ x, S x → x ≠ d → x ≠ e → S (f1 x) ∧ f1 x ≠ d ∧ f1 x ≠ e) :
    ∀ k x y, S x → x ≠ d → x ≠ e → y ≠ d → y ≠ e → h^[k] x = y → SameOrbit f1 x y := by
  intro k
  induction k using Nat.strong_induction_on with
  | _ k ih =>
    intro x y hx hx1 hx2 hy1 hy2 hk
    obtain ⟨s1, s2, s3⟩ := hS x hx hx1 hx2
    have hstep : ∀ j, j < k → h^[j] (f1 x) = y → SameOrbit f1 x y := fun j hj e =>
      (SameOrbit.one_step f1 x).orbit_trans (ih j hj (f1 x) y s1 s2 s3 hy1 hy2 e)
    have hfx := hf1 x hx hx1 hx2
    unfold skip_deleted at hfx
    simp only [id_eq] at hfx
    match k, hk with
    | 0, hk => exact hk ▸ SameOrbit.orbit_refl f1 x
    | 1, hk =>
      have hg : ¬ (h x = d ∨ h x = e) := by
        simp only [Function.iterate_succ, Function.iterate_zero, Function.comp_apply, id_eq] at hk
        rw [hk]; rintro (h | h) <;> contradiction
      rw [if_neg hg] at hfx
      exact hstep 0 (by omega) (by rw [hfx]; exact hk)
    | 2, hk =>
      simp only [Function.iterate_succ, Function.iterate_zero, Function.comp_apply, id_eq] at hk
      by_cases hg : h x = d ∨ h x = e
      · have hg2 : ¬ (h (h x) = d ∨ h (h x) = e) := by
          rw [hk]; rintro (h | h) <;> contradiction
        rw [if_pos hg, if_neg hg2] at hfx
        exact hstep 0 (by omega) (by rw [hfx]; exact hk)
      · rw [if_neg hg] at hfx
        exact hstep 1 (by omega) (by rw [hfx]; exact hk)
    | k + 3, hk =>
      rw [Function.iterate_add_apply] at hk
      simp only [Function.iterate_succ, Function.iterate_zero, Function.comp_apply, id_eq] at hk
      by_cases hg : h x = d ∨ h x = e
      · by_cases hg2 : h (h x) = d ∨ h (h x) = e
        · rw [if_pos hg, if_pos hg2] at hfx
          exact hstep k (by omega) (by rw [hfx]; exact hk)
        · rw [if_pos hg, if_neg hg2] at hfx
          refine hstep (k + 1) (by omega) ?_
          rw [hfx, Function.iterate_succ_apply]
          exact hk
      · rw [if_neg hg] at hfx
        refine hstep (k + 2) (by omega) ?_
        rw [hfx, Function.iterate_succ_apply, Function.iterate_succ_apply]
        exact hk

end CMapTools

namespace CMapTools

/-- Crossing over at the two darts `d`, `e` of different orbits of `f` merges the two orbits:
for `h = f ∘ (d e)`, darts of one orbit of `f` stay in one orbit of `h`, and a dart of the
orbit of `d` comes into the orbit of the darts of the orbit of `e`. -/
theorem sameOrbit_cross {n : Nat} {S : Nat → Prop} {f g opp : Nat → Nat} (hP : PermOn n S f g)
    {d e : Nat} (hd : S d) (he : S e) (hod : opp d = e) (hoe : opp e = d)
    (hA : ¬ SameOrbit f d e) :
    (∀ x y, S x → S y → SameOrbit f x y → SameOrbit (fun x => f (on_pair opp d e x)) x y) ∧
    (∀ x y, S x → S y → SameOrbit f x d → SameOrbit f y e →
      SameOrbit (fun x => f (on_pair opp d e x)) x y) := by
  have ho : ∀ y, y = d ∨ y = e → (opp y = d ∨ opp y = e) ∧ opp (opp y) = y := by
    rintro y (rfl | rfl)
    · exact ⟨Or.inr hod, by rw [hod, hoe]⟩
    · exact ⟨Or.inl hoe, by rw [hoe, hod]⟩
  have hPh : PermOn n S (fun x => f (on_pair opp d e x)) (fun x => on_pair opp d e (g x)) :=
    hP.comp (PermOn.on_pair_perm hP.lt hd he ho)
  have hAe : ¬ SameOrbit f e d := fun hc => hA (hP.sameOrbit_symm he hc)
  have hfix : ∀ x, x ≠ d → x ≠ e → f (on_pair opp d e x) = f x := by
    intro x h1 h2
    simp [on_pair, h1, h2]
  have to_d : ∀ k x, S x → f^[k] x = d → SameOrbit (fun x => f (on_pair opp d e x)) x d := by
    intro k
    induction k with
    | zero => intro x _ hx; exact hx ▸ SameOrbit.orbit_refl _ _
    | succ k ih =>
      intro x hx hk
      by_cases h1 : x = d
      · exact h1 ▸ SameOrbit.orbit_refl _ _
      · have h2 : x ≠ e := by
          rintro rfl; exact hAe ⟨k + 1, hk⟩
        rw [Function.iterate_succ_apply] at hk
        have := ih (f x) (hP.maps x hx) hk
        exact SameOrbit.orbit_trans ⟨1, hfix x h1 h2⟩ this
  have to_e : ∀ k x, S x → f^[k] x = e → SameOrbit (fun x => f (on_pair opp d e x)) x e := by
    intro k
    induction k with
    | zero => intro x _ hx; exact hx ▸ SameOrbit.orbit_refl _ _
    | succ k ih =>
      intro x hx hk
      by_cases h2 : x = e
      · exact h2 ▸ SameOrbit.orbit_refl _ _
      · have h1 : x ≠ d := by
          rintro rfl; exact hA ⟨k + 1, hk⟩
        rw [Function.iterate_succ_apply] at hk
        have := ih (f x) (hP.maps x hx) hk
        exact SameOrbit.orbit_trans ⟨1, hfix x h1 h2⟩ this
  have d_e : SameOrbit (fun x => f (on_pair opp d e x)) d e := by
    have h1 : SameOrbit (fun x => f (on_pair opp d e x)) d (f e) := ⟨1, by simp [on_pair, hod]⟩
    obtain ⟨k, hk⟩ := hP.sameOrbit_symm he (SameOrbit.one_step f e)
    exact h1.orbit_trans (to_e k (f e) (hP.maps e he) hk)
  have e_d : SameOrbit (fun x => f (on_pair opp d e x)) e d := hPh.sameOrbit_symm hd d_e
  have away : ∀ x, S x → ¬ SameOrbit f x d → ¬ SameOrbit f x e →
      ∀ k, SameOrbit (fun x => f (on_pair opp d e x)) x (f^[k] x) := by
    intro x _ h1 h2 k
    induction k with
    | zero => exact SameOrbit.orbit_refl _ _
    | succ k ih =>
      refine ih.orbit_trans ⟨1, ?_⟩
      rw [Function.iterate_succ_apply' f]
      exact hfix _ (fun hc => h1 ⟨k, hc⟩) (fun hc => h2 ⟨k, hc⟩)
  have in_A : ∀ x y, S x → S y → SameOrbit f x d → SameOrbit f y d →
      SameOrbit (fun x => f (on_pair opp d e x)) x y := by
    intro x y hx hy h1 h2
    obtain ⟨k1, e1⟩ := h1
    obtain ⟨k2, e2⟩ := h2
    exact (to_d k1 x hx e1).orbit_trans (hPh.sameOrbit_symm hy (to_d k2 y hy e2))
  have in_B : ∀ x y, S x → S y → SameOrbit f x e → SameOrbit f y e →
      SameOrbit (fun x => f (on_pair opp d e x)) x y := by
    intro x y hx hy h1 h2
    obtain ⟨k1, e1⟩ := h1
    obtain ⟨k2, e2⟩ := h2
    exact (to_e k1 x hx e1).orbit_trans (hPh.sameOrbit_symm hy (to_e k2 y hy e2))
  constructor
  · intro x y hx hy hxy
    by_cases h1 : SameOrbit f x d
    · exact in_A x y hx hy h1 ((hP.sameOrbit_symm hx hxy).orbit_trans h1)
    · by_cases h2 : SameOrbit f x e
      · exact in_B x y hx hy h2 ((hP.sameOrbit_symm hx hxy).orbit_trans h2)
      · obtain ⟨k, rfl⟩ := hxy
        exact away x hx h1 h2 k
  · intro x y hx hy h1 h2
    obtain ⟨k1, e1⟩ := h1
    obtain ⟨k2, e2⟩ := h2
    exact ((to_d k1 x hx e1).orbit_trans d_e).orbit_trans
      (hPh.sameOrbit_symm hy (to_e k2 y hy e2))

/-- Deleting the two darts `d`, `e` of an edge that lie in different orbits of `f`, and
crossing over at them, merges the two orbits and keeps the others: the orbits of the new
permutation `f1` hold the old orbits, and join the orbit of `d` to the orbit of `e`. -/
theorem sameOrbit_cross_skip {n : Nat} {S : Nat → Prop} {f g opp f1 g1 : Nat → Nat}
    (hP : PermOn n S f g) {d e : Nat} (hd : S d) (he : S e) (hod : opp d = e) (hoe : opp e = d)
    (hA : ¬ SameOrbit f d e)
    (hf1 : ∀ x, S x → x ≠ d → x ≠ e → f1 x = skip_deleted f opp d e (f x))
    (hP1 : PermOn n (fun x => S x ∧ x ≠ d ∧ x ≠ e) f1 g1)
    {x y : Nat} (hx : S x ∧ x ≠ d ∧ x ≠ e) (hy : S y ∧ y ≠ d ∧ y ≠ e)
    (hxy : SameOrbit f x y ∨ (SameOrbit f x d ∧ SameOrbit f y e) ∨
      (SameOrbit f x e ∧ SameOrbit f y d)) :
    SameOrbit f1 x y := by
  obtain ⟨c1, c2⟩ := sameOrbit_cross hP hd he hod hoe hA
  have hf1h : ∀ x, S x → x ≠ d → x ≠ e →
      f1 x = skip_deleted (fun x => f (on_pair opp d e x)) id d e
        ((fun x => f (on_pair opp d e x)) x) := by
    intro x h0 h1 h2
    rw [hf1 x h0 h1 h2, skip_deleted_on_pair]
    simp [on_pair, h1, h2]
  have hS : ∀ x, S x → x ≠ d → x ≠ e → S (f1 x) ∧ f1 x ≠ d ∧ f1 x ≠ e :=
    fun x h0 h1 h2 => hP1.maps x ⟨h0, h1, h2⟩
  have key : ∀ x y, (S x ∧ x ≠ d ∧ x ≠ e) → (S y ∧ y ≠ d ∧ y ≠ e) →
      SameOrbit (fun x => f (on_pair opp d e x)) x y → SameOrbit f1 x y := by
    rintro x y ⟨a1, a2, a3⟩ ⟨_, b2, b3⟩ ⟨k, hk⟩
    exact sameOrbit_skip hf1h hS k x y a1 a2 a3 b2 b3 hk
  rcases hxy with h | ⟨h1, h2⟩ | ⟨h1, h2⟩
  · exact key x y hx hy (c1 x y hx.1 hy.1 h)
  · exact key x y hx hy (c2 x y hx.1 hy.1 h1 h2)
  · exact hP1.sameOrbit_symm hy (key y x hy hx (c2 y x hy.1 hx.1 h2 h1))

/-- The step of the invariant "one class, one cell" when the classes of `d` and `e` are
unified and the two darts deleted with a cross-over. -/
theorem merged_step {α : Type} {n : Nat} {S : Nat → Prop} {f g opp f1 g1 : Nat → Nat}
    (hP : PermOn n S f g) {d e : Nat} (hd : S d) (he : S e) (hod : opp d = e) (hoe : opp e = d)
    (hf1 : ∀ x, S x → x ≠ d → x ≠ e → f1 x = skip_deleted f opp d e (f x))
    (hP1 : PermOn n (fun x => S x ∧ x ≠ d ∧ x ≠ e) f1 g1)
    {L M : Nat → α}
    (hcur : ∀ x, S x → L (f x) = L x)
    (hmer : ∀ x y, S x → S y → L x = L y → SameOrbit f x y)
    (hne : L d ≠ L e)
    (hlab1 : ∀ x, M x = L x ∨ (M x = L e ∧ L x = L d))
    {x y : Nat} (hx : S x ∧ x ≠ d ∧ x ≠ e) (hy : S y ∧ y ≠ d ∧ y ≠ e) (hxy : M x = M y) :
    SameOrbit f1 x y := by
  have hiter : ∀ k x, S x → L (f^[k] x) = L x := by
    intro k
    induction k with
    | zero => intro x _; rfl
    | succ k ih =>
      intro x hx
      rw [Function.iterate_succ_apply, ih _ (hP.maps x hx), hcur x hx]
  have hA : ¬ SameOrbit f d e := by
    rintro ⟨k, hk⟩
    exact hne (by rw [← hk, hiter k d hd])
  apply sameOrbit_cross_skip hP hd he hod hoe hA hf1 hP1 hx hy
  rcases hlab1 x with h1 | ⟨h1, h1'⟩ <;> rcases hlab1 y with h2 | ⟨h2, h2'⟩
  · exact Or.inl (hmer x y hx.1 hy.1 (by rw [← h1, ← h2, hxy]))
  · exact Or.inr (Or.inr ⟨hmer x e hx.1 he (by rw [← h1, hxy, h2]), hmer y d hy.1 hd h2'⟩)
  · exact Or.inr (Or.inl ⟨hmer x d hx.1 hd h1', hmer y e hy.1 he (by rw [← h2, ← hxy, h1])⟩)
  · exact Or.inl (hmer x y hx.1 hy.1 (by rw [h1', h2']))

end CMapTools

namespace CMapTools

/-! ## Rules for proving further invariants of the two scans -/

/-- The two things a step of the face scan can do: change marks only, or unify the two
distinct classes of a live unmarked dart and of its opposite and remove their edge. -/
theorem face_scan_step_cases {m : CMap} {faces : Index} {i : Nat} {s : ScanState}
    (hI : FaceInv m faces i s) :
    (∃ t, face_scan_step faces (some s) i = some { s with treated := t }) ∨
    (∃ a b t, s.map.IsDart i ∧ get_uftree s.uftrees faces i = some a ∧
      get_uftree s.uftrees faces (s.map.beta2 i) = some b ∧ a ≠ b ∧
      face_scan_step faces (some s) i =
        some { map := remove_cell_1 s.map i, uftrees := s.uftrees.unify_sets a b,
               treated := t, trace := i :: s.trace }) := by
  by_cases hcond : (s.map.is_dart_used i && !s.treated i) = true
  · have hc := hcond
    simp only [Bool.and_eq_true, Bool.not_eq_true', CMap.is_dart_used, decide_eq_true_eq] at hc
    obtain ⟨⟨hlt, hu⟩, ht⟩ := hc
    have hd : s.map.IsDart i := ⟨hlt, hu⟩
    have hd2 := hI.boundaryless.perm2.maps i hd
    have hfree : s.map.is_free_2 i = false := by
      simp only [CMap.is_free_2, beq_eq_false_iff_ne, ne_eq]
      exact Nat.ne_of_lt hd2.1
    obtain ⟨ha0, ha⟩ := hI.kinv.total i (hI.sub i hd)
    obtain ⟨hb0, hb⟩ := hI.kinv.total _ (hI.sub _ hd2)
    have hga := get_uftree_eq s.uftrees faces i ha0 ha
    have hgb := get_uftree_eq s.uftrees faces _ hb0 hb
    by_cases hiso : (s.map.beta0 i == s.map.beta2 i && s.map.beta1 i == s.map.beta2 i) = true
    · exact Or.inl ⟨Function.update (Function.update s.treated i true) (s.map.beta2 i) true, by
        simp [face_scan_step, CMap.is_dart_used, hlt, hu, ht, hfree, hiso]⟩
    · by_cases hab : s.uftrees.rep ha0 = s.uftrees.rep hb0
      · exact Or.inl ⟨Function.update (Function.update s.treated i true) (s.map.beta2 i) true, by
          simp [face_scan_step, CMap.is_dart_used, hlt, hu, ht, hfree, hiso, hga, hgb, hab]⟩
      · exact Or.inr ⟨_, _, Function.update (Function.update s.treated i true) (s.map.beta2 i) true,
          hd, hga, hgb, hab, by
          simp [face_scan_step, CMap.is_dart_used, hlt, hu, ht, hfree, hiso, hga, hgb, hab]⟩
  · exact Or.inl ⟨s.treated, by simp only [face_scan_step, hcond]; rfl⟩

/-- Rule for a further invariant `P` of the face scan: it is enough that `P` does not look at
the marks and is kept by the removal of an edge whose two darts have distinct classes. -/
theorem face_fold_inv {m : CMap} (hm : m.Boundaryless) {faces : Index} (P : ScanState → Prop)
    (hkeep : ∀ s t, P s → P { s with treated := t })
    (hrem : ∀ i s a b t, FaceInv m faces i s → P s → s.map.IsDart i →
      get_uftree s.uftrees faces i = some a →
      get_uftree s.uftrees faces (s.map.beta2 i) = some b → a ≠ b →
      P { map := remove_cell_1 s.map i, uftrees := s.uftrees.unify_sets a b,
          treated := t, trace := i :: s.trace }) :
    ∀ n (s : ScanState), FaceInv m faces 0 s → P s →
      ∃ s1, (List.range n).foldl (face_scan_step faces) (some s) = some s1 ∧
        FaceInv m faces n s1 ∧ P s1 := by
  intro n
  induction n with
  | zero => intro s hs hp; exact ⟨s, rfl, hs, hp⟩
  | succ n ih =>
    intro s hs hp
    obtain ⟨s1, e1, h1, p1⟩ := ih s hs hp
    obtain ⟨s2, e2, h2⟩ := h1.face_step hm
    refine ⟨s2, by rw [List.range_succ, List.foldl_append, e1]; exact e2, h2, ?_⟩
    rcases face_scan_step_cases h1 with ⟨t, e⟩ | ⟨a, b, t, c1, c2, c3, c4, e⟩
    · rw [e] at e2
      exact (Option.some.inj e2) ▸ hkeep s1 t p1
    · rw [e] at e2
      exact (Option.some.inj e2) ▸ hrem n s1 a b t h1 p1 c1 c2 c3 c4

/-- The two things a step of the vertex scan can do: nothing, or unify the two distinct
classes of a live dart and of its opposite and contract their edge. -/
theorem vertex_scan_step_cases {m : CMap} (hm : m.Boundaryless) {vertices : Index} {i : Nat}
    {s : ScanState} (hI : VertexInv m vertices i s) :
    vertex_scan_step vertices (some s) i = some s ∨
    (∃ a b, s.map.IsDart i ∧ get_uftree s.uftrees vertices i = some a ∧
      get_uftree s.uftrees vertices (s.map.beta2 i) = some b ∧ a ≠ b ∧
      vertex_scan_step vertices (some s) i =
        some { s with map := contract_cell_1 s.map i, uftrees := s.uftrees.unify_sets a b,
                      trace := i :: s.trace }) := by
  by_cases hcond : s.map.is_dart_used i = true
  · have hd : s.map.IsDart i := by
      simpa [CMap.is_dart_used, CMap.IsDart] using hcond
    have hdm := hI.sub i hd
    have hd2m := hm.perm2.maps i hdm
    have hb2i : s.map.beta2 i = m.beta2 i := by rw [hI.beta2]
    obtain ⟨ha0, ha⟩ := hI.kinv.total i hdm
    obtain ⟨hb0, hb⟩ := hI.kinv.total _ hd2m
    have hga := get_uftree_eq s.uftrees vertices i ha0 ha
    have hgb := get_uftree_eq s.uftrees vertices _ hb0 hb
    by_cases hab : s.uftrees.rep ha0 = s.uftrees.rep hb0
    · exact Or.inl (by simp [vertex_scan_step, hcond, hb2i, hga, hgb, hab])
    · exact Or.inr ⟨_, _, hd, hga, hb2i ▸ hgb, hab, by
        simp [vertex_scan_step, hcond, hb2i, hga, hgb, hab]⟩
  · exact Or.inl (by simp only [vertex_scan_step, hcond]; rfl)

/-- Rule for a further invariant `P` of the vertex scan: it is enough that `P` is kept by the
contraction of an edge whose two darts have distinct classes. -/
theorem vertex_fold_inv {m : CMap} (hm : m.Boundaryless) {vertices : Index}
    (P : ScanState → Prop)
    (hrem : ∀ i s a b, VertexInv m vertices i s → P s → s.map.IsDart i →
      get_uftree s.uftrees vertices i = some a →
      get_uftree s.uftrees vertices (s.map.beta2 i) = some b → a ≠ b →
      P { s with map := contract_cell_1 s.map i, uftrees := s.uftrees.unify_sets a b,
                 trace := i :: s.trace }) :
    ∀ n (s : ScanState), VertexInv m vertices 0 s → P s →
      ∃ s1, (List.range n).foldl (vertex_scan_step vertices) (some s) = some s1 ∧
        VertexInv m vertices n s1 ∧ P s1 := by
  intro n
  induction n with
  | zero => intro s hs hp; exact ⟨s, rfl, hs, hp⟩
  | succ n ih =>
    intro s hs hp
    obtain ⟨s1, e1, h1, p1⟩ := ih s hs hp
    obtain ⟨s2, e2, h2⟩ := h1.vertex_step hm
    refine ⟨s2, by rw [List.range_succ, List.foldl_append, e1]; exact e2, h2, ?_⟩
    rcases vertex_scan_step_cases hm h1 with e | ⟨a, b, c1, c2, c3, c4, e⟩
    · rw [e] at e2
      exact (Option.some.inj e2) ▸ p1
    · rw [e] at e2
      exact (Option.some.inj e2) ▸ hrem n s1 a b h1 p1 c1 c2 c3 c4

end CMapTools

namespace CMapTools

/-! ## The face pass leaves one face per connected component -/

theorem FaceMerged.face_remove {m : CMap} {faces : Index} {i : Nat} {s : ScanState} {a b : Nat}
    (t : Nat → Bool) (hI : FaceInv m faces i s) (hM : FaceMerged faces s) (hd : s.map.IsDart i)
    (ha : get_uftree s.uftrees faces i = some a)
    (hb : get_uftree s.uftrees faces (s.map.beta2 i) = some b) (hab : a ≠ b) :
    FaceMerged faces { map := remove_cell_1 s.map i, uftrees := s.uftrees.unify_sets a b,
                       treated := t, trace := i :: s.trace } := by
  intro x y hx hy hxy
  have hB := hI.boundaryless
  have he := hB.perm2.maps i hd
  have hlab := get_uftree_unify s.uftrees faces a b (get_uftree_idem hI.kinv.idem ha)
    (get_uftree_idem hI.kinv.idem hb) hab
  refine merged_step (L := get_uftree s.uftrees faces)
    (M := get_uftree (s.uftrees.unify_sets a b) faces) hB.perm1 hd he rfl
    (hB.perm2.left_inv i hd) (fun x _ => remove_cell_1_beta1 s.map i x)
    ((remove_cell_1_boundaryless hB hd).perm1.congr
      (fun x => (remove_cell_1_isDart s.map i x).symm))
    hI.current hM (by rw [ha, hb]; simpa using hab) ?_
    ((remove_cell_1_isDart _ _ x).mp hx) ((remove_cell_1_isDart _ _ y).mp hy) hxy
  intro z
  rw [hlab z]
  by_cases hz : get_uftree s.uftrees faces z = some a
  · right; rw [if_pos hz]; exact ⟨hb.symm, hz.trans ha.symm⟩
  · left; rw [if_neg hz]

theorem FaceMerged.face_start {m : CMap} {uf : UFTree} {faces : Index}
    (hS : InitSpec m m.beta1 uf faces) :
    FaceMerged faces
      { map := { m with automatic_attributes_management := false }, uftrees := uf,
        treated := fun _ => false, trace := [] } := by
  intro x y hx hy hxy
  obtain ⟨h1, e1, _⟩ := hS.total x hx
  obtain ⟨h2, e2, _⟩ := hS.total y hy
  apply (hS.same x y hx hy).mp
  have := hxy
  simp only [get_uftree, e1, e2, UFTree.find, hS.rep] at this
  rw [e1, e2, this]

/-- What the scan of the face pass reaches on a map without boundary, with the invariant
"one class, one face". -/
theorem face_scan_run_merged {m : CMap} (hm : m.Boundaryless) :
    ∃ uf faces s, initialize_faces m = some (uf, faces) ∧ InitSpec m m.beta1 uf faces ∧
      face_scan_run m uf faces = some s ∧ FaceInv m faces m.size s ∧ FaceMerged faces s := by
  obtain ⟨uf, faces, e, hS⟩ := initialize_cells_spec hm.perm1
  obtain ⟨s, e2, hI, hM⟩ := face_fold_inv hm (FaceMerged faces) (fun s t h => h)
    (fun i s a b t hI hM hd ha hb hab => FaceMerged.face_remove t hI hM hd ha hb hab)
    m.size _ (FaceInv.face_init hm hS) (FaceMerged.face_start hS)
  exact ⟨uf, faces, s, by rw [initialize_faces_eq, e], hS, e2, hI, hM⟩

theorem FaceInv.face_class_iff_conn {m : CMap} (hm : m.Boundaryless) {faces : Index} {s : ScanState}
    (hI : FaceInv m faces m.size s) {a b : Nat} (ha : m.IsDart a) (hb : m.IsDart b) :
    get_uftree s.uftrees faces a = get_uftree s.uftrees faces b ↔ m.Conn a b := by
  have hfin := hI.kinv.final hm
    (fun x _ => Relation.ReflTransGen.single (Or.inr (Or.inl rfl)))
    (fun x _ => Relation.ReflTransGen.single (Or.inl rfl))
    (hI.face_along_beta1) (fun x hx => hI.resolved x hx (Or.inl hx.1))
  rw [hfin.1 a b ha hb]
  exact hI.kinv.joined a b ha hb

theorem SameOrbit.label_eq {α : Type} {S : Nat → Prop} {f : Nat → Nat} {lab : Nat → α}
    (hmaps : ∀ x, S x → S (f x)) (hcur : ∀ x, S x → lab (f x) = lab x) {a b : Nat} (ha : S a)
    (h : SameOrbit f a b) : lab a = lab b := by
  obtain ⟨k, rfl⟩ := h
  induction k with
  | zero => rfl
  | succ k ih =>
    have hS : ∀ j, S (f^[j] a) := by
      intro j
      induction j with
      | zero => exact ha
      | succ j ihj => rw [Function.iterate_succ_apply']; exact hmaps _ ihj
    rw [Function.iterate_succ_apply', hcur _ (hS k)]
    exact ih

/-- The result of the face pass on a map without boundary: a map without boundary, whose
darts are darts of the input, with the input's `beta2`, in which two darts lie in one face
exactly when they lie in one connected component of the input; and every dart lies in the
face of its opposite. -/
theorem face_pass_output {m : CMap} (hm : m.Boundaryless) :
    ∃ r, surface_simplification_in_one_face m = some r ∧
      r.map.Boundaryless ∧ r.map.size = m.size ∧ r.map.beta2 = m.beta2 ∧
      r.map.automatic_attributes_management = true ∧
      (∀ x, r.map.IsDart x → m.IsDart x) ∧
      (∀ a b, r.map.IsDart a → r.map.IsDart b →
        (SameOrbit r.map.beta1 a b ↔ m.Conn a b)) ∧
      (∀ x, r.map.IsDart x → SameOrbit r.map.beta1 x (r.map.beta2 x)) := by
  obtain ⟨uf, faces, s, e1, hS, e2, hI, hM⟩ := face_scan_run_merged hm
  have hiff : ∀ a b, s.map.IsDart a → s.map.IsDart b →
      (SameOrbit s.map.beta1 a b ↔ m.Conn a b) := by
    intro a b ha hb
    rw [← hI.face_class_iff_conn hm (hI.sub a ha) (hI.sub b hb)]
    exact ⟨SameOrbit.label_eq hI.boundaryless.perm1.maps hI.current ha, hM a b ha hb⟩
  refine ⟨_, face_pass_of_scan_run e1 e2, hI.boundaryless, hI.size, hI.beta2, rfl, hI.sub,
    hiff, ?_⟩
  intro x hx
  have hx2 : s.map.IsDart (s.map.beta2 x) := hI.boundaryless.perm2.maps x hx
  apply hM x _ hx hx2
  have := hI.resolved x (hI.sub x hx) (Or.inl (hI.sub x hx).1)
  rw [hI.beta2]
  exact this.symm

theorem class_count_all (r : Nat → Nat → Bool) :
    ∀ l : List Nat, (∀ a ∈ l, ∀ b ∈ l, r a b = true) →
      class_count r l = if l = [] then 0 else 1 := by
  intro l
  induction l with
  | nil => intro _; rfl
  | cons d ds ih =>
    intro h
    have h1 := ih (fun a ha b hb => h a (by simp [ha]) b (by simp [hb]))
    simp only [class_count, h1]
    cases ds with
    | nil => simp
    | cons e es =>
      have : (e :: es).any (fun j => r j d) = true := by
        simp only [List.any_cons, h e (by simp) d (by simp), Bool.true_or]
      simp [this]

theorem same_face_iff {m : CMap} (hm : m.Boundaryless) {a : Nat} (ha : m.IsDart a) (b : Nat) :
    m.same_face a b = true ↔ SameOrbit m.beta1 a b :=
  hm.perm1.reaches_iff_sameOrbit ha

/-- C2, amended (face pass on a connected map). On a connected map without boundary the
face pass returns a map whose remaining darts all lie in one orbit of `beta1`: it has one
face as soon as a dart remains, and no face when the pass has deleted every dart. -/
theorem face_pass_single_face (m : CMap) (hm : m.Boundaryless) (hc : m.IsConnected) :
    ∃ r, surface_simplification_in_one_face m = some r ∧
      (∀ a b, r.map.IsDart a → r.map.IsDart b → r.map.same_face a b = true) ∧
      r.map.num_faces = if r.map.darts = [] then 0 else 1 := by
  obtain ⟨r, e, hB, _, _, _, hsub, hiff, _⟩ := face_pass_output hm
  have hall : ∀ a b, r.map.IsDart a → r.map.IsDart b → r.map.same_face a b = true := by
    intro a b ha hb
    rw [same_face_iff hB ha, hiff a b ha hb, ← connected_iff hm (hsub a ha)]
    exact hc a (hsub a ha).1 b (hsub b hb).1 (hsub a ha).2 (hsub b hb).2
  refine ⟨r, e, hall, ?_⟩
  exact class_count_all _ _ (fun a ha b hb =>
    hall a b ((mem_darts _ a).mp ha) ((mem_darts _ b).mp hb))

/-- C2 amended, at the pillow. -/
theorem face_pass_single_face_witness :
    pillow.Boundaryless ∧ pillow.IsConnected ∧
    ∃ r, surface_simplification_in_one_face pillow = some r ∧
      (∀ a b, r.map.IsDart a → r.map.IsDart b → r.map.same_face a b = true) ∧
      r.map.num_faces = if r.map.darts = [] then 0 else 1 :=
  ⟨by decide, by decide, face_pass_single_face pillow (by decide) (by decide)⟩

/-- C2 as stated fails: the sphere made of one loop edge is connected and without boundary,
and the face pass leaves it with no face at all, not one. -/
theorem face_pass_single_face_counterexample :
    loop_sphere.Boundaryless ∧ loop_sphere.IsConnected ∧
    (surface_simplification_in_one_face loop_sphere).map (fun r => r.map.num_faces) = some 0 := by
  decide

end CMapTools

namespace CMapTools

/-! ## Running the face pass again -/

theorem restore_flag (m : CMap) (h : m.automatic_attributes_management = true) :
    ({ m with automatic_attributes_management := true } : CMap) = m := by
  cases m
  simp_all

/-- On a map without boundary in which every dart lies in the face of its opposite, the face
pass removes nothing and gives the map back. -/
theorem face_pass_fixed {m : CMap} (hm : m.Boundaryless)
    (hE : ∀ x, m.IsDart x → SameOrbit m.beta1 x (m.beta2 x)) :
    surface_simplification_in_one_face m =
      some { map := { m with automatic_attributes_management := true }, trace := [] } := by
  obtain ⟨uf, faces, e, hS⟩ := initialize_cells_spec hm.perm1
  obtain ⟨s, e2, hI, hP⟩ := face_fold_inv hm
    (fun s => s.map = { m with automatic_attributes_management := false } ∧ s.uftrees = uf ∧
      s.trace = [])
    (fun s t h => h)
    (fun i s a b t hI hP hd ha hb hab => by
      exfalso
      obtain ⟨p1, p2, _⟩ := hP
      have hdm : m.IsDart i := hI.sub i hd
      have hd2 : m.IsDart (m.beta2 i) := hm.perm2.maps i hdm
      have hb2 : s.map.beta2 i = m.beta2 i := by rw [hI.beta2]
      rw [hb2] at hb
      obtain ⟨h1, e1, _⟩ := hS.total i hdm
      obtain ⟨h2, e2, _⟩ := hS.total _ hd2
      have hsame := (hS.same i _ hdm hd2).mpr (hE i hdm)
      rw [p2] at ha hb
      simp only [get_uftree, e1, e2, UFTree.find, hS.rep, Option.some.injEq] at ha hb
      rw [e1, e2] at hsame
      exact hab (by rw [← ha, ← hb]; exact Option.some.inj hsame))
    m.size _ (FaceInv.face_init hm hS) ⟨rfl, rfl, rfl⟩
  rw [face_pass_of_scan_run (by rw [initialize_faces_eq, e]) e2]
  obtain ⟨p1, _, p3⟩ := hP
  rw [p1, p3]
  rfl

/-- C10 (idempotence of the face pass). On a map without boundary the face pass returns, and
running it again on what it returned removes no edge and gives that map back unchanged. -/
theorem face_pass_idempotent (m : CMap) (hm : m.Boundaryless) :
    ∃ r, surface_simplification_in_one_face m = some r ∧
      surface_simplification_in_one_face r.map = some { map := r.map, trace := [] } := by
  obtain ⟨r, e, hB, _, _, hflag, _, _, hE⟩ := face_pass_output hm
  refine ⟨r, e, ?_⟩
  rw [face_pass_fixed hB hE, restore_flag r.map hflag]

/-- C10 at the pillow. -/
theorem face_pass_idempotent_witness :
    pillow.Boundaryless ∧
    ∃ r, surface_simplification_in_one_face pillow = some r ∧
      surface_simplification_in_one_face r.map = some { map := r.map, trace := [] } :=
  ⟨by decide, face_pass_idempotent pillow (by decide)⟩

/-! ## Isolated edges -/

theorem skip_deleted_keep (f opp : Nat → Nat) (d e y : Nat) (h1 : y ≠ d) (h2 : y ≠ e) :
    skip_deleted f opp d e y = y := by
  simp [skip_deleted, h1, h2]

theorem same_edge_pair {m : CMap} (hm : m.Boundaryless) {d : Nat} (hd : m.IsDart d)
    (hone : ∀ x, m.IsDart x → x = d ∨ x = m.beta2 d) : m.num_edges = 1 := by
  have hall : ∀ a ∈ m.darts, ∀ b ∈ m.darts, m.same_edge a b = true := by
    intro a ha b hb
    have ha1 := hone a ((mem_darts m a).mp ha)
    have hb1 := hone b ((mem_darts m b).mp hb)
    have hinv := hm.perm2.left_inv d hd
    simp only [CMap.same_edge, Bool.or_eq_true, beq_iff_eq]
    rcases ha1 with rfl | rfl <;> rcases hb1 with rfl | rfl
    · exact Or.inl rfl
    · exact Or.inr rfl
    · exact Or.inr hinv
    · exact Or.inl rfl
  have := class_count_all m.same_edge m.darts hall
  have hne : m.darts ≠ [] := List.ne_nil_of_mem ((mem_darts m d).mpr hd)
  simp only [hne, if_false] at this
  exact this

/-- C9 (isolated edges are kept). On a map without boundary, an edge that is an isolated
loop in the input (`beta0 d = beta2 d` and `beta1 d = beta2 d`) is still there after the face
pass, its two darts live and their three links unchanged; and when the input holds nothing
but that edge, the pass removes nothing and returns a map with one edge and the same number
of faces. -/
theorem face_pass_keeps_isolated_edge (m : CMap) (hm : m.Boundaryless) (d : Nat)
    (hd : m.IsDart d) (h0 : m.beta0 d = m.beta2 d) (h1 : m.beta1 d = m.beta2 d) :
    ∃ r, surface_simplification_in_one_face m = some r ∧
      (∀ x, x = d ∨ x = m.beta2 d →
        r.map.IsDart x ∧ r.map.beta0 x = m.beta0 x ∧ r.map.beta1 x = m.beta1 x ∧
        r.map.beta2 x = m.beta2 x) ∧
      ((∀ x, m.IsDart x → x = d ∨ x = m.beta2 d) →
        r.trace = [] ∧ r.map.num_edges = 1 ∧ r.map.num_faces = m.num_faces) := by
  have he := hm.perm2.maps d hd
  have hinv := hm.perm2.left_inv d hd
  have hde := hm.beta2_ne hd
  -- both darts of the edge have the other one before and after them
  have hpair : ∀ x, x = d ∨ x = m.beta2 d →
      m.IsDart x ∧ m.beta1 x = m.beta2 x ∧ m.beta0 x = m.beta2 x ∧
      (m.beta2 x = d ∨ m.beta2 x = m.beta2 d) := by
    rintro x (rfl | rfl)
    · exact ⟨hd, h1, h0, Or.inr rfl⟩
    · refine ⟨he, ?_, ?_, Or.inl hinv⟩
      · rw [hinv, ← h0, hm.perm1.right_inv _ hd]
      · rw [hinv, ← h1, hm.perm1.left_inv _ hd]
  obtain ⟨uf, faces, e, hS⟩ := initialize_cells_spec hm.perm1
  obtain ⟨s, e2, hI, hP⟩ := face_fold_inv hm
    (fun s => ∀ x, x = d ∨ x = m.beta2 d →
      s.map.IsDart x ∧ s.map.beta0 x = m.beta0 x ∧ s.map.beta1 x = m.beta1 x)
    (fun s t h => h)
    (fun i s a b t hI hP hdi ha hb hab => by
      have hb2 : s.map.beta2 i = m.beta2 i := by rw [hI.beta2]
      have hi : ∀ x, x = d ∨ x = m.beta2 d → i ≠ x := by
        intro x hx hix
        obtain ⟨q1, q2, q3⟩ := hP x hx
        have hc := hI.current x q1
        rw [q3, (hpair x hx).2.1, ← hix, ← hb2, ha, hb] at hc
        exact hab (Option.some.inj hc).symm
      have hi2 : ∀ x, x = d ∨ x = m.beta2 d → s.map.beta2 i ≠ x := by
        intro x hx hix
        have hdi' := hI.sub i hdi
        have : i = m.beta2 x := by rw [← hix, hb2, hm.perm2.left_inv i hdi']
        exact hi _ (hpair x hx).2.2.2 this
      intro x hx
      obtain ⟨q1, q2, q3⟩ := hP x hx
      have hx1 : x ≠ i := fun h => hi x hx h.symm
      have hx2 : x ≠ s.map.beta2 i := fun h => hi2 x hx h.symm
      have hy := (hpair x hx).2.2.2
      refine ⟨(remove_cell_1_isDart _ _ x).mpr ⟨q1, hx1, hx2⟩, ?_, ?_⟩
      · show (remove_cell_1 s.map i).beta0 x = m.beta0 x
        rw [remove_cell_1_beta0 _ _ _ hx1 hx2, q2, (hpair x hx).2.2.1]
        exact skip_deleted_keep _ _ _ _ _ (fun h => hi _ hy h.symm) (fun h => hi2 _ hy h.symm)
      · show (remove_cell_1 s.map i).beta1 x = m.beta1 x
        rw [remove_cell_1_beta1 _ _ _ hx1 hx2, q3, (hpair x hx).2.1]
        exact skip_deleted_keep _ _ _ _ _ (fun h => hi _ hy h.symm) (fun h => hi2 _ hy h.symm))
    m.size _ (FaceInv.face_init hm hS) (fun x hx => ⟨(hpair x hx).1, rfl, rfl⟩)
  have hpass := face_pass_of_scan_run (by rw [initialize_faces_eq, e]) e2
  refine ⟨_, hpass, ?_, ?_⟩
  · intro x hx
    obtain ⟨q1, q2, q3⟩ := hP x hx
    exact ⟨q1, q2, q3, by show s.map.beta2 x = m.beta2 x; rw [hI.beta2]⟩
  · intro hone
    have hE : ∀ x, m.IsDart x → SameOrbit m.beta1 x (m.beta2 x) := by
      intro x hx
      exact ⟨1, (hpair x (hone x hx)).2.1⟩
    have hfix := face_pass_fixed hm hE
    rw [hpass] at hfix
    have hr := Option.some.inj hfix
    rw [hr]
    exact ⟨rfl, same_edge_pair hm hd hone, rfl⟩

/-- C9 at the sphere made of one open edge. -/
theorem face_pass_keeps_isolated_edge_witness :
    edge_sphere.Boundaryless ∧ edge_sphere.IsDart 0 ∧
    edge_sphere.beta0 0 = edge_sphere.beta2 0 ∧ edge_sphere.beta1 0 = edge_sphere.beta2 0 ∧
    ∃ r, surface_simplification_in_one_face edge_sphere = some r ∧
      (∀ x, x = 0 ∨ x = edge_sphere.beta2 0 →
        r.map.IsDart x ∧ r.map.beta0 x = edge_sphere.beta0 x ∧
        r.map.beta1 x = edge_sphere.beta1 x ∧ r.map.beta2 x = edge_sphere.beta2 x) ∧
      ((∀ x, edge_sphere.IsDart x → x = 0 ∨ x = edge_sphere.beta2 0) →
        r.trace = [] ∧ r.map.num_edges = 1 ∧ r.map.num_faces = edge_sphere.num_faces) :=
  ⟨by decide, by decide, by decide, by decide,
    face_pass_keeps_isolated_edge edge_sphere (by decide) 0 (by decide) (by decide) (by decide)⟩

end CMapTools

namespace CMapTools

/-! ## The vertex pass leaves one vertex per connected component -/

/-- Around a vertex, walking past the deleted darts of a contracted edge is the cross-over
walk of the vertex permutation `beta1 ∘ beta2`. -/
theorem skip_deleted_vertex (b1 b2 : Nat → Nat) (d e : Nat)
    (hinv : ∀ y, y = d ∨ y = e → b2 (b2 y) = y) (y : Nat) :
    skip_deleted b1 id d e y = skip_deleted (fun x => b1 (b2 x)) b2 d e y := by
  unfold skip_deleted
  by_cases hy : y = d ∨ y = e
  · simp only [hy, if_true, id_eq, hinv y hy]
    by_cases hy2 : b1 y = d ∨ b1 y = e
    · simp only [hy2, if_true, hinv _ hy2]
    · simp only [hy2, if_false]
  · simp only [hy, if_false]

theorem contract_cell_1_vertex {m : CMap} (hm : m.Boundaryless) {d : Nat} (hd : m.IsDart d)
    (x : Nat) (hx : m.IsDart x) (h1 : x ≠ d) (h2 : x ≠ m.beta2 d) :
    (contract_cell_1 m d).beta1 ((contract_cell_1 m d).beta2 x) =
      skip_deleted (fun x => m.beta1 (m.beta2 x)) m.beta2 d (m.beta2 d)
        (m.beta1 (m.beta2 x)) := by
  have hx2 := (hm.beta2_pair hd).maps x ⟨hx, h1, h2⟩
  rw [contract_cell_1_beta2, contract_cell_1_beta1 m d _ hx2.2.1 hx2.2.2]
  apply skip_deleted_vertex
  rintro y (rfl | rfl)
  · exact hm.perm2.left_inv _ hd
  · rw [hm.perm2.left_inv _ hd]

/-- The class stays constant along the walk that skips the deleted darts. -/
theorem current_step {α : Type} {S : Nat → Prop} {f opp : Nat → Nat} {d e : Nat}
    {lab1 : Nat → α} (hc1 : ∀ y, S y → lab1 (f y) = lab1 y)
    (hc2 : ∀ y, y = d ∨ y = e → S (opp y) ∧ lab1 (opp y) = lab1 y)
    {x : Nat} (hx : S x) : lab1 (skip_deleted f opp d e (f x)) = lab1 x := by
  unfold skip_deleted
  split
  · rename_i hy
    have e1 := (hc1 _ (hc2 _ hy).1).trans (((hc2 _ hy).2).trans (hc1 x hx))
    split
    · rename_i hy2
      exact (hc1 _ (hc2 _ hy2).1).trans (((hc2 _ hy2).2).trans e1)
    · exact e1
  · exact hc1 x hx

theorem VertexMerged.vertex_contract {m : CMap} {vertices : Index} {i : Nat} {s : ScanState}
    {a b : Nat} (hI : VertexInv m vertices i s) (hM : VertexMerged vertices s)
    (hd : s.map.IsDart i) (ha : get_uftree s.uftrees vertices i = some a)
    (hb : get_uftree s.uftrees vertices (s.map.beta2 i) = some b) (hab : a ≠ b) :
    VertexMerged vertices { s with map := contract_cell_1 s.map i,
                                   uftrees := s.uftrees.unify_sets a b,
                                   trace := i :: s.trace } := by
  have hB := hI.boundaryless
  have he := hB.perm2.maps i hd
  have hlab := get_uftree_unify s.uftrees vertices a b (get_uftree_idem hI.kinv.idem ha)
    (get_uftree_idem hI.kinv.idem hb) hab
  have hkeep : ∀ x y, get_uftree s.uftrees vertices x = get_uftree s.uftrees vertices y →
      get_uftree (s.uftrees.unify_sets a b) vertices x =
      get_uftree (s.uftrees.unify_sets a b) vertices y := by
    intro x y h; rw [hlab, hlab, h]
  have hnew : get_uftree (s.uftrees.unify_sets a b) vertices (s.map.beta2 i) =
      get_uftree (s.uftrees.unify_sets a b) vertices i := by
    rw [hlab, hlab, ha, hb]; simp [Ne.symm hab]
  constructor
  · intro x hx
    obtain ⟨hx1, hx2, hx3⟩ := (contract_cell_1_isDart _ _ x).mp hx
    show get_uftree (s.uftrees.unify_sets a b) vertices
      ((contract_cell_1 s.map i).beta1 ((contract_cell_1 s.map i).beta2 x)) = _
    rw [contract_cell_1_vertex hB hd x hx1 hx2 hx3]
    refine current_step (S := s.map.IsDart) (f := fun x => s.map.beta1 (s.map.beta2 x))
      (fun y hy => hkeep _ _ (hM.1 y hy)) ?_ hx1
    rintro y (rfl | rfl)
    · exact ⟨he, hnew⟩
    · rw [hB.perm2.left_inv _ hd]; exact ⟨hd, hnew.symm⟩
  · intro x y hx hy hxy
    refine merged_step (L := get_uftree s.uftrees vertices)
      (M := get_uftree (s.uftrees.unify_sets a b) vertices) hB.permV hd he rfl
      (hB.perm2.left_inv i hd)
      (fun x hx h1 h2 => contract_cell_1_vertex hB hd x hx h1 h2)
      ((contract_cell_1_boundaryless hB hd).permV.congr
        (fun x => (contract_cell_1_isDart s.map i x).symm))
      hM.1 hM.2 (by rw [ha, hb]; simpa using hab) ?_
      ((contract_cell_1_isDart _ _ x).mp hx) ((contract_cell_1_isDart _ _ y).mp hy) hxy
    intro z
    rw [hlab z]
    by_cases hz : get_uftree s.uftrees vertices z = some a
    · right; rw [if_pos hz]; exact ⟨hb.symm, hz.trans ha.symm⟩
    · left; rw [if_neg hz]

theorem VertexMerged.vertex_start {m : CMap} (hm : m.Boundaryless) {uf : UFTree} {vertices : Index}
    (hS : InitSpec m (fun d => m.beta1 (m.beta2 d)) uf vertices) :
    VertexMerged vertices
      { map := { m with automatic_attributes_management := false }, uftrees := uf,
        treated := fun _ => false, trace := [] } := by
  have hK := KInv.kinv_init hm.permV hS
  refine ⟨fun x hx => hK.along x hx, ?_⟩
  intro x y hx hy hxy
  obtain ⟨h1, e1, _⟩ := hS.total x hx
  obtain ⟨h2, e2, _⟩ := hS.total y hy
  apply (hS.same x y hx hy).mp
  have := hxy
  simp only [get_uftree, e1, e2, UFTree.find, hS.rep] at this
  rw [e1, e2, this]

/-- What the scan of the vertex pass reaches on a map without boundary, with the invariant
"one class, one vertex". -/
theorem vertex_scan_run_merged {m : CMap} (hm : m.Boundaryless) :
    ∃ uf vertices s, initialize_vertices m = some (uf, vertices) ∧
      InitSpec m (fun d => m.beta1 (m.beta2 d)) uf vertices ∧
      vertex_scan_run m uf vertices = some s ∧ VertexInv m vertices m.size s ∧
      VertexMerged vertices s := by
  obtain ⟨uf, vertices, e, hS⟩ := initialize_cells_spec hm.permV
  obtain ⟨s, e2, hI, hM⟩ := vertex_fold_inv hm (VertexMerged vertices)
    (fun i s a b hI hM hd ha hb hab => VertexMerged.vertex_contract hI hM hd ha hb hab)
    m.size _ (VertexInv.vertex_init hm hS) (VertexMerged.vertex_start hm hS)
  exact ⟨uf, vertices, s, by rw [initialize_vertices_eq hm, e], hS, e2, hI, hM⟩

theorem VertexInv.vertex_class_iff_conn {m : CMap} (hm : m.Boundaryless) {vertices : Index}
    {s : ScanState} (hI : VertexInv m vertices m.size s) {a b : Nat} (ha : m.IsDart a)
    (hb : m.IsDart b) :
    get_uftree s.uftrees vertices a = get_uftree s.uftrees vertices b ↔ m.Conn a b := by
  have hfin := hI.kinv.final hm
    (fun x _ => Relation.ReflTransGen.tail
      (Relation.ReflTransGen.single (Or.inr (Or.inr rfl))) (Or.inr (Or.inl rfl)))
    (fun x _ => Relation.ReflTransGen.tail
      (Relation.ReflTransGen.single (Or.inl rfl)) (Or.inr (Or.inr rfl)))
    (hI.vertex_along_beta1 hm) (fun x hx => hI.resolved x hx (Or.inl hx.1))
  rw [hfin.1 a b ha hb]
  exact hI.kinv.joined a b ha hb

/-- The result of the vertex pass on a map without boundary: a map without boundary, whose
darts are darts of the input, with the input's `beta2`, in which two darts lie around one
vertex exactly when they lie in one connected component of the input; and every dart lies
around the vertex of its opposite. -/
theorem vertex_pass_output {m : CMap} (hm : m.Boundaryless) :
    ∃ r, surface_simplification_in_one_vertex m = some r ∧
      r.map.Boundaryless ∧ r.map.size = m.size ∧ r.map.beta2 = m.beta2 ∧
      r.map.automatic_attributes_management = true ∧
      (∀ x, r.map.IsDart x → m.IsDart x) ∧
      (∀ a b, r.map.IsDart a → r.map.IsDart b →
        (SameOrbit (fun d => r.map.beta1 (r.map.beta2 d)) a b ↔ m.Conn a b)) ∧
      (∀ x, r.map.IsDart x →
        SameOrbit (fun d => r.map.beta1 (r.map.beta2 d)) x (r.map.beta2 x)) := by
  obtain ⟨uf, vertices, s, e1, hS, e2, hI, hM⟩ := vertex_scan_run_merged hm
  have hiff : ∀ a b, s.map.IsDart a → s.map.IsDart b →
      (SameOrbit (fun d => s.map.beta1 (s.map.beta2 d)) a b ↔ m.Conn a b) := by
    intro a b ha hb
    rw [← hI.vertex_class_iff_conn hm (hI.sub a ha) (hI.sub b hb)]
    exact ⟨SameOrbit.label_eq hI.boundaryless.permV.maps hM.1 ha, hM.2 a b ha hb⟩
  refine ⟨_, vertex_pass_of_scan_run e1 e2, hI.boundaryless, hI.size, hI.beta2, rfl, hI.sub,
    hiff, ?_⟩
  intro x hx
  have hx2 : s.map.IsDart (s.map.beta2 x) := hI.boundaryless.perm2.maps x hx
  apply hM.2 x _ hx hx2
  have := hI.resolved x (hI.sub x hx) (Or.inl (hI.sub x hx).1)
  rw [hI.beta2]
  exact this.symm

theorem same_vertex_iff {m : CMap} (hm : m.Boundaryless) {a : Nat} (ha : m.IsDart a) (b : Nat) :
    m.same_vertex a b = true ↔ SameOrbit (fun d => m.beta1 (m.beta2 d)) a b :=
  hm.permV.reaches_iff_sameOrbit ha

/-- C4, amended (vertex pass, one vertex per component that keeps a dart). On a map without
boundary the vertex pass returns a map in which two remaining darts lie around one vertex
exactly when they lie in one connected component of the input map: the result has one
vertex for each connected component of the input that still holds a dart, and none for a
component whose darts are all gone. -/
theorem vertex_pass_one_vertex_per_component (m : CMap) (hm : m.Boundaryless) :
    ∃ r, surface_simplification_in_one_vertex m = some r ∧
      (∀ a b, r.map.IsDart a → r.map.IsDart b →
        (r.map.same_vertex a b = true ↔ m.connected a b = true)) ∧
      r.map.num_vertices = class_count m.connected r.map.darts := by
  obtain ⟨r, e, hB, _, _, _, hsub, hiff, _⟩ := vertex_pass_output hm
  have hall : ∀ a b, r.map.IsDart a → r.map.IsDart b →
      (r.map.same_vertex a b = true ↔ m.connected a b = true) := by
    intro a b ha hb
    rw [same_vertex_iff hB ha, hiff a b ha hb, ← connected_iff hm (hsub a ha)]
  refine ⟨r, e, hall, ?_⟩
  apply class_count_congr
  intro a ha b hb
  have := hall a b ((mem_darts _ a).mp ha) ((mem_darts _ b).mp hb)
  cases h1 : r.map.same_vertex a b <;> cases h2 : m.connected a b <;> simp_all

/-- C4 amended, at the pillow. -/
theorem vertex_pass_one_vertex_per_component_witness :
    pillow.Boundaryless ∧
    ∃ r, surface_simplification_in_one_vertex pillow = some r ∧
      (∀ a b, r.map.IsDart a → r.map.IsDart b →
        (r.map.same_vertex a b = true ↔ pillow.connected a b = true)) ∧
      r.map.num_vertices = class_count pillow.connected r.map.darts :=
  ⟨by decide, vertex_pass_one_vertex_per_component pillow (by decide)⟩

/-- C4 as stated fails: the sphere made of one open edge has one connected component and no
boundary, and the vertex pass leaves it with no vertex at all, not one. -/
theorem vertex_pass_one_vertex_counterexample :
    edge_sphere.Boundaryless ∧ edge_sphere.num_components = 1 ∧
    (surface_simplification_in_one_vertex edge_sphere).map (fun r => r.map.num_vertices)
      = some 0 := by
  decide

end CMapTools

namespace CMapTools

/-! ## Numbers of cells after the two darts of an edge are deleted -/

theorem class_count_of_label {α : Type} [DecidableEq α] (r : Nat → Nat → Bool) (lab : Nat → α)
    (l : List Nat) (h : ∀ a ∈ l, ∀ b ∈ l, (r a b = true ↔ lab a = lab b)) :
    class_count r l = (l.map lab).toFinset.card := by
  rw [← class_count_label]
  apply class_count_congr
  intro a ha b hb
  have := h a ha b hb
  by_cases hl : lab a = lab b
  · simp only [hl, decide_True]; exact this.mpr hl
  · simp only [hl, decide_False]
    rw [Bool.eq_false_iff]
    exact fun hc => hl (this.mp hc)

/-- Every permutation of the darts has a labelling of its orbits: a function that takes the
same value on two darts exactly when they lie in one orbit. -/
theorem PermOn.exists_label {n : Nat} {S : Nat → Prop} {f g : Nat → Nat} (hP : PermOn n S f g)
    (l : List Nat) (hl : ∀ x, x ∈ l ↔ S x) :
    ∃ lab : Nat → List Nat, ∀ a b, S a → S b → (lab a = lab b ↔ SameOrbit f a b) := by
  refine ⟨fun a => l.filter (fun y => reaches f n a y), ?_⟩
  intro a b ha hb
  constructor
  · intro h
    have haa : a ∈ l.filter (fun y => reaches f n a y) := by
      rw [List.mem_filter]
      exact ⟨(hl a).mpr ha, (hP.reaches_iff_sameOrbit ha).mpr (SameOrbit.orbit_refl f a)⟩
    simp only at h
    rw [h, List.mem_filter] at haa
    exact hP.sameOrbit_symm hb ((hP.reaches_iff_sameOrbit hb).mp haa.2)
  · intro h
    apply List.filter_congr
    intro y _
    rw [Bool.eq_iff_iff, hP.reaches_iff_sameOrbit ha, hP.reaches_iff_sameOrbit hb]
    exact ⟨fun h1 => (hP.sameOrbit_symm ha h).orbit_trans h1, fun h2 => h.orbit_trans h2⟩

theorem mem_without {l : List Nat} {d e x : Nat} :
    x ∈ l.filter (fun x => !(x == d || x == e)) ↔ x ∈ l ∧ x ≠ d ∧ x ≠ e := by
  simp [List.mem_filter]

/-- Deleting two darts whose labels stay in use keeps the number of labels in use. -/
theorem card_labels_keep {α : Type} [DecidableEq α] (lab : Nat → α) (l : List Nat) (d e : Nat)
    (hd : ∃ x, x ∈ l ∧ x ≠ d ∧ x ≠ e ∧ lab x = lab d)
    (he : ∃ x, x ∈ l ∧ x ≠ d ∧ x ≠ e ∧ lab x = lab e) :
    ((l.filter (fun x => !(x == d || x == e))).map lab).toFinset.card =
      (l.map lab).toFinset.card := by
  congr 1
  ext z
  simp only [List.mem_toFinset, List.mem_map, mem_without]
  constructor
  · rintro ⟨x, ⟨hx, _, _⟩, rfl⟩; exact ⟨x, hx, rfl⟩
  · rintro ⟨x, hx, rfl⟩
    by_cases h1 : x = d
    · obtain ⟨y, y1, y2, y3, y4⟩ := hd
      exact ⟨y, ⟨y1, y2, y3⟩, by rw [y4, h1]⟩
    · by_cases h2 : x = e
      · obtain ⟨y, y1, y2, y3, y4⟩ := he
        exact ⟨y, ⟨y1, y2, y3⟩, by rw [y4, h2]⟩
      · exact ⟨x, ⟨hx, h1, h2⟩, rfl⟩

/-- Deleting two darts that share a label no other dart has leaves one label less. -/
theorem card_labels_drop {α : Type} [DecidableEq α] (lab : Nat → α) (l : List Nat) (d e : Nat)
    (hd : d ∈ l) (hde : lab e = lab d)
    (hno : ∀ x, x ∈ l → x ≠ d → x ≠ e → lab x ≠ lab d) :
    ((l.filter (fun x => !(x == d || x == e))).map lab).toFinset.card + 1 =
      (l.map lab).toFinset.card := by
  have : ((l.filter (fun x => !(x == d || x == e))).map lab).toFinset =
      (l.map lab).toFinset.erase (lab d) := by
    ext z
    simp only [List.mem_toFinset, List.mem_map, mem_without, Finset.mem_erase]
    constructor
    · rintro ⟨x, ⟨hx, h1, h2⟩, rfl⟩
      exact ⟨hno x hx h1 h2, x, hx, rfl⟩
    · rintro ⟨hz, x, hx, rfl⟩
      refine ⟨x, ⟨hx, ?_, ?_⟩, rfl⟩
      · rintro rfl; exact hz rfl
      · rintro rfl; exact hz hde
  have hmem : lab d ∈ (l.map lab).toFinset := by
    simp only [List.mem_toFinset, List.mem_map]; exact ⟨d, hd, rfl⟩
  rw [this, Finset.card_erase_of_mem hmem]
  have : 0 < (l.map lab).toFinset.card := Finset.card_pos.mpr ⟨_, hmem⟩
  omega

/-- Deleting two darts of distinct labels and merging the two labels leaves one label less,
when another dart bears one of the two labels. -/
theorem card_labels_merge_keep {α : Type} [DecidableEq α] (lab : Nat → α) (l : List Nat)
    (d e : Nat) (hd : d ∈ l) (he : e ∈ l) (hde : lab d ≠ lab e)
    (hx0 : ∃ x, x ∈ l ∧ x ≠ d ∧ x ≠ e ∧ (lab x = lab d ∨ lab x = lab e)) :
    ((l.filter (fun x => !(x == d || x == e))).map
        (fun x => if lab x = lab d then lab e else lab x)).toFinset.card + 1 =
      (l.map lab).toFinset.card := by
  have : ((l.filter (fun x => !(x == d || x == e))).map
        (fun x => if lab x = lab d then lab e else lab x)).toFinset =
      (l.map lab).toFinset.erase (lab d) := by
    ext z
    simp only [List.mem_toFinset, List.mem_map, mem_without, Finset.mem_erase]
    constructor
    · rintro ⟨x, ⟨hx, h1, h2⟩, rfl⟩
      by_cases hxd : lab x = lab d
      · simp only [hxd, if_true]; exact ⟨fun h => hde h.symm, e, he, rfl⟩
      · simp only [hxd, if_false]; exact ⟨hxd, x, hx, rfl⟩
    · rintro ⟨hz, x, hx, rfl⟩
      by_cases hxe : lab x = lab e
      · obtain ⟨y, y1, y2, y3, y4⟩ := hx0
        refine ⟨y, ⟨y1, y2, y3⟩, ?_⟩
        rcases y4 with y4 | y4
        · simp [y4, hxe]
        · simp [y4, hxe, Ne.symm hde]
      · refine ⟨x, ⟨hx, ?_, ?_⟩, by simp [hz]⟩
        · rintro rfl; exact hz rfl
        · rintro rfl; exact hxe rfl
  have hmem : lab d ∈ (l.map lab).toFinset := by
    simp only [List.mem_toFinset, List.mem_map]; exact ⟨d, hd, rfl⟩
  rw [this, Finset.card_erase_of_mem hmem]
  have : 0 < (l.map lab).toFinset.card := Finset.card_pos.mpr ⟨_, hmem⟩
  omega

/-- Deleting two darts of distinct labels that no other dart bears leaves two labels less. -/
theorem card_labels_merge_drop {α : Type} [DecidableEq α] (lab : Nat → α) (l : List Nat)
    (d e : Nat) (hd : d ∈ l) (he : e ∈ l) (hde : lab d ≠ lab e)
    (hno : ∀ x, x ∈ l → x ≠ d → x ≠ e → lab x ≠ lab d ∧ lab x ≠ lab e) :
    ((l.filter (fun x => !(x == d || x == e))).map
        (fun x => if lab x = lab d then lab e else lab x)).toFinset.card + 2 =
      (l.map lab).toFinset.card := by
  have : ((l.filter (fun x => !(x == d || x == e))).map
        (fun x => if lab x = lab d then lab e else lab x)).toFinset =
      ((l.map lab).toFinset.erase (lab d)).erase (lab e) := by
    ext z
    simp only [List.mem_toFinset, List.mem_map, mem_without, Finset.mem_erase]
    constructor
    · rintro ⟨x, ⟨hx, h1, h2⟩, rfl⟩
      obtain ⟨n1, n2⟩ := hno x hx h1 h2
      simp only [n1, if_false]
      exact ⟨n2, n1, x, hx, rfl⟩
    · rintro ⟨hz2, hz1, x, hx, rfl⟩
      refine ⟨x, ⟨hx, ?_, ?_⟩, by simp [hz1]⟩
      · rintro rfl; exact hz1 rfl
      · rintro rfl; exact hz2 rfl
  have hmem : lab d ∈ (l.map lab).toFinset := by
    simp only [List.mem_toFinset, List.mem_map]; exact ⟨d, hd, rfl⟩
  have hmem2 : lab e ∈ (l.map lab).toFinset.erase (lab d) := by
    simp only [Finset.mem_erase, List.mem_toFinset, List.mem_map]
    exact ⟨fun h => hde h.symm, e, he, rfl⟩
  rw [this, Finset.card_erase_of_mem hmem2, Finset.card_erase_of_mem hmem]
  have h1 : 0 < ((l.map lab).toFinset.erase (lab d)).card := Finset.card_pos.mpr ⟨_, hmem2⟩
  rw [Finset.card_erase_of_mem hmem] at h1
  omega

end CMapTools

namespace CMapTools

/-- The number of orbits when the two darts `d`, `e` are deleted and simply skipped: it stays
the same, unless `d` and `e` alone make up an orbit, in which case that orbit goes. -/
theorem class_count_skip {n : Nat} {S : Nat → Prop} {f g f1 g1 : Nat → Nat} {d e : Nat}
    (hP : PermOn n S f g) (hP1 : PermOn n (fun x => S x ∧ x ≠ d ∧ x ≠ e) f1 g1)
    (hd : S d) (he : S e)
    (hf1 : ∀ x, S x → x ≠ d → x ≠ e → f1 x = skip_deleted f id d e (f x))
    (hfd : f d ≠ d) (hfe : f e ≠ e)
    (l : List Nat) (hl : ∀ x, x ∈ l ↔ S x) (r r1 : Nat → Nat → Bool)
    (hr : ∀ a b, S a → S b → (r a b = true ↔ SameOrbit f a b))
    (hr1 : ∀ a b, (S a ∧ a ≠ d ∧ a ≠ e) → (S b ∧ b ≠ d ∧ b ≠ e) →
      (r1 a b = true ↔ SameOrbit f1 a b)) :
    class_count r1 (l.filter (fun x => !(x == d || x == e))) +
      (if f d = e ∧ f e = d then 1 else 0) = class_count r l := by
  obtain ⟨lab, hlab⟩ := hP.exists_label l hl
  have hold : class_count r l = (l.map lab).toFinset.card :=
    class_count_of_label r lab l (fun a ha b hb =>
      (hr a b ((hl a).mp ha) ((hl b).mp hb)).trans
        (hlab a b ((hl a).mp ha) ((hl b).mp hb)).symm)
  have hS : ∀ x, S x → x ≠ d → x ≠ e → S (f1 x) ∧ f1 x ≠ d ∧ f1 x ≠ e :=
    fun x h0 h1 h2 => hP1.maps x ⟨h0, h1, h2⟩
  have hnew : class_count r1 (l.filter (fun x => !(x == d || x == e))) =
      ((l.filter (fun x => !(x == d || x == e))).map lab).toFinset.card := by
    apply class_count_of_label
    intro a ha b hb
    obtain ⟨a0, a1, a2⟩ := mem_without.mp ha
    obtain ⟨b0, b1, b2⟩ := mem_without.mp hb
    have sa := (hl a).mp a0
    have sb := (hl b).mp b0
    rw [hr1 a b ⟨sa, a1, a2⟩ ⟨sb, b1, b2⟩, hlab a b sa sb]
    constructor
    · rintro ⟨k, rfl⟩
      exact sameOrbit_of_skip hf1 hS k a sa a1 a2
    · rintro ⟨k, hk⟩
      exact sameOrbit_skip hf1 hS k a b sa a1 a2 b1 b2 hk
  have hstep : ∀ x, S x → lab (f x) = lab x := fun x hx =>
    ((hlab x (f x) hx (hP.maps x hx)).mpr (SameOrbit.one_step f x)).symm
  rw [hold, hnew]
  by_cases hdeg : f d = e ∧ f e = d
  · simp only [hdeg, and_self, if_true]
    have horb : ∀ k, f^[k] d = d ∨ f^[k] d = e := by
      intro k
      induction k with
      | zero => exact Or.inl rfl
      | succ k ih =>
        rw [Function.iterate_succ_apply']
        rcases ih with h | h <;> rw [h]
        · exact Or.inr hdeg.1
        · exact Or.inl hdeg.2
    apply card_labels_drop lab l d e ((hl d).mpr hd)
    · rw [← hdeg.1]; exact hstep d hd
    · intro x hx h1 h2 hc
      obtain ⟨k, hk⟩ := (hlab d x hd ((hl x).mp hx)).mp hc.symm
      rcases horb k with h | h <;> rw [h] at hk
      · exact h1 hk.symm
      · exact h2 hk.symm
  · simp only [hdeg, if_false, Nat.add_zero]
    apply card_labels_keep
    · by_cases h1 : f d = e
      · have h2 : f e ≠ d := fun h => hdeg ⟨h1, h⟩
        exact ⟨f e, (hl _).mpr (hP.maps e he), h2, hfe, by rw [hstep e he, ← h1, hstep d hd]⟩
      · exact ⟨f d, (hl _).mpr (hP.maps d hd), hfd, h1, hstep d hd⟩
    · by_cases h1 : f e = d
      · have h2 : f d ≠ e := fun h => hdeg ⟨h, h1⟩
        exact ⟨f d, (hl _).mpr (hP.maps d hd), hfd, h2, by rw [hstep d hd, ← h1, hstep e he]⟩
      · exact ⟨f e, (hl _).mpr (hP.maps e he), h1, hfe, hstep e he⟩

/-- The number of orbits when the two darts `d`, `e`, of different orbits, are deleted with a
cross-over: one less, since the two orbits merge, and two less when `d` and `e` were each an
orbit of their own, since nothing is left of the merged orbit. -/
theorem class_count_cross {n : Nat} {S : Nat → Prop} {f g f1 g1 opp : Nat → Nat} {d e : Nat}
    (hP : PermOn n S f g) (hP1 : PermOn n (fun x => S x ∧ x ≠ d ∧ x ≠ e) f1 g1)
    (hd : S d) (he : S e) (hod : opp d = e) (hoe : opp e = d) (hA : ¬ SameOrbit f d e)
    (hf1 : ∀ x, S x → x ≠ d → x ≠ e → f1 x = skip_deleted f opp d e (f x))
    (l : List Nat) (hl : ∀ x, x ∈ l ↔ S x) (r r1 : Nat → Nat → Bool)
    (hr : ∀ a b, S a → S b → (r a b = true ↔ SameOrbit f a b))
    (hr1 : ∀ a b, (S a ∧ a ≠ d ∧ a ≠ e) → (S b ∧ b ≠ d ∧ b ≠ e) →
      (r1 a b = true ↔ SameOrbit f1 a b)) :
    class_count r1 (l.filter (fun x => !(x == d || x == e))) + 1 +
      (if f d = d ∧ f e = e then 1 else 0) = class_count r l := by
  obtain ⟨lab, hlab⟩ := hP.exists_label l hl
  have hold : class_count r l = (l.map lab).toFinset.card :=
    class_count_of_label r lab l (fun a ha b hb =>
      (hr a b ((hl a).mp ha) ((hl b).mp hb)).trans
        (hlab a b ((hl a).mp ha) ((hl b).mp hb)).symm)
  have hne : lab d ≠ lab e := fun h => hA ((hlab d e hd he).mp h)
  have hstep : ∀ x, S x → lab (f x) = lab x := fun x hx =>
    ((hlab x (f x) hx (hP.maps x hx)).mpr (SameOrbit.one_step f x)).symm
  have hnew : class_count r1 (l.filter (fun x => !(x == d || x == e))) =
      ((l.filter (fun x => !(x == d || x == e))).map
        (fun x => if lab x = lab d then lab e else lab x)).toFinset.card := by
    apply class_count_of_label
    intro a ha b hb
    obtain ⟨a0, a1, a2⟩ := mem_without.mp ha
    obtain ⟨b0, b1, b2⟩ := mem_without.mp hb
    have sa := (hl a).mp a0
    have sb := (hl b).mp b0
    rw [hr1 a b ⟨sa, a1, a2⟩ ⟨sb, b1, b2⟩]
    constructor
    · intro h
      obtain ⟨M, hM⟩ : ∃ M : Nat → List Nat, M = fun x => if lab x = lab d then lab e else lab x :=
        ⟨_, rfl⟩
      have hMd : M d = lab e := by rw [hM]; simp
      have hMe : M e = lab e := by rw [hM]; simp [Ne.symm hne]
      have hcur1 : ∀ x, (S x ∧ x ≠ d ∧ x ≠ e) → M (f1 x) = M x := by
        rintro x ⟨x0, x1, x2⟩
        rw [hf1 x x0 x1 x2]
        refine current_step (S := S) (fun y hy => by rw [hM]; simp only [hstep y hy]) ?_ x0
        rintro y (rfl | rfl)
        · rw [hod]; exact ⟨he, by rw [hMd, hMe]⟩
        · rw [hoe]; exact ⟨hd, by rw [hMd, hMe]⟩
      have := SameOrbit.label_eq (S := fun x => S x ∧ x ≠ d ∧ x ≠ e) hP1.maps hcur1
        ⟨sa, a1, a2⟩ h
      rw [hM] at this
      exact this
    · intro h
      refine merged_step (L := lab) (M := fun x => if lab x = lab d then lab e else lab x)
        hP hd he hod hoe hf1 hP1 hstep (fun x y hx hy hxy => (hlab x y hx hy).mp hxy) hne ?_
        ⟨sa, a1, a2⟩ ⟨sb, b1, b2⟩ h
      intro z
      by_cases hz : lab z = lab d
      · right; simp [hz]
      · left; simp [hz]
  rw [hold, hnew]
  by_cases hdeg : f d = d ∧ f e = e
  · simp only [hdeg, and_self, if_true]
    have horb : ∀ y, S y → f y = y → ∀ x, SameOrbit f y x → x = y := by
      rintro y _ hy x ⟨k, rfl⟩
      induction k with
      | zero => rfl
      | succ k ih => rw [Function.iterate_succ_apply', ih, hy]
    apply card_labels_merge_drop lab l d e ((hl d).mpr hd) ((hl e).mpr he) hne
    intro x hx h1 h2
    constructor
    · intro hc
      exact h1 (horb d hd hdeg.1 x ((hlab d x hd ((hl x).mp hx)).mp hc.symm))
    · intro hc
      exact h2 (horb e he hdeg.2 x ((hlab e x he ((hl x).mp hx)).mp hc.symm))
  · simp only [hdeg, if_false, Nat.add_zero]
    apply card_labels_merge_keep lab l d e ((hl d).mpr hd) ((hl e).mpr he) hne
    by_cases h1 : f d = d
    · have h2 : f e ≠ e := fun h => hdeg ⟨h1, h⟩
      refine ⟨f e, (hl _).mpr (hP.maps e he), ?_, h2, Or.inr (hstep e he)⟩
      intro hc
      exact hA (hP.sameOrbit_symm he ⟨1, hc⟩)
    · refine ⟨f d, (hl _).mpr (hP.maps d hd), h1, ?_, Or.inl (hstep d hd)⟩
      intro hc
      exact hA ⟨1, hc⟩

end CMapTools

namespace CMapTools

/-! ## What one removal and one contraction do to the numbers of cells -/

theorem remove_cell_1_darts (m : CMap) (d : Nat) :
    (remove_cell_1 m d).darts = m.darts.filter (fun x => !(x == d || x == m.beta2 d)) := by
  simp only [CMap.darts, remove_cell_1, List.filter_filter]
  congr 1
  funext x
  rw [Bool.and_comm]

theorem contract_cell_1_darts (m : CMap) (d : Nat) :
    (contract_cell_1 m d).darts = m.darts.filter (fun x => !(x == d || x == m.beta2 d)) := by
  simp only [CMap.darts, contract_cell_1, List.filter_filter]
  congr 1
  funext x
  rw [Bool.and_comm]

theorem sameOrbit_invol {f : Nat → Nat} {a : Nat} (h : f (f a) = a) (b : Nat) :
    SameOrbit f a b ↔ a = b ∨ f a = b := by
  constructor
  · rintro ⟨k, rfl⟩
    induction k with
    | zero => exact Or.inl rfl
    | succ k ih =>
      rw [Function.iterate_succ_apply']
      rcases ih with h1 | h1 <;> rw [← h1]
      · exact Or.inr rfl
      · exact Or.inl h.symm
  · rintro (rfl | rfl)
    · exact ⟨0, rfl⟩
    · exact ⟨1, rfl⟩

theorem same_edge_iff {m : CMap} (hm : m.Boundaryless) {a : Nat} (ha : m.IsDart a) (b : Nat) :
    m.same_edge a b = true ↔ SameOrbit m.beta2 a b := by
  rw [sameOrbit_invol (hm.perm2.left_inv a ha)]
  simp [CMap.same_edge]

/-- Deleting the two darts of an edge takes one edge away, whatever is done to `beta1`. -/
theorem num_edges_without {m m1 : CMap} (hm : m.Boundaryless) (hm1 : m1.Boundaryless)
    {d : Nat} (hd : m.IsDart d) (hb2 : m1.beta2 = m.beta2)
    (hdarts : m1.darts = m.darts.filter (fun x => !(x == d || x == m.beta2 d)))
    (hS : ∀ x, m1.IsDart x ↔ m.IsDart x ∧ x ≠ d ∧ x ≠ m.beta2 d) :
    m1.num_edges + 1 = m.num_edges := by
  have he := hm.perm2.maps d hd
  have hinv := hm.perm2.left_inv d hd
  have hP1 : PermOn m.size (fun x => m.IsDart x ∧ x ≠ d ∧ x ≠ m.beta2 d) m.beta2 m.beta2 :=
    hm.beta2_pair hd
  have := class_count_skip hm.perm2 hP1 hd he
    (fun x hx h1 h2 => by
      have := hP1.maps x ⟨hx, h1, h2⟩
      rw [skip_deleted_keep _ _ _ _ _ this.2.1 this.2.2])
    (hm.beta2_ne hd) (hm.beta2_ne he) m.darts (mem_darts m) m.same_edge m1.same_edge
    (fun a b ha _ => same_edge_iff hm ha b)
    (fun a b ha _ => by
      have := same_edge_iff hm1 ((hS a).mpr ha) b
      rw [hb2] at this
      exact this)
  rw [if_pos ⟨rfl, hinv⟩] at this
  unfold CMap.num_edges
  rw [hdarts]
  exact this

/-- What the removal of an edge between two different faces does to the numbers of cells:
one edge less, one face less, same vertices; except for a loop edge between two faces of
one dart each, where nothing is left of the merged face nor of the vertex. -/
theorem remove_cell_1_counts {m : CMap} (hm : m.Boundaryless) {d : Nat} (hd : m.IsDart d)
    (hA : ¬ SameOrbit m.beta1 d (m.beta2 d)) :
    (remove_cell_1 m d).num_vertices + (if m.is_lone_loop d then 1 else 0) = m.num_vertices ∧
    (remove_cell_1 m d).num_edges + 1 = m.num_edges ∧
    (remove_cell_1 m d).num_faces + 1 + (if m.is_lone_loop d then 1 else 0) = m.num_faces := by
  have he := hm.perm2.maps d hd
  have hinv := hm.perm2.left_inv d hd
  have hm1 := remove_cell_1_boundaryless hm hd
  have hS := remove_cell_1_isDart m d
  have hP1 := hm1.perm1.congr (fun x => (hS x).symm)
  have hPV := hm1.permV.congr (fun x => (hS x).symm)
  have hAe : ¬ SameOrbit m.beta1 (m.beta2 d) d := fun h => hA (hm.perm1.sameOrbit_symm he h)
  have hloop : (m.is_lone_loop d = true) ↔ (m.beta1 d = d ∧ m.beta1 (m.beta2 d) = m.beta2 d) := by
    simp [CMap.is_lone_loop]
  refine ⟨?_, num_edges_without hm hm1 hd rfl (remove_cell_1_darts m d) hS, ?_⟩
  · have := class_count_skip hm.permV hPV hd he
      (fun x hx h1 h2 => by
        have hx2 := (hm.beta2_pair hd).maps x ⟨hx, h1, h2⟩
        show (remove_cell_1 m d).beta1 (m.beta2 x) = _
        rw [remove_cell_1_beta1 m d _ hx2.2.1 hx2.2.2]
        rfl)
      (fun h => hAe ⟨1, h⟩)
      (fun h => hA ⟨1, by rw [hinv] at h; exact h⟩)
      m.darts (mem_darts m) m.same_vertex (remove_cell_1 m d).same_vertex
      (fun a b ha _ => same_vertex_iff hm ha b)
      (fun a b ha _ => same_vertex_iff hm1 ((hS a).mpr ha) b)
    unfold CMap.num_vertices
    rw [remove_cell_1_darts, ← this]
    congr 1
    by_cases h : m.is_lone_loop d = true
    · rw [if_pos h, if_pos]
      show m.beta1 (m.beta2 d) = m.beta2 d ∧ m.beta1 (m.beta2 (m.beta2 d)) = d
      rw [hinv]
      exact ⟨(hloop.mp h).2, (hloop.mp h).1⟩
    · rw [if_neg h, if_neg]
      show ¬ (m.beta1 (m.beta2 d) = m.beta2 d ∧ m.beta1 (m.beta2 (m.beta2 d)) = d)
      rw [hinv]
      exact fun hc => h (hloop.mpr ⟨hc.2, hc.1⟩)
  · have := class_count_cross hm.perm1 hP1 hd he rfl hinv hA
      (fun x _ h1 h2 => remove_cell_1_beta1 m d x h1 h2)
      m.darts (mem_darts m) m.same_face (remove_cell_1 m d).same_face
      (fun a b ha _ => same_face_iff hm ha b)
      (fun a b ha _ => same_face_iff hm1 ((hS a).mpr ha) b)
    unfold CMap.num_faces
    rw [remove_cell_1_darts, ← this]
    congr 1
    by_cases h : m.is_lone_loop d = true
    · rw [if_pos h, if_pos (hloop.mp h)]
    · rw [if_neg h, if_neg (fun hc => h (hloop.mpr hc))]

/-- What the contraction of an edge between two different vertices does to the numbers of
cells: one edge less, one vertex less, same faces; except for an edge whose two darts make
up a face, where nothing is left of the merged vertex nor of the face. -/
theorem contract_cell_1_counts {m : CMap} (hm : m.Boundaryless) {d : Nat} (hd : m.IsDart d)
    (hA : ¬ SameOrbit (fun x => m.beta1 (m.beta2 x)) d (m.beta2 d)) :
    (contract_cell_1 m d).num_vertices + 1 + (if m.is_lone_edge d then 1 else 0) =
      m.num_vertices ∧
    (contract_cell_1 m d).num_edges + 1 = m.num_edges ∧
    (contract_cell_1 m d).num_faces + (if m.is_lone_edge d then 1 else 0) = m.num_faces := by
  have he := hm.perm2.maps d hd
  have hinv := hm.perm2.left_inv d hd
  have hm1 := contract_cell_1_boundaryless hm hd
  have hS := contract_cell_1_isDart m d
  have hP1 := hm1.perm1.congr (fun x => (hS x).symm)
  have hPV := hm1.permV.congr (fun x => (hS x).symm)
  have hAe : ¬ SameOrbit (fun x => m.beta1 (m.beta2 x)) (m.beta2 d) d :=
    fun h => hA (hm.permV.sameOrbit_symm he h)
  have hedge : (m.is_lone_edge d = true) ↔ (m.beta1 d = m.beta2 d ∧ m.beta1 (m.beta2 d) = d) := by
    simp [CMap.is_lone_edge]
  refine ⟨?_, num_edges_without hm hm1 hd rfl (contract_cell_1_darts m d) hS, ?_⟩
  · have := class_count_cross hm.permV hPV hd he rfl hinv hA
      (fun x hx h1 h2 => contract_cell_1_vertex hm hd x hx h1 h2)
      m.darts (mem_darts m) m.same_vertex (contract_cell_1 m d).same_vertex
      (fun a b ha _ => same_vertex_iff hm ha b)
      (fun a b ha _ => same_vertex_iff hm1 ((hS a).mpr ha) b)
    unfold CMap.num_vertices
    rw [contract_cell_1_darts, ← this]
    congr 1
    by_cases h : m.is_lone_edge d = true
    · rw [if_pos h, if_pos]
      show m.beta1 (m.beta2 d) = d ∧ m.beta1 (m.beta2 (m.beta2 d)) = m.beta2 d
      rw [hinv]
      exact ⟨(hedge.mp h).2, (hedge.mp h).1⟩
    · rw [if_neg h, if_neg]
      show ¬ (m.beta1 (m.beta2 d) = d ∧ m.beta1 (m.beta2 (m.beta2 d)) = m.beta2 d)
      rw [hinv]
      exact fun hc => h (hedge.mpr ⟨hc.2, hc.1⟩)
  · have := class_count_skip hm.perm1 hP1 hd he
      (fun x _ h1 h2 => contract_cell_1_beta1 m d x h1 h2)
      (fun h => hAe ⟨1, by show m.beta1 (m.beta2 (m.beta2 d)) = d; rw [hinv]; exact h⟩)
      (fun h => hA ⟨1, h⟩)
      m.darts (mem_darts m) m.same_face (contract_cell_1 m d).same_face
      (fun a b ha _ => same_face_iff hm ha b)
      (fun a b ha _ => same_face_iff hm1 ((hS a).mpr ha) b)
    unfold CMap.num_faces
    rw [contract_cell_1_darts, ← this]
    congr 1
    by_cases h : m.is_lone_edge d = true
    · rw [if_pos h, if_pos (hedge.mp h)]
    · rw [if_neg h, if_neg (fun hc => h (hedge.mpr hc))]

end CMapTools

namespace CMapTools

/-! ## The numbers of cells along the two passes -/

theorem append_singleton_split {l pre post : List Nat} {i d : Nat}
    (h : l ++ [i] = pre ++ d :: post) :
    (post = [] ∧ pre = l ∧ d = i) ∨ ∃ post1, post = post1 ++ [i] ∧ l = pre ++ d :: post1 := by
  rcases List.eq_nil_or_concat post with rfl | ⟨post1, x, rfl⟩
  · left
    have := List.append_inj' h rfl
    exact ⟨rfl, this.1.symm, (List.cons.inj this.2).1.symm⟩
  · right
    have h2 : l ++ [i] = (pre ++ d :: post1) ++ [x] := by
      rw [h]; simp
    have := List.append_inj' h2 rfl
    refine ⟨post1, ?_, this.1⟩
    rw [(List.cons.inj this.2).1]
    simp

theorem Replayed.start (op : CMap → Nat → CMap) (Q : CMap → Nat → Prop) (m : CMap)
    (uf : UFTree) (t : Nat → Bool) :
    Replayed op Q m { map := { m with automatic_attributes_management := false },
                      uftrees := uf, treated := t, trace := [] } where
  map_eq := rfl
  steps := fun pre d post h => by
    have h1 : ([] : List Nat) = pre ++ d :: post := h
    cases pre <;> cases h1

theorem Replayed.push {op : CMap → Nat → CMap} {Q : CMap → Nat → Prop} {m : CMap}
    {s : ScanState} (h : Replayed op Q m s) (i : Nat) (uf : UFTree) (t : Nat → Bool)
    (hop : ∀ (x : CMap) (d : Nat), op { x with automatic_attributes_management := false } d =
      { op x d with automatic_attributes_management := false })
    (hQ : Q (s.trace.reverse.foldl op m) i) :
    Replayed op Q m { map := op s.map i, uftrees := uf, treated := t,
                      trace := i :: s.trace } where
  map_eq := by
    show op s.map i = _
    rw [h.map_eq, hop]
    simp only [List.reverse_cons, List.foldl_append, List.foldl_cons, List.foldl_nil]
  steps := fun pre d post hl => by
    have hl1 : s.trace.reverse ++ [i] = pre ++ d :: post := by
      rw [← hl]; simp
    rcases append_singleton_split hl1 with ⟨_, h2, h3⟩ | ⟨post1, _, h2⟩
    · rw [h2, h3]; exact hQ
    · exact h.steps pre d post1 h2

/-- The numbers of cells after a replay every step of which is a removal between two
different faces. -/
theorem removal_totals : ∀ (l : List Nat) (m : CMap),
    (∀ pre d post, l = pre ++ d :: post → (pre.foldl remove_cell_1 m).RemovalEffect d) →
    (l.foldl remove_cell_1 m).num_vertices + count_steps remove_cell_1 CMap.is_lone_loop m l =
      m.num_vertices ∧
    (l.foldl remove_cell_1 m).num_edges + l.length = m.num_edges ∧
    (l.foldl remove_cell_1 m).num_faces + l.length +
      count_steps remove_cell_1 CMap.is_lone_loop m l = m.num_faces := by
  intro l
  induction l with
  | nil => intro m _; exact ⟨rfl, rfl, rfl⟩
  | cons d ds ih =>
    intro m h
    have h0 : m.RemovalEffect d := h [] d ds rfl
    obtain ⟨_, _, h1, h2, h3⟩ := h0
    obtain ⟨i1, i2, i3⟩ := ih (remove_cell_1 m d)
      (fun pre x post hl => h (d :: pre) x post (by rw [hl]; rfl))
    simp only [List.foldl_cons, count_steps, List.length_cons]
    refine ⟨?_, ?_, ?_⟩ <;> omega

/-- The numbers of cells after a replay every step of which is a contraction between two
different vertices. -/
theorem contraction_totals : ∀ (l : List Nat) (m : CMap),
    (∀ pre d post, l = pre ++ d :: post →
      (pre.foldl contract_cell_1 m).ContractionEffect d) →
    (l.foldl contract_cell_1 m).num_vertices + l.length +
      count_steps contract_cell_1 CMap.is_lone_edge m l = m.num_vertices ∧
    (l.foldl contract_cell_1 m).num_edges + l.length = m.num_edges ∧
    (l.foldl contract_cell_1 m).num_faces +
      count_steps contract_cell_1 CMap.is_lone_edge m l = m.num_faces := by
  intro l
  induction l with
  | nil => intro m _; exact ⟨rfl, rfl, rfl⟩
  | cons d ds ih =>
    intro m h
    have h0 : m.ContractionEffect d := h [] d ds rfl
    obtain ⟨_, _, h1, h2, h3⟩ := h0
    obtain ⟨i1, i2, i3⟩ := ih (contract_cell_1 m d)
      (fun pre x post hl => h (d :: pre) x post (by rw [hl]; rfl))
    simp only [List.foldl_cons, count_steps, List.length_cons]
    refine ⟨?_, ?_, ?_⟩ <;> omega

/-- Every removal of the face scan merges two faces of the edited map, with the effect on
the numbers of cells stated in `RemovalEffect`. -/
theorem face_scan_run_replayed {m : CMap} (hm : m.Boundaryless) :
    ∃ uf faces s, initialize_faces m = some (uf, faces) ∧
      face_scan_run m uf faces = some s ∧
      Replayed remove_cell_1 CMap.RemovalEffect m s := by
  obtain ⟨uf, faces, e, hS⟩ := initialize_cells_spec hm.perm1
  obtain ⟨s, e2, hI, hP⟩ := face_fold_inv hm
    (fun s => FaceMerged faces s ∧ Replayed remove_cell_1 CMap.RemovalEffect m s)
    (fun s t h => ⟨h.1, ⟨h.2.map_eq, h.2.steps⟩⟩)
    (fun i s a b t hI hP hd ha hb hab => by
      refine ⟨FaceMerged.face_remove t hI hP.1 hd ha hb hab, ?_⟩
      refine hP.2.push i _ t (fun x d => rfl) ?_
      have hB := hI.boundaryless
      have hA : ¬ SameOrbit s.map.beta1 i (s.map.beta2 i) := by
        intro h
        have := SameOrbit.label_eq hB.perm1.maps hI.current hd h
        rw [ha, hb] at this
        exact hab (Option.some.inj this)
      have hsf : s.map.same_face i (s.map.beta2 i) = false := by
        rw [← Bool.not_eq_true, same_face_iff hB hd]
        exact hA
      have hc := remove_cell_1_counts hB hd hA
      rw [hP.2.map_eq] at hB hd hsf hc
      exact ⟨hd, hsf, hc⟩)
    m.size _ (FaceInv.face_init hm hS)
    ⟨FaceMerged.face_start hS, Replayed.start _ _ m uf _⟩
  exact ⟨uf, faces, s, by rw [initialize_faces_eq, e], e2, hP.2⟩

/-- Every contraction of the vertex scan merges two vertices of the edited map, with the
effect on the numbers of cells stated in `ContractionEffect`. -/
theorem vertex_scan_run_replayed {m : CMap} (hm : m.Boundaryless) :
    ∃ uf vertices s, initialize_vertices m = some (uf, vertices) ∧
      vertex_scan_run m uf vertices = some s ∧
      Replayed contract_cell_1 CMap.ContractionEffect m s := by
  obtain ⟨uf, vertices, e, hS⟩ := initialize_cells_spec hm.permV
  obtain ⟨s, e2, hI, hP⟩ := vertex_fold_inv hm
    (fun s => VertexMerged vertices s ∧ Replayed contract_cell_1 CMap.ContractionEffect m s)
    (fun i s a b hI hP hd ha hb hab => by
      refine ⟨VertexMerged.vertex_contract hI hP.1 hd ha hb hab, ?_⟩
      refine hP.2.push i _ s.treated (fun x d => rfl) ?_
      have hB := hI.boundaryless
      have hA : ¬ SameOrbit (fun x => s.map.beta1 (s.map.beta2 x)) i (s.map.beta2 i) := by
        intro h
        have := SameOrbit.label_eq hB.permV.maps hP.1.1 hd h
        rw [ha, hb] at this
        exact hab (Option.some.inj this)
      have hsf : s.map.same_vertex i (s.map.beta2 i) = false := by
        rw [← Bool.not_eq_true, same_vertex_iff hB hd]
        exact hA
      have hc := contract_cell_1_counts hB hd hA
      rw [hP.2.map_eq] at hB hd hsf hc
      exact ⟨hd, hsf, hc⟩)
    m.size _ (VertexInv.vertex_init hm hS)
    ⟨VertexMerged.vertex_start hm hS, Replayed.start _ _ m uf _⟩
  exact ⟨uf, vertices, s, by rw [initialize_vertices_eq hm, e], e2, hP.2⟩

end CMapTools

namespace CMapTools

theorem class_count_eq_zero (r : Nat → Nat → Bool) :
    ∀ l : List Nat, class_count r l = 0 → l = [] := by
  intro l
  cases l with
  | nil => intro _; rfl
  | cons d ds =>
    intro h
    simp only [class_count] at h
    have h1 : class_count r ds = 0 := by omega
    have h2 : ds = [] := class_count_eq_zero r ds h1
    rw [h2] at h
    simp [class_count] at h

/-- The face pass in numbers, on a map without boundary: the result is the replay of the
removals from the input, each removal merges two faces, and the totals follow. -/
theorem face_pass_counts {m : CMap} (hm : m.Boundaryless) :
    ∃ r, surface_simplification_in_one_face m = some r ∧
      r.map = { r.trace.foldl remove_cell_1 m with automatic_attributes_management := true } ∧
      (∀ pre d post, r.trace = pre ++ d :: post →
        (pre.foldl remove_cell_1 m).RemovalEffect d) ∧
      r.map.num_vertices + count_steps remove_cell_1 CMap.is_lone_loop m r.trace =
        m.num_vertices ∧
      r.map.num_edges + r.trace.length = m.num_edges ∧
      r.map.num_faces + r.trace.length + count_steps remove_cell_1 CMap.is_lone_loop m r.trace =
        m.num_faces ∧
      r.trace.length + m.num_components = m.num_faces := by
  obtain ⟨uf, faces, s, e1, e2, hR⟩ := face_scan_run_replayed hm
  obtain ⟨uf1, faces1, s1, e3, _, e4, hI⟩ := face_scan_run_spec hm
  rw [e1] at e3
  cases e3
  rw [e2] at e4
  cases e4
  have hfin := hI.kinv.final hm
    (fun x _ => Relation.ReflTransGen.single (Or.inr (Or.inl rfl)))
    (fun x _ => Relation.ReflTransGen.single (Or.inl rfl))
    (hI.face_along_beta1) (fun x hx => hI.resolved x hx (Or.inl hx.1))
  have hmap : ({ s.map with automatic_attributes_management := true } : CMap) =
      { s.trace.reverse.foldl remove_cell_1 m with automatic_attributes_management := true } := by
    rw [hR.map_eq]
  obtain ⟨t1, t2, t3⟩ := removal_totals s.trace.reverse m hR.steps
  refine ⟨_, face_pass_of_scan_run e1 e2, hmap, hR.steps, ?_, ?_, ?_, ?_⟩
  · rw [hmap]; exact t1
  · rw [hmap]; exact t2
  · rw [hmap]; exact t3
  · simp only [List.length_reverse]
    exact hfin.2

/-- The vertex pass in numbers, on a map without boundary: the result is the replay of the
contractions from the input, each contraction merges two vertices, and the totals follow. -/
theorem vertex_pass_counts {m : CMap} (hm : m.Boundaryless) :
    ∃ r, surface_simplification_in_one_vertex m = some r ∧
      r.map =
        { r.trace.foldl contract_cell_1 m with automatic_attributes_management := true } ∧
      (∀ pre d post, r.trace = pre ++ d :: post →
        (pre.foldl contract_cell_1 m).ContractionEffect d) ∧
      r.map.num_vertices + r.trace.length +
        count_steps contract_cell_1 CMap.is_lone_edge m r.trace = m.num_vertices ∧
      r.map.num_edges + r.trace.length = m.num_edges ∧
      r.map.num_faces + count_steps contract_cell_1 CMap.is_lone_edge m r.trace =
        m.num_faces := by
  obtain ⟨uf, vertices, s, e1, e2, hR⟩ := vertex_scan_run_replayed hm
  have hmap : ({ s.map with automatic_attributes_management := true } : CMap) =
      { s.trace.reverse.foldl contract_cell_1 m
        with automatic_attributes_management := true } := by
    rw [hR.map_eq]
  obtain ⟨t1, t2, t3⟩ := contraction_totals s.trace.reverse m hR.steps
  refine ⟨_, vertex_pass_of_scan_run e1 e2, hmap, hR.steps, ?_, ?_, ?_⟩
  · rw [hmap]; exact t1
  · rw [hmap]; exact t2
  · rw [hmap]; exact t3

/-- C5, amended (Euler characteristic along the face pass). On a map without boundary the
face pass returns the replay of its removals; each removal is applied to a live dart whose
two sides are different faces and changes `(V, E, F)` by `(0, -1, -1)`, except when the
removed edge is a loop between two faces of one dart each, where nothing of the merged face
is left and the change is `(-1, -1, -2)`. So `V - E + F` after the pass is `V - E + F`
before it minus twice the number of such removals, which is the number of vertices lost. -/
theorem face_pass_euler (m : CMap) (hm : m.Boundaryless) :
    ∃ r, surface_simplification_in_one_face m = some r ∧
      r.map = { r.trace.foldl remove_cell_1 m with automatic_attributes_management := true } ∧
      (∀ pre d post, r.trace = pre ++ d :: post →
        (pre.foldl remove_cell_1 m).RemovalEffect d) ∧
      r.map.num_vertices + count_steps remove_cell_1 CMap.is_lone_loop m r.trace =
        m.num_vertices ∧
      r.map.euler + 2 * ((count_steps remove_cell_1 CMap.is_lone_loop m r.trace : Nat) : Int) =
        m.euler := by
  obtain ⟨r, e, h1, h2, h3, h4, h5, _⟩ := face_pass_counts hm
  refine ⟨r, e, h1, h2, h3, ?_⟩
  unfold CMap.euler
  omega

/-- C5 amended, at the pillow. -/
theorem face_pass_euler_witness :
    pillow.Boundaryless ∧
    ∃ r, surface_simplification_in_one_face pillow = some r ∧
      r.map =
        { r.trace.foldl remove_cell_1 pillow with automatic_attributes_management := true } ∧
      (∀ pre d post, r.trace = pre ++ d :: post →
        (pre.foldl remove_cell_1 pillow).RemovalEffect d) ∧
      r.map.num_vertices + count_steps remove_cell_1 CMap.is_lone_loop pillow r.trace =
        pillow.num_vertices ∧
      r.map.euler +
        2 * ((count_steps remove_cell_1 CMap.is_lone_loop pillow r.trace : Nat) : Int) =
        pillow.euler :=
  ⟨by decide, face_pass_euler pillow (by decide)⟩

/-- C5 as stated fails: on the sphere made of one loop edge, closed and without boundary,
the face pass makes one removal, which takes `(V, E, F)` from `(1, 1, 2)` to `(0, 0, 0)`,
and `V - E + F` from 2 to 0. -/
theorem face_pass_euler_counterexample :
    loop_sphere.Boundaryless ∧ loop_sphere.cell_numbers = (1, 1, 2) ∧ loop_sphere.euler = 2 ∧
    (surface_simplification_in_one_face loop_sphere).map
      (fun r => (r.trace, r.map.cell_numbers, r.map.euler)) = some ([0], (0, 0, 0), 0) := by
  decide

/-- C6, amended (Euler characteristic along the vertex pass). On a map without boundary the
vertex pass returns the replay of its contractions; each contraction is applied to a live
dart whose two ends are different vertices and changes `(V, E, F)` by `(-1, -1, 0)`, except
when the two darts of the contracted edge make up a face, where nothing of that face is left
and the change is `(-2, -1, -1)`. So `V - E + F` after the pass is `V - E + F` before it
minus twice the number of such contractions, which is the number of faces lost. -/
theorem vertex_pass_euler (m : CMap) (hm : m.Boundaryless) :
    ∃ r, surface_simplification_in_one_vertex m = some r ∧
      r.map =
        { r.trace.foldl contract_cell_1 m with automatic_attributes_management := true } ∧
      (∀ pre d post, r.trace = pre ++ d :: post →
        (pre.foldl contract_cell_1 m).ContractionEffect d) ∧
      r.map.num_faces + count_steps contract_cell_1 CMap.is_lone_edge m r.trace =
        m.num_faces ∧
      r.map.euler +
        2 * ((count_steps contract_cell_1 CMap.is_lone_edge m r.trace : Nat) : Int) =
        m.euler := by
  obtain ⟨r, e, h1, h2, h3, h4, h5⟩ := vertex_pass_counts hm
  refine ⟨r, e, h1, h2, h5, ?_⟩
  unfold CMap.euler
  omega

/-- C6 amended, at the pillow. -/
theorem vertex_pass_euler_witness :
    pillow.Boundaryless ∧
    ∃ r, surface_simplification_in_one_vertex pillow = some r ∧
      r.map =
        { r.trace.foldl contract_cell_1 pillow with automatic_attributes_management := true } ∧
      (∀ pre d post, r.trace = pre ++ d :: post →
        (pre.foldl contract_cell_1 pillow).ContractionEffect d) ∧
      r.map.num_faces + count_steps contract_cell_1 CMap.is_lone_edge pillow r.trace =
        pillow.num_faces ∧
      r.map.euler +
        2 * ((count_steps contract_cell_1 CMap.is_lone_edge pillow r.trace : Nat) : Int) =
        pillow.euler :=
  ⟨by decide, vertex_pass_euler pillow (by decide)⟩

/-- C6 as stated fails: on the sphere made of one edge between two vertices, closed and
without boundary, the vertex pass makes one contraction, which takes `(V, E, F)` from
`(2, 1, 1)` to `(0, 0, 0)`, and `V - E + F` from 2 to 0. -/
theorem vertex_pass_euler_counterexample :
    edge_sphere.Boundaryless ∧ edge_sphere.cell_numbers = (2, 1, 1) ∧ edge_sphere.euler = 2 ∧
    (surface_simplification_in_one_vertex edge_sphere).map
      (fun r => (r.trace, r.map.cell_numbers, r.map.euler)) = some ([0], (0, 0, 0), 0) := by
  decide

end CMapTools

namespace CMapTools

/-! ## The pillow -/

theorem num_components_connected {m : CMap} (hc : m.IsConnected) (hne : m.darts ≠ []) :
    m.num_components = 1 := by
  have := class_count_all m.connected m.darts (fun a ha b hb => by
    have ha1 := (mem_darts m a).mp ha
    have hb1 := (mem_darts m b).mp hb
    exact hc a ha1.1 b hb1.1 ha1.2 hb1.2)
  rw [if_neg hne] at this
  exact this

/-- C7 (pillow, face pass). For every connected map without boundary with three vertices,
three edges and two faces, as is the pillow made of two triangles glued along their three
edges in any storage order of its darts, the face pass removes exactly one edge and returns
a map with three vertices, two edges and one face. -/
theorem pillow_face_pass (m : CMap) (hm : m.Boundaryless) (hc : m.IsConnected)
    (hn : m.cell_numbers = (3, 3, 2)) :
    pass_summary (surface_simplification_in_one_face m) = some (1, 3, 2, 1) := by
  simp only [CMap.cell_numbers, Prod.mk.injEq] at hn
  obtain ⟨hV, hE, hF⟩ := hn
  obtain ⟨r, e, _, _, h3, h4, h5, h6⟩ := face_pass_counts hm
  have hne : m.darts ≠ [] := by
    intro h
    have : m.num_faces = 0 := by unfold CMap.num_faces; rw [h]; rfl
    omega
  have hC := num_components_connected hc hne
  have hlen : r.trace.length = 1 := by omega
  have hE1 : r.map.num_edges = 2 := by omega
  have hF1 : r.map.num_faces = 1 := by
    by_contra hcon
    have h0 : r.map.num_faces = 0 := by omega
    have hd := class_count_eq_zero _ _ h0
    have : r.map.num_edges = 0 := by unfold CMap.num_edges; rw [hd]; rfl
    omega
  have hV1 : r.map.num_vertices = 3 := by omega
  rw [e]
  simp only [pass_summary, Option.map_some', CMap.cell_numbers, hlen, hE1, hF1, hV1]

/-- C7 at the pillow with its darts stored in the order `4 2 0 5 1 3`. -/
theorem pillow_face_pass_witness :
    (pillow.relabel [4, 2, 0, 5, 1, 3]).Boundaryless ∧
    (pillow.relabel [4, 2, 0, 5, 1, 3]).IsConnected ∧
    (pillow.relabel [4, 2, 0, 5, 1, 3]).cell_numbers = (3, 3, 2) ∧
    pass_summary (surface_simplification_in_one_face (pillow.relabel [4, 2, 0, 5, 1, 3])) =
      some (1, 3, 2, 1) :=
  ⟨by decide, by decide, by decide,
    pillow_face_pass (pillow.relabel [4, 2, 0, 5, 1, 3]) (by decide) (by decide) (by decide)⟩

/-- C8 as stated fails: the vertex pass run on the output of the face pass on the pillow
does not return a map with one vertex, no edge and one face. -/
theorem pillow_vertex_pass_counterexample :
    pass_summary ((surface_simplification_in_one_face pillow).bind fun r =>
      surface_simplification_in_one_vertex r.map) ≠ some (2, 1, 0, 1) := by decide

/-- C8, amended (pillow, vertex pass). The face pass on the pillow removes one edge and
returns a map with three vertices, two edges and one face; the vertex pass run on that map
contracts exactly its two edges and returns a map with no dart left: no vertex, no edge and
no face. -/
theorem pillow_vertex_pass :
    pass_summary (surface_simplification_in_one_face pillow) = some (1, 3, 2, 1) ∧
    ((surface_simplification_in_one_face pillow).bind fun r =>
      (surface_simplification_in_one_vertex r.map).map fun r2 =>
        (r2.trace.length, r2.map.darts, r2.map.cell_numbers)) = some (2, [], 0, 0, 0) := by
  decide

end CMapTools

namespace CMapTools

/-! ## Running the vertex pass again -/

/-- On a map without boundary in which every dart lies around the vertex of its opposite,
the vertex pass contracts nothing and gives the map back. -/
theorem vertex_pass_fixed {m : CMap} (hm : m.Boundaryless)
    (hE : ∀ x, m.IsDart x → SameOrbit (fun d => m.beta1 (m.beta2 d)) x (m.beta2 x)) :
    surface_simplification_in_one_vertex m =
      some { map := { m with automatic_attributes_management := true }, trace := [] } := by
  obtain ⟨uf, vertices, e, hS⟩ := initialize_cells_spec hm.permV
  obtain ⟨s, e2, hI, hP⟩ := vertex_fold_inv hm
    (fun s => s.map = { m with automatic_attributes_management := false } ∧ s.uftrees = uf ∧
      s.trace = [])
    (fun i s a b hI hP hd ha hb hab => by
      exfalso
      obtain ⟨p1, p2, _⟩ := hP
      have hdm : m.IsDart i := hI.sub i hd
      have hd2 : m.IsDart (m.beta2 i) := hm.perm2.maps i hdm
      have hb2 : s.map.beta2 i = m.beta2 i := by rw [hI.beta2]
      rw [hb2] at hb
      obtain ⟨h1, e1, _⟩ := hS.total i hdm
      obtain ⟨h2, e2, _⟩ := hS.total _ hd2
      have hsame := (hS.same i _ hdm hd2).mpr (hE i hdm)
      rw [p2] at ha hb
      simp only [get_uftree, e1, e2, UFTree.find, hS.rep, Option.some.injEq] at ha hb
      rw [e1, e2] at hsame
      exact hab (by rw [← ha, ← hb]; exact Option.some.inj hsame))
    m.size _ (VertexInv.vertex_init hm hS) ⟨rfl, rfl, rfl⟩
  rw [vertex_pass_of_scan_run (by rw [initialize_vertices_eq hm, e]) e2]
  obtain ⟨p1, _, p3⟩ := hP
  rw [p1, p3]
  rfl

/-- C11 (idempotence of the vertex pass). On a map without boundary the vertex pass returns,
and running it again on what it returned contracts no edge and gives that map back
unchanged. -/
theorem vertex_pass_idempotent (m : CMap) (hm : m.Boundaryless) :
    ∃ r, surface_simplification_in_one_vertex m = some r ∧
      surface_simplification_in_one_vertex r.map = some { map := r.map, trace := [] } := by
  obtain ⟨r, e, hB, _, _, hflag, _, _, hE⟩ := vertex_pass_output hm
  refine ⟨r, e, ?_⟩
  rw [vertex_pass_fixed hB hE, restore_flag r.map hflag]

/-- C11 at the pillow. -/
theorem vertex_pass_idempotent_witness :
    pillow.Boundaryless ∧
    ∃ r, surface_simplification_in_one_vertex pillow = some r ∧
      surface_simplification_in_one_vertex r.map = some { map := r.map, trace := [] } :=
  ⟨by decide, vertex_pass_idempotent pillow (by decide)⟩

end CMapTools

namespace CMapTools

/-! ## The indexers build one class per cell -/

theorem CMap.IsPermutation.permOn {m : CMap} {f g : Nat → Nat} (h : m.IsPermutation f g) :
    PermOn m.size m.IsDart f g where
  lt := fun _ hx => hx.1
  maps := fun x hx => ⟨(h x hx.1 hx.2).1.1, (h x hx.1 hx.2).1.2.1⟩
  inv_maps := fun x hx => ⟨(h x hx.1 hx.2).2.1, (h x hx.1 hx.2).2.2.1⟩
  left_inv := fun x hx => (h x hx.1 hx.2).1.2.2
  right_inv := fun x hx => (h x hx.1 hx.2).2.2.2

/-- One round of an indexer keeps every class of the forest in use: each handle is the
class of some dart. -/
theorem init_step_onto {m : CMap} {f g : Nat → Nat} (hP : PermOn m.size m.IsDart f g)
    {uf : UFTree} {index : Index} {treated : Nat → Bool} (hI : InitInv m f uf index treated)
    (hO : ∀ h, h < uf.nodes → ∃ x, index x = some h) {it : Nat} (hit : m.IsDart it)
    {uf1 : UFTree} {index1 : Index} {treated1 : Nat → Bool}
    (e : initialize_cells_step f (m.size + 1) (some (uf, index, treated)) it =
      some (uf1, index1, treated1)) :
    ∀ h, h < uf1.nodes → ∃ x, index1 x = some h := by
  by_cases ht : treated it = true
  · simp only [initialize_cells_step, ht, Bool.not_true, Bool.false_eq_true, if_false,
      Option.some.injEq, Prod.mk.injEq] at e
    obtain ⟨rfl, rfl, _⟩ := e
    exact hO
  · obtain ⟨index2, treated2, e2, h1, h2⟩ :=
      hP.orbit_loop_perm hit uf.nodes (m.size + 1) (by omega) index treated
    have ht0 : treated it = false := by simpa using ht
    simp only [initialize_cells_step, ht0, Bool.not_false, if_true, UFTree.make_set, e2,
      Option.some.injEq, Prod.mk.injEq] at e
    obtain ⟨rfl, rfl, _⟩ := e
    intro h hh
    have hh1 : h < uf.nodes + 1 := hh
    by_cases hlast : h = uf.nodes
    · exact ⟨it, by rw [hlast]; exact (h1 it (SameOrbit.orbit_refl f it)).1⟩
    · obtain ⟨x, hx⟩ := hO h (by omega)
      refine ⟨x, ?_⟩
      have hxt : treated x = true := (hI.some_iff x).mpr ⟨h, hx⟩
      have hno : ¬ SameOrbit f it x := by
        intro hc
        obtain ⟨k, hk⟩ := hP.sameOrbit_symm hit hc
        have hcl : ∀ j, treated (f^[j] x) = true := by
          intro j
          induction j with
          | zero => exact hxt
          | succ j ih =>
            rw [Function.iterate_succ_apply']
            exact (hI.closed _ ih).1
        have := hcl k
        rw [hk] at this
        exact ht this
      rw [(h2 x hno).1]
      exact hx

theorem init_fold_onto {m : CMap} {f g : Nat → Nat} (hP : PermOn m.size m.IsDart f g) :
    ∀ (l : List Nat), (∀ d ∈ l, m.IsDart d) →
      ∀ uf index treated, InitInv m f uf index treated →
      (∀ h, h < uf.nodes → ∃ x, index x = some h) →
      ∀ uf1 index1 treated1,
        l.foldl (initialize_cells_step f (m.size + 1)) (some (uf, index, treated)) =
          some (uf1, index1, treated1) →
        ∀ h, h < uf1.nodes → ∃ x, index1 x = some h := by
  intro l
  induction l with
  | nil =>
    intro _ uf index treated _ hO uf1 index1 treated1 e
    simp only [List.foldl_nil, Option.some.injEq, Prod.mk.injEq] at e
    obtain ⟨rfl, rfl, _⟩ := e
    exact hO
  | cons a l ih =>
    intro hl uf index treated hI hO uf1 index1 treated1 e
    obtain ⟨uf2, index2, treated2, e2, hI2, _, _⟩ := hI.init_step hP (hl a (by simp))
    rw [List.foldl_cons, e2] at e
    exact ih (fun d hd => hl d (by simp [hd])) uf2 index2 treated2 hI2
      (init_step_onto hP hI hO (hl a (by simp)) e2) uf1 index1 treated1 e

/-- The generic indexer returns one class per orbit and no other class: the index is onto
the handles of the forest, so the forest holds as many classes as there are orbits. -/
theorem initialize_cells_count {m : CMap} {f g : Nat → Nat} (hP : PermOn m.size m.IsDart f g) :
    ∃ uf index, initialize_cells f m = some (uf, index) ∧ InitSpec m f uf index ∧
      (∀ h, h < uf.nodes → ∃ x, index x = some h) ∧
      uf.nodes = class_count (reaches f m.size) m.darts := by
  obtain ⟨uf, index, e, hS⟩ := initialize_cells_spec hP
  have h0 : InitInv m f UFTree.empty (fun _ => none) (fun _ => false) :=
    ⟨by simp, by simp, by simp, by simp, by simp, fun _ => rfl⟩
  have honto : ∀ h, h < uf.nodes → ∃ x, index x = some h := by
    cases hf : m.darts.foldl (initialize_cells_step f (m.size + 1))
        (some (UFTree.empty, fun _ => none, fun _ => false)) with
    | none => simp [initialize_cells, hf] at e
    | some p =>
      obtain ⟨uf1, index1, treated1⟩ := p
      simp only [initialize_cells, hf, Option.some.injEq, Prod.mk.injEq] at e
      obtain ⟨rfl, rfl⟩ := e
      exact init_fold_onto hP m.darts (fun d hd => (mem_darts m d).mp hd) _ _ _ h0
        (fun h hh => absurd hh (Nat.not_lt_zero h)) _ _ _ hf
  refine ⟨uf, index, e, hS, honto, ?_⟩
  have hcount : class_count (reaches f m.size) m.darts = (m.darts.map index).toFinset.card :=
    class_count_of_label _ index m.darts (fun a ha b hb => by
      have ha1 := (mem_darts m a).mp ha
      have hb1 := (mem_darts m b).mp hb
      rw [hP.reaches_iff_sameOrbit ha1]
      exact (hS.same a b ha1 hb1).symm)
  have himg : (m.darts.map index).toFinset = (Finset.range uf.nodes).image some := by
    ext z
    simp only [List.mem_toFinset, List.mem_map, Finset.mem_image, Finset.mem_range]
    constructor
    · rintro ⟨x, hx, rfl⟩
      obtain ⟨h, e1, e2⟩ := hS.total x ((mem_darts m x).mp hx)
      exact ⟨h, e2, e1.symm⟩
    · rintro ⟨h, hh, rfl⟩
      obtain ⟨x, hx⟩ := honto h hh
      exact ⟨x, (mem_darts m x).mpr (hS.dart x h hx), hx⟩
  rw [hcount, himg, Finset.card_image_of_injective _ (Option.some_injective Nat),
    Finset.card_range]

end CMapTools

namespace CMapTools

theorem get_uftree_fresh {uf : UFTree} (hrep : ∀ h, uf.rep h = h) (index : Index) (d : Nat) :
    get_uftree uf index d = index d := by
  unfold get_uftree UFTree.find
  cases index d with
  | none => rfl
  | some h => simp only [hrep]

/-- What an indexer has built, in the words of the lookups: the index is defined on every
dart, two darts have the same representative exactly when they lie in one orbit, every
class of the forest is a class of its own and the class of some dart, and there are as many
classes as orbits. -/
theorem initialize_cells_lookup {m : CMap} {f g : Nat → Nat}
    (hP : PermOn m.size m.IsDart f g) :
    ∃ uf index, initialize_cells f m = some (uf, index) ∧
      (∀ d, m.IsDart d → ∃ h, index d = some h ∧ h < uf.nodes) ∧
      (∀ a b, m.IsDart a → m.IsDart b →
        (get_uftree uf index a = get_uftree uf index b ↔ SameOrbit f a b)) ∧
      (∀ h, h < uf.nodes → uf.find h = h ∧ ∃ d, m.IsDart d ∧ index d = some h) ∧
      uf.nodes = class_count (reaches f m.size) m.darts := by
  obtain ⟨uf, index, e, hS, honto, hcount⟩ := initialize_cells_count hP
  refine ⟨uf, index, e, hS.total, ?_, ?_, hcount⟩
  · intro a b ha hb
    rw [get_uftree_fresh hS.rep, get_uftree_fresh hS.rep]
    exact hS.same a b ha hb
  · intro h hh
    obtain ⟨x, hx⟩ := honto h hh
    exact ⟨hS.rep h, x, hS.dart x h hx, hx⟩

/-- C13 (face indexer). On a map in which `beta1` is a permutation of the darts, whatever
`beta2` is, `initialize_faces` returns; the index is then defined on every dart, two darts
have the same representative exactly when one is met from the other by repeated `beta1`, and
the forest holds exactly one class per face orbit: each class is its own representative and
the class of some dart, and there are as many classes as faces. -/
theorem initialize_faces_one_class_per_face (m : CMap)
    (hm : m.IsPermutation m.beta1 m.beta0) :
    ∃ uftrees faces, initialize_faces m = some (uftrees, faces) ∧
      (∀ d, m.IsDart d → ∃ h, faces d = some h ∧ h < uftrees.nodes) ∧
      (∀ a b, m.IsDart a → m.IsDart b →
        (get_uftree uftrees faces a = get_uftree uftrees faces b ↔ SameOrbit m.beta1 a b)) ∧
      (∀ h, h < uftrees.nodes → uftrees.find h = h ∧ ∃ d, m.IsDart d ∧ faces d = some h) ∧
      uftrees.nodes = m.num_faces := by
  rw [initialize_faces_eq]
  exact initialize_cells_lookup hm.permOn

/-- C13 at two triangles glued along one edge, the four other darts free for `beta2`. -/
theorem initialize_faces_one_class_per_face_witness :
    open_pair.IsPermutation open_pair.beta1 open_pair.beta0 ∧
    ∃ uftrees faces, initialize_faces open_pair = some (uftrees, faces) ∧
      (∀ d, open_pair.IsDart d → ∃ h, faces d = some h ∧ h < uftrees.nodes) ∧
      (∀ a b, open_pair.IsDart a → open_pair.IsDart b →
        (get_uftree uftrees faces a = get_uftree uftrees faces b ↔
          SameOrbit open_pair.beta1 a b)) ∧
      (∀ h, h < uftrees.nodes →
        uftrees.find h = h ∧ ∃ d, open_pair.IsDart d ∧ faces d = some h) ∧
      uftrees.nodes = open_pair.num_faces :=
  ⟨by decide, initialize_faces_one_class_per_face open_pair (by decide)⟩

end CMapTools

namespace CMapTools

/-! ## The classes of the edges the face pass leaves -/

/-- The face pass with its forest is the plain linear scan with its forest, on every map. -/
theorem face_pass_with_forest_eq (m : CMap) :
    face_pass_with_forest m =
      (initialize_faces m).bind fun p =>
        (face_scan_run m p.1 p.2).map fun s =>
          (({ map := { s.map with automatic_attributes_management := true },
              trace := s.trace.reverse } : PassResult), s.uftrees, p.2) := by
  unfold face_pass_with_forest
  cases hinit : initialize_faces m with
  | none => rfl
  | some p =>
    obtain ⟨uftrees, faces⟩ := p
    simp only [Option.some_bind]
    obtain ⟨b1, b2, b3⟩ := darts_begin_spec { m with automatic_attributes_management := false }
    have h := face_loop_eq_scan faces m.size
      { map := { m with automatic_attributes_management := false }, uftrees := uftrees,
        treated := fun _ => false, to_treat := [],
        it := CMap.darts_begin { m with automatic_attributes_management := false },
        removed := [] } (m.size + 1) rfl b1 (by simp) (by omega) b3
    rw [h]
    have hr : List.range m.size =
        List.range' 0 (CMap.darts_begin { m with automatic_attributes_management := false } - 0) ++
        List.range' (CMap.darts_begin { m with automatic_attributes_management := false })
          (m.size - CMap.darts_begin { m with automatic_attributes_management := false }) := by
      rw [← range'_split 0 _ m.size (by omega) b1, List.range_eq_range']
      simp
    unfold face_scan_run
    rw [hr, List.foldl_append, face_scan_skip faces _ _ 0 (fun j _ hj => b2 j (by simpa using hj))]
    simp only [FaceState.toScan]
    generalize List.foldl (face_scan_step faces) (some _) (List.range' _ _) = r
    cases r <;> rfl

/-- C14, amended (classes of the remaining edges). On a map without boundary the face pass
returns, and in the face forest it holds at that point the two darts of every remaining
edge, isolated loop or not, have the same representative: an edge is left in place only
when its two sides are already one class. -/
theorem face_pass_edges_in_one_class (m : CMap) (hm : m.Boundaryless) :
    ∃ r uftrees faces, face_pass_with_forest m = some (r, uftrees, faces) ∧
      surface_simplification_in_one_face m = some r ∧
      ∀ d, r.map.IsDart d →
        ∃ a, get_uftree uftrees faces d = some a ∧
          get_uftree uftrees faces (r.map.beta2 d) = some a := by
  obtain ⟨uf, faces, s, e1, _, e2, hI⟩ := face_scan_run_spec hm
  refine ⟨_, s.uftrees, faces, ?_, face_pass_of_scan_run e1 e2, ?_⟩
  · rw [face_pass_with_forest_eq, e1]
    simp only [Option.some_bind, e2, Option.map_some']
  · intro d hd
    have hd1 : m.IsDart d := hI.sub d hd
    obtain ⟨h, hh⟩ := hI.kinv.total d hd1
    have hres := hI.resolved d hd1 (Or.inl hd1.1)
    have hb2 : ({ s.map with automatic_attributes_management := true } : CMap).beta2 d =
        m.beta2 d := by
      show s.map.beta2 d = m.beta2 d
      rw [hI.beta2]
    refine ⟨s.uftrees.find h, by simp only [get_uftree, hh], ?_⟩
    rw [hb2, hres]
    simp only [get_uftree, hh]

/-- C14 amended, at the pillow. -/
theorem face_pass_edges_in_one_class_witness :
    pillow.Boundaryless ∧
    ∃ r uftrees faces, face_pass_with_forest pillow = some (r, uftrees, faces) ∧
      surface_simplification_in_one_face pillow = some r ∧
      ∀ d, r.map.IsDart d →
        ∃ a, get_uftree uftrees faces d = some a ∧
          get_uftree uftrees faces (r.map.beta2 d) = some a :=
  ⟨by decide, face_pass_edges_in_one_class pillow (by decide)⟩

/-- C14 as stated fails: after the face pass on the pillow four darts remain; each is on an
edge that is not an isolated loop (first component) and has the same representative as its
opposite in the face forest of the pass (second component). -/
theorem face_pass_edges_in_one_class_counterexample :
    (face_pass_with_forest pillow).map (fun p => p.1.map.darts.map fun d =>
      (!p.1.map.is_isolated_edge d,
        get_uftree p.2.1 p.2.2 d == get_uftree p.2.1 p.2.2 (p.1.map.beta2 d))) =
      some [(true, true), (true, true), (true, true), (true, true)] := by
  decide

end CMapTools

namespace CMapTools

/-! ## The face pass on any map, with or without boundary -/

/-- C19 (lookup of a class). `get_uftree` returns `find` of the handle the dart is indexed
to when the dart handle is not `NULL` and is a key of the index; it fails on an assertion,
returning no class, when the handle is `NULL` and when it is no key of the index. -/
theorem get_uftree_of_handle_spec (uftrees : UFTree) (mapdhtouf : Index) :
    (∀ d h, mapdhtouf d = some h →
      get_uftree_of_handle uftrees mapdhtouf (some d) = some (uftrees.find h)) ∧
    get_uftree_of_handle uftrees mapdhtouf none = none ∧
    (∀ d, mapdhtouf d = none → get_uftree_of_handle uftrees mapdhtouf (some d) = none) := by
  refine ⟨?_, rfl, ?_⟩
  · intro d h e
    simp only [get_uftree_of_handle, get_uftree, e]
  · intro d e
    simp only [get_uftree_of_handle, get_uftree, e]

/-- C19 on a forest of one class and an index with the single key 5. -/
theorem get_uftree_of_handle_spec_witness :
    get_uftree_of_handle UFTree.empty.make_set.1 (Function.update (fun _ => none) 5 (some 0))
      (some 5) = some (UFTree.empty.make_set.1.find 0) ∧
    get_uftree_of_handle UFTree.empty.make_set.1 (Function.update (fun _ => none) 5 (some 0))
      (some 4) = none :=
  ⟨(get_uftree_of_handle_spec UFTree.empty.make_set.1
      (Function.update (fun _ => none) 5 (some 0))).1 5 0 (by simp),
   (get_uftree_of_handle_spec UFTree.empty.make_set.1
      (Function.update (fun _ => none) 5 (some 0))).2.2 4 (by simp)⟩

/-! ## The flag of the automatic attribute management -/

/-- C20 (the flag is restored). On every map and whatever the flag is at entry, when the
face pass returns the flag of the automatic attribute management is set in the map it
returns, and likewise for the vertex pass. -/
theorem passes_restore_attribute_management (m : CMap) :
    (∀ r, surface_simplification_in_one_face m = some r →
      r.map.automatic_attributes_management = true) ∧
    (∀ r, surface_simplification_in_one_vertex m = some r →
      r.map.automatic_attributes_management = true) := by
  constructor
  · intro r hr
    rw [face_pass_eq_scan] at hr
    unfold face_scan at hr
    cases hinit : initialize_faces m with
    | none => rw [hinit] at hr; cases hr
    | some p =>
      obtain ⟨uftrees, faces⟩ := p
      rw [hinit] at hr
      simp only at hr
      cases hrun : face_scan_run m uftrees faces with
      | none => rw [hrun] at hr; cases hr
      | some s =>
        rw [hrun] at hr
        simp only [Option.some.injEq] at hr
        rw [← hr]
  · intro r hr
    rw [vertex_pass_eq_scan] at hr
    unfold vertex_scan at hr
    cases hinit : initialize_vertices m with
    | none => rw [hinit] at hr; cases hr
    | some p =>
      obtain ⟨uftrees, vertices⟩ := p
      rw [hinit] at hr
      simp only at hr
      cases hrun : vertex_scan_run m uftrees vertices with
      | none => rw [hrun] at hr; cases hr
      | some s =>
        rw [hrun] at hr
        simp only [Option.some.injEq] at hr
        rw [← hr]

/-- C20 at the pillow entered with the flag off: both passes return, with the flag on. -/
theorem passes_restore_attribute_management_witness :
    (∃ r, surface_simplification_in_one_face
        { pillow with automatic_attributes_management := false } = some r ∧
      r.map.automatic_attributes_management = true) ∧
    (∃ r, surface_simplification_in_one_vertex
        { pillow with automatic_attributes_management := false } = some r ∧
      r.map.automatic_attributes_management = true) := by
  obtain ⟨r1, e1⟩ : ∃ r, surface_simplification_in_one_face
      { pillow with automatic_attributes_management := false } = some r :=
    Option.isSome_iff_exists.mp (by decide)
  obtain ⟨r2, e2⟩ : ∃ r, surface_simplification_in_one_vertex
      { pillow with automatic_attributes_management := false } = some r :=
    Option.isSome_iff_exists.mp (by decide)
  exact ⟨⟨r1, e1, (passes_restore_attribute_management _).1 r1 e1⟩,
    ⟨r2, e2, (passes_restore_attribute_management _).2 r2 e2⟩⟩

end CMapTools

namespace CMapTools

/-! ## The loop of the quadrangulation pass is the plain scan -/

theorem quad_scan_step_unused (oldedges : Nat → Bool) (s : CMap × List Nat) (j : Nat)
    (h : s.1.used j = false) : quad_scan_step oldedges s j = s := by
  simp [quad_scan_step, CMap.is_dart_used, h]

theorem quad_scan_skip (oldedges : Nat → Bool) (s : CMap × List Nat) :
    ∀ n i, (∀ j, i ≤ j → j < i + n → s.1.used j = false) →
      (List.range' i n).foldl (quad_scan_step oldedges) s = s := by
  intro n
  induction n with
  | zero => intro i _; rfl
  | succ n ih =>
    intro i h
    rw [List.range'_succ, List.foldl_cons,
      quad_scan_step_unused oldedges s i (h i (le_refl _) (by omega))]
    exact ih (i + 1) (fun j h1 h2 => h j (by omega) (by omega))

/-- What the body of the loop of the quadrangulation pass does when the iterator stands on
a live dart: the plain scan step at that dart, after which the iterator stands on the next
live dart of the edited map. -/
theorem quad_loop_body_scan (oldedges : Nat → Bool) (s : QuadState)
    (hit : s.it < s.map.size) (hu : s.map.used s.it = true) :
    quad_scan_step oldedges (s.map, s.removed) s.it =
      ((quad_loop_body oldedges s).map, (quad_loop_body oldedges s).removed) ∧
    (quad_loop_body oldedges s).map.size = s.map.size ∧
    s.it < (quad_loop_body oldedges s).it ∧ (quad_loop_body oldedges s).it ≤ s.map.size ∧
    (∀ j, s.it < j → j < (quad_loop_body oldedges s).it →
      (quad_loop_body oldedges s).map.used j = false) ∧
    ((quad_loop_body oldedges s).it < s.map.size →
      (quad_loop_body oldedges s).map.used (quad_loop_body oldedges s).it = true) := by
  obtain ⟨h1, h2, h3, h4⟩ := increment_spec s.map s.it hit
  have hd : s.map.is_dart_used s.it = true := by simp [CMap.is_dart_used, hit, hu]
  unfold quad_loop_body quad_scan_step
  by_cases ho : oldedges s.it = true
  · obtain ⟨i1, i2, i3, i4⟩ := increment_spec (remove_cell_1 s.map s.it) s.it
      (by simpa [remove_cell_1_size] using hit)
    simp only [remove_cell_1_size] at i2 i4
    simp only [hd, ho, Bool.and_self, if_true]
    exact ⟨trivial, remove_cell_1_size _ _, i1, i2, i3, i4⟩
  · have ho0 : oldedges s.it = false := by simpa using ho
    simp only [hd, ho0, Bool.and_false, Bool.false_eq_true, if_false]
    exact ⟨trivial, trivial, h1, h2, h3, h4⟩

theorem quad_loop_succ (oldedges : Nat → Bool) (k : Nat) (s : QuadState) :
    quad_loop oldedges (k + 1) s =
      if s.it != s.map.size then quad_loop oldedges k (quad_loop_body oldedges s)
      else some s := rfl

theorem quad_loop_eq_scan (oldedges : Nat → Bool) :
    ∀ n (s : QuadState) k, s.it ≤ s.map.size → s.map.size - s.it ≤ n → n < k →
      (s.it < s.map.size → s.map.used s.it = true) →
      ∃ s1, quad_loop oldedges k s = some s1 ∧
        (s1.map, s1.removed) =
          (List.range' s.it (s.map.size - s.it)).foldl (quad_scan_step oldedges)
            (s.map, s.removed) := by
  intro n
  induction n with
  | zero =>
    intro s k hle hn hk _
    have hit : s.it = s.map.size := by omega
    obtain ⟨k, rfl⟩ : ∃ k1, k = k1 + 1 := ⟨k - 1, by omega⟩
    refine ⟨s, by simp [quad_loop_succ, hit], ?_⟩
    simp [hit]
  | succ n ih =>
    intro s k hle hn hk hu
    obtain ⟨k, rfl⟩ : ∃ k1, k = k1 + 1 := ⟨k - 1, by omega⟩
    by_cases hit : s.it = s.map.size
    · refine ⟨s, by simp [quad_loop_succ, hit], ?_⟩
      simp [hit]
    · have hlt : s.it < s.map.size := by omega
      obtain ⟨e1, e2, e3, e4, e5, e6⟩ := quad_loop_body_scan oldedges s hlt (hu hlt)
      have hr : List.range' s.it (s.map.size - s.it) =
          s.it :: List.range' (s.it + 1) (s.map.size - (s.it + 1)) := by
        obtain ⟨c, hc⟩ : ∃ c, s.map.size - s.it = c + 1 := ⟨s.map.size - s.it - 1, by omega⟩
        rw [hc, List.range'_succ, show s.map.size - (s.it + 1) = c by omega]
      have hcond : (s.it != s.map.size) = true := by simp [hit]
      obtain ⟨s1, f1, f2⟩ := ih (quad_loop_body oldedges s) k (by omega) (by omega) (by omega)
        (by intro h; exact e6 (by omega))
      refine ⟨s1, by rw [quad_loop_succ, if_pos hcond]; exact f1, ?_⟩
      rw [e2] at f2
      have key : (List.range' s.it (s.map.size - s.it)).foldl (quad_scan_step oldedges)
            (s.map, s.removed) =
          (List.range' (quad_loop_body oldedges s).it
            (s.map.size - (quad_loop_body oldedges s).it)).foldl (quad_scan_step oldedges)
            ((quad_loop_body oldedges s).map, (quad_loop_body oldedges s).removed) := by
        rw [hr, List.foldl_cons, e1,
          range'_split (s.it + 1) (quad_loop_body oldedges s).it s.map.size (by omega) e4,
          List.foldl_append,
          quad_scan_skip oldedges ((quad_loop_body oldedges s).map,
            (quad_loop_body oldedges s).removed) ((quad_loop_body oldedges s).it - (s.it + 1))
            (s.it + 1) (fun j h1 h2 => e5 j (by omega) (by omega))]
      rw [f2, key]

/-- The quadrangulation pass is the plain linear scan, on every map. -/
theorem surface_quadrangulate_eq_scan (m : CMap) : surface_quadrangulate m = quad_scan m := by
  unfold surface_quadrangulate quad_scan
  simp only
  obtain ⟨b1, b2, b3⟩ := darts_begin_spec (insert_point_in_cell_2 m m.darts_begin)
  obtain ⟨s1, f1, f2⟩ := quad_loop_eq_scan (fun d => decide (d < m.size))
    (insert_point_in_cell_2 m m.darts_begin).size
    { map := insert_point_in_cell_2 m m.darts_begin,
      it := (insert_point_in_cell_2 m m.darts_begin).darts_begin, removed := [] }
    ((insert_point_in_cell_2 m m.darts_begin).size + 1) b1 (by simp) (by omega) b3
  rw [f1]
  have hr : List.range (insert_point_in_cell_2 m m.darts_begin).size =
      List.range' 0 ((insert_point_in_cell_2 m m.darts_begin).darts_begin - 0) ++
      List.range' (insert_point_in_cell_2 m m.darts_begin).darts_begin
        ((insert_point_in_cell_2 m m.darts_begin).size -
          (insert_point_in_cell_2 m m.darts_begin).darts_begin) := by
    rw [← range'_split 0 _ _ (by omega) b1, List.range_eq_range']
    simp
  rw [hr, List.foldl_append,
    quad_scan_skip _ _ _ 0 (fun j _ hj => b2 j (by simpa using hj)), ← f2]

end CMapTools

namespace CMapTools

/-! ## The fan of triangles, and the old edges going one by one -/

theorem insert_size (m : CMap) (a : Nat) : (insert_point_in_cell_2 m a).size = 3 * m.size := rfl

theorem insert_used_old (m : CMap) (a y : Nat) (hy : y < m.size) :
    (insert_point_in_cell_2 m a).used y = m.used y := by
  simp [insert_point_in_cell_2, hy]

theorem insert_used_new (m : CMap) (a y : Nat) (hy : m.size ≤ y) :
    (insert_point_in_cell_2 m a).used y =
      (decide (y < 3 * m.size) && m.in_face a ((y - m.size) / 2)) := by
  have : ¬ y < m.size := by omega
  simp [insert_point_in_cell_2, this]

theorem insert_beta2_old {m : CMap} (hm : m.Boundaryless) (a : Nat) {y : Nat}
    (hy : m.IsDart y) : (insert_point_in_cell_2 m a).beta2 y = m.beta2 y := by
  have h2 := (hm.perm2.maps y hy).1
  have hne : m.beta2 y ≠ m.size := by omega
  simp [insert_point_in_cell_2, hy.1, hne]

theorem insert_beta2_n1 (m : CMap) (a z : Nat) (hz : z < m.size) :
    (insert_point_in_cell_2 m a).beta2 (m.size + 2 * z) = m.size + 2 * m.beta0 z + 1 := by
  have h1 : ¬ m.size + 2 * z < m.size := by omega
  have h2 : ¬ 3 * m.size ≤ m.size + 2 * z := by omega
  have h3 : (m.size + 2 * z - m.size) % 2 = 0 := by omega
  have h4 : (m.size + 2 * z - m.size) / 2 = z := by omega
  simp only [insert_point_in_cell_2, h1, h2, h3, h4, if_true, if_false]

theorem insert_beta2_n2 (m : CMap) (a z : Nat) (hz : z < m.size) :
    (insert_point_in_cell_2 m a).beta2 (m.size + 2 * z + 1) = m.size + 2 * m.beta1 z := by
  have h1 : ¬ m.size + 2 * z + 1 < m.size := by omega
  have h2 : ¬ 3 * m.size ≤ m.size + 2 * z + 1 := by omega
  have h3 : ¬ (m.size + 2 * z + 1 - m.size) % 2 = 0 := by omega
  have h4 : (m.size + 2 * z + 1 - m.size) / 2 = z := by omega
  simp only [insert_point_in_cell_2, h1, h2, h3, h4, if_false]

theorem insert_beta1_n1 (m : CMap) (a z : Nat) (hz : z < m.size) :
    (insert_point_in_cell_2 m a).beta1 (m.size + 2 * z) = z := by
  have h1 : ¬ m.size + 2 * z < m.size := by omega
  have h2 : ¬ 3 * m.size ≤ m.size + 2 * z := by omega
  have h3 : (m.size + 2 * z - m.size) % 2 = 0 := by omega
  have h4 : (m.size + 2 * z - m.size) / 2 = z := by omega
  simp only [insert_point_in_cell_2, h1, h2, h3, h4, if_true, if_false]

theorem insert_beta1_n2 (m : CMap) (a z : Nat) (hz : z < m.size) :
    (insert_point_in_cell_2 m a).beta1 (m.size + 2 * z + 1) = m.size + 2 * z := by
  have h1 : ¬ m.size + 2 * z + 1 < m.size := by omega
  have h2 : ¬ 3 * m.size ≤ m.size + 2 * z + 1 := by omega
  have h3 : ¬ (m.size + 2 * z + 1 - m.size) % 2 = 0 := by omega
  simp only [insert_point_in_cell_2, h1, h2, h3, if_false]
  omega

theorem insert_beta1_old (m : CMap) (a y : Nat) (hy : y < m.size)
    (hf : m.in_face a y = true) :
    (insert_point_in_cell_2 m a).beta1 y = m.size + 2 * y + 1 := by
  simp only [insert_point_in_cell_2, hy, hf, if_true]

/-- From one slot to the next, the old edges gone are one more when the slot holds a dart:
the edge of that dart. -/
theorem edgeScanned_succ {m : CMap} (hm : m.Boundaryless) {i z : Nat} (hi : m.IsDart i)
    (hz : m.IsDart z) :
    m.EdgeScanned (i + 1) z ↔ m.EdgeScanned i z ∨ z = i ∨ z = m.beta2 i := by
  unfold CMap.EdgeScanned
  have hinv := hm.perm2.left_inv z hz
  have hinvi := hm.perm2.left_inv i hi
  constructor
  · rintro (h | h)
    · by_cases hzi : z = i
      · exact Or.inr (Or.inl hzi)
      · exact Or.inl (Or.inl (by omega))
    · by_cases hzi : m.beta2 z = i
      · exact Or.inr (Or.inr (by rw [← hzi, hinv]))
      · exact Or.inl (Or.inr (by omega))
  · rintro ((h | h) | rfl | rfl)
    · exact Or.inl (by omega)
    · exact Or.inr (by omega)
    · exact Or.inl (by omega)
    · exact Or.inr (by rw [hinvi]; omega)

/-- From one slot to the next, no more old edge is gone when the slot holds no dart. -/
theorem edgeScanned_succ_free {m : CMap} (hm : m.Boundaryless) {i z : Nat} (hi : ¬ m.IsDart i)
    (hz : m.IsDart z) : m.EdgeScanned (i + 1) z ↔ m.EdgeScanned i z := by
  unfold CMap.EdgeScanned
  have h1 : z ≠ i := fun h => hi (h ▸ hz)
  have h2 : m.beta2 z ≠ i := fun h => hi (h ▸ hm.perm2.maps z hz)
  constructor
  · rintro (h | h)
    · exact Or.inl (by omega)
    · exact Or.inr (by omega)
  · rintro (h | h)
    · exact Or.inl (by omega)
    · exact Or.inr (by omega)

theorem QuadInv.quad_init {m : CMap} (a : Nat) :
    QuadInv m a 0 (insert_point_in_cell_2 m a, []) where
  size := rfl
  beta2 := rfl
  used := fun y => by
    simp [CMap.EdgeScanned]
  trace := fun y _ h => by
    simp [CMap.EdgeScanned] at h
  traced := fun y h => by cases h

/-- What the scan step of the quadrangulation pass does at slot `i`: it removes the edge of
`i` exactly when `i` is an old dart whose edge is still there. -/
theorem quad_scan_step_cases {m : CMap} (hm : m.Boundaryless) {a i : Nat}
    {s : CMap × List Nat} (hI : QuadInv m a i s) :
    (m.IsDart i ∧ ¬ m.EdgeScanned i i ∧ s.1.beta2 i = m.beta2 i ∧
      quad_scan_step (fun d => decide (d < m.size)) s i = (remove_cell_1 s.1 i, i :: s.2)) ∨
    ((m.IsDart i → m.EdgeScanned i i) ∧
      quad_scan_step (fun d => decide (d < m.size)) s i = s) := by
  by_cases hc : (s.1.is_dart_used i && decide (i < m.size)) = true
  · left
    simp only [Bool.and_eq_true, CMap.is_dart_used, decide_eq_true_eq] at hc
    obtain ⟨⟨_, hu⟩, hlt⟩ := hc
    obtain ⟨hu1, hns⟩ := (hI.used i).mp hu
    rw [insert_used_old m a i hlt] at hu1
    have hd : m.IsDart i := ⟨hlt, hu1⟩
    refine ⟨hd, fun h => hns ⟨hlt, h⟩, by rw [hI.beta2, insert_beta2_old hm a hd], ?_⟩
    simp [quad_scan_step, CMap.is_dart_used, hI.size, hu, hlt]
    omega
  · right
    constructor
    · intro hd
      by_contra hns
      apply hc
      have hu : s.1.used i = true :=
        (hI.used i).mpr ⟨by rw [insert_used_old m a i hd.1]; exact hd.2, fun h => hns h.2⟩
      have := hd.1
      simp only [Bool.and_eq_true, CMap.is_dart_used, decide_eq_true_eq, hI.size]
      exact ⟨⟨by omega, hu⟩, hd.1⟩
    · simp only [quad_scan_step, hc, Bool.false_eq_true, if_false]

theorem QuadInv.quad_step {m : CMap} (hm : m.Boundaryless) {a i : Nat}
    {s : CMap × List Nat} (hI : QuadInv m a i s) :
    QuadInv m a (i + 1) (quad_scan_step (fun d => decide (d < m.size)) s i) := by
  rcases quad_scan_step_cases hm hI with ⟨hd, hns, hb2, e⟩ | ⟨hsc, e⟩
  · rw [e]
    have he := hm.perm2.maps i hd
    refine ⟨hI.size, hI.beta2, ?_, ?_, ?_⟩
    · intro y
      show ((s.1.used y && !(y == i || y == s.1.beta2 i)) = true) ↔ _
      rw [hb2]
      simp only [Bool.and_eq_true, Bool.not_eq_true', Bool.or_eq_false_iff, beq_eq_false_iff_ne,
        ne_eq, hI.used y]
      constructor
      · rintro ⟨⟨h1, h2⟩, h3, h4⟩
        refine ⟨h1, ?_⟩
        rintro ⟨hy, hsc⟩
        have hyd : m.IsDart y := ⟨hy, by rw [← insert_used_old m a y hy]; exact h1⟩
        rcases (edgeScanned_succ hm hd hyd).mp hsc with h | h | h
        · exact h2 ⟨hy, h⟩
        · exact h3 h
        · exact h4 h
      · rintro ⟨h1, h2⟩
        refine ⟨⟨h1, ?_⟩, ?_, ?_⟩
        · rintro ⟨hy, hsc⟩
          have hyd : m.IsDart y := ⟨hy, by rw [← insert_used_old m a y hy]; exact h1⟩
          exact h2 ⟨hy, (edgeScanned_succ hm hd hyd).mpr (Or.inl hsc)⟩
        · intro h
          exact h2 ⟨h ▸ hd.1, (edgeScanned_succ hm hd (h ▸ hd)).mpr (Or.inr (Or.inl h))⟩
        · intro h
          exact h2 ⟨h ▸ he.1, (edgeScanned_succ hm hd (h ▸ he)).mpr (Or.inr (Or.inr h))⟩
    · intro y hy hsc
      rcases (edgeScanned_succ hm hd hy).mp hsc with h | h | h
      · rcases hI.trace y hy h with h1 | h1
        · exact Or.inl (List.mem_cons_of_mem _ h1)
        · exact Or.inr (List.mem_cons_of_mem _ h1)
      · exact Or.inl (by rw [h]; exact List.mem_cons_self _ _)
      · exact Or.inr (by rw [h, hm.perm2.left_inv i hd]; exact List.mem_cons_self _ _)
    · intro y hy
      rcases List.mem_cons.mp hy with rfl | h
      · exact hd
      · exact hI.traced y h
  · rw [e]
    have hiff : ∀ y, m.IsDart y → (m.EdgeScanned (i + 1) y ↔ m.EdgeScanned i y) := by
      intro y hy
      by_cases hd : m.IsDart i
      · rw [edgeScanned_succ hm hd hy]
        constructor
        · rintro (h | rfl | rfl)
          · exact h
          · exact hsc hd
          · rcases hsc hd with h | h
            · omega
            · exact Or.inl h
        · exact Or.inl
      · exact edgeScanned_succ_free hm hd hy
    refine ⟨hI.size, hI.beta2, ?_, ?_, hI.traced⟩
    · intro y
      rw [hI.used y]
      constructor
      · rintro ⟨h1, h2⟩
        refine ⟨h1, ?_⟩
        rintro ⟨hy, hs⟩
        have hyd : m.IsDart y := ⟨hy, by rw [← insert_used_old m a y hy]; exact h1⟩
        exact h2 ⟨hy, (hiff y hyd).mp hs⟩
      · rintro ⟨h1, h2⟩
        refine ⟨h1, ?_⟩
        rintro ⟨hy, hs⟩
        have hyd : m.IsDart y := ⟨hy, by rw [← insert_used_old m a y hy]; exact h1⟩
        exact h2 ⟨hy, (hiff y hyd).mpr hs⟩
    · intro y hy hs
      exact hI.trace y hy ((hiff y hy).mp hs)

theorem QuadInv.quad_fold {m : CMap} (hm : m.Boundaryless) (a : Nat) :
    ∀ n, QuadInv m a n
      ((List.range n).foldl (quad_scan_step fun d => decide (d < m.size))
        (insert_point_in_cell_2 m a, [])) := by
  intro n
  induction n with
  | zero => exact QuadInv.quad_init a
  | succ n ih =>
    rw [List.range_succ, List.foldl_append]
    exact ih.quad_step hm

end CMapTools

namespace CMapTools

/-! ## The faces left by the quadrangulation pass -/

theorem skip_deleted_at (f opp : Nat → Nat) (d e y : Nat) (hy : y = d ∨ y = e)
    (h1 : f (opp y) ≠ d) (h2 : f (opp y) ≠ e) : skip_deleted f opp d e y = f (opp y) := by
  simp [skip_deleted, hy, h1, h2]

/-- From one slot to the next, no more old edge is gone when the scan has nothing to remove
at the slot. -/
theorem edgeScanned_succ_skip {m : CMap} (hm : m.Boundaryless) {i : Nat}
    (hsc : m.IsDart i → m.EdgeScanned i i) {y : Nat} (hy : m.IsDart y) :
    m.EdgeScanned (i + 1) y ↔ m.EdgeScanned i y := by
  by_cases hd : m.IsDart i
  · rw [edgeScanned_succ hm hd hy]
    constructor
    · rintro (h | rfl | rfl)
      · exact h
      · exact hsc hd
      · rcases hsc hd with h | h
        · omega
        · exact Or.inl h
    · exact Or.inl
  · exact edgeScanned_succ_free hm hd hy

theorem QuadFan.fan_init {m : CMap} {a : Nat}
    (hface : ∀ x, m.IsDart x → m.in_face a x = true) :
    QuadFan m 0 (insert_point_in_cell_2 m a, []) where
  spoke_in := fun z hz => insert_beta1_n2 m a z hz.1
  spoke_out := fun z hz => by
    have : ¬ m.EdgeScanned 0 z := by simp [CMap.EdgeScanned]
    rw [if_neg this]
    exact insert_beta1_n1 m a z hz.1
  old := fun z hz _ => insert_beta1_old m a z hz.1 (hface z hz)

theorem QuadFan.fan_step {m : CMap} (hm : m.Boundaryless) {a i : Nat}
    {s : CMap × List Nat} (hI : QuadInv m a i s) (hF : QuadFan m i s) :
    QuadFan m (i + 1) (quad_scan_step (fun d => decide (d < m.size)) s i) := by
  rcases quad_scan_step_cases hm hI with ⟨hd, hns, hb2, e⟩ | ⟨hsc, e⟩
  · rw [e]
    have he := hm.perm2.maps i hd
    have hne := hm.beta2_ne hd
    have hinv := hm.perm2.left_inv i hd
    have hnse : ¬ m.EdgeScanned i (m.beta2 i) := by
      rintro (h | h)
      · exact hns (Or.inr h)
      · rw [hinv] at h; omega
    have hb2e : s.1.beta2 (m.beta2 i) = i := by
      rw [hI.beta2, insert_beta2_old hm a he, hinv]
    have hstep : ∀ x, x ≠ i → x ≠ m.beta2 i →
        (remove_cell_1 s.1 i).beta1 x =
          skip_deleted s.1.beta1 s.1.beta2 i (m.beta2 i) (s.1.beta1 x) := by
      intro x h1 h2
      rw [remove_cell_1_beta1 s.1 i x h1 (by rw [hb2]; exact h2), hb2]
    have hi := hd.1
    have hei := he.1
    refine ⟨?_, ?_, ?_⟩
    · intro z hz
      show (remove_cell_1 s.1 i).beta1 _ = _
      rw [hstep _ (by omega) (by omega), hF.spoke_in z hz,
        skip_deleted_keep _ _ _ _ _ (by omega) (by omega)]
    · intro z hz
      show (remove_cell_1 s.1 i).beta1 _ = _
      rw [hstep _ (by omega) (by omega), hF.spoke_out z hz]
      by_cases hs : m.EdgeScanned i z
      · have hs1 : m.EdgeScanned (i + 1) z := (edgeScanned_succ hm hd hz).mpr (Or.inl hs)
        rw [if_pos hs, if_pos hs1, skip_deleted_keep _ _ _ _ _ (by omega) (by omega)]
      · rw [if_neg hs]
        by_cases hzi : z = i
        · subst hzi
          have hs1 : m.EdgeScanned (z + 1) z :=
            (edgeScanned_succ hm hd hz).mpr (Or.inr (Or.inl rfl))
          have hv : s.1.beta1 (s.1.beta2 z) = m.size + 2 * m.beta2 z + 1 := by
            rw [hb2]; exact hF.old _ he hnse
          rw [if_pos hs1, skip_deleted_at _ _ _ _ _ (Or.inl rfl) (by rw [hv]; omega)
            (by rw [hv]; omega), hv]
        · by_cases hze : z = m.beta2 i
          · subst hze
            have hs1 : m.EdgeScanned (i + 1) (m.beta2 i) :=
              (edgeScanned_succ hm hd hz).mpr (Or.inr (Or.inr rfl))
            have hv : s.1.beta1 (s.1.beta2 (m.beta2 i)) = m.size + 2 * i + 1 := by
              rw [hb2e]; exact hF.old _ hd hns
            rw [if_pos hs1, skip_deleted_at _ _ _ _ _ (Or.inr rfl) (by rw [hv]; omega)
              (by rw [hv]; omega), hv, hinv]
          · have hs1 : ¬ m.EdgeScanned (i + 1) z := by
              intro h
              rcases (edgeScanned_succ hm hd hz).mp h with h | h | h
              · exact hs h
              · exact hzi h
              · exact hze h
            rw [if_neg hs1, skip_deleted_keep _ _ _ _ _ hzi hze]
    · intro z hz hs1
      have hzi : z ≠ i := fun h => hs1 ((edgeScanned_succ hm hd hz).mpr (Or.inr (Or.inl h)))
      have hze : z ≠ m.beta2 i :=
        fun h => hs1 ((edgeScanned_succ hm hd hz).mpr (Or.inr (Or.inr h)))
      have hs : ¬ m.EdgeScanned i z :=
        fun h => hs1 ((edgeScanned_succ hm hd hz).mpr (Or.inl h))
      show (remove_cell_1 s.1 i).beta1 _ = _
      rw [hstep z hzi hze, hF.old z hz hs, skip_deleted_keep _ _ _ _ _ (by omega) (by omega)]
  · rw [e]
    refine ⟨hF.spoke_in, ?_, ?_⟩
    · intro z hz
      rw [hF.spoke_out z hz]
      by_cases hs : m.EdgeScanned i z
      · rw [if_pos hs, if_pos ((edgeScanned_succ_skip hm hsc hz).mpr hs)]
      · rw [if_neg hs, if_neg (fun h => hs ((edgeScanned_succ_skip hm hsc hz).mp h))]
    · intro z hz hs
      exact hF.old z hz (fun h => hs ((edgeScanned_succ_skip hm hsc hz).mpr h))

theorem QuadFan.fan_fold {m : CMap} (hm : m.Boundaryless) {a : Nat}
    (hface : ∀ x, m.IsDart x → m.in_face a x = true) :
    ∀ n, QuadFan m n
      ((List.range n).foldl (quad_scan_step fun d => decide (d < m.size))
        (insert_point_in_cell_2 m a, [])) := by
  intro n
  induction n with
  | zero => exact QuadFan.fan_init hface
  | succ n ih =>
    rw [List.range_succ, List.foldl_append]
    exact ih.fan_step hm (QuadInv.quad_fold hm a n)

theorem darts_begin_isDart {m : CMap} (hne : m.darts ≠ []) : m.IsDart m.darts_begin := by
  obtain ⟨b1, b2, b3⟩ := darts_begin_spec m
  have hlt : m.darts_begin < m.size := by
    by_contra hc
    have he : m.darts_begin = m.size := by omega
    apply hne
    rw [List.eq_nil_iff_forall_not_mem]
    intro x hx
    have hd := (mem_darts m x).mp hx
    have := b2 x (by rw [he]; exact hd.1)
    rw [hd.2] at this
    cases this
  exact ⟨hlt, b3 hlt⟩

/-- What the quadrangulation pass returns on a map without boundary that holds a dart,
whatever its number of faces: the scan has run over all the slots of the map with the fan. -/
theorem quadrangulate_scanned {m : CMap} (hm : m.Boundaryless) (hne : m.darts ≠ []) :
    ∃ r, surface_quadrangulate m = some r ∧
      QuadInv m m.darts_begin (3 * m.size) (r.map, r.trace.reverse) ∧
      ((∀ x, m.IsDart x → m.in_face m.darts_begin x = true) →
        QuadFan m (3 * m.size) (r.map, r.trace.reverse)) := by
  rw [surface_quadrangulate_eq_scan]
  unfold quad_scan
  simp only [insert_size]
  refine ⟨_, rfl, ?_, ?_⟩
  · simp only [List.reverse_reverse]
    exact QuadInv.quad_fold hm _ _
  · intro hface
    simp only [List.reverse_reverse]
    exact QuadFan.fan_fold hm hface _

end CMapTools

namespace CMapTools

theorem in_face_isDart {m : CMap} {a z : Nat} (h : m.in_face a z = true) : m.IsDart z := by
  simp only [CMap.in_face, Bool.and_eq_true, CMap.is_dart_used, decide_eq_true_eq] at h
  exact h.1

/-- On a map with a single face every dart lies in the face of the first dart. -/
theorem one_face_all {m : CMap} (hm : m.Boundaryless) (h1 : m.num_faces = 1) :
    m.darts ≠ [] ∧ ∀ x, m.IsDart x → m.in_face m.darts_begin x = true := by
  have hne : m.darts ≠ [] := by
    intro h
    have : m.num_faces = 0 := by unfold CMap.num_faces; rw [h]; rfl
    omega
  refine ⟨hne, ?_⟩
  have ha := darts_begin_isDart hne
  obtain ⟨lab, hlab⟩ := hm.perm1.exists_label m.darts (mem_darts m)
  have hcount : m.num_faces = (m.darts.map lab).toFinset.card :=
    class_count_of_label _ lab m.darts (fun a ha b hb => by
      rw [same_face_iff hm ((mem_darts m a).mp ha)]
      exact (hlab a b ((mem_darts m a).mp ha) ((mem_darts m b).mp hb)).symm)
  rw [h1] at hcount
  obtain ⟨c, hc⟩ := Finset.card_eq_one.mp hcount.symm
  have hall : ∀ x, m.IsDart x → lab x = c := by
    intro x hx
    have : lab x ∈ (m.darts.map lab).toFinset := by
      simp only [List.mem_toFinset, List.mem_map]
      exact ⟨x, (mem_darts m x).mpr hx, rfl⟩
    rw [hc] at this
    exact Finset.mem_singleton.mp this
  intro x hx
  have hs : SameOrbit m.beta1 m.darts_begin x :=
    (hlab _ _ ha hx).mp ((hall _ ha).trans (hall x hx).symm)
  simp only [CMap.in_face, CMap.is_dart_used, Bool.and_eq_true, decide_eq_true_eq]
  exact ⟨⟨hx.1, hx.2⟩, (same_face_iff hm ha x).mpr hs⟩

/-- The darts the quadrangulation pass leaves, on a map without boundary that holds a dart:
none of the old darts, every old edge having been removed, and all the spokes of the fan,
with the opposites the insertion gave them. -/
theorem quadrangulate_spokes {m : CMap} (hm : m.Boundaryless) (hne : m.darts ≠ []) :
    ∃ r, surface_quadrangulate m = some r ∧
      r.map.size = 3 * m.size ∧
      (∀ d, m.IsDart d → ¬ r.map.IsDart d ∧ (d ∈ r.trace ∨ m.beta2 d ∈ r.trace)) ∧
      (∀ d, d ∈ r.trace → m.IsDart d) ∧
      (∀ y, r.map.IsDart y ↔
        ∃ z, m.in_face m.darts_begin z = true ∧ (y = m.n1 z ∨ y = m.n2 z)) ∧
      (∀ z, z < m.size → r.map.beta2 (m.n1 z) = m.n2 (m.beta0 z) ∧
        r.map.beta2 (m.n2 z) = m.n1 (m.beta1 z)) ∧
      ((∀ x, m.IsDart x → m.in_face m.darts_begin x = true) →
        ∀ z, m.IsDart z → r.map.beta1 (m.n2 z) = m.n1 z ∧
          r.map.beta1 (m.n1 z) = m.n2 (m.beta2 z)) := by
  obtain ⟨r, e, hI, hF⟩ := quadrangulate_scanned hm hne
  have hsz : r.map.size = 3 * m.size := hI.size
  have hsc : ∀ z, z < m.size → m.EdgeScanned (3 * m.size) z := fun z hz => Or.inl (by omega)
  have hdarts : ∀ y, r.map.IsDart y ↔
      ∃ z, m.in_face m.darts_begin z = true ∧ (y = m.n1 z ∨ y = m.n2 z) := by
    intro y
    unfold CMap.IsDart CMap.n1 CMap.n2
    rw [hsz]
    have hu := hI.used y
    simp only at hu
    rw [hu]
    constructor
    · rintro ⟨hy, h1, h2⟩
      have hge : m.size ≤ y := by
        by_contra hc
        exact h2 ⟨by omega, hsc y (by omega)⟩
      rw [insert_used_new m _ y hge] at h1
      simp only [Bool.and_eq_true, decide_eq_true_eq] at h1
      refine ⟨(y - m.size) / 2, h1.2, ?_⟩
      omega
    · rintro ⟨z, hz, hy⟩
      have hzd := (in_face_isDart hz).1
      have hge : m.size ≤ y := by omega
      have hz2 : (y - m.size) / 2 = z := by omega
      refine ⟨by omega, ?_, fun h => by omega⟩
      rw [insert_used_new m _ y hge, hz2, hz]
      simp only [Bool.and_true, decide_eq_true_eq]
      omega
  refine ⟨r, e, hsz, ?_, ?_, hdarts, ?_, ?_⟩
  · intro d hd
    refine ⟨?_, ?_⟩
    · intro hc
      have hu := (hI.used d).mp hc.2
      exact hu.2 ⟨hd.1, hsc d hd.1⟩
    · have := hI.trace d hd (hsc d hd.1)
      simpa using this
  · intro d hd
    exact hI.traced d (by simpa using hd)
  · intro z hz
    have hb : r.map.beta2 = (insert_point_in_cell_2 m m.darts_begin).beta2 := hI.beta2
    rw [hb]
    exact ⟨insert_beta2_n1 m _ z hz, insert_beta2_n2 m _ z hz⟩
  · intro hface z hz
    have hFan := hF hface
    refine ⟨hFan.spoke_in z hz, ?_⟩
    have := hFan.spoke_out z hz
    rw [if_pos (hsc z hz.1)] at this
    exact this

/-- C16, amended (no check of the number of faces). On every map without boundary that
holds a dart, whatever the number of its faces, two or more included, the quadrangulation
pass is not rejected but carried out: it returns a map in which none of the darts of the
input remains, and whose darts are the spokes of the fan inserted in the face of the first
dart; the map is not left as it was. -/
theorem quadrangulate_has_no_guard (m : CMap) (hm : m.Boundaryless) (hne : m.darts ≠ []) :
    ∃ r, surface_quadrangulate m = some r ∧
      (∀ d, m.IsDart d → ¬ r.map.IsDart d) ∧
      (∀ y, r.map.IsDart y ↔
        ∃ z, m.in_face m.darts_begin z = true ∧ (y = m.n1 z ∨ y = m.n2 z)) ∧
      r.map.IsDart (m.n1 m.darts_begin) ∧ r.map.size ≠ m.size := by
  obtain ⟨r, e, hsz, h1, _, h3, _, _⟩ := quadrangulate_spokes hm hne
  have ha := darts_begin_isDart hne
  refine ⟨r, e, fun d hd => (h1 d hd).1, h3, ?_, ?_⟩
  · rw [h3]
    refine ⟨m.darts_begin, ?_, Or.inl rfl⟩
    simp only [CMap.in_face, CMap.is_dart_used, Bool.and_eq_true, decide_eq_true_eq]
    exact ⟨⟨ha.1, ha.2⟩, (same_face_iff hm ha _).mpr (SameOrbit.orbit_refl _ _)⟩
  · have := ha.1
    omega

/-- C16 amended, at the pillow, which has two faces. -/
theorem quadrangulate_has_no_guard_witness :
    pillow.Boundaryless ∧ pillow.darts ≠ [] ∧ pillow.num_faces = 2 ∧
    ∃ r, surface_quadrangulate pillow = some r ∧
      (∀ d, pillow.IsDart d → ¬ r.map.IsDart d) ∧
      (∀ y, r.map.IsDart y ↔
        ∃ z, pillow.in_face pillow.darts_begin z = true ∧ (y = pillow.n1 z ∨ y = pillow.n2 z)) ∧
      r.map.IsDart (pillow.n1 pillow.darts_begin) ∧ r.map.size ≠ pillow.size :=
  ⟨by decide, by decide, by decide,
    quadrangulate_has_no_guard pillow (by decide) (by decide)⟩

/-- C16 as stated fails: the pillow has two faces, and the quadrangulation pass called on
it is not rejected: it removes the three edges and returns another map, whose darts are
the six spokes of the fan. -/
theorem quadrangulate_has_no_guard_counterexample :
    pillow.num_faces = 2 ∧ pillow.darts = [0, 1, 2, 3, 4, 5] ∧
    (surface_quadrangulate pillow).map (fun r => (r.trace, r.map.darts)) =
      some ([0, 1, 2], [6, 7, 8, 9, 10, 11]) := by
  decide

end CMapTools

namespace CMapTools

/-- In a face, walking backwards also leads from a dart to any other. -/
theorem PermOn.sameOrbit_back {n : Nat} {S : Nat → Prop} {f g : Nat → Nat}
    (h : PermOn n S f g) {a b : Nat} (ha : S a) (hab : SameOrbit f a b) : SameOrbit g a b := by
  have hb := h.sameOrbit_mem ha hab
  obtain ⟨k, hk⟩ := h.sameOrbit_symm ha hab
  exact ⟨k, by rw [← hk]; exact h.inv_iterate hb k⟩

/-- C17 (what the quadrangulation pass leaves). On a map without boundary with exactly one
face the quadrangulation pass returns; no dart of the input remains, every old edge having
been removed and nothing but old edges; every remaining dart was created by the insertion
of the vertex, its opposite remains too, and one of the two lies around the vertex of the
dart `c`, one and the same for all: every remaining edge is a spoke with one end at the new
vertex. -/
theorem quadrangulate_leaves_spokes (m : CMap) (hm : m.Boundaryless) (h1 : m.num_faces = 1) :
    ∃ r, surface_quadrangulate m = some r ∧
      (∀ d, m.IsDart d → ¬ r.map.IsDart d ∧ (d ∈ r.trace ∨ m.beta2 d ∈ r.trace)) ∧
      (∀ d, d ∈ r.trace → m.IsDart d) ∧
      ∃ c, r.map.IsDart c ∧ ∀ y, r.map.IsDart y →
        (m.size ≤ y ∧ (insert_point_in_cell_2 m m.darts_begin).IsDart y) ∧
        r.map.IsDart (r.map.beta2 y) ∧
        (SameOrbit (fun d => r.map.beta1 (r.map.beta2 d)) c y ∨
          SameOrbit (fun d => r.map.beta1 (r.map.beta2 d)) c (r.map.beta2 y)) := by
  obtain ⟨hne, hface⟩ := one_face_all hm h1
  obtain ⟨r, e, hsz, h2, h3, h4, h5, h6⟩ := quadrangulate_spokes hm hne
  have ha := darts_begin_isDart hne
  have hP0 : PermOn m.size m.IsDart m.beta0 m.beta1 := hm.perm1.perm_symm
  -- around the new vertex: from the spoke of a dart to the spoke of the dart before it
  have hturn : ∀ x, m.IsDart x →
      r.map.beta1 (r.map.beta2 (m.n1 x)) = m.n1 (m.beta0 x) := by
    intro x hx
    rw [(h5 x hx.1).1]
    exact (h6 hface _ (hP0.maps x hx)).1
  have hcentre : ∀ z, m.IsDart z →
      SameOrbit (fun d => r.map.beta1 (r.map.beta2 d)) (m.n1 m.darts_begin) (m.n1 z) := by
    intro z hz
    have hs : SameOrbit m.beta1 m.darts_begin z := by
      have := hface z hz
      simp only [CMap.in_face, Bool.and_eq_true] at this
      exact (same_face_iff hm ha z).mp this.2
    obtain ⟨k, hk⟩ := hm.perm1.sameOrbit_back ha hs
    refine ⟨k, ?_⟩
    rw [← hk]
    clear hk
    induction k with
    | zero => rfl
    | succ k ih =>
      rw [Function.iterate_succ_apply', Function.iterate_succ_apply', ih]
      exact hturn _ (hP0.iterate_mem ha k)
  have hnew : ∀ z, m.IsDart z → r.map.IsDart (m.n1 z) ∧ r.map.IsDart (m.n2 z) := by
    intro z hz
    exact ⟨(h4 _).mpr ⟨z, hface z hz, Or.inl rfl⟩, (h4 _).mpr ⟨z, hface z hz, Or.inr rfl⟩⟩
  refine ⟨r, e, h2, h3, m.n1 m.darts_begin, (hnew _ ha).1, ?_⟩
  intro y hy
  obtain ⟨z, hz, hyz⟩ := (h4 y).mp hy
  have hzd := in_face_isDart hz
  have hn1 : m.n1 z = m.size + 2 * z := rfl
  have hn2 : m.n2 z = m.size + 2 * z + 1 := rfl
  have hzlt := hzd.1
  have hfan : (insert_point_in_cell_2 m m.darts_begin).IsDart y := by
    have hge : m.size ≤ y := by rcases hyz with h | h <;> omega
    have hz2 : (y - m.size) / 2 = z := by rcases hyz with h | h <;> omega
    have hlt : y < 3 * m.size := by rcases hyz with h | h <;> omega
    refine ⟨hlt, ?_⟩
    rw [insert_used_new m _ y hge, hz2, hz]
    simpa using hlt
  have hge : m.size ≤ y := by rcases hyz with h | h <;> omega
  rcases hyz with rfl | rfl
  · refine ⟨⟨hge, hfan⟩, ?_, Or.inl (hcentre z hzd)⟩
    rw [(h5 z hzd.1).1]
    exact (hnew _ (hP0.maps z hzd)).2
  · refine ⟨⟨hge, hfan⟩, ?_, Or.inr ?_⟩
    · rw [(h5 z hzd.1).2]
      exact (hnew _ (hm.perm1.maps z hzd)).1
    · rw [(h5 z hzd.1).2]
      exact hcentre _ (hm.perm1.maps z hzd)

/-- C17 at the torus made of one square. -/
theorem quadrangulate_leaves_spokes_witness :
    torus.Boundaryless ∧ torus.num_faces = 1 ∧
    ∃ r, surface_quadrangulate torus = some r ∧
      (∀ d, torus.IsDart d → ¬ r.map.IsDart d ∧ (d ∈ r.trace ∨ torus.beta2 d ∈ r.trace)) ∧
      (∀ d, d ∈ r.trace → torus.IsDart d) ∧
      ∃ c, r.map.IsDart c ∧ ∀ y, r.map.IsDart y →
        (torus.size ≤ y ∧ (insert_point_in_cell_2 torus torus.darts_begin).IsDart y) ∧
        r.map.IsDart (r.map.beta2 y) ∧
        (SameOrbit (fun d => r.map.beta1 (r.map.beta2 d)) c y ∨
          SameOrbit (fun d => r.map.beta1 (r.map.beta2 d)) c (r.map.beta2 y)) :=
  ⟨by decide, by decide, quadrangulate_leaves_spokes torus (by decide) (by decide)⟩

/-- C18 (the faces are quadrangles). On a map without boundary with exactly one face,
whatever the number of its vertices and edges, the quadrangulation pass returns a map in
which every face is an orbit of `beta1` of exactly four darts. In the fan the face of an
old dart `z` is the triangle `n1 z, z, n2 z`; in the result, for every old dart `z` with
opposite `e`, the four spokes `n1 z, n2 e, n1 e, n2 z` of the triangles of `z` and `e`
follow one another and close up: the two triangles across the old edge, merged. Every dart
of the result is one of these spokes. -/
theorem quadrangulate_faces_are_quads (m : CMap) (hm : m.Boundaryless)
    (h1 : m.num_faces = 1) :
    ∃ r, surface_quadrangulate m = some r ∧
      (∀ z, m.IsDart z →
        ((insert_point_in_cell_2 m m.darts_begin).beta1 (m.n1 z) = z ∧
          (insert_point_in_cell_2 m m.darts_begin).beta1 z = m.n2 z ∧
          (insert_point_in_cell_2 m m.darts_begin).beta1 (m.n2 z) = m.n1 z) ∧
        (r.map.beta1 (m.n1 z) = m.n2 (m.beta2 z) ∧
          r.map.beta1 (m.n2 (m.beta2 z)) = m.n1 (m.beta2 z) ∧
          r.map.beta1 (m.n1 (m.beta2 z)) = m.n2 z ∧
          r.map.beta1 (m.n2 z) = m.n1 z) ∧
        [m.n1 z, m.n2 (m.beta2 z), m.n1 (m.beta2 z), m.n2 z].Nodup ∧
        (∀ y ∈ [m.n1 z, m.n2 (m.beta2 z), m.n1 (m.beta2 z), m.n2 z], r.map.IsDart y)) ∧
      (∀ y, r.map.IsDart y →
        (∃ z, m.IsDart z ∧ (y = m.n1 z ∨ y = m.n2 z)) ∧
        r.map.beta1^[4] y = y ∧
        [y, r.map.beta1 y, r.map.beta1^[2] y, r.map.beta1^[3] y].Nodup) := by
  obtain ⟨hne, hface⟩ := one_face_all hm h1
  obtain ⟨r, e, hsz, h2, h3, h4, h5, h6⟩ := quadrangulate_spokes hm hne
  have hb := h6 hface
  have hnew : ∀ z, m.IsDart z → r.map.IsDart (m.n1 z) ∧ r.map.IsDart (m.n2 z) := by
    intro z hz
    exact ⟨(h4 _).mpr ⟨z, hface z hz, Or.inl rfl⟩, (h4 _).mpr ⟨z, hface z hz, Or.inr rfl⟩⟩
  have hcycle : ∀ z, m.IsDart z →
      r.map.beta1 (m.n1 z) = m.n2 (m.beta2 z) ∧
      r.map.beta1 (m.n2 (m.beta2 z)) = m.n1 (m.beta2 z) ∧
      r.map.beta1 (m.n1 (m.beta2 z)) = m.n2 z ∧
      r.map.beta1 (m.n2 z) = m.n1 z := by
    intro z hz
    have he := hm.perm2.maps z hz
    refine ⟨(hb z hz).2, (hb _ he).1, ?_, (hb z hz).1⟩
    rw [(hb _ he).2, hm.perm2.left_inv z hz]
  have hnodup : ∀ z, m.IsDart z →
      [m.n1 z, m.n2 (m.beta2 z), m.n1 (m.beta2 z), m.n2 z].Nodup := by
    intro z hz
    have hne2 := hm.beta2_ne hz
    simp only [List.nodup_cons, List.mem_cons, List.mem_singleton, List.not_mem_nil,
      not_false_eq_true, List.nodup_nil, and_true, not_or, CMap.n1, CMap.n2]
    omega
  refine ⟨r, e, ?_, ?_⟩
  · intro z hz
    have he := hm.perm2.maps z hz
    refine ⟨⟨insert_beta1_n1 m _ z hz.1, insert_beta1_old m _ z hz.1 (hface z hz),
      insert_beta1_n2 m _ z hz.1⟩, hcycle z hz, hnodup z hz, ?_⟩
    intro y hy
    simp only [List.mem_cons, List.mem_singleton, List.not_mem_nil, or_false] at hy
    rcases hy with rfl | rfl | rfl | rfl
    · exact (hnew z hz).1
    · exact (hnew _ he).2
    · exact (hnew _ he).1
    · exact (hnew z hz).2
  · intro y hy
    obtain ⟨z, hz, hyz⟩ := (h4 y).mp hy
    have hzd := in_face_isDart hz
    have he := hm.perm2.maps z hzd
    obtain ⟨c1, c2, c3, c4⟩ := hcycle z hzd
    have hnd := hnodup z hzd
    refine ⟨⟨z, hzd, hyz⟩, ?_⟩
    rcases hyz with rfl | rfl
    · simp only [Function.iterate_succ, Function.iterate_zero, Function.comp_apply, id_eq,
        c1, c2, c3, c4, true_and]
      exact hnd
    · simp only [Function.iterate_succ, Function.iterate_zero, Function.comp_apply, id_eq,
        c1, c2, c3, c4, true_and]
      have : [m.n2 z, m.n1 z, m.n2 (m.beta2 z), m.n1 (m.beta2 z)].Perm
          [m.n1 z, m.n2 (m.beta2 z), m.n1 (m.beta2 z), m.n2 z] := by
        have h : ([m.n2 z] ++ [m.n1 z, m.n2 (m.beta2 z), m.n1 (m.beta2 z)]).Perm
            ([m.n1 z, m.n2 (m.beta2 z), m.n1 (m.beta2 z)] ++ [m.n2 z]) :=
          List.perm_append_comm
        simpa using h
      exact (List.Perm.nodup_iff this).mpr hnd

/-- C18 at the torus made of one square: one face, one vertex, two edges. -/
theorem quadrangulate_faces_are_quads_witness :
    torus.Boundaryless ∧ torus.cell_numbers = (1, 2, 1) ∧
    ∃ r, surface_quadrangulate torus = some r ∧
      (∀ z, torus.IsDart z →
        ((insert_point_in_cell_2 torus torus.darts_begin).beta1 (torus.n1 z) = z ∧
          (insert_point_in_cell_2 torus torus.darts_begin).beta1 z = torus.n2 z ∧
          (insert_point_in_cell_2 torus torus.darts_begin).beta1 (torus.n2 z) = torus.n1 z) ∧
        (r.map.beta1 (torus.n1 z) = torus.n2 (torus.beta2 z) ∧
          r.map.beta1 (torus.n2 (torus.beta2 z)) = torus.n1 (torus.beta2 z) ∧
          r.map.beta1 (torus.n1 (torus.beta2 z)) = torus.n2 z ∧
          r.map.beta1 (torus.n2 z) = torus.n1 z) ∧
        [torus.n1 z, torus.n2 (torus.beta2 z), torus.n1 (torus.beta2 z), torus.n2 z].Nodup ∧
        (∀ y ∈ [torus.n1 z, torus.n2 (torus.beta2 z), torus.n1 (torus.beta2 z), torus.n2 z],
          r.map.IsDart y)) ∧
      (∀ y, r.map.IsDart y →
        (∃ z, torus.IsDart z ∧ (y = torus.n1 z ∨ y = torus.n2 z)) ∧
        r.map.beta1^[4] y = y ∧
        [y, r.map.beta1 y, r.map.beta1^[2] y, r.map.beta1^[3] y].Nodup) :=
  ⟨by decide, by decide, quadrangulate_faces_are_quads torus (by decide) (by decide)⟩

end CMapTools

namespace CMapTools

/-! ## The main loop of the face pass, round by round -/

theorem face_loop_at_succ (faces : Index) :
    ∀ k s0, face_loop_at faces (k + 1) s0 =
      (face_loop_at faces k s0).bind fun s =>
        if !s.to_treat.isEmpty || s.it != s.map.size then face_loop_body faces s else none := by
  intro k
  induction k with
  | zero =>
    intro s0
    simp only [face_loop_at, Option.some_bind]
    split
    · cases face_loop_body faces s0 <;> rfl
    · rfl
  | succ k ih =>
    intro s0
    rw [face_loop_at]
    split
    · cases hb : face_loop_body faces s0 with
      | none => simp [face_loop_at, hb]
      | some s1 =>
        simp only
        rw [ih s1]
        conv_rhs => rw [face_loop_at]
        simp [*]
    · conv_rhs => rw [face_loop_at]
      simp [*]

/-- One round of the main loop takes the top of the worklist off, when there is one, and
puts nothing on it. -/
theorem face_loop_body_to_treat (faces : Index) (s s1 : FaceState)
    (h : face_loop_body faces s = some s1) : s1.to_treat = s.to_treat.tail := by
  unfold face_loop_body at h
  cases hst : s.to_treat with
  | nil =>
    simp only [hst] at h
    repeat' split at h
    all_goals (cases h; try rfl)
  | cons top rest =>
    simp only [hst] at h
    repeat' split at h
    all_goals (cases h; try rfl)

theorem face_loop_at_to_treat (faces : Index) :
    ∀ k s0 s, s0.to_treat = [] → face_loop_at faces k s0 = some s → s.to_treat = [] := by
  intro k
  induction k with
  | zero =>
    intro s0 s h0 h
    simp only [face_loop_at, Option.some.injEq] at h
    rw [← h]; exact h0
  | succ k ih =>
    intro s0 s h0 h
    rw [face_loop_at] at h
    split at h
    · cases hb : face_loop_body faces s0 with
      | none => rw [hb] at h; cases h
      | some s1 =>
        rw [hb] at h
        exact ih s1 s (by rw [face_loop_body_to_treat faces s0 s1 hb, h0]; rfl) h
    · cases h

/-- The invariant of the scan holds at any later slot reached over slots that hold no live
dart. -/
theorem FaceInv.face_skip {m : CMap} (hm : m.Boundaryless) {faces : Index} {s : ScanState} :
    ∀ n i, FaceInv m faces i s → (∀ j, i ≤ j → j < i + n → s.map.used j = false) →
      FaceInv m faces (i + n) s := by
  intro n
  induction n with
  | zero => intro i h _; exact h
  | succ n ih =>
    intro i h hu
    obtain ⟨s1, e, h1⟩ := h.face_step hm
    rw [face_scan_step_unused faces s i (hu i (le_refl _) (by omega))] at e
    cases e
    have := ih (i + 1) h1 (fun j h1 h2 => hu j (by omega) (by omega))
    rw [show i + (n + 1) = i + 1 + n by omega]
    exact this

theorem FaceMerged.face_step_merged {m : CMap} {faces : Index} {i : Nat} {s s1 : ScanState}
    (hI : FaceInv m faces i s) (hM : FaceMerged faces s)
    (e : face_scan_step faces (some s) i = some s1) : FaceMerged faces s1 := by
  rcases face_scan_step_cases hI with ⟨t, e1⟩ | ⟨a, b, t, c1, c2, c3, c4, e1⟩
  · rw [e1] at e
    cases e
    exact hM
  · rw [e1] at e
    cases e
    exact FaceMerged.face_remove t hI hM c1 c2 c3 c4

/-- One round of the main loop of the face pass on a map without boundary, from a state
that satisfies the invariant of the scan with the iterator on a live dart: no assertion
fails, the iterator moves forward to a live dart or to the end, and the invariant holds
again. -/
theorem face_round {m : CMap} (hm : m.Boundaryless) {faces : Index} {s : FaceState}
    (h1 : s.to_treat = []) (h2 : s.map.size = m.size) (h3 : s.it < m.size)
    (h4 : s.map.used s.it = true) (hI : FaceInv m faces s.it s.toScan)
    (hM : FaceMerged faces s.toScan) :
    ∃ s1, face_loop_body faces s = some s1 ∧ s1.to_treat = [] ∧ s1.map.size = m.size ∧
      s.it < s1.it ∧ s1.it ≤ m.size ∧ (s1.it < m.size → s1.map.used s1.it = true) ∧
      FaceInv m faces s1.it s1.toScan ∧ FaceMerged faces s1.toScan := by
  have hb := face_loop_body_scan faces s h1 (by rw [h2]; exact h3) h4
  obtain ⟨t, e, hI1⟩ := hI.face_step hm
  cases hbody : face_loop_body faces s with
  | none =>
    rw [hbody] at hb
    simp only at hb
    rw [hb] at e
    cases e
  | some s1 =>
    rw [hbody] at hb
    simp only at hb
    obtain ⟨e1, e2, e3, e4, e5, e6, e7⟩ := hb
    rw [e1] at e
    cases e
    rw [h2] at e3 e5 e7
    refine ⟨s1, rfl, e2, e3, e4, e5, e7, ?_, FaceMerged.face_step_merged hI hM e1⟩
    have := hI1.face_skip hm (s1.it - (s.it + 1)) (s.it + 1)
      (fun j h1 h2 => e6 j (by omega) (by omega))
    rw [show s.it + 1 + (s1.it - (s.it + 1)) = s1.it by omega] at this
    exact this

/-- The invariant of the main loop of the face pass on a map without boundary, at every
round: empty worklist, iterator past as many darts as rounds, on a live dart or at the end,
and the invariant of the scan with "one class, one face". -/
theorem face_loop_at_inv {m : CMap} (hm : m.Boundaryless) {uf : UFTree} {faces : Index}
    (hS : InitSpec m m.beta1 uf faces) :
    ∀ k s, face_loop_at faces k (face_pass_entry m uf) = some s →
      s.to_treat = [] ∧ s.map.size = m.size ∧ k ≤ s.it ∧ s.it ≤ m.size ∧
      (s.it < m.size → s.map.used s.it = true) ∧
      FaceInv m faces s.it s.toScan ∧ FaceMerged faces s.toScan := by
  intro k
  induction k with
  | zero =>
    intro s h
    simp only [face_loop_at, Option.some.injEq] at h
    rw [← h]
    obtain ⟨b1, b2, b3⟩ := darts_begin_spec { m with automatic_attributes_management := false }
    refine ⟨rfl, rfl, Nat.zero_le _, b1, b3, ?_, FaceMerged.face_start hS⟩
    have := (FaceInv.face_init hm hS).face_skip hm
      (CMap.darts_begin { m with automatic_attributes_management := false }) 0
      (fun j _ h2 => b2 j (by omega))
    rw [Nat.zero_add] at this
    exact this
  | succ k ih =>
    intro s h
    rw [face_loop_at_succ] at h
    cases hk : face_loop_at faces k (face_pass_entry m uf) with
    | none => rw [hk] at h; cases h
    | some s0 =>
      rw [hk, Option.some_bind] at h
      obtain ⟨i1, i2, i3, i4, i5, i6, i7⟩ := ih s0 hk
      split at h
      · rename_i hc
        have hne : s0.it ≠ s0.map.size := by
          simpa [i1] using hc
        have hlt : s0.it < m.size := by rw [i2] at hne; omega
        obtain ⟨s1, e, j1, j2, j3, j4, j5, j6, j7⟩ :=
          face_round hm i1 i2 hlt (i5 hlt) i6 i7
        rw [e] at h
        cases h
        exact ⟨j1, j2, by omega, j4, j5, j6, j7⟩
      · cases h

end CMapTools

namespace CMapTools

theorem face_pass_unfold {m : CMap} {uf : UFTree} {faces : Index}
    (h : initialize_faces m = some (uf, faces)) :
    surface_simplification_in_one_face m =
      (face_loop faces (m.size + 1) (face_pass_entry m uf)).map fun s =>
        { map := { s.map with automatic_attributes_management := true },
          trace := s.removed.reverse } := by
  unfold surface_simplification_in_one_face face_pass_entry
  rw [h]
  simp only
  cases face_loop faces (m.size + 1) _ <;> rfl

/-- When the main loop returns, it returns the variables of one of its rounds, at which
its condition fails. -/
theorem face_loop_eq_at (faces : Index) :
    ∀ k s0 s1, face_loop faces k s0 = some s1 →
      ∃ j, j ≤ k ∧ face_loop_at faces j s0 = some s1 ∧
        (!s1.to_treat.isEmpty || s1.it != s1.map.size) = false := by
  intro k
  induction k with
  | zero =>
    intro s0 s1 h
    unfold face_loop at h
    split at h
    · cases h
    · rename_i hc
      cases h
      exact ⟨0, le_refl _, rfl, by simpa using hc⟩
  | succ k ih =>
    intro s0 s1 h
    rw [face_loop_succ] at h
    split at h
    · rename_i hc
      cases hb : face_loop_body faces s0 with
      | none => rw [hb] at h; cases h
      | some s2 =>
        rw [hb] at h
        obtain ⟨j, hj, e, hcond⟩ := ih s2 s1 h
        refine ⟨j + 1, by omega, ?_, hcond⟩
        rw [face_loop_at, if_pos hc, hb]
        exact e
    · rename_i hc
      cases h
      exact ⟨0, Nat.zero_le _, rfl, by simpa using hc⟩

/-- C24 (forest invariant of the face pass). On a map without boundary `initialize_faces`
returns, and at every round of the main loop of the face pass: every live dart of the
edited map is a key of the face index, so that its lookup returns a class; two live darts
have the same representative exactly when one is met from the other by repeated `beta1` of
the edited map; and the round, if there is one, runs without a failed assertion. -/
theorem face_loop_forest_invariant (m : CMap) (hm : m.Boundaryless) :
    ∃ uftrees faces, initialize_faces m = some (uftrees, faces) ∧
      ∀ k s, face_loop_at faces k (face_pass_entry m uftrees) = some s →
        (∀ d, s.map.IsDart d →
          (∃ t, faces d = some t) ∧ ∃ a, get_uftree s.uftrees faces d = some a) ∧
        (∀ a b, s.map.IsDart a → s.map.IsDart b →
          (get_uftree s.uftrees faces a = get_uftree s.uftrees faces b ↔
            SameOrbit s.map.beta1 a b)) ∧
        ((!s.to_treat.isEmpty || s.it != s.map.size) = true →
          ∃ s1, face_loop_body faces s = some s1) := by
  obtain ⟨uf, faces, e, hS⟩ := initialize_cells_spec hm.perm1
  refine ⟨uf, faces, by rw [initialize_faces_eq, e], ?_⟩
  intro k s h
  obtain ⟨i1, i2, i3, i4, i5, i6, i7⟩ := face_loop_at_inv hm hS k s h
  refine ⟨?_, ?_, ?_⟩
  · intro d hd
    obtain ⟨h0, hh⟩ := i6.kinv.total d (i6.sub d hd)
    exact ⟨⟨_, hh⟩, _, get_uftree_eq s.uftrees faces d h0 hh⟩
  · intro a b ha hb
    exact ⟨i7 a b ha hb, SameOrbit.label_eq i6.boundaryless.perm1.maps i6.current ha⟩
  · intro hc
    have hne : s.it ≠ s.map.size := by simpa [i1] using hc
    have hlt : s.it < m.size := by rw [i2] at hne; omega
    obtain ⟨s1, e1, _⟩ := face_round hm i1 i2 hlt (i5 hlt) i6 i7
    exact ⟨s1, e1⟩

/-- C24 at the pillow. -/
theorem face_loop_forest_invariant_witness :
    pillow.Boundaryless ∧
    ∃ uftrees faces, initialize_faces pillow = some (uftrees, faces) ∧
      ∀ k s, face_loop_at faces k (face_pass_entry pillow uftrees) = some s →
        (∀ d, s.map.IsDart d →
          (∃ t, faces d = some t) ∧ ∃ a, get_uftree s.uftrees faces d = some a) ∧
        (∀ a b, s.map.IsDart a → s.map.IsDart b →
          (get_uftree s.uftrees faces a = get_uftree s.uftrees faces b ↔
            SameOrbit s.map.beta1 a b)) ∧
        ((!s.to_treat.isEmpty || s.it != s.map.size) = true →
          ∃ s1, face_loop_body faces s = some s1) :=
  ⟨by decide, face_loop_forest_invariant pillow (by decide)⟩

/-- C27 (the worklist is never used). On every map and whatever the index, the worklist
`to_treat` is empty at every round of the main loop of the face pass, so that each round
takes its dart from the scan and the flag `dangling` is false; and the pass, whose main
loop is run from the entry state on the index of `initialize_faces`, is equal to the plain
linear scan `face_scan`: at each unvisited live dart it marks the dart and its opposite,
and removes the edge exactly when it is not an isolated loop and the two face classes
differ, unifying them just before. -/
theorem face_pass_is_plain_scan (m : CMap) :
    (∀ uftrees faces k s, face_loop_at faces k (face_pass_entry m uftrees) = some s →
      s.to_treat = []) ∧
    (∀ uftrees faces, initialize_faces m = some (uftrees, faces) →
      surface_simplification_in_one_face m =
        (face_loop faces (m.size + 1) (face_pass_entry m uftrees)).map fun s =>
          { map := { s.map with automatic_attributes_management := true },
            trace := s.removed.reverse }) ∧
    surface_simplification_in_one_face m = face_scan m :=
  ⟨fun _ faces k s h => face_loop_at_to_treat faces k _ s rfl h,
   fun _ _ h => face_pass_unfold h, face_pass_eq_scan m⟩

/-- C27 at the pillow: the worklist is empty at the round that follows the first removal,
and the pass is the plain scan. -/
theorem face_pass_is_plain_scan_witness :
    (∃ uftrees faces s, initialize_faces pillow = some (uftrees, faces) ∧
      face_loop_at faces 1 (face_pass_entry pillow uftrees) = some s ∧ s.to_treat = []) ∧
    surface_simplification_in_one_face pillow = face_scan pillow := by
  obtain ⟨p, hp⟩ : ∃ p, initialize_faces pillow = some p :=
    Option.isSome_iff_exists.mp (by decide)
  obtain ⟨uf, faces⟩ := p
  obtain ⟨s, hs⟩ : ∃ s, face_loop_at faces 1 (face_pass_entry pillow uf) = some s := by
    apply Option.isSome_iff_exists.mp
    have h1 : ((initialize_faces pillow).bind fun p =>
        face_loop_at p.2 1 (face_pass_entry pillow p.1)).isSome = true := by decide
    rw [hp] at h1
    exact h1
  exact ⟨⟨uf, faces, s, hp, hs, (face_pass_is_plain_scan pillow).1 uf faces 1 s hs⟩,
    (face_pass_is_plain_scan pillow).2.2⟩

end CMapTools

namespace CMapTools

/-- C26 (dangling darts and the worklist): the code does not push. At the pillow the first
round removes the edge of dart 0, and the test of the push that the comments of the source
announce holds there: the opposite of the predecessor of dart 0 is the successor of its
opposite. In the edited map dart 2 is live and its successor is its own opposite, which it
was not in the input: the removal has exposed it as dangling. The worklist is nevertheless
empty when the second round starts, the next dart is taken from the scan at position 1, and
the map that the pass returns still holds dart 2. -/
theorem face_pass_never_pushes_dangling :
    ((initialize_faces pillow).bind fun p =>
      (face_loop_at p.2 1 (face_pass_entry pillow p.1)).map fun s =>
        [s.removed, s.to_treat, [s.it, s.map.beta1 2, s.map.beta2 2]]) =
      some [[0], [], [1, 4, 4]] ∧
    ((initialize_faces pillow).bind fun p =>
      (face_loop_at p.2 1 (face_pass_entry pillow p.1)).map fun s => s.map.used 2) =
      some true ∧
    pillow.beta0 0 = 2 ∧ pillow.is_free_2 2 = false ∧
    pillow.beta2 (pillow.beta0 0) = pillow.beta1 (pillow.beta2 0) ∧
    pillow.beta1 2 = 0 ∧ pillow.beta2 2 = 4 ∧
    (surface_simplification_in_one_face pillow).map (fun r => r.trace) = some [0] ∧
    (surface_simplification_in_one_face pillow).map (fun r => r.map.used 2) = some true := by
  decide

theorem iterate_fixed_point {f : Nat → Nat} {d : Nat} (h : f d = d) : ∀ k, f^[k] d = d := by
  intro k
  induction k with
  | zero => rfl
  | succ k ih => rw [Function.iterate_succ_apply, h, ih]

/-- C28 (the sphere made of one loop edge). Let `m` be a map without boundary whose only
darts are `d` and its opposite, each its own successor for `beta1`. The map has one vertex,
one edge and two faces; the test that keeps an isolated edge is false at both darts; and the
face pass returns, removes that one edge, and leaves a map with no dart: no vertex, no edge
and no face. -/
theorem face_pass_deletes_loop_sphere (m : CMap) (hm : m.Boundaryless) (d : Nat)
    (hd : m.IsDart d) (h1 : m.beta1 d = d) (h2 : m.beta1 (m.beta2 d) = m.beta2 d)
    (hall : ∀ x, m.IsDart x → x = d ∨ x = m.beta2 d) :
    m.cell_numbers = (1, 1, 2) ∧
    m.is_isolated_edge d = false ∧ m.is_isolated_edge (m.beta2 d) = false ∧
    ∃ r, surface_simplification_in_one_face m = some r ∧
      (r.trace = [d] ∨ r.trace = [m.beta2 d]) ∧ r.map.darts = [] ∧
      r.map.cell_numbers = (0, 0, 0) := by
  obtain ⟨⟨_, _, _⟩, ⟨_, _, _⟩, ⟨e2lt, e2u, e2i, e2ne⟩⟩ := hm d hd.1 hd.2
  have hd2 : m.IsDart (m.beta2 d) := ⟨e2lt, e2u⟩
  have hb0 : m.beta0 d = d := by
    have := (hm d hd.1 hd.2).1.2.2
    rw [h1] at this
    exact this
  have hb02 : m.beta0 (m.beta2 d) = m.beta2 d := by
    have := (hm _ hd2.1 hd2.2).1.2.2
    rw [h2] at this
    exact this
  have hne : m.darts ≠ [] := by
    intro h
    have := (mem_darts m d).mpr hd
    rw [h] at this
    cases this
  -- one edge
  have hE : m.num_edges = 1 := by
    have := class_count_all m.same_edge m.darts (fun a ha b hb => by
      have ha1 := (mem_darts m a).mp ha
      have hb1 := (mem_darts m b).mp hb
      rw [same_edge_iff hm ha1]
      rcases hall a ha1 with ha2 | ha2 <;> rcases hall b hb1 with hb2 | hb2 <;> rw [ha2, hb2]
      · exact ⟨0, rfl⟩
      · exact ⟨1, rfl⟩
      · exact ⟨1, e2i⟩
      · exact ⟨0, rfl⟩)
    rw [if_neg hne] at this
    exact this
  -- one vertex
  have hV : m.num_vertices = 1 := by
    have := class_count_all m.same_vertex m.darts (fun a ha b hb => by
      have ha1 := (mem_darts m a).mp ha
      have hb1 := (mem_darts m b).mp hb
      rw [same_vertex_iff hm ha1]
      rcases hall a ha1 with ha2 | ha2 <;> rcases hall b hb1 with hb2 | hb2 <;> rw [ha2, hb2]
      · exact ⟨0, rfl⟩
      · exact ⟨1, h2⟩
      · exact ⟨1, by show m.beta1 (m.beta2 (m.beta2 d)) = d; rw [e2i, h1]⟩
      · exact ⟨0, rfl⟩)
    rw [if_neg hne] at this
    exact this
  -- one component
  have hconn : m.IsConnected := by
    intro a ha b hb hau hbu
    rw [connected_iff hm ⟨ha, hau⟩]
    have hdd : m.Conn d (m.beta2 d) :=
      Relation.ReflTransGen.single (Or.inr (Or.inr rfl))
    have hdd2 : m.Conn (m.beta2 d) d :=
      Relation.ReflTransGen.single (Or.inr (Or.inr e2i.symm))
    rcases hall a ⟨ha, hau⟩ with ha2 | ha2 <;> rcases hall b ⟨hb, hbu⟩ with hb2 | hb2 <;>
      rw [ha2, hb2]
    · exact Relation.ReflTransGen.refl
    · exact hdd
    · exact hdd2
    · exact Relation.ReflTransGen.refl
  have hC := num_components_connected hconn hne
  obtain ⟨r, e, hr, hsteps, c1, c2, c3, c4⟩ := face_pass_counts hm
  obtain ⟨r1, e1, _, _, hb2, _, hsub, _, hloop⟩ := face_pass_output hm
  have hrr : r1 = r := by rw [e] at e1; cases e1; rfl
  subst hrr
  -- the trace is not empty
  have htr : r1.trace ≠ [] := by
    intro h
    rw [h] at hr
    have hmap1 : r1.map.beta1 = m.beta1 := by rw [hr]; rfl
    have hdr : r1.map.IsDart d := by rw [hr]; exact hd
    obtain ⟨k, hk⟩ := hloop d hdr
    rw [hmap1, iterate_fixed_point h1, hb2] at hk
    exact e2ne hk.symm
  have hlen : r1.trace.length = 1 := by
    have : 0 < r1.trace.length := List.length_pos.mpr htr
    omega
  have hF : m.num_faces = 2 := by omega
  have hE0 : r1.map.num_edges = 0 := by omega
  have hdarts : r1.map.darts = [] := class_count_eq_zero _ _ hE0
  have hiso : ∀ x, m.beta0 x = x → m.beta2 x ≠ x → m.is_isolated_edge x = false := by
    intro x hx hx2
    unfold CMap.is_isolated_edge
    rw [hx]
    have : (x == m.beta2 x) = false := by
      simp only [beq_eq_false_iff_ne, ne_eq]
      exact fun h => hx2 h.symm
    rw [this]
    rfl
  refine ⟨by simp only [CMap.cell_numbers, hV, hE, hF], hiso d hb0 e2ne,
    hiso _ hb02 (by rw [e2i]; exact fun h => e2ne h.symm), r1, e, ?_, hdarts, ?_⟩
  · match htrace : r1.trace, hlen with
    | [x], _ =>
      have hx := (hsteps [] x [] htrace).1
      rcases hall x hx with hx2 | hx2
      · exact Or.inl (by rw [hx2])
      · exact Or.inr (by rw [hx2])
  · simp only [CMap.cell_numbers, CMap.num_vertices, CMap.num_edges, CMap.num_faces, hdarts]
    rfl

/-- C28 at the map of two darts `0` and `1` with `beta1 = id` and `beta2` swapping them. -/
theorem face_pass_deletes_loop_sphere_witness :
    (loop_sphere.Boundaryless ∧ loop_sphere.IsDart 0 ∧ loop_sphere.beta1 0 = 0 ∧
      loop_sphere.beta1 (loop_sphere.beta2 0) = loop_sphere.beta2 0 ∧
      ∀ x, loop_sphere.IsDart x → x = 0 ∨ x = loop_sphere.beta2 0) ∧
    loop_sphere.cell_numbers = (1, 1, 2) ∧
    loop_sphere.is_isolated_edge 0 = false ∧
    loop_sphere.is_isolated_edge (loop_sphere.beta2 0) = false ∧
    ∃ r, surface_simplification_in_one_face loop_sphere = some r ∧
      (r.trace = [0] ∨ r.trace = [loop_sphere.beta2 0]) ∧ r.map.darts = [] ∧
      r.map.cell_numbers = (0, 0, 0) :=
  have hall : ∀ x, loop_sphere.IsDart x → x = 0 ∨ x = loop_sphere.beta2 0 := by
    intro x hx
    have h2 : x < 2 := hx.1
    have h1 : loop_sphere.beta2 0 = 1 := by decide
    omega
  ⟨⟨by decide, by decide, by decide, by decide, hall⟩,
    face_pass_deletes_loop_sphere loop_sphere (by decide) 0 (by decide) (by decide)
      (by decide) hall⟩

/-- C30 (termination of the face pass). On a map without boundary of `size` dart slots the
face pass returns; it has called `remove_cell<1>` at most as many times as the input map
has edges; its main loop stops after at most `size` rounds, with the worklist empty and
the scan at its end; and at every round `k` the scan position is at least `k`, it is at
most `size`, it is on a live dart of the edited map unless at the end (it has been moved
past the dart that a removal deleted), and it is strictly greater after the round, so that
the scan takes each dart at most once. -/
theorem face_pass_terminates (m : CMap) (hm : m.Boundaryless) :
    ∃ uftrees faces r, initialize_faces m = some (uftrees, faces) ∧
      surface_simplification_in_one_face m = some r ∧
      r.trace.length ≤ m.num_edges ∧
      (∃ j s, j ≤ m.size ∧ face_loop_at faces j (face_pass_entry m uftrees) = some s ∧
        s.to_treat = [] ∧ s.it = s.map.size ∧
        r = { map := { s.map with automatic_attributes_management := true },
              trace := s.removed.reverse }) ∧
      ∀ k s, face_loop_at faces k (face_pass_entry m uftrees) = some s →
        k ≤ s.it ∧ s.it ≤ m.size ∧ (s.it < m.size → s.map.used s.it = true) ∧
        ∀ s1, face_loop_at faces (k + 1) (face_pass_entry m uftrees) = some s1 →
          s.it < s1.it := by
  obtain ⟨uf, faces, e, hS⟩ := initialize_cells_spec hm.perm1
  have e0 : initialize_faces m = some (uf, faces) := by rw [initialize_faces_eq, e]
  obtain ⟨r, er, _, _, _, c2, _, _⟩ := face_pass_counts hm
  refine ⟨uf, faces, r, e0, er, by omega, ?_, ?_⟩
  · have hu := face_pass_unfold e0
    rw [er] at hu
    cases hl : face_loop faces (m.size + 1) (face_pass_entry m uf) with
    | none => rw [hl] at hu; cases hu
    | some sf =>
      rw [hl] at hu
      simp only [Option.map_some', Option.some.injEq] at hu
      obtain ⟨j, _, hj, hc⟩ := face_loop_eq_at faces _ _ _ hl
      obtain ⟨i1, i2, i3, i4, _⟩ := face_loop_at_inv hm hS j sf hj
      have hit : sf.it = sf.map.size := by simpa [i1] using hc
      exact ⟨j, sf, by omega, hj, i1, hit, hu⟩
  · intro k s h
    obtain ⟨i1, i2, i3, i4, i5, i6, i7⟩ := face_loop_at_inv hm hS k s h
    refine ⟨i3, i4, i5, ?_⟩
    intro s1 h1
    rw [face_loop_at_succ, h] at h1
    simp only [Option.some_bind] at h1
    split at h1
    · rename_i hc
      have hne : s.it ≠ s.map.size := by simpa [i1] using hc
      have hlt : s.it < m.size := by rw [i2] at hne; omega
      obtain ⟨s2, e2, _, _, hlt2, _⟩ := face_round hm i1 i2 hlt (i5 hlt) i6 i7
      rw [e2] at h1
      cases h1
      exact hlt2
    · cases h1

/-- C30 at the pillow. -/
theorem face_pass_terminates_witness :
    pillow.Boundaryless ∧
    ∃ uftrees faces r, initialize_faces pillow = some (uftrees, faces) ∧
      surface_simplification_in_one_face pillow = some r ∧
      r.trace.length ≤ pillow.num_edges ∧
      (∃ j s, j ≤ pillow.size ∧
        face_loop_at faces j (face_pass_entry pillow uftrees) = some s ∧
        s.to_treat = [] ∧ s.it = s.map.size ∧
        r = { map := { s.map with automatic_attributes_management := true },
              trace := s.removed.reverse }) ∧
      ∀ k s, face_loop_at faces k (face_pass_entry pillow uftrees) = some s →
        k ≤ s.it ∧ s.it ≤ pillow.size ∧ (s.it < pillow.size → s.map.used s.it = true) ∧
        ∀ s1, face_loop_at faces (k + 1) (face_pass_entry pillow uftrees) = some s1 →
          s.it < s1.it :=
  ⟨by decide, face_pass_terminates pillow (by decide)⟩

end CMapTools

namespace CMapTools

/-! ## The loop of the vertex pass, round by round -/

theorem vertex_loop_at_succ (vertices : Index) :
    ∀ k s0, vertex_loop_at vertices (k + 1) s0 =
      (vertex_loop_at vertices k s0).bind fun s =>
        if s.it != s.map.size then vertex_loop_body vertices s else none := by
  intro k
  induction k with
  | zero =>
    intro s0
    simp only [vertex_loop_at, Option.some_bind]
    split
    · cases vertex_loop_body vertices s0 <;> rfl
    · rfl
  | succ k ih =>
    intro s0
    rw [vertex_loop_at]
    split
    · cases hb : vertex_loop_body vertices s0 with
      | none => simp [vertex_loop_at, hb]
      | some s1 =>
        simp only
        rw [ih s1]
        conv_rhs => rw [vertex_loop_at]
        simp [*]
    · conv_rhs => rw [vertex_loop_at]
      simp [*]

/-- The invariant of the vertex scan holds at any later slot reached over slots that hold
no live dart. -/
theorem VertexInv.vertex_skip {m : CMap} (hm : m.Boundaryless) {vertices : Index}
    {s : ScanState} :
    ∀ n i, VertexInv m vertices i s → (∀ j, i ≤ j → j < i + n → s.map.used j = false) →
      VertexInv m vertices (i + n) s := by
  intro n
  induction n with
  | zero => intro i h _; exact h
  | succ n ih =>
    intro i h hu
    obtain ⟨s1, e, h1⟩ := h.vertex_step hm
    rw [vertex_scan_step_unused vertices s i (hu i (le_refl _) (by omega))] at e
    cases e
    have := ih (i + 1) h1 (fun j h1 h2 => hu j (by omega) (by omega))
    rw [show i + (n + 1) = i + 1 + n by omega]
    exact this

theorem VertexMerged.vertex_step_merged {m : CMap} (hm : m.Boundaryless) {vertices : Index}
    {i : Nat} {s s1 : ScanState} (hI : VertexInv m vertices i s) (hM : VertexMerged vertices s)
    (e : vertex_scan_step vertices (some s) i = some s1) : VertexMerged vertices s1 := by
  rcases vertex_scan_step_cases hm hI with e1 | ⟨a, b, c1, c2, c3, c4, e1⟩
  · rw [e1] at e
    cases e
    exact hM
  · rw [e1] at e
    cases e
    exact VertexMerged.vertex_contract hI hM c1 c2 c3 c4

/-- One round of the loop of the vertex pass on a map without boundary, from a state that
satisfies the invariant of the scan with the iterator on a live dart: no assertion fails,
the iterator moves forward to a live dart or to the end, and the invariant holds again. -/
theorem vertex_round {m : CMap} (hm : m.Boundaryless) {vertices : Index} {s : VertexState}
    (tr : Nat → Bool) (h2 : s.map.size = m.size) (h3 : s.it < m.size)
    (h4 : s.map.used s.it = true) (hI : VertexInv m vertices s.it (s.toScan tr))
    (hM : VertexMerged vertices (s.toScan tr)) :
    ∃ s1, vertex_loop_body vertices s = some s1 ∧ s1.map.size = m.size ∧
      s.it < s1.it ∧ s1.it ≤ m.size ∧ (s1.it < m.size → s1.map.used s1.it = true) ∧
      VertexInv m vertices s1.it (s1.toScan tr) ∧ VertexMerged vertices (s1.toScan tr) := by
  have hb := vertex_loop_body_scan vertices s tr (by rw [h2]; exact h3) h4
  obtain ⟨t, e, hI1⟩ := hI.vertex_step hm
  cases hbody : vertex_loop_body vertices s with
  | none =>
    rw [hbody] at hb
    simp only at hb
    rw [hb] at e
    cases e
  | some s1 =>
    rw [hbody] at hb
    simp only at hb
    obtain ⟨e1, e3, e4, e5, e6, e7⟩ := hb
    rw [e1] at e
    cases e
    rw [h2] at e3 e5 e7
    refine ⟨s1, rfl, e3, e4, e5, e7, ?_, VertexMerged.vertex_step_merged hm hI hM e1⟩
    have := hI1.vertex_skip hm (s1.it - (s.it + 1)) (s.it + 1)
      (fun j h1 h2 => e6 j (by omega) (by omega))
    rw [show s.it + 1 + (s1.it - (s.it + 1)) = s1.it by omega] at this
    exact this

/-- The invariant of the loop of the vertex pass on a map without boundary, at every
round. -/
theorem vertex_loop_at_inv {m : CMap} (hm : m.Boundaryless) {uf : UFTree} {vertices : Index}
    (hS : InitSpec m (fun d => m.beta1 (m.beta2 d)) uf vertices) :
    ∀ k s, vertex_loop_at vertices k (vertex_pass_entry m uf) = some s →
      s.map.size = m.size ∧ k ≤ s.it ∧ s.it ≤ m.size ∧
      (s.it < m.size → s.map.used s.it = true) ∧
      VertexInv m vertices s.it (s.toScan fun _ => false) ∧
      VertexMerged vertices (s.toScan fun _ => false) := by
  intro k
  induction k with
  | zero =>
    intro s h
    simp only [vertex_loop_at, Option.some.injEq] at h
    rw [← h]
    obtain ⟨b1, b2, b3⟩ := darts_begin_spec { m with automatic_attributes_management := false }
    refine ⟨rfl, Nat.zero_le _, b1, b3, ?_, VertexMerged.vertex_start hm hS⟩
    have := (VertexInv.vertex_init hm hS).vertex_skip hm
      (CMap.darts_begin { m with automatic_attributes_management := false }) 0
      (fun j _ h2 => b2 j (by omega))
    rw [Nat.zero_add] at this
    exact this
  | succ k ih =>
    intro s h
    rw [vertex_loop_at_succ] at h
    cases hk : vertex_loop_at vertices k (vertex_pass_entry m uf) with
    | none => rw [hk] at h; cases h
    | some s0 =>
      rw [hk, Option.some_bind] at h
      obtain ⟨i2, i3, i4, i5, i6, i7⟩ := ih s0 hk
      split at h
      · rename_i hc
        have hne : s0.it ≠ s0.map.size := by
          simpa using hc
        have hlt : s0.it < m.size := by rw [i2] at hne; omega
        obtain ⟨s1, e, j2, j3, j4, j5, j6, j7⟩ :=
          vertex_round hm (fun _ => false) i2 hlt (i5 hlt) i6 i7
        rw [e] at h
        cases h
        exact ⟨j2, by omega, j4, j5, j6, j7⟩
      · cases h

theorem vertex_pass_unfold {m : CMap} {uf : UFTree} {vertices : Index}
    (h : initialize_vertices m = some (uf, vertices)) :
    surface_simplification_in_one_vertex m =
      (vertex_loop vertices (m.size + 1) (vertex_pass_entry m uf)).map fun s =>
        { map := { s.map with automatic_attributes_management := true },
          trace := s.contracted.reverse } := by
  unfold surface_simplification_in_one_vertex vertex_pass_entry
  rw [h]
  simp only
  cases vertex_loop vertices (m.size + 1) _ <;> rfl

/-- C25 (forest invariant of the vertex pass). On a map without boundary
`initialize_vertices` returns, the vertex pass runs its loop from the entry state on the
index built there, and at every round of that loop: while a dart is left to scan, the
scanned dart and its `beta2` are keys of the vertex index, the two lookups return a class
and the round runs without a failed assertion; and two live darts of the edited map have
the same representative exactly when one is met from the other by repeated `beta1 ∘ beta2`
of the edited map, that is, when they lie around one vertex of the map as contracted so
far. -/
theorem vertex_loop_forest_invariant (m : CMap) (hm : m.Boundaryless) :
    ∃ uftrees vertices, initialize_vertices m = some (uftrees, vertices) ∧
      surface_simplification_in_one_vertex m =
        ((vertex_loop vertices (m.size + 1) (vertex_pass_entry m uftrees)).map fun s =>
          { map := { s.map with automatic_attributes_management := true },
            trace := s.contracted.reverse }) ∧
      ∀ k s, vertex_loop_at vertices k (vertex_pass_entry m uftrees) = some s →
        ((s.it != s.map.size) = true →
          (∃ t, vertices s.it = some t) ∧ (∃ t, vertices (s.map.beta2 s.it) = some t) ∧
          (∃ a, get_uftree s.uftrees vertices s.it = some a) ∧
          (∃ b, get_uftree s.uftrees vertices (s.map.beta2 s.it) = some b) ∧
          ∃ s1, vertex_loop_body vertices s = some s1) ∧
        (∀ a b, s.map.IsDart a → s.map.IsDart b →
          (get_uftree s.uftrees vertices a = get_uftree s.uftrees vertices b ↔
            SameOrbit (fun d => s.map.beta1 (s.map.beta2 d)) a b)) := by
  obtain ⟨uf, vertices, e, hS⟩ := initialize_cells_spec hm.permV
  have e0 : initialize_vertices m = some (uf, vertices) := by rw [initialize_vertices_eq hm, e]
  refine ⟨uf, vertices, e0, vertex_pass_unfold e0, ?_⟩
  intro k s h
  obtain ⟨i2, i3, i4, i5, i6, i7⟩ := vertex_loop_at_inv hm hS k s h
  refine ⟨?_, ?_⟩
  · intro hc
    have hne : s.it ≠ s.map.size := by simpa using hc
    have hlt : s.it < m.size := by rw [i2] at hne; omega
    have hd : s.map.IsDart s.it := ⟨by rw [i2]; exact hlt, i5 hlt⟩
    have hd2 : s.map.IsDart (s.map.beta2 s.it) := i6.boundaryless.perm2.maps _ hd
    obtain ⟨a0, ha⟩ := i6.kinv.total _ (i6.sub _ hd)
    obtain ⟨b0, hb⟩ := i6.kinv.total _ (i6.sub _ hd2)
    obtain ⟨s1, e1, _⟩ := vertex_round hm (fun _ => false) i2 hlt (i5 hlt) i6 i7
    exact ⟨⟨_, ha⟩, ⟨_, hb⟩, ⟨_, get_uftree_eq s.uftrees vertices _ a0 ha⟩,
      ⟨_, get_uftree_eq s.uftrees vertices _ b0 hb⟩, s1, e1⟩
  · intro a b ha hb
    exact ⟨i7.2 a b ha hb, SameOrbit.label_eq i6.boundaryless.permV.maps i7.1 ha⟩

/-- C25 at the pillow. -/
theorem vertex_loop_forest_invariant_witness :
    pillow.Boundaryless ∧
    ∃ uftrees vertices, initialize_vertices pillow = some (uftrees, vertices) ∧
      surface_simplification_in_one_vertex pillow =
        ((vertex_loop vertices (pillow.size + 1) (vertex_pass_entry pillow uftrees)).map fun s =>
          { map := { s.map with automatic_attributes_management := true },
            trace := s.contracted.reverse }) ∧
      ∀ k s, vertex_loop_at vertices k (vertex_pass_entry pillow uftrees) = some s →
        ((s.it != s.map.size) = true →
          (∃ t, vertices s.it = some t) ∧ (∃ t, vertices (s.map.beta2 s.it) = some t) ∧
          (∃ a, get_uftree s.uftrees vertices s.it = some a) ∧
          (∃ b, get_uftree s.uftrees vertices (s.map.beta2 s.it) = some b) ∧
          ∃ s1, vertex_loop_body vertices s = some s1) ∧
        (∀ a b, s.map.IsDart a → s.map.IsDart b →
          (get_uftree s.uftrees vertices a = get_uftree s.uftrees vertices b ↔
            SameOrbit (fun d => s.map.beta1 (s.map.beta2 d)) a b)) :=
  ⟨by decide, vertex_loop_forest_invariant pillow (by decide)⟩

end CMapTools

namespace CMapTools

/-! ## Counting the cells of the quadrangulated map -/

/-- The number of orbits of a permutation, counted by a label that is constant along the
permutation and tells the orbits apart. -/
theorem class_count_by_label {N : Nat} {S : Nat → Prop} {f g : Nat → Nat}
    (hP : PermOn N S f g) (l : List Nat) (hl : ∀ x, x ∈ l ↔ S x) {α : Type} [DecidableEq α]
    (L : Nat → α) (hinv : ∀ x, S x → L (f x) = L x)
    (hsame : ∀ a b, S a → S b → L a = L b → SameOrbit f a b) :
    class_count (reaches f N) l = (l.map L).toFinset.card := by
  apply class_count_of_label
  intro a ha b hb
  have ha1 := (hl a).mp ha
  have hb1 := (hl b).mp hb
  rw [hP.reaches_iff_sameOrbit ha1]
  exact ⟨SameOrbit.label_eq hP.maps hinv ha1, hsame a b ha1 hb1⟩

/-- A map without boundary has two darts for each edge. -/
theorem darts_card_two_edges {m : CMap} (hm : m.Boundaryless) :
    m.darts.toFinset.card = 2 * m.num_edges := by
  have hE : m.num_edges = (m.darts.map fun z => min z (m.beta2 z)).toFinset.card := by
    unfold CMap.num_edges
    apply class_count_of_label
    intro a ha b hb
    have ha1 := (mem_darts m a).mp ha
    have hb1 := (mem_darts m b).mp hb
    have ia := hm.perm2.left_inv a ha1
    have ib := hm.perm2.left_inv b hb1
    simp only [CMap.same_edge, Bool.or_eq_true, beq_iff_eq]
    constructor
    · rintro (h | h)
      · rw [h]
      · rw [← h, ia, min_comm]
    · intro h
      by_cases h1 : a = b
      · exact Or.inl h1
      · right
        simp only [min_def] at h
        split_ifs at h
        · exact absurd h h1
        · rw [h, ib]
        · exact h
        · exact absurd (by rw [← ia, ← ib, h]) h1
  have hA : (m.darts.map fun z => min z (m.beta2 z)).toFinset =
      m.darts.toFinset.filter (fun z => z < m.beta2 z) := by
    ext x
    simp only [List.mem_toFinset, List.mem_map, Finset.mem_filter]
    constructor
    · rintro ⟨z, hz, rfl⟩
      have hz1 := (mem_darts m z).mp hz
      have i1 := hm.perm2.left_inv z hz1
      have i2 := hm.beta2_ne hz1
      have i3 := hm.perm2.maps z hz1
      by_cases h : z ≤ m.beta2 z
      · rw [min_eq_left h]
        exact ⟨hz, by omega⟩
      · rw [min_eq_right (by omega)]
        exact ⟨(mem_darts m _).mpr i3, by rw [i1]; omega⟩
    · rintro ⟨hx, hlt⟩
      exact ⟨x, hx, min_eq_left hlt.le⟩
  have hB : (m.darts.toFinset.filter (fun z => ¬ z < m.beta2 z)).card =
      (m.darts.toFinset.filter (fun z => z < m.beta2 z)).card := by
    apply Finset.card_bij (fun z _ => m.beta2 z)
    · intro a ha
      simp only [Finset.mem_filter, List.mem_toFinset] at ha ⊢
      have ha1 := (mem_darts m a).mp ha.1
      have i1 := hm.perm2.left_inv a ha1
      have i2 := hm.beta2_ne ha1
      exact ⟨(mem_darts m _).mpr (hm.perm2.maps a ha1), by rw [i1]; omega⟩
    · intro a ha b hb h
      simp only [Finset.mem_filter, List.mem_toFinset] at ha hb
      have i1 := hm.perm2.left_inv a ((mem_darts m a).mp ha.1)
      have i2 := hm.perm2.left_inv b ((mem_darts m b).mp hb.1)
      rw [← i1, ← i2, h]
    · intro b hb
      simp only [Finset.mem_filter, List.mem_toFinset] at hb
      have hb1 := (mem_darts m b).mp hb.1
      have i1 := hm.perm2.left_inv b hb1
      refine ⟨m.beta2 b, ?_, i1⟩
      simp only [Finset.mem_filter, List.mem_toFinset]
      exact ⟨(mem_darts m _).mpr (hm.perm2.maps b hb1), by rw [i1]; omega⟩
  have hsplit := Finset.filter_card_add_filter_neg_card_eq_card
    (s := m.darts.toFinset) (fun z => z < m.beta2 z)
  rw [hE, hA]
  omega

theorem n1_even (m : CMap) (z : Nat) : (m.n1 z - m.size) % 2 = 0 := by
  have : m.n1 z = m.size + 2 * z := rfl
  omega

theorem n1_half (m : CMap) (z : Nat) : (m.n1 z - m.size) / 2 = z := by
  have : m.n1 z = m.size + 2 * z := rfl
  omega

theorem n2_odd (m : CMap) (z : Nat) : (m.n2 z - m.size) % 2 = 1 := by
  have : m.n2 z = m.size + 2 * z + 1 := rfl
  omega

theorem n2_half (m : CMap) (z : Nat) : (m.n2 z - m.size) / 2 = z := by
  have : m.n2 z = m.size + 2 * z + 1 := rfl
  omega

theorem n1_inj (m : CMap) {a b : Nat} (h : m.n1 a = m.n1 b) : a = b := by
  have h1 : m.n1 a = m.size + 2 * a := rfl
  have h2 : m.n1 b = m.size + 2 * b := rfl
  omega

theorem n2_inj (m : CMap) {a b : Nat} (h : m.n2 a = m.n2 b) : a = b := by
  have h1 : m.n2 a = m.size + 2 * a + 1 := rfl
  have h2 : m.n2 b = m.size + 2 * b + 1 := rfl
  omega

theorem n1_ne_n2 (m : CMap) (a b : Nat) : m.n1 a ≠ m.n2 b := by
  have h1 : m.n1 a = m.size + 2 * a := rfl
  have h2 : m.n2 b = m.size + 2 * b + 1 := rfl
  omega

/-- In the quadrangulated map `beta1` is a permutation of the darts. -/
theorem quad_perm1 {m R : CMap} (hm : m.Boundaryless)
    (hD : ∀ y, R.IsDart y ↔ ∃ z, m.IsDart z ∧ (y = m.n1 z ∨ y = m.n2 z))
    (hb1 : ∀ z, m.IsDart z →
      R.beta1 (m.n2 z) = m.n1 z ∧ R.beta1 (m.n1 z) = m.n2 (m.beta2 z)) :
    PermOn R.size R.IsDart R.beta1
      (fun y => if (y - m.size) % 2 = 0 then y + 1
        else m.n1 (m.beta2 ((y - m.size) / 2))) where
  lt := fun _ hx => hx.1
  maps := by
    intro y hy
    obtain ⟨z, hz, rfl | rfl⟩ := (hD y).mp hy
    · rw [(hb1 z hz).2]
      exact (hD _).mpr ⟨_, hm.perm2.maps z hz, Or.inr rfl⟩
    · rw [(hb1 z hz).1]
      exact (hD _).mpr ⟨_, hz, Or.inl rfl⟩
  inv_maps := by
    intro y hy
    obtain ⟨z, hz, rfl | rfl⟩ := (hD y).mp hy
    · simp only [n1_even, if_true]
      exact (hD _).mpr ⟨_, hz, Or.inr rfl⟩
    · simp only [n2_odd, n2_half, if_false, one_ne_zero]
      exact (hD _).mpr ⟨_, hm.perm2.maps z hz, Or.inl rfl⟩
  left_inv := by
    intro y hy
    obtain ⟨z, hz, rfl | rfl⟩ := (hD y).mp hy
    · rw [(hb1 z hz).2]
      simp only [n2_odd, n2_half, if_false, one_ne_zero]
      rw [hm.perm2.left_inv z hz]
    · rw [(hb1 z hz).1]
      simp only [n1_even, if_true]
      rfl
  right_inv := by
    intro y hy
    obtain ⟨z, hz, rfl | rfl⟩ := (hD y).mp hy
    · simp only [n1_even, if_true]
      exact (hb1 z hz).1
    · simp only [n2_odd, n2_half, if_false, one_ne_zero]
      rw [(hb1 _ (hm.perm2.maps z hz)).2, hm.perm2.left_inv z hz]

/-- In the quadrangulated map `beta2` is an involution of the darts. -/
theorem quad_perm2 {m R : CMap} (hm : m.Boundaryless)
    (hD : ∀ y, R.IsDart y ↔ ∃ z, m.IsDart z ∧ (y = m.n1 z ∨ y = m.n2 z))
    (hb2 : ∀ z, m.IsDart z →
      R.beta2 (m.n1 z) = m.n2 (m.beta0 z) ∧ R.beta2 (m.n2 z) = m.n1 (m.beta1 z)) :
    PermOn R.size R.IsDart R.beta2 R.beta2 := by
  have hmaps : ∀ y, R.IsDart y → R.IsDart (R.beta2 y) := by
    intro y hy
    obtain ⟨z, hz, rfl | rfl⟩ := (hD y).mp hy
    · rw [(hb2 z hz).1]
      exact (hD _).mpr ⟨_, hm.perm1.inv_maps z hz, Or.inr rfl⟩
    · rw [(hb2 z hz).2]
      exact (hD _).mpr ⟨_, hm.perm1.maps z hz, Or.inl rfl⟩
  have hinv : ∀ y, R.IsDart y → R.beta2 (R.beta2 y) = y := by
    intro y hy
    obtain ⟨z, hz, rfl | rfl⟩ := (hD y).mp hy
    · rw [(hb2 z hz).1, (hb2 _ (hm.perm1.inv_maps z hz)).2, hm.perm1.right_inv z hz]
    · rw [(hb2 z hz).2, (hb2 _ (hm.perm1.maps z hz)).1, hm.perm1.left_inv z hz]
  exact ⟨fun _ hx => hx.1, hmaps, hmaps, hinv, hinv⟩

/-- The quadrangulated map has one face for each edge of the input. -/
theorem quad_num_faces {m R : CMap} (hm : m.Boundaryless)
    (hD : ∀ y, R.IsDart y ↔ ∃ z, m.IsDart z ∧ (y = m.n1 z ∨ y = m.n2 z))
    (hb1 : ∀ z, m.IsDart z →
      R.beta1 (m.n2 z) = m.n1 z ∧ R.beta1 (m.n1 z) = m.n2 (m.beta2 z)) :
    R.num_faces = m.num_edges := by
  have hP := quad_perm1 hm hD hb1
  obtain ⟨E, hE⟩ : ∃ E : Nat → Nat, E = fun z => min z (m.beta2 z) := ⟨_, rfl⟩
  have hEsym : ∀ z, m.IsDart z → E (m.beta2 z) = E z := by
    intro z hz
    rw [hE]
    simp only
    rw [hm.perm2.left_inv z hz, min_comm]
  have hEeq : ∀ a b, m.IsDart a → m.IsDart b → E a = E b → b = a ∨ b = m.beta2 a := by
    intro a b ha hb h
    have ia := hm.perm2.left_inv a ha
    have ib := hm.perm2.left_inv b hb
    rw [hE] at h
    simp only [min_def] at h
    split_ifs at h
    · exact Or.inl h.symm
    · right; rw [h, ib]
    · right; exact h.symm
    · left; rw [← ia, ← ib, h]
  have hcount := class_count_by_label hP R.darts (mem_darts R)
    (fun y => E ((y - m.size) / 2))
    (by
      intro y hy
      obtain ⟨z, hz, rfl | rfl⟩ := (hD y).mp hy
      · rw [(hb1 z hz).2]
        simp only [n2_half, n1_half]
        exact hEsym z hz
      · rw [(hb1 z hz).1]
        simp only [n2_half, n1_half])
    (by
      intro a b ha hb h
      obtain ⟨z, hz, hza⟩ := (hD a).mp ha
      obtain ⟨w, hw, hwb⟩ := (hD b).mp hb
      have hz2 := hm.perm2.maps z hz
      have i2 := hm.perm2.left_inv z hz
      have s1 : R.beta1 (m.n1 z) = m.n2 (m.beta2 z) := (hb1 z hz).2
      have s2 : R.beta1 (m.n2 (m.beta2 z)) = m.n1 (m.beta2 z) := (hb1 _ hz2).1
      have s3 : R.beta1 (m.n1 (m.beta2 z)) = m.n2 z := by rw [(hb1 _ hz2).2, i2]
      have s4 : R.beta1 (m.n2 z) = m.n1 z := (hb1 z hz).1
      have hEzw : E z = E w := by
        rcases hza with rfl | rfl <;> rcases hwb with rfl | rfl <;>
          simpa only [n1_half, n2_half] using h
      rcases hEeq z w hz hw hEzw with rfl | rfl
      · rcases hza with rfl | rfl <;> rcases hwb with rfl | rfl
        · exact ⟨0, rfl⟩
        · exact ⟨3, by simp only [Function.iterate_succ, Function.iterate_zero,
            Function.comp_apply, id_eq, s1, s2, s3]⟩
        · exact ⟨1, by simp only [Function.iterate_succ, Function.iterate_zero,
            Function.comp_apply, id_eq, s4]⟩
        · exact ⟨0, rfl⟩
      · rcases hza with rfl | rfl <;> rcases hwb with rfl | rfl
        · exact ⟨2, by simp only [Function.iterate_succ, Function.iterate_zero,
            Function.comp_apply, id_eq, s1, s2]⟩
        · exact ⟨1, by simp only [Function.iterate_succ, Function.iterate_zero,
            Function.comp_apply, id_eq, s1]⟩
        · exact ⟨3, by simp only [Function.iterate_succ, Function.iterate_zero,
            Function.comp_apply, id_eq, s4, s1, s2]⟩
        · exact ⟨2, by simp only [Function.iterate_succ, Function.iterate_zero,
            Function.comp_apply, id_eq, s4, s1]⟩)
  have hEm : m.num_edges = (m.darts.map E).toFinset.card := by
    unfold CMap.num_edges
    apply class_count_of_label
    intro a ha b hb
    have ha1 := (mem_darts m a).mp ha
    have hb1 := (mem_darts m b).mp hb
    simp only [CMap.same_edge, Bool.or_eq_true, beq_iff_eq]
    constructor
    · rintro (h | h)
      · rw [h]
      · rw [← h, hEsym a ha1]
    · intro h
      rcases hEeq a b ha1 hb1 h with h1 | h1
      · exact Or.inl h1.symm
      · exact Or.inr h1.symm
  have himg : (R.darts.map fun y => E ((y - m.size) / 2)).toFinset = (m.darts.map E).toFinset := by
    ext x
    simp only [List.mem_toFinset, List.mem_map, mem_darts]
    constructor
    · rintro ⟨y, hy, rfl⟩
      obtain ⟨z, hz, rfl | rfl⟩ := (hD y).mp hy
      · exact ⟨z, hz, by rw [n1_half]⟩
      · exact ⟨z, hz, by rw [n2_half]⟩
    · rintro ⟨z, hz, rfl⟩
      exact ⟨m.n1 z, (hD _).mpr ⟨z, hz, Or.inl rfl⟩, by rw [n1_half]⟩
  show class_count (reaches R.beta1 R.size) R.darts = _
  rw [hcount, himg, hEm]

/-- The quadrangulated map has one edge for each dart of the input. -/
theorem quad_num_edges {m R : CMap} (hm : m.Boundaryless)
    (hD : ∀ y, R.IsDart y ↔ ∃ z, m.IsDart z ∧ (y = m.n1 z ∨ y = m.n2 z))
    (hb2 : ∀ z, m.IsDart z →
      R.beta2 (m.n1 z) = m.n2 (m.beta0 z) ∧ R.beta2 (m.n2 z) = m.n1 (m.beta1 z)) :
    R.num_edges = 2 * m.num_edges := by
  obtain ⟨L, hL⟩ : ∃ L : Nat → Nat, L = fun y =>
      if (y - m.size) % 2 = 0 then (y - m.size) / 2 else m.beta1 ((y - m.size) / 2) :=
    ⟨_, rfl⟩
  have hL1 : ∀ z, L (m.n1 z) = z := by
    intro z; rw [hL]; simp only [n1_even, n1_half, if_true]
  have hL2 : ∀ z, L (m.n2 z) = m.beta1 z := by
    intro z; rw [hL]; simp only [n2_odd, n2_half, if_false, one_ne_zero]
  have hcount : R.num_edges = (R.darts.map L).toFinset.card := by
    unfold CMap.num_edges
    apply class_count_of_label
    intro a ha b hb
    obtain ⟨z, hz, hza⟩ := (hD a).mp ((mem_darts R a).mp ha)
    obtain ⟨w, hw, hwb⟩ := (hD b).mp ((mem_darts R b).mp hb)
    simp only [CMap.same_edge, Bool.or_eq_true, beq_iff_eq]
    rcases hza with rfl | rfl <;> rcases hwb with rfl | rfl
    · rw [hL1, hL1, (hb2 z hz).1]
      constructor
      · rintro (h | h)
        · exact n1_inj m h
        · exact absurd h.symm (n1_ne_n2 m _ _)
      · intro h; exact Or.inl (by rw [h])
    · rw [hL1, hL2, (hb2 z hz).1]
      constructor
      · rintro (h | h)
        · exact absurd h (n1_ne_n2 m _ _)
        · rw [← n2_inj m h, hm.perm1.right_inv z hz]
      · intro h
        right
        rw [h, hm.perm1.left_inv w hw]
    · rw [hL1, hL2, (hb2 z hz).2]
      constructor
      · rintro (h | h)
        · exact absurd h.symm (n1_ne_n2 m _ _)
        · exact n1_inj m h
      · intro h; exact Or.inr (by rw [h])
    · rw [hL2, hL2, (hb2 z hz).2]
      constructor
      · rintro (h | h)
        · rw [n2_inj m h]
        · exact absurd h (n1_ne_n2 m _ _)
      · intro h
        left
        have := congrArg m.beta0 h
        rw [hm.perm1.left_inv z hz, hm.perm1.left_inv w hw] at this
        rw [this]
  have himg : (R.darts.map L).toFinset = m.darts.toFinset := by
    ext x
    simp only [List.mem_toFinset, List.mem_map, mem_darts]
    constructor
    · rintro ⟨y, hy, rfl⟩
      obtain ⟨z, hz, rfl | rfl⟩ := (hD y).mp hy
      · rw [hL1]; exact hz
      · rw [hL2]; exact hm.perm1.maps z hz
    · intro hx
      exact ⟨m.n1 x, (hD _).mpr ⟨x, hx, Or.inl rfl⟩, hL1 x⟩
  rw [hcount, himg, darts_card_two_edges hm]

theorem iterate_conj {f h : Nat → Nat} {u : Nat → Nat} {S : Nat → Prop}
    (hS : ∀ z, S z → S (h z)) (hf : ∀ z, S z → f (u z) = u (h z)) :
    ∀ k z, S z → f^[k] (u z) = u (h^[k] z) ∧ S (h^[k] z) := by
  intro k
  induction k with
  | zero => intro z hz; exact ⟨rfl, hz⟩
  | succ k ih =>
    intro z hz
    rw [Function.iterate_succ_apply', Function.iterate_succ_apply', (ih z hz).1,
      hf _ (ih z hz).2]
    exact ⟨rfl, hS _ (ih z hz).2⟩

/-- The quadrangulated map of a map with a single face has one vertex more than the
input: the vertex put inside the face. -/
theorem quad_num_vertices {m R : CMap} (hm : m.Boundaryless)
    (hone : ∀ a b, m.IsDart a → m.IsDart b → SameOrbit m.beta1 a b)
    (hne : m.darts ≠ [])
    (hD : ∀ y, R.IsDart y ↔ ∃ z, m.IsDart z ∧ (y = m.n1 z ∨ y = m.n2 z))
    (hb2 : ∀ z, m.IsDart z →
      R.beta2 (m.n1 z) = m.n2 (m.beta0 z) ∧ R.beta2 (m.n2 z) = m.n1 (m.beta1 z))
    (hb1 : ∀ z, m.IsDart z →
      R.beta1 (m.n2 z) = m.n1 z ∧ R.beta1 (m.n1 z) = m.n2 (m.beta2 z)) :
    R.num_vertices = m.num_vertices + 1 := by
  have hP := (quad_perm1 hm hD hb1).comp (quad_perm2 hm hD hb2)
  obtain ⟨lab, hlab⟩ := hm.permV.exists_label m.darts (mem_darts m)
  obtain ⟨L, hL⟩ : ∃ L : Nat → Option (List Nat), L = fun y =>
      if (y - m.size) % 2 = 0 then none else some (lab (m.beta2 ((y - m.size) / 2))) :=
    ⟨_, rfl⟩
  have hL1 : ∀ z, L (m.n1 z) = none := by
    intro z; rw [hL]; simp only [n1_even, if_true]
  have hL2 : ∀ z, L (m.n2 z) = some (lab (m.beta2 z)) := by
    intro z; rw [hL]; simp only [n2_odd, n2_half, if_false, one_ne_zero]
  have f1 : ∀ z, m.IsDart z → R.beta1 (R.beta2 (m.n1 z)) = m.n1 (m.beta0 z) := by
    intro z hz
    rw [(hb2 z hz).1, (hb1 _ (hm.perm1.inv_maps z hz)).1]
  have f2 : ∀ z, m.IsDart z → R.beta1 (R.beta2 (m.n2 z)) = m.n2 (m.beta2 (m.beta1 z)) := by
    intro z hz
    rw [(hb2 z hz).2, (hb1 _ (hm.perm1.maps z hz)).2]
  have hcount := class_count_by_label hP R.darts (mem_darts R) L
    (by
      intro y hy
      obtain ⟨z, hz, rfl | rfl⟩ := (hD y).mp hy
      · show L (R.beta1 (R.beta2 (m.n1 z))) = _
        rw [f1 z hz, hL1, hL1]
      · show L (R.beta1 (R.beta2 (m.n2 z))) = _
        rw [f2 z hz, hL2, hL2, hm.perm2.left_inv _ (hm.perm1.maps z hz)]
        congr 1
        have h1 : SameOrbit (fun d => m.beta1 (m.beta2 d)) (m.beta2 z) (m.beta1 z) :=
          ⟨1, by
            show m.beta1 (m.beta2 (m.beta2 z)) = m.beta1 z
            rw [hm.perm2.left_inv z hz]⟩
        exact ((hlab _ _ (hm.perm2.maps z hz) (hm.perm1.maps z hz)).mpr h1).symm)
    (by
      intro a b ha hb h
      obtain ⟨z, hz, hza⟩ := (hD a).mp ha
      obtain ⟨w, hw, hwb⟩ := (hD b).mp hb
      rcases hza with rfl | rfl <;> rcases hwb with rfl | rfl
      · obtain ⟨k, hk⟩ := hm.perm1.sameOrbit_back hz (hone z w hz hw)
        refine ⟨k, ?_⟩
        rw [(iterate_conj (fun z hz => hm.perm1.inv_maps z hz) f1 k z hz).1, hk]
      · rw [hL1, hL2] at h; cases h
      · rw [hL1, hL2] at h; cases h
      · rw [hL2, hL2] at h
        have h1 := Option.some.inj h
        obtain ⟨k, hk⟩ := (hlab _ _ (hm.perm2.maps z hz) (hm.perm2.maps w hw)).mp h1
        refine ⟨k, ?_⟩
        have hc := iterate_conj (S := m.IsDart) (u := m.n2)
          (f := fun d => R.beta1 (R.beta2 d)) (h := fun z => m.beta2 (m.beta1 z))
          (fun z hz => hm.perm2.maps _ (hm.perm1.maps z hz)) f2 k z hz
        rw [hc.1]
        have hc2 := iterate_conj (S := m.IsDart) (u := m.beta2)
          (f := fun d => m.beta1 (m.beta2 d)) (h := fun z => m.beta2 (m.beta1 z))
          (fun z hz => hm.perm2.maps _ (hm.perm1.maps z hz))
          (fun z hz => by
            show m.beta1 (m.beta2 (m.beta2 z)) = m.beta2 (m.beta2 (m.beta1 z))
            rw [hm.perm2.left_inv z hz, hm.perm2.left_inv _ (hm.perm1.maps z hz)]) k z hz
        have : m.beta2 ((fun z => m.beta2 (m.beta1 z))^[k] z) = m.beta2 w := by
          rw [← hc2.1, hk]
        have := congrArg m.beta2 this
        rw [hm.perm2.left_inv _ hc2.2, hm.perm2.left_inv w hw] at this
        rw [this])
  have hVm : m.num_vertices = (m.darts.map lab).toFinset.card := by
    unfold CMap.num_vertices
    apply class_count_of_label
    intro a ha b hb
    have ha1 := (mem_darts m a).mp ha
    have hb1 := (mem_darts m b).mp hb
    rw [same_vertex_iff hm ha1]
    exact (hlab a b ha1 hb1).symm
  have himg : (R.darts.map L).toFinset =
      insert none ((m.darts.map lab).toFinset.image some) := by
    ext x
    simp only [List.mem_toFinset, List.mem_map, mem_darts, Finset.mem_insert,
      Finset.mem_image]
    constructor
    · rintro ⟨y, hy, rfl⟩
      obtain ⟨z, hz, rfl | rfl⟩ := (hD y).mp hy
      · left; exact hL1 z
      · right
        exact ⟨_, ⟨m.beta2 z, hm.perm2.maps z hz, rfl⟩, (hL2 z).symm⟩
    · rintro (h | ⟨_, ⟨z, hz, rfl⟩, rfl⟩)
      · obtain ⟨d, hd⟩ := List.exists_mem_of_ne_nil _ hne
        have hd1 := (mem_darts m d).mp hd
        exact ⟨m.n1 d, (hD _).mpr ⟨d, hd1, Or.inl rfl⟩, by rw [hL1, h]⟩
      · refine ⟨m.n2 (m.beta2 z), (hD _).mpr ⟨_, hm.perm2.maps z hz, Or.inr rfl⟩, ?_⟩
        rw [hL2, hm.perm2.left_inv z hz]
  show class_count (reaches (fun d => R.beta1 (R.beta2 d)) R.size) R.darts = _
  rw [hcount, himg, Finset.card_insert_of_not_mem (by simp),
    Finset.card_image_of_injective _ (Option.some_injective _), hVm]

/-- C29 (cell numbers after the quadrangulation). On a map without boundary with exactly
one face, `V` vertices and `E` edges (there is at least one edge), the quadrangulation pass
returns a map with `V + 1` vertices, `2 E` edges and `E` faces, so that `V - E + F` is the
same before and after the pass. -/
theorem quadrangulate_cell_numbers (m : CMap) (hm : m.Boundaryless) (h1 : m.num_faces = 1) :
    1 ≤ m.num_edges ∧
    ∃ r, surface_quadrangulate m = some r ∧
      r.map.num_vertices = m.num_vertices + 1 ∧
      r.map.num_edges = 2 * m.num_edges ∧
      r.map.num_faces = m.num_edges ∧
      r.map.euler = m.euler := by
  obtain ⟨hne, hall⟩ := one_face_all hm h1
  obtain ⟨r, e, _, _, _, hD0, hb2, hb1⟩ := quadrangulate_spokes hm hne
  have hD : ∀ y, r.map.IsDart y ↔ ∃ z, m.IsDart z ∧ (y = m.n1 z ∨ y = m.n2 z) := by
    intro y
    rw [hD0 y]
    constructor
    · rintro ⟨z, hz, h⟩; exact ⟨z, in_face_isDart hz, h⟩
    · rintro ⟨z, hz, h⟩; exact ⟨z, hall z hz, h⟩
  have hb2a : ∀ z, m.IsDart z → r.map.beta2 (m.n1 z) = m.n2 (m.beta0 z) ∧
      r.map.beta2 (m.n2 z) = m.n1 (m.beta1 z) := fun z hz => hb2 z hz.1
  have hb1a := hb1 hall
  have hbegin : m.IsDart m.darts_begin := darts_begin_isDart hne
  have hfrom : ∀ x, m.IsDart x → SameOrbit m.beta1 m.darts_begin x := by
    intro x hx
    have := hall x hx
    simp only [CMap.in_face, Bool.and_eq_true] at this
    exact (same_face_iff hm hbegin x).mp this.2
  have hone : ∀ a b, m.IsDart a → m.IsDart b → SameOrbit m.beta1 a b := fun a b ha hb =>
    (hm.perm1.sameOrbit_symm hbegin (hfrom a ha)).orbit_trans (hfrom b hb)
  have hV := quad_num_vertices hm hone hne hD hb2a hb1a
  have hE := quad_num_edges hm hD hb2a
  have hF := quad_num_faces hm hD hb1a
  have hpos : 1 ≤ m.num_edges := by
    have hc := darts_card_two_edges hm
    obtain ⟨d, hd⟩ := List.exists_mem_of_ne_nil _ hne
    have : 0 < m.darts.toFinset.card :=
      Finset.card_pos.mpr ⟨d, List.mem_toFinset.mpr hd⟩
    omega
  refine ⟨hpos, r, e, hV, hE, hF, ?_⟩
  unfold CMap.euler
  rw [hV, hE, hF, h1]
  push_cast
  ring

/-- C29 at the torus made of one square face: one vertex, two edges and one face become two
vertices, four edges and two faces. -/
theorem quadrangulate_cell_numbers_witness :
    (torus.Boundaryless ∧ torus.num_faces = 1) ∧
    1 ≤ torus.num_edges ∧
    ∃ r, surface_quadrangulate torus = some r ∧
      r.map.num_vertices = torus.num_vertices + 1 ∧
      r.map.num_edges = 2 * torus.num_edges ∧
      r.map.num_faces = torus.num_edges ∧
      r.map.euler = torus.euler :=
  ⟨⟨by decide, by decide⟩, quadrangulate_cell_numbers torus (by decide) (by decide)⟩

end CMapTools

namespace CGALi

/-! ## The inverse tables of the status line -/

theorem side_keep (k : Nat) (vals pos : List Int)
    (h : ∀ j a, j < k → vals[j]? = some a → a ≠ -1 → 0 ≤ a ∧ pos[a.toNat]? = some (j : Int)) :
    ∀ j a, j < k + 1 → (vals.set k (-1))[j]? = some a → a ≠ -1 →
      0 ≤ a ∧ pos[a.toNat]? = some (j : Int) := by
  intro j a hj ha hne
  rw [List.getElem?_set] at ha
  by_cases hjk : k = j
  · subst hjk
    rw [if_pos rfl] at ha
    split at ha
    · cases ha; exact absurd rfl hne
    · cases ha
  · rw [if_neg hjk] at ha
    exact h j a (by omega) ha hne

theorem side_push (k : Nat) (vals pos : List Int)
    (h : ∀ j a, j < k → vals[j]? = some a → a ≠ -1 → 0 ≤ a ∧ pos[a.toNat]? = some (j : Int)) :
    ∀ j a, j < k + 1 → (vals.set k (pos.length : Int))[j]? = some a → a ≠ -1 →
      0 ≤ a ∧ (pos ++ [(k : Int)])[a.toNat]? = some (j : Int) := by
  intro j a hj ha hne
  rw [List.getElem?_set] at ha
  by_cases hjk : k = j
  · subst hjk
    rw [if_pos rfl] at ha
    split at ha
    · cases ha
      refine ⟨Int.natCast_nonneg _, ?_⟩
      rw [Int.toNat_natCast]
      simp
    · cases ha
  · rw [if_neg hjk] at ha
    obtain ⟨h1, h2⟩ := h j a (by omega) ha hne
    refine ⟨h1, ?_⟩
    have hlt : a.toNat < pos.length := by
      by_contra hc
      rw [List.getElem?_eq_none (by omega)] at h2
      cases h2
    rw [List.getElem?_append_left hlt]
    exact h2

/-- One round of either loop keeps the invariant: position `k` receives the next arc number
of each curve involved (`bf` for the first curve, `bg` for the second) and `-1` for a curve
that is not, and `k` is appended to the inverse table of each curve involved. -/
theorem ArcsInv.arcs_step {cpa : Curve_pair_analysis_2} {n k : Nat}
    {r : Status_line_CPA_1_rep} {f g : Int} (h : ArcsInv cpa n k (r, (k : Int), f, g))
    (bf bg : Bool) (r1 : Status_line_CPA_1_rep)
    (e_arcs : r1.m_arcs = r.m_arcs.set k (if bf then f else -1, if bg then g else -1))
    (e0 : r1.m_arcno_to_pos_0 =
      if bf then r.m_arcno_to_pos_0 ++ [(k : Int)] else r.m_arcno_to_pos_0)
    (e1 : r1.m_arcno_to_pos_1 =
      if bg then r.m_arcno_to_pos_1 ++ [(k : Int)] else r.m_arcno_to_pos_1)
    (ec : r1.m_cpa = r.m_cpa) :
    ArcsInv cpa n (k + 1)
      (r1, (k : Int) + 1, (if bf then f + 1 else f), (if bg then g + 1 else g)) := by
  have hcf : f = r.m_arcno_to_pos_0.length := h.cf
  have hcg : g = r.m_arcno_to_pos_1.length := h.cg
  have hlen : r.m_arcs.length = n := h.len
  have i0 := h.inv0
  have i1 := h.inv1
  simp only at i0 i1
  refine ⟨?_, ?_, ?_, ?_, ?_, ?_, ?_⟩
  · show r1.m_arcs.length = n
    rw [e_arcs, List.length_set, hlen]
  · show (k : Int) + 1 = ((k + 1 : Nat) : Int)
    push_cast; rfl
  · show (if bf then f + 1 else f) = (r1.m_arcno_to_pos_0.length : Int)
    rw [e0]
    cases bf
    · simpa using hcf
    · simp [hcf]
  · show (if bg then g + 1 else g) = (r1.m_arcno_to_pos_1.length : Int)
    rw [e1]
    cases bg
    · simpa using hcg
    · simp [hcg]
  · show ∀ j a, j < k + 1 → (r1.m_arcs.map Prod.fst)[j]? = some a → a ≠ -1 →
      0 ≤ a ∧ r1.m_arcno_to_pos_0[a.toNat]? = some (j : Int)
    rw [e_arcs, e0, List.map_set]
    cases bf
    · exact side_keep k _ _ i0
    · simp only [if_true]
      rw [hcf]
      exact side_push k _ _ i0
  · show ∀ j a, j < k + 1 → (r1.m_arcs.map Prod.snd)[j]? = some a → a ≠ -1 →
      0 ≤ a ∧ r1.m_arcno_to_pos_1[a.toNat]? = some (j : Int)
    rw [e_arcs, e1, List.map_set]
    cases bg
    · exact side_keep k _ _ i1
    · simp only [if_true]
      rw [hcg]
      exact side_push k _ _ i1
  · show r1.m_cpa = cpa
    rw [ec]; exact h.cpa_eq

/-- One round of the loop of `_set_event_arcs` on an element of type 0, 1 or 2. -/
theorem set_event_arcs_step_spec {cpa : Curve_pair_analysis_2} {n k : Nat}
    {st : Status_line_CPA_1_rep × Int × Int × Int} (h : ArcsInv cpa n k st)
    (t : Int × Int) (ht : t.1 = 0 ∨ t.1 = 1 ∨ t.1 = 2) :
    ∃ st1, set_event_arcs_step (some st) t = some st1 ∧ ArcsInv cpa n (k + 1) st1 ∧
      st1.1.m_mults = st.1.m_mults.set k t.2 ∧ st1.1.m_event = st.1.m_event ∧
      (st1.1.m_intersection = true ↔ st.1.m_intersection = true ∨ t.1 = 2) ∧
      ∃ arc, st1.1.m_arcs = st.1.m_arcs.set k arc ∧ (t.1 = 2 ↔ arc.1 ≠ -1 ∧ arc.2 ≠ -1) := by
  obtain ⟨r, kk, f, g⟩ := st
  have hk : kk = (k : Int) := h.pos
  subst hk
  have hcf : f = r.m_arcno_to_pos_0.length := h.cf
  have hcg : g = r.m_arcno_to_pos_1.length := h.cg
  have hf : f ≠ -1 := by omega
  have hg : g ≠ -1 := by omega
  rcases ht with ht | ht | ht
  · refine ⟨({ r with m_arcs := r.m_arcs.set k (f, -1),
                      m_arcno_to_pos_0 := r.m_arcno_to_pos_0 ++ [(k : Int)],
                      m_mults := r.m_mults.set k t.2 }, (k : Int) + 1, f + 1, g),
      by simp only [set_event_arcs_step, ht, if_true, Int.toNat_natCast], ?_, rfl, rfl, ?_, ?_⟩
    · exact h.arcs_step true false _ rfl rfl rfl rfl
    · simp [ht]
    · exact ⟨(f, -1), rfl, by simp [ht]⟩
  · refine ⟨({ r with m_arcs := r.m_arcs.set k (-1, g),
                      m_arcno_to_pos_1 := r.m_arcno_to_pos_1 ++ [(k : Int)],
                      m_mults := r.m_mults.set k t.2 }, (k : Int) + 1, f, g + 1),
      by simp [set_event_arcs_step, ht, Int.toNat_natCast], ?_, rfl, rfl, ?_, ?_⟩
    · exact h.arcs_step false true _ rfl rfl rfl rfl
    · simp [ht]
    · exact ⟨(-1, g), rfl, by simp [ht]⟩
  · refine ⟨({ r with m_arcs := r.m_arcs.set k (f, g),
                      m_arcno_to_pos_0 := r.m_arcno_to_pos_0 ++ [(k : Int)],
                      m_arcno_to_pos_1 := r.m_arcno_to_pos_1 ++ [(k : Int)],
                      m_intersection := true,
                      m_mults := r.m_mults.set k t.2 }, (k : Int) + 1, f + 1, g + 1),
      by simp [set_event_arcs_step, ht, Int.toNat_natCast], ?_, rfl, rfl, ?_, ?_⟩
    · exact h.arcs_step true true _ rfl rfl rfl rfl
    · simp [ht]
    · exact ⟨(f, g), rfl, by simp [ht, hf, hg]⟩

/-- One round of the loop of `_set_interval_arcs` on an element 0 or 1. -/
theorem set_interval_arcs_step_spec {cpa : Curve_pair_analysis_2} {n k : Nat}
    {st : Status_line_CPA_1_rep × Int × Int × Int} (h : ArcsInv cpa n k st)
    (t : Int) (ht : t = 0 ∨ t = 1) :
    ∃ st1, set_interval_arcs_step (some st) t = some st1 ∧ ArcsInv cpa n (k + 1) st1 ∧
      st1.1.m_event = st.1.m_event ∧ st1.1.m_intersection = st.1.m_intersection := by
  obtain ⟨r, kk, f, g⟩ := st
  have hk : kk = (k : Int) := h.pos
  subst hk
  rcases ht with ht | ht
  · refine ⟨({ r with m_arcs := r.m_arcs.set k (f, -1),
                      m_arcno_to_pos_0 := r.m_arcno_to_pos_0 ++ [(k : Int)] },
        (k : Int) + 1, f + 1, g),
      by simp [set_interval_arcs_step, ht, Int.toNat_natCast], ?_, rfl, rfl⟩
    exact h.arcs_step true false _ rfl rfl rfl rfl
  · refine ⟨({ r with m_arcs := r.m_arcs.set k (-1, g),
                      m_arcno_to_pos_1 := r.m_arcno_to_pos_1 ++ [(k : Int)] },
        (k : Int) + 1, f, g + 1),
      by simp [set_interval_arcs_step, ht, Int.toNat_natCast], ?_, rfl, rfl⟩
    exact h.arcs_step false true _ rfl rfl rfl rfl

/-- The loop of `_set_event_arcs` over a list of elements of types 0, 1 and 2 returns, and
the invariants hold after each prefix. -/
theorem set_event_arcs_fold (cpa : Curve_pair_analysis_2) (arcs : List (Int × Int))
    (r0 : Status_line_CPA_1_rep) (h0 : ArcsInv cpa arcs.length 0 (r0, 0, 0, 0))
    (e0 : EventInv arcs 0 r0) :
    ∀ pre post, arcs = pre ++ post → (∀ t ∈ pre, t.1 = 0 ∨ t.1 = 1 ∨ t.1 = 2) →
      ∃ st, pre.foldl set_event_arcs_step (some (r0, 0, 0, 0)) = some st ∧
        ArcsInv cpa arcs.length pre.length st ∧ EventInv arcs pre.length st.1 := by
  intro pre
  induction pre using List.reverseRecOn with
  | nil => intro post _ _; exact ⟨_, rfl, h0, e0⟩
  | append_singleton pre t ih =>
    intro post harcs hty
    obtain ⟨st, e, hA, hE⟩ := ih ([t] ++ post) (by rw [harcs, List.append_assoc])
      (fun x hx => hty x (by simp [hx]))
    obtain ⟨st1, e1, hA1, hmul, hev, hint, arc, harc, hboth⟩ :=
      set_event_arcs_step_spec hA t (hty t (by simp))
    have hget : arcs[pre.length]? = some t := by
      rw [harcs, List.append_assoc, List.getElem?_append_right (le_refl _)]
      simp
    have hlt : pre.length < arcs.length := by
      rw [harcs]; simp
    refine ⟨st1, by rw [List.foldl_append, e]; exact e1, ?_, ?_⟩
    · rw [List.length_append]; exact hA1
    · rw [List.length_append]
      refine ⟨?_, ?_, ?_, ?_, ?_⟩
      · rw [hmul, List.length_set]; exact hE.mlen
      · rw [hev]; exact hE.event
      · intro j hj
        rw [hmul, List.getElem?_set]
        by_cases hjk : pre.length = j
        · subst hjk
          rw [if_pos rfl, if_pos (by rw [hE.mlen]; exact hlt), hget]
          rfl
        · rw [if_neg hjk]
          exact hE.mults j (by simp at hj; omega)
      · intro j a t1 hj ha ht1
        rw [harc, List.getElem?_set] at ha
        by_cases hjk : pre.length = j
        · subst hjk
          rw [if_pos rfl] at ha
          rw [hget] at ht1
          cases ht1
          split at ha
          · cases ha; exact hboth
          · cases ha
        · rw [if_neg hjk] at ha
          exact hE.both j a t1 (by simp at hj; omega) ha ht1
      · rw [hint, hE.inter]
        constructor
        · rintro (⟨j, t1, hj, h1, h2⟩ | h2)
          · exact ⟨j, t1, by simp; omega, h1, h2⟩
          · exact ⟨pre.length, t, by simp, hget, h2⟩
        · rintro ⟨j, t1, hj, h1, h2⟩
          by_cases hjk : j = pre.length
          · subst hjk
            rw [hget] at h1
            cases h1
            exact Or.inr h2
          · exact Or.inl ⟨j, t1, by simp at hj; omega, h1, h2⟩

/-- The loop of `_set_interval_arcs` over a list of elements 0 and 1 returns, and the
invariant holds after each prefix; the two flags are not touched. -/
theorem set_interval_arcs_fold (cpa : Curve_pair_analysis_2) (n : Nat)
    (r0 : Status_line_CPA_1_rep) (h0 : ArcsInv cpa n 0 (r0, 0, 0, 0)) :
    ∀ pre : List Int, (∀ t ∈ pre, t = 0 ∨ t = 1) →
      ∃ st, pre.foldl set_interval_arcs_step (some (r0, 0, 0, 0)) = some st ∧
        ArcsInv cpa n pre.length st ∧ st.1.m_event = r0.m_event ∧
        st.1.m_intersection = r0.m_intersection := by
  intro pre
  induction pre using List.reverseRecOn with
  | nil => intro _; exact ⟨_, rfl, h0, rfl, rfl⟩
  | append_singleton pre t ih =>
    intro hty
    obtain ⟨st, e, hA, h1, h2⟩ := ih (fun x hx => hty x (by simp [hx]))
    obtain ⟨st1, e1, hA1, h3, h4⟩ := set_interval_arcs_step_spec hA t (hty t (by simp))
    refine ⟨st1, by rw [List.foldl_append, e]; exact e1, ?_, by rw [h3, h1], by rw [h4, h2]⟩
    rw [List.length_append]; exact hA1

/-- The state in which either loop starts satisfies the invariant. -/
theorem ArcsInv.arcs_start (cpa : Curve_pair_analysis_2) (n : Nat) (r0 : Status_line_CPA_1_rep)
    (h1 : r0.m_arcs.length = n) (h2 : r0.m_arcno_to_pos_0 = []) (h3 : r0.m_arcno_to_pos_1 = [])
    (h4 : r0.m_cpa = cpa) : ArcsInv cpa n 0 (r0, 0, 0, 0) :=
  ⟨h1, rfl, by simp [h2], by simp [h3], fun j a hj => absurd hj (Nat.not_lt_zero j),
    fun j a hj => absurd hj (Nat.not_lt_zero j), h4⟩

/-- The inverse mapping of a status line whose representation satisfies the invariant at
the end of the loop. -/
theorem ArcsInv.inverse_mapping {cpa : Curve_pair_analysis_2} {n : Nat}
    {st : Status_line_CPA_1_rep × Int × Int × Int} (h : ArcsInv cpa n n st)
    (j : Int) (c : Bool) (hj : 0 ≤ j ∧ j < Status_line_CPA_1.number_of_events { ptr := st.1 }) :
    ∃ p, Status_line_CPA_1.curves_at_event { ptr := st.1 } j = some p ∧
      (component p c ≠ -1 →
        Status_line_CPA_1.event_of_curve { ptr := st.1 } (component p c) c = some j) := by
  have hlen : st.1.m_arcs.length = n := h.len
  have hjn : j.toNat < st.1.m_arcs.length := by
    have := hj.2
    simp only [Status_line_CPA_1.number_of_events] at this
    omega
  have hjj : ((j.toNat : Nat) : Int) = j := Int.toNat_of_nonneg hj.1
  obtain ⟨arc, harc⟩ : ∃ arc, st.1.m_arcs[j.toNat]? = some arc :=
    ⟨_, List.getElem?_eq_getElem hjn⟩
  have k0 := h.inv0 j.toNat arc.1 (by omega) (by rw [List.getElem?_map, harc]; rfl)
  have k1 := h.inv1 j.toNat arc.2 (by omega) (by rw [List.getElem?_map, harc]; rfl)
  rw [hjj] at k0 k1
  have hcpa : st.1.m_cpa = cpa := h.cpa_eq
  have look : ∀ (pos : List Int) (a : Int), 0 ≤ a → pos[a.toNat]? = some j →
      (if 0 ≤ a ∧ a < (pos.length : Int) then pos[a.toNat]? else none) = some j := by
    intro pos a ha hp
    have hlt : a.toNat < pos.length := by
      by_contra hc
      rw [List.getElem?_eq_none (by omega)] at hp
      cases hp
    rw [if_pos ⟨ha, by omega⟩, hp]
  unfold Status_line_CPA_1.curves_at_event Status_line_CPA_1.event_of_curve
  simp only [if_pos hj, harc]
  cases hs : st.1.m_cpa.is_swapped <;> cases c <;>
    simp only [component, Status_line_CPA_1_rep.m_arcno_to_pos, if_true, if_false,
      Bool.false_eq_true, Bool.xor_true, Bool.not_false, Bool.not_true] <;>
    refine ⟨_, rfl, ?_⟩ <;> intro ha
  · exact look _ _ (k0 ha).1 (k0 ha).2
  · exact look _ _ (k1 ha).1 (k1 ha).2
  · exact look _ _ (k1 ha).1 (k1 ha).2
  · exact look _ _ (k0 ha).1 (k0 ha).2

theorem length_resize_nil {α : Type} (n : Nat) (z : α) : (resize [] n z).length = n := by
  simp [resize]

/-- What the constructor at an event builds from a list of elements of types 0, 1, 2. -/
theorem at_event_spec (i : Int) (cpa : Curve_pair_analysis_2) (arcs : List (Int × Int))
    (hty : ∀ t ∈ arcs, t.1 = 0 ∨ t.1 = 1 ∨ t.1 = 2) :
    ∃ st, Status_line_CPA_1.at_event i arcs cpa = some { ptr := st.1 } ∧
      ArcsInv cpa arcs.length arcs.length st ∧ EventInv arcs arcs.length st.1 := by
  obtain ⟨st, e, hA, hE⟩ := set_event_arcs_fold cpa arcs
    { Status_line_CPA_1_rep.create i cpa with
        m_arcs := resize [] arcs.length (0, 0), m_mults := resize [] arcs.length 0,
        m_event := true }
    (ArcsInv.arcs_start cpa _ _ (length_resize_nil _ _) rfl rfl rfl)
    ⟨length_resize_nil _ _, rfl, fun j hj => absurd hj (Nat.not_lt_zero j),
      fun j _ _ hj => absurd hj (Nat.not_lt_zero j), by simp [Status_line_CPA_1_rep.create]⟩
    arcs [] (by simp) hty
  refine ⟨st, ?_, hA, hE⟩
  unfold Status_line_CPA_1.at_event Status_line_CPA_1.set_event_arcs
  simp only [Status_line_CPA_1_rep.create] at e ⊢
  rw [e]
  rfl

/-- What the constructor over an interval builds from a list of elements 0 and 1. -/
theorem over_interval_spec (i : Int) (cpa : Curve_pair_analysis_2) (arcs : List Int)
    (hty : ∀ t ∈ arcs, t = 0 ∨ t = 1) :
    ∃ st, Status_line_CPA_1.over_interval i arcs cpa = some { ptr := st.1 } ∧
      ArcsInv cpa arcs.length arcs.length st ∧ st.1.m_event = false ∧
      st.1.m_intersection = false := by
  obtain ⟨st, e, hA, h1, h2⟩ := set_interval_arcs_fold cpa arcs.length
    { Status_line_CPA_1_rep.create i cpa with
        m_arcs := resize [] arcs.length (0, 0), m_event := false, m_intersection := false }
    (ArcsInv.arcs_start cpa _ _ (length_resize_nil _ _) rfl rfl rfl) arcs hty
  refine ⟨st, ?_, hA, h1, h2⟩
  unfold Status_line_CPA_1.over_interval Status_line_CPA_1.set_interval_arcs
  simp only [Status_line_CPA_1_rep.create] at e ⊢
  rw [e]
  rfl

/-- C21 (inverse mapping of the status line). Let a status line be constructed at an event
from a list of elements of types 0, 1, 2, or over an interval from a list of elements 0, 1,
for a curve pair analysis that is swapped or not. The constructor returns, and for every
position `j` with `0 ≤ j < number_of_events()` and each curve `c`, `curves_at_event(j)`
returns a pair, and if its component `c` is an arc number `a` other than `-1` then
`event_of_curve(a, c)` returns `j`. -/
theorem event_of_curve_inverts_curves_at_event (i : Int) (cpa : Curve_pair_analysis_2) :
    (∀ arcs : List (Int × Int), (∀ t ∈ arcs, t.1 = 0 ∨ t.1 = 1 ∨ t.1 = 2) →
      ∃ s, Status_line_CPA_1.at_event i arcs cpa = some s ∧
        ∀ j c, 0 ≤ j ∧ j < s.number_of_events →
          ∃ p, s.curves_at_event j = some p ∧
            (component p c ≠ -1 → s.event_of_curve (component p c) c = some j)) ∧
    (∀ arcs : List Int, (∀ t ∈ arcs, t = 0 ∨ t = 1) →
      ∃ s, Status_line_CPA_1.over_interval i arcs cpa = some s ∧
        ∀ j c, 0 ≤ j ∧ j < s.number_of_events →
          ∃ p, s.curves_at_event j = some p ∧
            (component p c ≠ -1 → s.event_of_curve (component p c) c = some j)) := by
  constructor
  · intro arcs hty
    obtain ⟨st, e, hA, _⟩ := at_event_spec i cpa arcs hty
    exact ⟨_, e, fun j c hj => hA.inverse_mapping j c hj⟩
  · intro arcs hty
    obtain ⟨st, e, hA, _⟩ := over_interval_spec i cpa arcs hty
    exact ⟨_, e, fun j c hj => hA.inverse_mapping j c hj⟩

/-- C21 at a swapped curve pair: an event line with an arc of the first curve, an
intersection and an arc of the second curve, and an interval line with three arcs. -/
theorem event_of_curve_inverts_curves_at_event_witness :
    ((∀ t ∈ [((0 : Int), (-1 : Int)), (2, 1), (1, -1)], t.1 = 0 ∨ t.1 = 1 ∨ t.1 = 2) ∧
      ∃ s, Status_line_CPA_1.at_event 0 [(0, -1), (2, 1), (1, -1)] ⟨true⟩ = some s ∧
        ∀ j c, 0 ≤ j ∧ j < s.number_of_events →
          ∃ p, s.curves_at_event j = some p ∧
            (component p c ≠ -1 → s.event_of_curve (component p c) c = some j)) ∧
    ((∀ t ∈ [(1 : Int), 0, 1], t = 0 ∨ t = 1) ∧
      ∃ s, Status_line_CPA_1.over_interval 0 [1, 0, 1] ⟨true⟩ = some s ∧
        ∀ j c, 0 ≤ j ∧ j < s.number_of_events →
          ∃ p, s.curves_at_event j = some p ∧
            (component p c ≠ -1 → s.event_of_curve (component p c) c = some j)) :=
  ⟨⟨by decide, (event_of_curve_inverts_curves_at_event 0 ⟨true⟩).1 _ (by decide)⟩,
   ⟨by decide, (event_of_curve_inverts_curves_at_event 0 ⟨true⟩).2 _ (by decide)⟩⟩

/-- C22 (what the two constructors store). A status line constructed at an event from a
list `arcs` of elements of types 0, 1, 2 has `number_of_events() = arcs.size()` and
`is_event() = true`; `is_intersection()` is true exactly when an element of `arcs` has type
2; and at every position `j` whose element has type 2, `multiplicity_of_intersection(j)`
returns the second item of `arcs[j]`. A status line constructed over an interval from a
list of elements 0, 1 has `is_event() = false` and `is_intersection() = false`. -/
theorem status_line_constructors (i : Int) (cpa : Curve_pair_analysis_2) :
    (∀ arcs : List (Int × Int), (∀ t ∈ arcs, t.1 = 0 ∨ t.1 = 1 ∨ t.1 = 2) →
      ∃ s, Status_line_CPA_1.at_event i arcs cpa = some s ∧
        s.number_of_events = arcs.length ∧ s.is_event = true ∧
        (s.is_intersection = true ↔ ∃ t ∈ arcs, t.1 = 2) ∧
        ∀ (j : Nat) t, arcs[j]? = some t → t.1 = 2 →
          s.multiplicity_of_intersection j = some t.2) ∧
    (∀ arcs : List Int, (∀ t ∈ arcs, t = 0 ∨ t = 1) →
      ∃ s, Status_line_CPA_1.over_interval i arcs cpa = some s ∧
        s.number_of_events = arcs.length ∧ s.is_event = false ∧
        s.is_intersection = false) := by
  constructor
  · intro arcs hty
    obtain ⟨st, e, hA, hE⟩ := at_event_spec i cpa arcs hty
    have hlen : st.1.m_arcs.length = arcs.length := hA.len
    have hint : st.1.m_intersection = true ↔ ∃ t ∈ arcs, t.1 = 2 := by
      rw [hE.inter]
      constructor
      · rintro ⟨j, t, _, h1, h2⟩
        exact ⟨t, List.getElem?_mem h1, h2⟩
      · rintro ⟨t, ht, h2⟩
        obtain ⟨j, hj, hget⟩ := List.getElem_of_mem ht
        exact ⟨j, t, hj, by rw [List.getElem?_eq_getElem hj, hget], h2⟩
    refine ⟨_, e, ?_, hE.event, hint, ?_⟩
    · show ((st.1.m_arcs.length : Nat) : Int) = _
      rw [hlen]
    · intro j t hget h2
      have hj : j < arcs.length := by
        by_contra hc
        rw [List.getElem?_eq_none (by omega)] at hget
        cases hget
      obtain ⟨arc, harc⟩ : ∃ arc, st.1.m_arcs[j]? = some arc :=
        ⟨_, List.getElem?_eq_getElem (by rw [hlen]; exact hj)⟩
      have hb := (hE.both j arc t hj harc hget).mp h2
      have hm := hE.mults j hj
      rw [hget] at hm
      unfold Status_line_CPA_1.multiplicity_of_intersection
      have hpre : 0 ≤ (j : Int) ∧ (j : Int) <
          Status_line_CPA_1.number_of_events { ptr := st.1 } := by
        simp only [Status_line_CPA_1.number_of_events, hlen]
        omega
      have hi : Status_line_CPA_1.is_intersection { ptr := st.1 } = true :=
        hint.mpr ⟨t, List.getElem?_mem hget, h2⟩
      simp only [if_pos hpre, hi, if_true, Int.toNat_natCast, harc, if_pos hb]
      exact hm
  · intro arcs hty
    obtain ⟨st, e, hA, h1, h2⟩ := over_interval_spec i cpa arcs hty
    have hlen : st.1.m_arcs.length = arcs.length := hA.len
    refine ⟨_, e, ?_, h1, h2⟩
    show ((st.1.m_arcs.length : Nat) : Int) = _
    rw [hlen]

/-- C22 at an event line with an intersection of multiplicity 3 between two single arcs,
and at an interval line with three arcs. -/
theorem status_line_constructors_witness :
    ((∀ t ∈ [((0 : Int), (-1 : Int)), (2, 3), (1, -1)], t.1 = 0 ∨ t.1 = 1 ∨ t.1 = 2) ∧
      ∃ s, Status_line_CPA_1.at_event 0 [(0, -1), (2, 3), (1, -1)] ⟨false⟩ = some s ∧
        s.number_of_events = ([((0 : Int), (-1 : Int)), (2, 3), (1, -1)]).length ∧
        s.is_event = true ∧
        (s.is_intersection = true ↔
          ∃ t ∈ [((0 : Int), (-1 : Int)), (2, 3), (1, -1)], t.1 = 2) ∧
        ∀ (j : Nat) t, [((0 : Int), (-1 : Int)), (2, 3), (1, -1)][j]? = some t → t.1 = 2 →
          s.multiplicity_of_intersection j = some t.2) ∧
    ((∀ t ∈ [(1 : Int), 0, 1], t = 0 ∨ t = 1) ∧
      ∃ s, Status_line_CPA_1.over_interval 0 [1, 0, 1] ⟨false⟩ = some s ∧
        s.number_of_events = ([(1 : Int), 0, 1]).length ∧ s.is_event = false ∧
        s.is_intersection = false) :=
  ⟨⟨by decide, (status_line_constructors 0 ⟨false⟩).1 _ (by decide)⟩,
   ⟨by decide, (status_line_constructors 0 ⟨false⟩).2 _ (by decide)⟩⟩

end CGALi

namespace Polygon_mesh_processing

/-! ## The border halfedges of the input -/

theorem mem_border_halfedges (I : FaceGraph) (h : Nat) :
    h ∈ I.border_halfedges ↔ h < I.num_halfedges ∧ I.face h = none := by
  simp [FaceGraph.border_halfedges, is_border, List.mem_filter]

theorem border_at_mem (I : FaceGraph) {j : Nat} (hj : j < I.border_halfedges.length) :
    I.border_at j ∈ I.border_halfedges := by
  unfold FaceGraph.border_at
  rw [List.getD_eq_getElem _ _ hj]
  exact List.getElem_mem _

theorem border_at_spec (I : FaceGraph) {j : Nat} (hj : j < I.border_halfedges.length) :
    I.border_at j < I.num_halfedges ∧ I.face (I.border_at j) = none :=
  (mem_border_halfedges I _).mp (border_at_mem I hj)

theorem border_at_inj (I : FaceGraph) {i j : Nat} (hi : i < I.border_halfedges.length)
    (hj : j < I.border_halfedges.length) (h : I.border_at i = I.border_at j) : i = j := by
  unfold FaceGraph.border_at at h
  rw [List.getD_eq_getElem _ _ hi, List.getD_eq_getElem _ _ hj] at h
  have hnd : I.border_halfedges.Nodup := List.Nodup.filter _ (List.nodup_range _)
  exact (List.Nodup.getElem_inj_iff hnd).mp h

theorem border_at_indexOf (I : FaceGraph) {h : Nat} (hh : h ∈ I.border_halfedges) :
    I.border_halfedges.indexOf h < I.border_halfedges.length ∧
    I.border_at (I.border_halfedges.indexOf h) = h := by
  have hlt := List.indexOf_lt_length.mpr hh
  refine ⟨hlt, ?_⟩
  unfold FaceGraph.border_at
  rw [List.getD_eq_getElem _ _ hlt]
  exact List.getElem_indexOf hlt

/-- The predecessor of a border halfedge is a border halfedge, of rank `border_pred`. -/
theorem border_pred_spec {I : FaceGraph} (hv : I.IsValid) {j : Nat}
    (hj : j < I.border_halfedges.length) :
    I.border_pred j < I.border_halfedges.length ∧
    I.next (I.border_at (I.border_pred j)) = I.border_at j := by
  obtain ⟨hlt, hf⟩ := border_at_spec I hj
  obtain ⟨_, hp, _, hnp, _⟩ := hv _ hlt
  obtain ⟨_, _, _, _, hface, _⟩ := hv _ hp
  have hmem : I.prev (I.border_at j) ∈ I.border_halfedges := by
    rw [mem_border_halfedges]
    refine ⟨hp, ?_⟩
    rw [← hface, hnp, hf]
  obtain ⟨h1, h2⟩ := border_at_indexOf I hmem
  refine ⟨h1, ?_⟩
  unfold FaceGraph.border_pred
  rw [h2, hnp]

/-- The successors of two border halfedges of different ranks differ. -/
theorem border_next_ne {I : FaceGraph} (hv : I.IsValid) {i j : Nat}
    (hi : i < I.border_halfedges.length) (hj : j < I.border_halfedges.length) (hij : i ≠ j) :
    I.next (I.border_at i) ≠ I.next (I.border_at j) := by
  intro h
  have h1 := (hv _ (border_at_spec I hi).1).2.2.1
  have h2 := (hv _ (border_at_spec I hj).1).2.2.1
  apply hij
  apply border_at_inj I hi hj
  rw [← h1, ← h2, h]

theorem border_next_lt {I : FaceGraph} (hv : I.IsValid) {j : Nat}
    (hj : j < I.border_halfedges.length) : I.next (I.border_at j) < I.num_halfedges :=
  (hv _ (border_at_spec I hj).1).1

theorem border_pred_inj {I : FaceGraph} (hv : I.IsValid) {i j : Nat}
    (hi : i < I.border_halfedges.length) (hj : j < I.border_halfedges.length)
    (h : I.border_pred i = I.border_pred j) : i = j := by
  apply border_at_inj I hi hj
  rw [← (border_pred_spec hv hi).2, ← (border_pred_spec hv hj).2, h]

/-! ## The two copies -/

/-- The output after the two copies of `I` into the empty mesh. -/
theorem two_copies_spec (I : FaceGraph) (hv : I.IsValid) :
    ∃ m bottom_v2v top_v2v,
      copy_face_graph I (reverse_face_orientations (copy_face_graph I FaceGraph.empty).1) =
        (m, top_v2v, (List.range I.num_halfedges).map fun h => (h, I.num_halfedges + h)) ∧
      copy_face_graph I FaceGraph.empty =
        ((copy_face_graph I FaceGraph.empty).1, bottom_v2v,
          (List.range I.num_halfedges).map fun h => (h, 0 + h)) ∧
      m.num_vertices = 2 * I.num_vertices ∧ m.num_faces = 2 * I.num_faces ∧
      m.num_edges = I.num_halfedges ∧
      (∀ h, h < I.num_halfedges →
        m.next (I.num_halfedges + h) = I.num_halfedges + I.next h ∧
        m.prev h = I.next h ∧ m.face h = I.face h ∧
        m.face (I.num_halfedges + h) = (I.face h).map fun f => I.num_faces + f) ∧
      (∀ x f, m.face x = some f → f < 2 * I.num_faces) := by
  have hH : I.num_halfedges = 2 * I.num_edges := rfl
  refine ⟨(copy_face_graph I
      (reverse_face_orientations (copy_face_graph I FaceGraph.empty).1)).1,
    (copy_face_graph I FaceGraph.empty).2.1,
    (copy_face_graph I (reverse_face_orientations (copy_face_graph I FaceGraph.empty).1)).2.1,
    ?_, ?_, ?_, ?_, ?_, ?_, ?_⟩
  · simp [copy_face_graph, reverse_face_orientations, FaceGraph.empty,
      FaceGraph.num_halfedges]
  · simp [copy_face_graph, FaceGraph.empty, FaceGraph.num_halfedges]
  · simp only [copy_face_graph, reverse_face_orientations, FaceGraph.empty]
    omega
  · simp only [copy_face_graph, reverse_face_orientations, FaceGraph.empty]
    omega
  · simp only [copy_face_graph, reverse_face_orientations, FaceGraph.empty]
    omega
  · intro h hh
    simp only [copy_face_graph, reverse_face_orientations, FaceGraph.empty,
      FaceGraph.num_halfedges] at hh ⊢
    refine ⟨?_, ?_, ?_, ?_⟩
    · simp [hh]
    · have : ¬ (2 * (0 + I.num_edges) ≤ h) := by omega
      simp [this, hh]
    · have : ¬ (2 * (0 + I.num_edges) ≤ h) := by omega
      simp [this, hh]
    · simp [hh]
  · intro x f hx
    simp only [copy_face_graph, reverse_face_orientations, FaceGraph.empty,
      FaceGraph.num_halfedges] at hx
    split at hx
    · rename_i hc
      simp only [decide_eq_true_eq] at hc
      cases hf : I.face (x - 2 * (0 + I.num_edges)) with
      | none => rw [hf] at hx; cases hx
      | some f0 =>
        rw [hf] at hx
        simp only [Option.map_some', Option.some.injEq] at hx
        have := (hv (x - 2 * (0 + I.num_edges)) (by rw [hH]; omega)).2.2.2.2.2 f0 hf
        omega
    · split at hx
      · rename_i hc
        simp only [decide_eq_true_eq] at hc
        cases hf : I.face (x - 2 * 0) with
        | none => rw [hf] at hx; cases hx
        | some f0 =>
          rw [hf] at hx
          simp only [Option.map_some', Option.some.injEq] at hx
          have := (hv (x - 2 * 0) (by rw [hH]; omega)).2.2.2.2.2 f0 hf
          omega
      · cases hx

theorem getD_map_range {α : Type} (f : Nat → α) (n i : Nat) (d : α) (hi : i < n) :
    ((List.range n).map f).getD i d = f i := by
  rw [List.getD_eq_getElem _ _ (by simpa using hi)]
  simp

/-- The loop that collects the border halfedges returns the copies of the border halfedges
of the input, in the order of the input. -/
theorem collect_spec (I m : FaceGraph)
    (hm : ∀ h, h < I.num_halfedges → I.face h = none →
      m.face h = none ∧ m.face (I.num_halfedges + h) = none) :
    (List.range I.num_halfedges).foldl
      (collect_step I m ((List.range I.num_halfedges).map fun h => (h, I.num_halfedges + h))
        ((List.range I.num_halfedges).map fun h => (h, 0 + h))) (some ([], [])) =
    some (I.border_halfedges.map (fun h => I.num_halfedges + h), I.border_halfedges) := by
  have key : ∀ n, n ≤ I.num_halfedges →
      (List.range n).foldl
        (collect_step I m ((List.range I.num_halfedges).map fun h => (h, I.num_halfedges + h))
          ((List.range I.num_halfedges).map fun h => (h, 0 + h))) (some ([], [])) =
      some (((List.range n).filter fun h => is_border h I).map (fun h => I.num_halfedges + h),
        (List.range n).filter fun h => is_border h I) := by
    intro n
    induction n with
    | zero => intro _; rfl
    | succ n ih =>
      intro hn
      rw [List.range_succ, List.foldl_append, ih (by omega), List.filter_append]
      simp only [List.foldl_cons, List.foldl_nil, collect_step]
      rw [getD_map_range _ _ _ _ (by omega), getD_map_range _ _ _ _ (by omega)]
      simp only
      by_cases hb : is_border n I = true
      · have hf : I.face n = none := by simpa [is_border] using hb
        obtain ⟨h1, h2⟩ := hm n (by omega) hf
        have e1 : is_border (I.num_halfedges + n) m = true := by simp [is_border, h2]
        have e2 : is_border n m = true := by simp [is_border, h1]
        simp [hb, e1, e2]
      · simp [hb]
  exact key _ (le_refl _)

/-! ## The quad strip -/

theorem opposite_even (e : Nat) : opposite (2 * e) = 2 * e + 1 := by
  simp [opposite]

theorem getD_border_hedges (I : FaceGraph) {k : Nat} (hk : k < I.border_halfedges.length) :
    (I.border_halfedges.map fun h => I.num_halfedges + h).getD k 0 =
      I.num_halfedges + I.border_at k := by
  unfold FaceGraph.border_at
  rw [List.getD_eq_getElem _ _ (by simpa using hk), List.getD_eq_getElem _ _ hk]
  simp

/-- The fields of the output after one round of the loop that creates the quad strip. -/
theorem strip_step_fields (bh off : List Nat) (m : FaceGraph) (k : Nat) :
    (strip_step bh off m k).num_vertices = m.num_vertices ∧
    (strip_step bh off m k).num_faces = m.num_faces ∧
    (strip_step bh off m k).num_edges = m.num_edges + 1 ∧
    (strip_step bh off m k).next =
      Function.update (Function.update (Function.update (Function.update m.next
        (bh.getD k 0) (2 * m.num_edges + 1)) (2 * m.num_edges + 1) (off.getD k 0))
        (m.prev (off.getD k 0)) (2 * m.num_edges)) (2 * m.num_edges) (m.next (bh.getD k 0)) ∧
    (strip_step bh off m k).prev =
      Function.update (Function.update (Function.update (Function.update m.prev
        (2 * m.num_edges + 1) (bh.getD k 0)) (off.getD k 0) (2 * m.num_edges + 1))
        (2 * m.num_edges) (m.prev (off.getD k 0))) (m.next (bh.getD k 0)) (2 * m.num_edges) ∧
    (strip_step bh off m k).face =
      (fun h => if h = 2 * m.num_edges ∨ h = 2 * m.num_edges + 1 then none else m.face h) := by
  simp only [strip_step, add_edge, set_next, set_target, halfedge_of_edge, opposite_even,
    and_self]

/-- The state in which the loop that creates the quad strip starts. -/
theorem StripInv.strip_start {I m : FaceGraph}
    (h1 : m.num_vertices = 2 * I.num_vertices) (h2 : m.num_faces = 2 * I.num_faces)
    (h3 : m.num_edges = I.num_halfedges)
    (h4 : ∀ h, h < I.num_halfedges →
      m.next (I.num_halfedges + h) = I.num_halfedges + I.next h ∧ m.prev h = I.next h)
    (h5 : ∀ x f, m.face x = some f → f < 2 * I.num_faces) : StripInv I 0 m :=
  ⟨Nat.zero_le _, h1, h2, h3, fun _ hj => absurd hj (Nat.not_lt_zero _),
   fun _ _ hj => h4 _ (border_at_spec I hj).1, h5⟩

/-- One round of the loop that creates the quad strip keeps its invariant. -/
theorem StripInv.strip_round {I m : FaceGraph} (hv : I.IsValid) {k : Nat}
    (h : StripInv I k m) (hk : k < I.border_halfedges.length) :
    StripInv I (k + 1)
      (strip_step (I.border_halfedges.map fun h => I.num_halfedges + h) I.border_halfedges
        m k) := by
  obtain ⟨f1, f2, f3, f4, f5, f6⟩ := strip_step_fields
    (I.border_halfedges.map fun h => I.num_halfedges + h) I.border_halfedges m k
  have e1 := getD_border_hedges I hk
  have e2 : I.border_halfedges.getD k 0 = I.border_at k := rfl
  rw [e1, e2] at f4 f5
  obtain ⟨t1, t2⟩ := h.todo k (le_refl _) hk
  rw [t1, t2, h.ne] at f4
  rw [t1, t2, h.ne] at f5
  have bk := (border_at_spec I hk).1
  have nk := border_next_lt hv hk
  refine ⟨hk, by rw [f1, h.nv], by rw [f2, h.nf], by rw [f3, h.ne]; omega, ?_, ?_, ?_⟩
  · intro j hj
    have hjB : j < I.border_halfedges.length := by omega
    have bj := (border_at_spec I hjB).1
    have nj := border_next_lt hv hjB
    by_cases hjk : j = k
    · subst hjk
      rw [f4]
      refine ⟨?_, ?_, ?_, ?_⟩ <;> simp only [Function.update_apply] <;>
        split_ifs <;> first | rfl | omega
    · have hlt : j < k := by omega
      obtain ⟨d1, d2, d3, d4⟩ := h.done j hlt
      have hb : I.border_at j ≠ I.border_at k := fun hh => hjk (border_at_inj I hjB hk hh)
      have hn : I.next (I.border_at j) ≠ I.next (I.border_at k) := border_next_ne hv hjB hk hjk
      rw [f4]
      refine ⟨?_, ?_, ?_, ?_⟩ <;> simp only [Function.update_apply] <;>
        split_ifs <;> first | assumption | omega
  · intro j hj hjB
    have bj := (border_at_spec I hjB).1
    have nj := border_next_lt hv hjB
    have hjk : j ≠ k := by omega
    obtain ⟨d1, d2⟩ := h.todo j (by omega) hjB
    have hb : I.border_at j ≠ I.border_at k := fun hh => hjk (border_at_inj I hjB hk hh)
    rw [f4, f5]
    refine ⟨?_, ?_⟩ <;> simp only [Function.update_apply] <;>
      split_ifs <;> first | assumption | omega
  · intro x f hx
    rw [f6] at hx
    simp only at hx
    split at hx
    · cases hx
    · exact h.faces x f hx

/-- The loop that creates the quad strip: its invariant holds after any number of rounds. -/
theorem StripInv.strip_fold {I m : FaceGraph} (hv : I.IsValid) (h : StripInv I 0 m) :
    ∀ k, k ≤ I.border_halfedges.length →
      StripInv I k ((List.range k).foldl
        (strip_step (I.border_halfedges.map fun h => I.num_halfedges + h) I.border_halfedges)
        m) := by
  intro k
  induction k with
  | zero => intro _; exact h
  | succ k ih =>
    intro hk
    rw [List.range_succ, List.foldl_append]
    exact (ih (by omega)).strip_round hv (by omega)

/-! ## The new faces -/

/-- The fields of the output after one round of the loop that creates the new faces. -/
theorem face_step_fields (bh : List Nat) (m : FaceGraph) (k : Nat) :
    (face_step bh m k).num_vertices = m.num_vertices ∧
    (face_step bh m k).num_faces = m.num_faces + 1 + 1 ∧
    (face_step bh m k).num_edges = m.num_edges + 1 ∧
    (face_step bh m k).next =
      Function.update (Function.update (Function.update (Function.update m.next
        (bh.getD k 0) (2 * m.num_edges)) (2 * m.num_edges)
          (m.next (m.next (m.next (bh.getD k 0)))))
        (m.next (m.next (bh.getD k 0))) (2 * m.num_edges + 1)) (2 * m.num_edges + 1)
          (m.next (bh.getD k 0)) ∧
    (face_step bh m k).face =
      Function.update (Function.update (Function.update (Function.update (Function.update
        (Function.update
          (fun h => if h = 2 * m.num_edges ∨ h = 2 * m.num_edges + 1 then none else m.face h)
          (bh.getD k 0) (some m.num_faces))
        (m.next (m.next (m.next (bh.getD k 0)))) (some m.num_faces))
        (2 * m.num_edges) (some m.num_faces))
        (m.next (bh.getD k 0)) (some (m.num_faces + 1)))
        (m.next (m.next (bh.getD k 0))) (some (m.num_faces + 1)))
        (2 * m.num_edges + 1) (some (m.num_faces + 1)) ∧
    (face_step bh m k).halfedge =
      Function.update (Function.update m.halfedge m.num_faces (bh.getD k 0))
        (m.num_faces + 1) (m.next (m.next (bh.getD k 0))) := by
  simp only [face_step, add_edge, add_face, set_next, set_target, set_face, set_halfedge,
    halfedge_of_edge, opposite_even, and_self]

/-- The state in which the loop that creates the new faces starts. -/
theorem FaceLoopInv.faces_start {I m : FaceGraph} (hv : I.IsValid)
    (h : StripInv I I.border_halfedges.length m) : FaceLoopInv I 0 m := by
  refine ⟨Nat.zero_le _, h.nv, h.nf, h.ne, ?_, ?_, fun _ hj => absurd hj (Nat.not_lt_zero _),
    h.faces⟩
  · intro j hj
    exact ⟨(h.done j hj).2.2.2, (h.done j hj).2.1⟩
  · intro j _ hj
    obtain ⟨p1, p2⟩ := border_pred_spec hv hj
    have := (h.done _ p1).2.2.1
    rw [p2] at this
    exact ⟨(h.done j hj).1, this⟩

end Polygon_mesh_processing

namespace Polygon_mesh_processing

set_option maxHeartbeats 4000000 in
/-- One round of the loop that creates the new faces keeps its invariant. -/
theorem FaceLoopInv.faces_round {I m : FaceGraph} (hv : I.IsValid) {k : Nat}
    (h : FaceLoopInv I k m) (hk : k < I.border_halfedges.length) :
    FaceLoopInv I (k + 1)
      (face_step (I.border_halfedges.map fun h => I.num_halfedges + h) m k) := by
  obtain ⟨f1, f2, f3, f4, f5, f6⟩ := face_step_fields
    (I.border_halfedges.map fun h => I.num_halfedges + h) m k
  have e1 := getD_border_hedges I hk
  obtain ⟨t1, t2⟩ := h.todo k (le_refl _) hk
  obtain ⟨s1, s2⟩ := h.spoke k hk
  rw [e1, t1, s2, t2, h.ne] at f4
  rw [e1, t1, s2, t2, h.ne, h.nf] at f5
  rw [e1, t1, s2, h.nf] at f6
  have bk := (border_at_spec I hk).1
  obtain ⟨pk, _⟩ := border_pred_spec hv hk
  refine ⟨hk, by rw [f1, h.nv], by rw [f2, h.nf]; omega, by rw [f3, h.ne]; omega,
    ?_, ?_, ?_, ?_⟩
  · intro j hj
    obtain ⟨d1, d2⟩ := h.spoke j hj
    rw [f4]
    refine ⟨?_, ?_⟩ <;> simp only [Function.update_apply] <;>
      split_ifs <;> first | assumption | omega
  · intro j hj hjB
    have bj := (border_at_spec I hjB).1
    have hjk : j ≠ k := by omega
    obtain ⟨d1, d2⟩ := h.todo j (by omega) hjB
    have hb : I.border_at j ≠ I.border_at k := fun hh => hjk (border_at_inj I hjB hk hh)
    rw [f4]
    refine ⟨?_, ?_⟩ <;> simp only [Function.update_apply] <;>
      split_ifs <;> first | assumption | omega
  · intro j hj
    have hjB : j < I.border_halfedges.length := by omega
    have bj := (border_at_spec I hjB).1
    obtain ⟨pj, _⟩ := border_pred_spec hv hjB
    by_cases hjk : j = k
    · subst hjk
      rw [f4, f5, f6]
      refine ⟨?_, ?_, ?_, ?_, ?_, ?_, ?_, ?_⟩
      · simp only [Function.update_apply]; split_ifs <;> first | rfl | omega
      · simp only [Function.update_apply]; split_ifs <;> first | rfl | omega
      · simp only [Function.update_apply]; split_ifs <;> first | rfl | omega
      · simp only [Function.update_apply]; split_ifs <;> first | rfl | omega
      · simp only [Function.update_apply]; split_ifs <;> first | rfl | omega
      · simp only [Function.update_apply]; split_ifs <;> first | rfl | omega
      · intro x
        have hbound := h.faces x
        have dx : True := trivial
        simp only [Function.update_apply]
        clear f1 f2 f3 f4 f5 f6 e1 t1 t2 s1 s2 h hv
        split_ifs <;>
          first
          | exact dx
          | (constructor
             · intro hh
               first
               | omega
               | (simp only [Option.some.injEq, reduceCtorEq] at hh <;> omega)
               | exact absurd (hbound _ hh) (by omega)
             · intro hh
               first
               | omega
               | rfl)
      · intro x
        have hbound := h.faces x
        have dx : True := trivial
        simp only [Function.update_apply]
        clear f1 f2 f3 f4 f5 f6 e1 t1 t2 s1 s2 h hv
        split_ifs <;>
          first
          | exact dx
          | (constructor
             · intro hh
               first
               | omega
               | (simp only [Option.some.injEq, reduceCtorEq] at hh <;> omega)
               | exact absurd (hbound _ hh) (by omega)
             · intro hh
               first
               | omega
               | rfl)
    · have hlt : j < k := by omega
      obtain ⟨d1, d2, d3, d4, d5, d6, d7, d8⟩ := h.done j hlt
      have hb : I.border_at j ≠ I.border_at k := fun hh => hjk (border_at_inj I hjB hk hh)
      have hp : I.border_pred j ≠ I.border_pred k :=
        fun hh => hjk (border_pred_inj hv hjB hk hh)
      rw [f4, f5, f6]
      refine ⟨?_, ?_, ?_, ?_, ?_, ?_, ?_, ?_⟩
      · simp only [Function.update_apply]; split_ifs <;> first | assumption | omega
      · simp only [Function.update_apply]; split_ifs <;> first | assumption | omega
      · simp only [Function.update_apply]; split_ifs <;> first | assumption | omega
      · simp only [Function.update_apply]; split_ifs <;> first | assumption | omega
      · simp only [Function.update_apply]; split_ifs <;> first | assumption | omega
      · simp only [Function.update_apply]; split_ifs <;> first | assumption | omega
      · intro x
        have hbound := h.faces x
        have dx := d7 x
        simp only [Function.update_apply]
        clear f1 f2 f3 f4 f5 f6 e1 t1 t2 s1 s2 h hv d1 d2 d3 d4 d5 d6 d7 d8
        split_ifs <;>
          first
          | exact dx
          | (constructor
             · intro hh
               first
               | omega
               | (simp only [Option.some.injEq, reduceCtorEq] at hh <;> omega)
               | exact absurd (hbound _ hh) (by omega)
             · intro hh
               first
               | omega
               | rfl)
      · intro x
        have hbound := h.faces x
        have dx := d8 x
        simp only [Function.update_apply]
        clear f1 f2 f3 f4 f5 f6 e1 t1 t2 s1 s2 h hv d1 d2 d3 d4 d5 d6 d7 d8
        split_ifs <;>
          first
          | exact dx
          | (constructor
             · intro hh
               first
               | omega
               | (simp only [Option.some.injEq, reduceCtorEq] at hh <;> omega)
               | exact absurd (hbound _ hh) (by omega)
             · intro hh
               first
               | omega
               | rfl)
  · intro x f hx
    rw [f5] at hx
    simp only [Function.update_apply] at hx
    split_ifs at hx <;>
      first
      | (cases hx; omega)
      | (have hlt := h.faces x f hx
         omega)

/-- The loop that creates the new faces: its invariant holds after any number of rounds. -/
theorem FaceLoopInv.faces_fold {I m : FaceGraph} (hv : I.IsValid) (h : FaceLoopInv I 0 m) :
    ∀ k, k ≤ I.border_halfedges.length →
      FaceLoopInv I k ((List.range k).foldl
        (face_step (I.border_halfedges.map fun h => I.num_halfedges + h)) m) := by
  intro k
  induction k with
  | zero => intro _; exact h
  | succ k ih =>
    intro hk
    rw [List.range_succ, List.foldl_append]
    exact (ih (by omega)).faces_round hv (by omega)

/-- The two faces made in round `j` of the last loop are bounded by three halfedges each. -/
theorem FaceLoopInv.new_faces {I m : FaceGraph} (hv : I.IsValid)
    (h : FaceLoopInv I I.border_halfedges.length m) {j : Nat}
    (hj : j < I.border_halfedges.length) :
    m.is_triangle (2 * I.num_faces + 2 * j) ∧ m.is_triangle (2 * I.num_faces + 2 * j + 1) := by
  obtain ⟨d1, d2, d3, d4, d5, d6, d7, d8⟩ := h.done j hj
  have bj := (border_at_spec I hj).1
  obtain ⟨pj, pn⟩ := border_pred_spec hv hj
  obtain ⟨s1, _⟩ := h.spoke _ pj
  obtain ⟨_, s2⟩ := h.spoke j hj
  rw [pn] at s1
  constructor
  · unfold FaceGraph.is_triangle
    simp only [d5, d1, d2, s1]
    exact ⟨trivial, by omega, by omega, by omega, fun x _ => d7 x⟩
  · unfold FaceGraph.is_triangle
    simp only [d6, d3, d4, s2]
    exact ⟨trivial, by omega, by omega, by omega, fun x _ => d8 x⟩

/-- C23 (extrusion). Let `input` be an open mesh with `V` vertices, `F` faces and `B` border
halfedges, a valid halfedge structure, triangulated or not, and let the output be empty.
Then `generic_extrude_mesh` returns; the output has `2 V` vertices and `2 F + 2 B` faces;
and each of the `2 B` faces created between the two copies, the faces from `2 F` on, is
bounded by exactly three halfedges. -/
theorem generic_extrude_mesh_counts (input : FaceGraph) (hv : input.IsValid)
    (ho : is_closed input = false) :
    ∃ output, generic_extrude_mesh input FaceGraph.empty = some output ∧
      output.num_vertices = 2 * input.num_vertices ∧
      output.num_faces = 2 * input.num_faces + 2 * input.border_halfedges.length ∧
      ∀ f, 2 * input.num_faces ≤ f →
        f < 2 * input.num_faces + 2 * input.border_halfedges.length →
        output.is_triangle f := by
  obtain ⟨m, bv, tv, c2, c1, m1, m2, m3, m4, m5⟩ := two_copies_spec input hv
  have hcollect := collect_spec input m (fun h hh hf => by
    obtain ⟨_, _, q3, q4⟩ := m4 h hh
    exact ⟨by rw [q3, hf], by rw [q4, hf]; rfl⟩)
  have hS0 : StripInv input 0 m :=
    StripInv.strip_start m1 m2 m3 (fun h hh => ⟨(m4 h hh).1, (m4 h hh).2.1⟩) m5
  have hS := hS0.strip_fold hv _ (le_refl _)
  have hF := (FaceLoopInv.faces_start hv hS).faces_fold hv _ (le_refl _)
  refine ⟨_, ?_, hF.nv, hF.nf, ?_⟩
  · unfold generic_extrude_mesh
    rw [if_neg (by simp [ho]), c1]
    simp only
    rw [c2]
    simp only [List.length_map, List.length_range]
    rw [hcollect]
    simp only [List.length_map]
  · intro f h1 h2
    obtain ⟨t1, t2⟩ := hF.new_faces hv (j := (f - 2 * input.num_faces) / 2) (by omega)
    rcases Nat.mod_two_eq_zero_or_one (f - 2 * input.num_faces) with hpar | hpar
    · have : f = 2 * input.num_faces + 2 * ((f - 2 * input.num_faces) / 2) := by omega
      rw [this]; exact t1
    · have : f = 2 * input.num_faces + 2 * ((f - 2 * input.num_faces) / 2) + 1 := by omega
      rw [this]; exact t2

/-- C23 at the mesh made of one triangle: the output is a prism of six vertices and eight
faces. -/
theorem generic_extrude_mesh_counts_witness :
    (one_triangle.IsValid ∧ one_triangle.IsTriangulated ∧ is_closed one_triangle = false) ∧
    ∃ output, generic_extrude_mesh one_triangle FaceGraph.empty = some output ∧
      output.num_vertices = 2 * one_triangle.num_vertices ∧
      output.num_faces =
        2 * one_triangle.num_faces + 2 * one_triangle.border_halfedges.length ∧
      ∀ f, 2 * one_triangle.num_faces ≤ f →
        f < 2 * one_triangle.num_faces + 2 * one_triangle.border_halfedges.length →
        output.is_triangle f :=
  ⟨⟨by decide, by decide, by decide⟩,
    generic_extrude_mesh_counts one_triangle (by decide) (by decide)⟩

end Polygon_mesh_processing

namespace CMapTools

/-! ## The map returned by the two passes -/

/-- The darts left by a replay of removals or contractions are the darts on none of the
edges of the list. -/
theorem foldl_isDart (op : CMap → Nat → CMap)
    (h1 : ∀ m d x, (op m d).IsDart x ↔ m.IsDart x ∧ x ≠ d ∧ x ≠ m.beta2 d)
    (h2 : ∀ m d, (op m d).beta2 = m.beta2) :
    ∀ (l : List Nat) (m : CMap) (x : Nat),
      (l.foldl op m).IsDart x ↔ m.IsDart x ∧ ∀ d ∈ l, x ≠ d ∧ x ≠ m.beta2 d := by
  intro l
  induction l with
  | nil => intro m x; simp
  | cons d l ih =>
    intro m x
    rw [List.foldl_cons, ih, h1, h2]
    simp only [List.mem_cons, forall_eq_or_imp]
    tauto

/-- C1 (face pass, spanning forest of the dual graph). On a map without boundary with `F`
faces and `C` connected components the face pass returns. The map it returns is the input
map with `remove_cell<1>` applied to the darts of the trace, in order: its darts are the
darts of the input on none of the edges of the trace, and it has as many edges less as the
trace is long. The length of the trace plus `C` is `F` (exactly `F - C` edges are removed);
each removal is made on a live dart whose two sides are different faces of the map as
edited so far; and the removed edges form a spanning forest of the face-adjacency graph of the input map:
two darts lie in one connected component exactly when their faces are joined by removed
edges (the removed edges span each component), and each removed edge is an edge of the
input map linking two faces that the edges removed before it had not joined (so the removed
edges hold no cycle). -/
theorem face_pass_removes_spanning_forest (m : CMap) (hm : m.Boundaryless) :
    ∃ r, surface_simplification_in_one_face m = some r ∧
      r.map = { r.trace.foldl remove_cell_1 m with automatic_attributes_management := true } ∧
      (∀ x, r.map.IsDart x ↔ m.IsDart x ∧ ∀ d ∈ r.trace, x ≠ d ∧ x ≠ m.beta2 d) ∧
      r.map.num_edges + r.trace.length = m.num_edges ∧
      r.trace.length + m.num_components = m.num_faces ∧
      (∀ pre d post, r.trace = pre ++ d :: post →
        (pre.foldl remove_cell_1 m).IsDart d ∧
        (pre.foldl remove_cell_1 m).same_face d (m.beta2 d) = false) ∧
      (∀ a b, m.IsDart a → m.IsDart b →
        (m.connected a b = true ↔ m.FacesJoined r.trace a b)) ∧
      (∀ pre d post, r.trace = pre ++ d :: post →
        m.IsDart d ∧ ¬ m.FacesJoined pre d (m.beta2 d)) := by
  obtain ⟨r, e, q1, q2, q3⟩ := face_pass_forest hm
  obtain ⟨r1, e1, c1, c2, _, c4, _, _⟩ := face_pass_counts hm
  have hr : r1 = r := by rw [e] at e1; cases e1; rfl
  subst hr
  have hb2 : ∀ l : List Nat, (l.foldl remove_cell_1 m).beta2 = m.beta2 := by
    intro l
    induction l using List.reverseRecOn with
    | nil => rfl
    | append_singleton l d ih => rw [List.foldl_append]; exact ih
  refine ⟨r1, e, c1, ?_, c4, q1, ?_, q2, q3⟩
  · intro x
    rw [c1]
    exact foldl_isDart remove_cell_1 remove_cell_1_isDart remove_cell_1_beta2 r1.trace m x
  · intro pre d post h
    obtain ⟨k1, k2, _⟩ := c2 pre d post h
    rw [hb2 pre] at k2
    exact ⟨k1, k2⟩

/-- C1 at the pillow: two faces, one component, one edge removed. -/
theorem face_pass_removes_spanning_forest_witness :
    pillow.Boundaryless ∧
    ∃ r, surface_simplification_in_one_face pillow = some r ∧
      r.map =
        { r.trace.foldl remove_cell_1 pillow with automatic_attributes_management := true } ∧
      (∀ x, r.map.IsDart x ↔ pillow.IsDart x ∧ ∀ d ∈ r.trace, x ≠ d ∧ x ≠ pillow.beta2 d) ∧
      r.map.num_edges + r.trace.length = pillow.num_edges ∧
      r.trace.length + pillow.num_components = pillow.num_faces ∧
      (∀ pre d post, r.trace = pre ++ d :: post →
        (pre.foldl remove_cell_1 pillow).IsDart d ∧
        (pre.foldl remove_cell_1 pillow).same_face d (pillow.beta2 d) = false) ∧
      (∀ a b, pillow.IsDart a → pillow.IsDart b →
        (pillow.connected a b = true ↔ pillow.FacesJoined r.trace a b)) ∧
      (∀ pre d post, r.trace = pre ++ d :: post →
        pillow.IsDart d ∧ ¬ pillow.FacesJoined pre d (pillow.beta2 d)) :=
  ⟨by decide, face_pass_removes_spanning_forest pillow (by decide)⟩

/-- C3 (vertex pass, spanning forest of the vertex graph). On a map without boundary with
`V` vertices and `C` connected components the vertex pass returns. The map it returns is
the input map with `contract_cell<1>` applied to the darts of the trace, in order: its darts
are the darts of the input on none of the edges of the trace, and it has as many edges less
as the trace is long. The length of the trace plus `C` is `V` (exactly `V - C` edges are
contracted); each contraction is made on a live dart whose two ends are different vertices
of the map as contracted so far, never on an edge whose two darts are already around one
vertex; and the contracted edges form a spanning forest of the vertex-adjacency graph of the
input map: two darts lie in one connected component exactly when their vertices are joined
by contracted edges, and each contracted edge links two vertices that the edges contracted
before it had not joined. -/
theorem vertex_pass_contracts_spanning_forest (m : CMap) (hm : m.Boundaryless) :
    ∃ r, surface_simplification_in_one_vertex m = some r ∧
      r.map =
        { r.trace.foldl contract_cell_1 m with automatic_attributes_management := true } ∧
      (∀ x, r.map.IsDart x ↔ m.IsDart x ∧ ∀ d ∈ r.trace, x ≠ d ∧ x ≠ m.beta2 d) ∧
      r.map.num_edges + r.trace.length = m.num_edges ∧
      r.trace.length + m.num_components = m.num_vertices ∧
      (∀ pre d post, r.trace = pre ++ d :: post →
        (pre.foldl contract_cell_1 m).IsDart d ∧
        (pre.foldl contract_cell_1 m).same_vertex d (m.beta2 d) = false) ∧
      (∀ a b, m.IsDart a → m.IsDart b →
        (m.connected a b = true ↔ m.VerticesJoined r.trace a b)) ∧
      (∀ pre d post, r.trace = pre ++ d :: post →
        m.IsDart d ∧ ¬ m.VerticesJoined pre d (m.beta2 d)) := by
  obtain ⟨r, e, q1, q2, q3⟩ := vertex_pass_forest hm
  obtain ⟨r1, e1, c1, c2, _, c4, _⟩ := vertex_pass_counts hm
  have hr : r1 = r := by rw [e] at e1; cases e1; rfl
  subst hr
  have hb2 : ∀ l : List Nat, (l.foldl contract_cell_1 m).beta2 = m.beta2 := by
    intro l
    induction l using List.reverseRecOn with
    | nil => rfl
    | append_singleton l d ih => rw [List.foldl_append]; exact ih
  refine ⟨r1, e, c1, ?_, c4, q1, ?_, q2, q3⟩
  · intro x
    rw [c1]
    exact foldl_isDart contract_cell_1 contract_cell_1_isDart contract_cell_1_beta2 r1.trace m x
  · intro pre d post h
    obtain ⟨k1, k2, _⟩ := c2 pre d post h
    rw [hb2 pre] at k2
    exact ⟨k1, k2⟩

/-- C3 at the pillow: three vertices, one component, two edges contracted. -/
theorem vertex_pass_contracts_spanning_forest_witness :
    pillow.Boundaryless ∧
    ∃ r, surface_simplification_in_one_vertex pillow = some r ∧
      r.map =
        { r.trace.foldl contract_cell_1 pillow with automatic_attributes_management := true } ∧
      (∀ x, r.map.IsDart x ↔ pillow.IsDart x ∧ ∀ d ∈ r.trace, x ≠ d ∧ x ≠ pillow.beta2 d) ∧
      r.map.num_edges + r.trace.length = pillow.num_edges ∧
      r.trace.length + pillow.num_components = pillow.num_vertices ∧
      (∀ pre d post, r.trace = pre ++ d :: post →
        (pre.foldl contract_cell_1 pillow).IsDart d ∧
        (pre.foldl contract_cell_1 pillow).same_vertex d (pillow.beta2 d) = false) ∧
      (∀ a b, pillow.IsDart a → pillow.IsDart b →
        (pillow.connected a b = true ↔ pillow.VerticesJoined r.trace a b)) ∧
      (∀ pre d post, r.trace = pre ++ d :: post →
        pillow.IsDart d ∧ ¬ pillow.VerticesJoined pre d (pillow.beta2 d)) :=
  ⟨by decide, vertex_pass_contracts_spanning_forest pillow (by decide)⟩

end CMapTools

namespace CMapTools

/-! ## Partial permutations -/

theorem PartialPerm.swap {n : Nat} {S : Nat → Prop} {f g : Nat → Nat}
    (h : PartialPerm n S f g) : PartialPerm n S g f :=
  ⟨h.lt, h.inv_null, h.null, h.inv_maps, h.maps⟩

theorem PartialPerm.iterate_null {n : Nat} {S : Nat → Prop} {f g : Nat → Nat}
    (h : PartialPerm n S f g) : ∀ k, f^[k] n = n := by
  intro k
  induction k with
  | zero => rfl
  | succ k ih => rw [Function.iterate_succ_apply', ih, h.null]

/-- An iterate that is not null was not null before. -/
theorem PartialPerm.iterate_ne {n : Nat} {S : Nat → Prop} {f g : Nat → Nat}
    (h : PartialPerm n S f g) {x : Nat} {i k : Nat} (hik : i ≤ k) (hk : f^[k] x ≠ n) :
    f^[i] x ≠ n := by
  intro hi
  apply hk
  have : k = (k - i) + i := by omega
  rw [this, Function.iterate_add_apply, hi, h.iterate_null]

/-- An iterate that is not null is in the set. -/
theorem PartialPerm.step_mem {n : Nat} {S : Nat → Prop} {f g : Nat → Nat}
    (h : PartialPerm n S f g) {x : Nat} (hx : S x) : ∀ k, f^[k] x ≠ n → S (f^[k] x) := by
  intro k
  induction k with
  | zero => intro _; exact hx
  | succ k ih =>
    intro hk
    have hk0 : f^[k] x ≠ n := h.iterate_ne (Nat.le_succ k) hk
    rw [Function.iterate_succ_apply'] at hk ⊢
    rcases h.maps _ (ih hk0) with h1 | h1
    · exact absurd h1 hk
    · exact h1.1

/-- Steps that met no free link are undone by as many steps back. -/
theorem PartialPerm.unwind {n : Nat} {S : Nat → Prop} {f g : Nat → Nat}
    (h : PartialPerm n S f g) {x : Nat} (hx : S x) : ∀ k, f^[k] x ≠ n → g^[k] (f^[k] x) = x := by
  intro k
  induction k with
  | zero => intro _; rfl
  | succ k ih =>
    intro hk
    have hk0 : f^[k] x ≠ n := h.iterate_ne (Nat.le_succ k) hk
    rw [Function.iterate_succ_apply (f := g), Function.iterate_succ_apply' (f := f)]
    rw [Function.iterate_succ_apply'] at hk
    rcases h.maps _ (h.step_mem hx k hk0) with h1 | h1
    · exact absurd h1 hk
    · rw [h1.2]; exact ih hk0

/-- A value met twice along the steps means that the start has come back. -/
theorem PartialPerm.iterate_inj {n : Nat} {S : Nat → Prop} {f g : Nat → Nat}
    (h : PartialPerm n S f g) {x : Nat} (hx : S x) {a b : Nat} (hab : a ≤ b)
    (e : f^[a] x = f^[b] x) (hb : f^[b] x ≠ n) : f^[b - a] x = x := by
  have hsplit : f^[b] x = f^[a] (f^[b - a] x) := by
    rw [← Function.iterate_add_apply]
    congr 1
    omega
  have hy0 : f^[b - a] x ≠ n := h.iterate_ne (Nat.sub_le b a) hb
  have hy := h.step_mem hx _ hy0
  have u1 := h.unwind hx a (by rw [e]; exact hb)
  have u2 := h.unwind hy a (by rw [← hsplit]; exact hb)
  rw [← hsplit, ← e, u1] at u2
  exact u2.symm

/-- The steps from a dart come back to it or meet a free link within `n` steps. -/
theorem PartialPerm.exists_stop {n : Nat} {S : Nat → Prop} {f g : Nat → Nat}
    (h : PartialPerm n S f g) {x : Nat} (hx : S x) :
    ∃ p, 0 < p ∧ p ≤ n ∧ (f^[p] x = x ∨ f^[p] x = n) ∧
      ∀ i, 0 < i → i < p → f^[i] x ≠ x ∧ f^[i] x ≠ n := by
  have hex : ∃ p, 0 < p ∧ p ≤ n ∧ (f^[p] x = x ∨ f^[p] x = n) := by
    by_contra hc
    have hno : ∀ i, 0 < i → i ≤ n → f^[i] x ≠ x ∧ f^[i] x ≠ n := by
      intro i h1 h2
      constructor
      · intro e; exact hc ⟨i, h1, h2, Or.inl e⟩
      · intro e; exact hc ⟨i, h1, h2, Or.inr e⟩
    have hne : ∀ i, i ≤ n → f^[i] x ≠ n := by
      intro i hi
      by_cases h0 : i = 0
      · subst h0; exact Nat.ne_of_lt (h.lt x hx)
      · exact (hno i (by omega) hi).2
    have hcard := Finset.card_le_card_of_injOn (s := Finset.range (n + 1))
      (t := Finset.range n) (fun i => f^[i] x)
      (by
        intro i hi
        have hi1 : i < n + 1 := by simpa using hi
        have := h.lt _ (h.step_mem hx i (hne i (by omega)))
        simpa using this)
      (by
        intro a ha b hb e
        have ha1 : a < n + 1 := by simpa using ha
        have hb1 : b < n + 1 := by simpa using hb
        simp only at e
        by_contra hab
        rcases Nat.lt_or_gt_of_ne hab with hlt | hlt
        · exact (hno (b - a) (by omega) (by omega)).1
            (h.iterate_inj hx hlt.le e (hne b (by omega)))
        · exact (hno (a - b) (by omega) (by omega)).1
            (h.iterate_inj hx hlt.le e.symm (hne a (by omega))))
    simp only [Finset.card_range] at hcard
    omega
  classical
  refine ⟨Nat.find hex, (Nat.find_spec hex).1, (Nat.find_spec hex).2.1,
    (Nat.find_spec hex).2.2, ?_⟩
  intro i h1 h2
  have hmin := Nat.find_min hex h2
  have hle : i ≤ n := by have := (Nat.find_spec hex).2.1; omega
  constructor
  · intro e; exact hmin ⟨h1, hle, Or.inl e⟩
  · intro e; exact hmin ⟨h1, hle, Or.inr e⟩

/-- What is met along the steps is met within `n` steps. -/
theorem PartialPerm.reach_bounded {n : Nat} {S : Nat → Prop} {f g : Nat → Nat}
    (h : PartialPerm n S f g) {a b : Nat} (ha : S a) (hb : b ≠ n) {k : Nat}
    (e : f^[k] a = b) : ∃ j, j < n ∧ f^[j] a = b := by
  obtain ⟨p, p0, pn, hp, _⟩ := h.exists_stop ha
  by_cases hk : k < p
  · exact ⟨k, by omega, e⟩
  · rcases hp with hp | hp
    · have hper : Function.IsPeriodicPt f p a := hp
      exact ⟨k % p, lt_of_lt_of_le (Nat.mod_lt k p0) pn, by
        rw [hper.iterate_mod_apply]; exact e⟩
    · exfalso
      apply hb
      rw [← e]
      have : k = (k - p) + p := by omega
      rw [this, Function.iterate_add_apply, hp, h.iterate_null]

/-! ## Being linked is an equivalence -/

theorem PartialPerm.linked_refl {n : Nat} {S : Nat → Prop} {f g : Nat → Nat}
    (h : PartialPerm n S f g) {a : Nat} (ha : S a) : Linked n f g a a :=
  ⟨Nat.ne_of_lt (h.lt a ha), Or.inl ⟨0, rfl⟩⟩

theorem PartialPerm.linked_mem {n : Nat} {S : Nat → Prop} {f g : Nat → Nat}
    (h : PartialPerm n S f g) {a b : Nat} (ha : S a) (hab : Linked n f g a b) : S b := by
  obtain ⟨hb, ⟨k, e⟩ | ⟨k, e⟩⟩ := hab
  · rw [← e] at hb ⊢; exact h.step_mem ha k hb
  · rw [← e] at hb ⊢; exact h.swap.step_mem ha k hb

theorem PartialPerm.linked_symm {n : Nat} {S : Nat → Prop} {f g : Nat → Nat}
    (h : PartialPerm n S f g) {a b : Nat} (ha : S a) (hab : Linked n f g a b) :
    Linked n f g b a := by
  refine ⟨Nat.ne_of_lt (h.lt a ha), ?_⟩
  obtain ⟨hb, ⟨k, e⟩ | ⟨k, e⟩⟩ := hab
  · right
    refine ⟨k, ?_⟩
    rw [← e] at hb ⊢
    exact h.unwind ha k hb
  · left
    refine ⟨k, ?_⟩
    rw [← e] at hb ⊢
    exact h.swap.unwind ha k hb

/-- Steps one way followed by steps the other way amount to steps one way only. -/
theorem PartialPerm.forth_back {n : Nat} {S : Nat → Prop} {f g : Nat → Nat}
    (h : PartialPerm n S f g) {a : Nat} (ha : S a) (i j : Nat) (hb : f^[i] a ≠ n) :
    SameOrbit f a (g^[j] (f^[i] a)) ∨ SameOrbit g a (g^[j] (f^[i] a)) := by
  by_cases hij : j ≤ i
  · left
    refine ⟨i - j, ?_⟩
    have hsplit : f^[i] a = f^[j] (f^[i - j] a) := by
      rw [← Function.iterate_add_apply]
      congr 1
      omega
    have hy0 : f^[i - j] a ≠ n := h.iterate_ne (Nat.sub_le i j) hb
    have hy := h.step_mem ha _ hy0
    rw [hsplit, h.unwind hy j (by rw [← hsplit]; exact hb)]
  · right
    refine ⟨j - i, ?_⟩
    have hsplit : g^[j] (f^[i] a) = g^[j - i] (g^[i] (f^[i] a)) := by
      rw [← Function.iterate_add_apply]
      congr 1
      omega
    rw [hsplit, h.unwind ha i hb]

theorem PartialPerm.linked_trans {n : Nat} {S : Nat → Prop} {f g : Nat → Nat}
    (h : PartialPerm n S f g) {a b c : Nat} (ha : S a) (hab : Linked n f g a b)
    (hbc : Linked n f g b c) : Linked n f g a c := by
  refine ⟨hbc.1, ?_⟩
  obtain ⟨hb, ⟨i, e1⟩ | ⟨i, e1⟩⟩ := hab <;> obtain ⟨_, ⟨j, e2⟩ | ⟨j, e2⟩⟩ := hbc
  · left
    exact ⟨j + i, by rw [Function.iterate_add_apply, e1, e2]⟩
  · rw [← e2, ← e1]
    exact h.forth_back ha i j (by rw [e1]; exact hb)
  · rw [← e2, ← e1]
    exact (h.swap.forth_back ha i j (by rw [e1]; exact hb)).symm
  · right
    exact ⟨j + i, by rw [Function.iterate_add_apply, e1, e2]⟩

/-- Being linked is decided within `n` steps each way. -/
theorem PartialPerm.linked_iff_reaches {n : Nat} {S : Nat → Prop} {f g : Nat → Nat}
    (h : PartialPerm n S f g) {a b : Nat} (ha : S a) (hb : S b) :
    (reaches f n a b || reaches g n a b) = true ↔ Linked n f g a b := by
  have hbn : b ≠ n := Nat.ne_of_lt (h.lt b hb)
  rw [Bool.or_eq_true, reaches_iff, reaches_iff]
  constructor
  · rintro (⟨k, _, e⟩ | ⟨k, _, e⟩)
    · exact ⟨hbn, Or.inl ⟨k, e⟩⟩
    · exact ⟨hbn, Or.inr ⟨k, e⟩⟩
  · rintro ⟨_, ⟨k, e⟩ | ⟨k, e⟩⟩
    · obtain ⟨j, hj, e1⟩ := h.reach_bounded ha hbn e
      exact Or.inl ⟨j, hj, e1⟩
    · obtain ⟨j, hj, e1⟩ := h.swap.reach_bounded ha hbn e
      exact Or.inr ⟨j, hj, e1⟩

/-- On a closed walk the steps back meet nothing that the steps forth do not meet. -/
theorem PartialPerm.cycle_back {n : Nat} {S : Nat → Prop} {f g : Nat → Nat}
    (h : PartialPerm n S f g) {a : Nat} (ha : S a) {p : Nat} (p0 : 0 < p) (hp : f^[p] a = a)
    (k : Nat) : f^[p * k - k] a = g^[k] a := by
  have hper : Function.IsPeriodicPt f p a := hp
  have hpk : f^[p * k] a = a := hper.mul_const k
  have han : a ≠ n := Nat.ne_of_lt (h.lt a ha)
  have hle : k ≤ p * k := Nat.le_mul_of_pos_left k p0
  have hsplit : f^[p * k] a = f^[k] (f^[p * k - k] a) := by
    rw [← Function.iterate_add_apply]
    congr 1
    omega
  have hy0 : f^[p * k - k] a ≠ n := h.iterate_ne (Nat.sub_le _ _) (by rw [hpk]; exact han)
  have hy := h.step_mem ha _ hy0
  have hu := h.unwind hy k (by rw [← hsplit, hpk]; exact han)
  rw [← hsplit, hpk] at hu
  exact hu.symm

end CMapTools

namespace CMapTools

/-! ## The walk around a vertex on a map with or without boundary -/

theorem CMap.IsValid.partialPerm {m : CMap} (hv : m.IsValid) :
    PartialPerm m.size m.IsDart m.turn m.turn_back where
  lt := fun _ hx => hx.1
  null := by simp [CMap.turn]
  inv_null := by simp [CMap.turn_back]
  maps := by
    intro x hx
    obtain ⟨_, _, h2⟩ := hv x hx.1 hx.2
    have hxn : x ≠ m.size := Nat.ne_of_lt hx.1
    rcases h2 with h2 | ⟨a1, a2, a3⟩
    · left; simp [CMap.turn, h2]
    · have hb : m.beta2 x ≠ m.size := Nat.ne_of_lt a1
      obtain ⟨h1, _, _⟩ := hv _ a1 a2
      have e : m.turn x = m.beta1 (m.beta2 x) := by simp [CMap.turn, hxn, hb]
      rcases h1 with h1 | ⟨b1, b2, b3⟩
      · left; rw [e, h1]
      · right
        rw [e]
        refine ⟨⟨b1, b2⟩, ?_⟩
        have hy : m.beta1 (m.beta2 x) ≠ m.size := Nat.ne_of_lt b1
        simp [CMap.turn_back, hy, b3, hb, a3]
  inv_maps := by
    intro x hx
    obtain ⟨_, h0, _⟩ := hv x hx.1 hx.2
    have hxn : x ≠ m.size := Nat.ne_of_lt hx.1
    rcases h0 with h0 | ⟨a1, a2, a3⟩
    · left; simp [CMap.turn_back, h0]
    · have hb : m.beta0 x ≠ m.size := Nat.ne_of_lt a1
      obtain ⟨_, _, h2⟩ := hv _ a1 a2
      have e : m.turn_back x = m.beta2 (m.beta0 x) := by simp [CMap.turn_back, hxn, hb]
      rcases h2 with h2 | ⟨b1, b2, b3⟩
      · left; rw [e, h2]
      · right
        rw [e]
        refine ⟨⟨b1, b2⟩, ?_⟩
        have hy : m.beta2 (m.beta0 x) ≠ m.size := Nat.ne_of_lt b1
        simp [CMap.turn, hy, b3, hb, a3]

theorem sameVertex_iff_linked (m : CMap) (a b : Nat) :
    m.SameVertex a b ↔ Linked m.size m.turn m.turn_back a b := Iff.rfl

/-- The second part of the walk: from `cur` it indexes and marks the darts met the other
way, up to the free dart that stops it after `r` rounds. -/
theorem vertex_back_loop_spec (m : CMap) (h : Nat) :
    ∀ r cur index treated k, m.turn_back^[r] cur = m.size →
      (∀ i, i < r → m.turn_back^[i] cur ≠ m.size) → r < k →
      ∃ index1 treated1,
        vertex_back_loop m h k cur (index, treated) = some (index1, treated1) ∧
        (∀ x, (∃ i, i < r ∧ m.turn_back^[i] cur = x) → index1 x = some h ∧ treated1 x = true) ∧
        (∀ x, (¬ ∃ i, i < r ∧ m.turn_back^[i] cur = x) →
          index1 x = index x ∧ treated1 x = treated x) := by
  intro r
  induction r with
  | zero =>
    intro cur index treated k h0 _ hk
    obtain ⟨k, rfl⟩ : ∃ k1, k = k1 + 1 := ⟨k - 1, by omega⟩
    have hc : cur = m.size := h0
    refine ⟨index, treated, by simp [vertex_back_loop, hc], ?_, fun _ _ => ⟨rfl, rfl⟩⟩
    rintro x ⟨i, hi, _⟩
    omega
  | succ r ih =>
    intro cur index treated k h0 hmin hk
    obtain ⟨k, rfl⟩ : ∃ k1, k = k1 + 1 := ⟨k - 1, by omega⟩
    have hc : cur ≠ m.size := hmin 0 (by omega)
    obtain ⟨index1, treated1, e, h1, h2⟩ := ih (m.turn_back cur)
      (Function.update index cur (some h)) (Function.update treated cur true) k
      (by rw [← Function.iterate_succ_apply]; exact h0)
      (fun i hi => by rw [← Function.iterate_succ_apply]; exact hmin (i + 1) (by omega))
      (by omega)
    refine ⟨index1, treated1, by simp only [vertex_back_loop, if_neg hc]; exact e, ?_, ?_⟩
    · rintro x ⟨i, hi, rfl⟩
      by_cases hx : ∃ i', i' < r ∧ m.turn_back^[i'] (m.turn_back cur) = m.turn_back^[i] cur
      · exact h1 _ hx
      · have hi0 : i = 0 := by
          by_contra hne
          obtain ⟨i1, rfl⟩ : ∃ i1, i = i1 + 1 := ⟨i - 1, by omega⟩
          exact hx ⟨i1, by omega, by rw [← Function.iterate_succ_apply]⟩
        subst hi0
        have := h2 _ hx
        simpa using this
    · intro x hx
      have hx1 : ¬ ∃ i, i < r ∧ m.turn_back^[i] (m.turn_back cur) = x := by
        rintro ⟨i, a, b⟩
        exact hx ⟨i + 1, by omega, by rw [Function.iterate_succ_apply]; exact b⟩
      have hne : x ≠ cur := by
        rintro rfl
        exact hx ⟨0, by omega, rfl⟩
      have := h2 x hx1
      simpa [Function.update_noteq hne] using this

/-- The first part of the walk, from its `j`-th dart on: it indexes and marks the darts met
up to round `p`, at which the start comes back or a free dart hands over to the second
part. -/
theorem vertex_orbit_loop_spec (m : CMap) (it h p : Nat)
    (hmin : ∀ i, 0 < i → i < p → m.turn^[i] it ≠ it ∧ m.turn^[i] it ≠ m.size)
    (hper : m.turn^[p] it = it ∨ m.turn^[p] it = m.size) (hit : it ≠ m.size) :
    ∀ r j k index treated, j + r + 1 = p → r < k →
      ∃ index1 treated1,
        vertex_orbit_loop m it h k (m.turn^[j] it) (index, treated) =
          (if m.turn^[p] it = m.size then
            vertex_back_loop m h (m.size + 1) (m.turn_back it) (index1, treated1)
          else some (index1, treated1)) ∧
        (∀ x, (∃ i, j ≤ i ∧ i < p ∧ m.turn^[i] it = x) →
          index1 x = some h ∧ treated1 x = true) ∧
        (∀ x, (¬ ∃ i, j ≤ i ∧ i < p ∧ m.turn^[i] it = x) →
          index1 x = index x ∧ treated1 x = treated x) := by
  intro r
  induction r with
  | zero =>
    intro j k index treated hj hk
    obtain ⟨k, rfl⟩ : ∃ k1, k = k1 + 1 := ⟨k - 1, by omega⟩
    have hnext : m.turn (m.turn^[j] it) = m.turn^[p] it := by
      have hjp : j.succ = p := by omega
      rw [← Function.iterate_succ_apply' m.turn, hjp]
    refine ⟨Function.update index (m.turn^[j] it) (some h),
      Function.update treated (m.turn^[j] it) true, ?_, ?_, ?_⟩
    · simp only [vertex_orbit_loop, hnext]
      rcases hper with hp | hp
      · have : m.turn^[p] it ≠ m.size := by rw [hp]; exact hit
        simp [this, hp]
      · simp [hp]
    · rintro x ⟨i, h1, h2, rfl⟩
      have : i = j := by omega
      subst this
      simp
    · intro x hx
      have hne : x ≠ m.turn^[j] it := by
        rintro rfl
        exact hx ⟨j, le_refl _, by omega, rfl⟩
      simp [Function.update_noteq hne]
  | succ r ih =>
    intro j k index treated hj hk
    obtain ⟨k, rfl⟩ : ∃ k1, k = k1 + 1 := ⟨k - 1, by omega⟩
    have hnext : m.turn (m.turn^[j] it) ≠ it ∧ m.turn (m.turn^[j] it) ≠ m.size := by
      rw [← Function.iterate_succ_apply' m.turn]; exact hmin (j + 1) (by omega) (by omega)
    obtain ⟨index1, treated1, e, h1, h2⟩ := ih (j + 1) k
      (Function.update index (m.turn^[j] it) (some h))
      (Function.update treated (m.turn^[j] it) true) (by omega) (by omega)
    refine ⟨index1, treated1, ?_, ?_, ?_⟩
    · simp only [vertex_orbit_loop, if_neg hnext.2, ne_eq, hnext.1, not_false_eq_true, if_true]
      rw [← Function.iterate_succ_apply' m.turn]; exact e
    · rintro x ⟨i, hi1, hi2, rfl⟩
      by_cases hx : ∃ i', j + 1 ≤ i' ∧ i' < p ∧ m.turn^[i'] it = m.turn^[i] it
      · exact h1 _ hx
      · have hij : i = j := by
          by_contra hne
          exact hx ⟨i, by omega, hi2, rfl⟩
        subst hij
        have := h2 _ hx
        simpa using this
    · intro x hx
      have hx1 : ¬ ∃ i, j + 1 ≤ i ∧ i < p ∧ m.turn^[i] it = x := by
        rintro ⟨i, a, b, c⟩; exact hx ⟨i, by omega, b, c⟩
      have hne : x ≠ m.turn^[j] it := by
        rintro rfl
        exact hx ⟨j, le_refl _, by omega, rfl⟩
      have := h2 x hx1
      simpa [Function.update_noteq hne] using this

/-- The walk around the vertex of a live dart of a well formed map returns, and it has
indexed and marked exactly the darts around that vertex. -/
theorem vertex_walk_spec {m : CMap} (hv : m.IsValid) {it : Nat} (hit : m.IsDart it) (h : Nat)
    (index : Index) (treated : Nat → Bool) :
    ∃ index1 treated1,
      vertex_orbit_loop m it h (m.size + 1) it (index, treated) = some (index1, treated1) ∧
      (∀ x, m.SameVertex it x → index1 x = some h ∧ treated1 x = true) ∧
      (∀ x, ¬ m.SameVertex it x → index1 x = index x ∧ treated1 x = treated x) := by
  have hP := hv.partialPerm
  have hitn : it ≠ m.size := Nat.ne_of_lt hit.1
  obtain ⟨p, p0, pn, hp, hmin⟩ := hP.exists_stop hit
  obtain ⟨v1, t1, e, s1, s2⟩ := vertex_orbit_loop_spec m it h p hmin hp hitn (p - 1) 0
    (m.size + 1) index treated (by omega) (by omega)
  rw [Function.iterate_zero, id_eq] at e
  have hfirst : ∀ x, (∃ i, 0 ≤ i ∧ i < p ∧ m.turn^[i] it = x) →
      x ≠ m.size ∧ SameOrbit m.turn it x := by
    rintro x ⟨i, _, hi, rfl⟩
    refine ⟨?_, i, rfl⟩
    by_cases h0 : i = 0
    · subst h0; exact hitn
    · exact (hmin i (by omega) hi).2
  rcases hp with hp | hp
  · -- the start comes back
    rw [if_neg (by rw [hp]; exact hitn)] at e
    have hper : Function.IsPeriodicPt m.turn p it := hp
    have hset : ∀ x, m.SameVertex it x → ∃ i, 0 ≤ i ∧ i < p ∧ m.turn^[i] it = x := by
      rintro x ⟨_, ⟨k, rfl⟩ | ⟨k, rfl⟩⟩
      · exact ⟨k % p, Nat.zero_le _, Nat.mod_lt k p0, hper.iterate_mod_apply k⟩
      · rw [← hP.cycle_back hit p0 hp k]
        exact ⟨(p * k - k) % p, Nat.zero_le _, Nat.mod_lt _ p0, hper.iterate_mod_apply _⟩
    refine ⟨v1, t1, e, fun x hx => s1 x (hset x hx), fun x hx => s2 x ?_⟩
    intro hc
    exact hx ⟨(hfirst x hc).1, Or.inl (hfirst x hc).2⟩
  · -- a free dart stops the walk, which goes on the other way
    rw [if_pos hp] at e
    obtain ⟨q, q0, qn, hq, hqmin⟩ := hP.swap.exists_stop hit
    have hq1 : m.turn_back^[q] it = m.size := by
      rcases hq with hq | hq
      · exfalso
        have hu := hP.swap.unwind hit q (by rw [hq]; exact hitn)
        rw [hq] at hu
        have hper : Function.IsPeriodicPt m.turn q it := hu
        have hqp : m.turn^[q * p] it = it := hper.mul_const p
        exact hP.iterate_ne (Nat.le_mul_of_pos_left p q0) (by rw [hqp]; exact hitn) hp
      · exact hq
    obtain ⟨v2, t2, e2, b1, b2⟩ := vertex_back_loop_spec m h (q - 1) (m.turn_back it) v1 t1
      (m.size + 1)
      (by rw [← Function.iterate_succ_apply, show (q - 1).succ = q by omega]; exact hq1)
      (fun i hi => by
        rw [← Function.iterate_succ_apply]
        exact (hqmin (i + 1) (by omega) (by omega)).2)
      (by omega)
    have hsecond : ∀ x, (∃ i, i < q - 1 ∧ m.turn_back^[i] (m.turn_back it) = x) →
        x ≠ m.size ∧ SameOrbit m.turn_back it x := by
      rintro x ⟨i, hi, rfl⟩
      rw [← Function.iterate_succ_apply]
      exact ⟨(hqmin (i + 1) (by omega) (by omega)).2, i + 1, rfl⟩
    have hset : ∀ x, m.SameVertex it x →
        (∃ i, 0 ≤ i ∧ i < p ∧ m.turn^[i] it = x) ∨
        (∃ i, i < q - 1 ∧ m.turn_back^[i] (m.turn_back it) = x) := by
      rintro x ⟨hxn, ⟨k, rfl⟩ | ⟨k, rfl⟩⟩
      · left
        refine ⟨k, Nat.zero_le _, ?_, rfl⟩
        by_contra hk
        exact hP.iterate_ne (show p ≤ k by omega) hxn hp
      · by_cases h0 : k = 0
        · subst h0
          exact Or.inl ⟨0, le_refl _, p0, rfl⟩
        · right
          refine ⟨k - 1, ?_, ?_⟩
          · by_contra hk
            exact hP.swap.iterate_ne (show q ≤ k by omega) hxn hq1
          · rw [← Function.iterate_succ_apply, show (k - 1).succ = k by omega]
    refine ⟨v2, t2, by rw [e, e2], ?_, ?_⟩
    · intro x hx
      by_cases hb : ∃ i, i < q - 1 ∧ m.turn_back^[i] (m.turn_back it) = x
      · exact b1 x hb
      · rw [(b2 x hb).1, (b2 x hb).2]
        rcases hset x hx with h1 | h1
        · exact s1 x h1
        · exact absurd h1 hb
    · intro x hx
      have hb : ¬ ∃ i, i < q - 1 ∧ m.turn_back^[i] (m.turn_back it) = x := by
        intro hc
        exact hx ⟨(hsecond x hc).1, Or.inr (hsecond x hc).2⟩
      have ha : ¬ ∃ i, 0 ≤ i ∧ i < p ∧ m.turn^[i] it = x := by
        intro hc
        exact hx ⟨(hfirst x hc).1, Or.inl (hfirst x hc).2⟩
      rw [(b2 x hb).1, (b2 x hb).2]
      exact s2 x ha

end CMapTools

namespace CMapTools

/-! ## The vertex indexer on a map with or without boundary -/

theorem VertexInitInv.vinit_step {m : CMap} (hv : m.IsValid)
    {uf : UFTree} {index : Index} {treated : Nat → Bool} (hI : VertexInitInv m uf index treated)
    {it : Nat} (hit : m.IsDart it) :
    ∃ uf1 index1 treated1,
      initialize_vertices_step m (some (uf, index, treated)) it =
        some (uf1, index1, treated1) ∧
      VertexInitInv m uf1 index1 treated1 ∧ treated1 it = true ∧
      (∀ x, treated x = true → treated1 x = true) := by
  have hP := hv.partialPerm
  by_cases ht : treated it = true
  · exact ⟨uf, index, treated, by simp [initialize_vertices_step, ht], hI, ht, fun _ h => h⟩
  · obtain ⟨index1, treated1, e, h1, h2⟩ := vertex_walk_spec hv hit uf.nodes index treated
    have hself : m.SameVertex it it := hP.linked_refl hit
    have hold : ∀ x, treated x = true → ¬ m.SameVertex it x := by
      intro x hx hc
      have := (hI.closed x it hx (hP.linked_symm hit hc)).1
      exact ht this
    refine ⟨(uf.make_set).1, index1, treated1, ?_, ?_, (h1 it hself).2, ?_⟩
    · simp [initialize_vertices_step, ht, UFTree.make_set, e]
    · constructor
      · intro x
        by_cases hx : m.SameVertex it x
        · simp [h1 x hx]
        · rw [(h2 x hx).1, (h2 x hx).2]; exact hI.some_iff x
      · intro x hx
        by_cases hox : m.SameVertex it x
        · exact hP.linked_mem hit hox
        · rw [(h2 x hox).2] at hx; exact hI.dart x hx
      · intro x y hx hxy
        by_cases hox : m.SameVertex it x
        · have hoy : m.SameVertex it y := hP.linked_trans hit hox hxy
          rw [(h1 x hox).1, (h1 y hoy).1, (h1 y hoy).2]
          exact ⟨rfl, rfl⟩
        · rw [(h2 x hox).2] at hx
          have hxd := hI.dart x hx
          have hoy : ¬ m.SameVertex it y := by
            intro hc
            exact hox (hP.linked_trans hit hc (hP.linked_symm hxd hxy))
          rw [(h2 x hox).1, (h2 y hoy).1, (h2 y hoy).2]
          exact hI.closed x y hx hxy
      · intro x y h hx hy
        by_cases hox : m.SameVertex it x
        · have hh : h = uf.nodes := by
            rw [(h1 x hox).1] at hx; exact (Option.some.inj hx).symm
          by_cases hoy : m.SameVertex it y
          · exact hP.linked_trans (hP.linked_mem hit hox) (hP.linked_symm hit hox) hoy
          · rw [(h2 y hoy).1] at hy
            have := hI.lt y h hy
            omega
        · rw [(h2 x hox).1] at hx
          by_cases hoy : m.SameVertex it y
          · have hh : h = uf.nodes := by
              rw [(h1 y hoy).1] at hy; exact (Option.some.inj hy).symm
            have := hI.lt x h hx
            omega
          · rw [(h2 y hoy).1] at hy
            exact hI.orbit x y h hx hy
      · intro x h hx
        simp only [UFTree.make_set]
        by_cases hox : m.SameVertex it x
        · rw [(h1 x hox).1] at hx
          have := Option.some.inj hx
          omega
        · rw [(h2 x hox).1] at hx
          have := hI.lt x h hx
          omega
      · intro h hh
        simp only [UFTree.make_set] at hh
        by_cases hn : h = uf.nodes
        · exact ⟨it, by rw [(h1 it hself).1, hn]⟩
        · obtain ⟨x, hx⟩ := hI.onto h (by omega)
          have hxt : treated x = true := (hI.some_iff x).mpr ⟨h, hx⟩
          exact ⟨x, by rw [(h2 x (hold x hxt)).1]; exact hx⟩
      · intro h
        simp only [UFTree.make_set]
        by_cases hh : h = uf.nodes
        · subst hh; simp
        · rw [Function.update_noteq hh]; exact hI.rep h
    · intro x hx
      rw [(h2 x (hold x hx)).2]; exact hx

theorem VertexInitInv.vinit_fold {m : CMap} (hv : m.IsValid) :
    ∀ (l : List Nat), (∀ d ∈ l, m.IsDart d) →
      ∀ uf index treated, VertexInitInv m uf index treated →
      ∃ uf1 index1 treated1,
        l.foldl (initialize_vertices_step m) (some (uf, index, treated)) =
          some (uf1, index1, treated1) ∧
        VertexInitInv m uf1 index1 treated1 ∧ (∀ d ∈ l, treated1 d = true) ∧
        (∀ x, treated x = true → treated1 x = true) := by
  intro l
  induction l with
  | nil =>
    intro _ uf index treated hI
    exact ⟨uf, index, treated, rfl, hI, by simp, fun _ h => h⟩
  | cons a l ih =>
    intro hl uf index treated hI
    obtain ⟨uf1, index1, treated1, e1, hI1, ha, hmono1⟩ := hI.vinit_step hv (hl a (by simp))
    obtain ⟨uf2, index2, treated2, e2, hI2, hall, hmono2⟩ :=
      ih (fun d hd => hl d (by simp [hd])) uf1 index1 treated1 hI1
    refine ⟨uf2, index2, treated2, by rw [List.foldl_cons, e1, e2], hI2, ?_,
      fun x hx => hmono2 x (hmono1 x hx)⟩
    intro d hd
    rcases List.mem_cons.mp hd with rfl | hd
    · exact hmono2 _ ha
    · exact hall d hd

/-- What `initialize_vertices` returns on a well formed map. -/
theorem initialize_vertices_spec {m : CMap} (hv : m.IsValid) :
    ∃ uf index treated, initialize_vertices m = some (uf, index) ∧
      VertexInitInv m uf index treated ∧ ∀ d, m.IsDart d → treated d = true := by
  have h0 : VertexInitInv m UFTree.empty (fun _ => none) (fun _ => false) :=
    ⟨by simp, by simp, by simp, by simp, by simp,
      fun h hh => absurd hh (Nat.not_lt_zero h), fun _ => rfl⟩
  obtain ⟨uf, index, treated, e, hI, hall, _⟩ :=
    VertexInitInv.vinit_fold hv m.darts (fun d hd => (mem_darts m d).mp hd) _ _ _ h0
  exact ⟨uf, index, treated, by simp [initialize_vertices, e], hI,
    fun d hd => hall d ((mem_darts m d).mpr hd)⟩

/-- C12 (vertex indexer). On every well formed map, with or without boundary,
`initialize_vertices` returns; the index is then defined on every dart, two darts have the
same representative exactly when they lie around one vertex (one is met from the other by
turning around the vertex, one way or the other, without crossing a free link), and the
forest holds exactly one class per vertex orbit: each class is its own representative and
the class of some dart, and there are as many classes as vertex orbits. On a map without
boundary the vertex orbits are the orbits of `beta1 ∘ beta2` and their number is
`num_vertices`. -/
theorem initialize_vertices_one_class_per_vertex (m : CMap) (hv : m.IsValid) :
    ∃ uftrees vertices, initialize_vertices m = some (uftrees, vertices) ∧
      (∀ d, m.IsDart d → ∃ h, vertices d = some h ∧ h < uftrees.nodes) ∧
      (∀ a b, m.IsDart a → m.IsDart b →
        (get_uftree uftrees vertices a = get_uftree uftrees vertices b ↔
          (SameOrbit m.turn a b ∨ SameOrbit m.turn_back a b))) ∧
      (∀ h, h < uftrees.nodes →
        uftrees.find h = h ∧ ∃ d, m.IsDart d ∧ vertices d = some h) ∧
      uftrees.nodes = m.num_vertex_orbits ∧
      (m.Boundaryless →
        (∀ a b, m.IsDart a → m.IsDart b →
          (get_uftree uftrees vertices a = get_uftree uftrees vertices b ↔
            SameOrbit (fun d => m.beta1 (m.beta2 d)) a b)) ∧
        uftrees.nodes = m.num_vertices) := by
  have hP := hv.partialPerm
  obtain ⟨uf, index, treated, e, hI, hall⟩ := initialize_vertices_spec hv
  have htotal : ∀ d, m.IsDart d → ∃ h, index d = some h ∧ h < uf.nodes := by
    intro d hd
    obtain ⟨h, hh⟩ := (hI.some_iff d).mp (hall d hd)
    exact ⟨h, hh, hI.lt d h hh⟩
  have hsame : ∀ a b, m.IsDart a → m.IsDart b → (index a = index b ↔ m.SameVertex a b) := by
    intro a b ha hb
    constructor
    · intro hab
      obtain ⟨h, hh, _⟩ := htotal a ha
      exact hI.orbit a b h hh (hab ▸ hh)
    · intro hab
      exact ((hI.closed a b (hall a ha) hab).2).symm
  have honto : ∀ h, h < uf.nodes → ∃ d, m.IsDart d ∧ index d = some h := by
    intro h hh
    obtain ⟨x, hx⟩ := hI.onto h hh
    exact ⟨x, hI.dart x ((hI.some_iff x).mpr ⟨h, hx⟩), hx⟩
  refine ⟨uf, index, e, htotal, ?_, ?_, ?_, ?_⟩
  · intro a b ha hb
    rw [get_uftree_fresh hI.rep, get_uftree_fresh hI.rep, hsame a b ha hb]
    exact ⟨fun h => h.2, fun h => ⟨Nat.ne_of_lt hb.1, h⟩⟩
  · intro h hh
    exact ⟨hI.rep h, honto h hh⟩
  · have hc : m.num_vertex_orbits = (m.darts.map index).toFinset.card :=
      class_count_of_label _ index m.darts (fun a ha b hb => by
        have ha1 := (mem_darts m a).mp ha
        have hb1 := (mem_darts m b).mp hb
        rw [hsame a b ha1 hb1]
        exact hP.linked_iff_reaches ha1 hb1)
    rw [hc]
    have himg : (m.darts.map index).toFinset = (Finset.range uf.nodes).image some := by
      ext o
      simp only [List.mem_toFinset, List.mem_map, Finset.mem_image, Finset.mem_range]
      constructor
      · rintro ⟨d, hd, rfl⟩
        obtain ⟨h, hh, hlt⟩ := htotal d ((mem_darts m d).mp hd)
        exact ⟨h, hlt, hh.symm⟩
      · rintro ⟨h, hlt, rfl⟩
        obtain ⟨d, hd, hh⟩ := honto h hlt
        exact ⟨d, (mem_darts m d).mpr hd, hh⟩
    rw [himg, Finset.card_image_of_injective _ (Option.some_injective _), Finset.card_range]
  · intro hm
    obtain ⟨uf1, index1, e1, _, hs1, _, hn1⟩ := initialize_cells_lookup hm.permV
    rw [← initialize_vertices_eq hm, e] at e1
    obtain ⟨rfl, rfl⟩ := Prod.mk.inj (Option.some.inj e1)
    exact ⟨hs1, hn1⟩

/-- C12 at two triangles glued along one edge, four darts free: four vertex orbits. -/
theorem initialize_vertices_one_class_per_vertex_witness :
    open_pair.IsValid ∧
    ∃ uftrees vertices, initialize_vertices open_pair = some (uftrees, vertices) ∧
      (∀ d, open_pair.IsDart d → ∃ h, vertices d = some h ∧ h < uftrees.nodes) ∧
      (∀ a b, open_pair.IsDart a → open_pair.IsDart b →
        (get_uftree uftrees vertices a = get_uftree uftrees vertices b ↔
          (SameOrbit open_pair.turn a b ∨ SameOrbit open_pair.turn_back a b))) ∧
      (∀ h, h < uftrees.nodes →
        uftrees.find h = h ∧ ∃ d, open_pair.IsDart d ∧ vertices d = some h) ∧
      uftrees.nodes = open_pair.num_vertex_orbits ∧
      (open_pair.Boundaryless →
        (∀ a b, open_pair.IsDart a → open_pair.IsDart b →
          (get_uftree uftrees vertices a = get_uftree uftrees vertices b ↔
            SameOrbit (fun d => open_pair.beta1 (open_pair.beta2 d)) a b)) ∧
        uftrees.nodes = open_pair.num_vertices) :=
  ⟨by decide, initialize_vertices_one_class_per_vertex open_pair (by decide)⟩

end CMapTools
